import Mathlib

/-!
# gif_load: a shallow embedding of `src/gif_load.h`

The input buffer is a byte memory indexed by the offset from `data`; the cursor
`*buff` is such an offset and `*size` is the signed remaining-bytes counter.
Every function that reads the input also threads `hi`, one more than the
highest offset read so far, so that statements about the extent of the reads
can be made.  Loops are unrolled by a fuel argument taken from the counter
that the loop decreases; a result of `none` means that the fuel ran out.

The scratch buffer that `GIF_Load` allocates (lines 286-289) is the code table
of 4096 32-bit records followed by the pixel area of `frxd * fryd` bytes; it
is addressed by the offset from the start of the pixel area, so the table
lies at the offsets -16384 to -1 (line 108).  A store in front of the table or
behind the pixel area is a store outside the allocation: the embedding stops
there and reports a fault, it does not say what the C program does next.  The
byte order of the table records is that of a little-endian host (`GIF_BIGE`
is 0).
-/

namespace GifLoad

/-- Input memory: the byte at each offset from the start of `data`.  Offsets at
or beyond `size` are whatever lies behind the buffer. -/
abbrev Mem := Int → Nat

/-- One `uint8_t` load. -/
def rd8 (m : Mem) (p : Int) : Nat := m p % 256

/-- The `_GIF_SWAP(*(GIF_H*)p)` load: a 16-bit little-endian word. -/
def rd16 (m : Mem) (p : Int) : Nat := rd8 m p + 256 * rd8 m (p + 1)

/-- The memory whose first bytes are those of a list (zero elsewhere). -/
def memOfList (l : List Nat) : Mem := fun p => if p < 0 then 0 else l.getD p.toNat 0

/-- The pair `(*buff, *size)` together with the read watermark. -/
structure Cur where
  buff : Int
  size : Int
  hi : Int
deriving DecidableEq, Repr

/-- The `do ... while (skip > 1)` loop of `_GIF_SkipChunk`. -/
def skipLoop (m : Mem) : Nat → Cur → Option (Int × Cur)
  | 0, _ => none
  | n + 1, c =>
    let skip : Int := 1 + rd8 m c.buff
    let c1 : Cur := ⟨c.buff + skip, c.size - skip, max c.hi (c.buff + 1)⟩
    if c1.size ≤ 0 then some (0, c1)
    else if skip > 1 then skipLoop m n c1
    else some (1, c1)

/-- `_GIF_SkipChunk`: steps over one byte and the sub-block chain behind it. -/
def _GIF_SkipChunk (m : Mem) (c : Cur) : Option (Int × Cur) :=
  let c1 : Cur := ⟨c.buff + 1, c.size - 1, c.hi⟩
  if c1.size ≤ 0 then some (0, c1)
  else skipLoop m c1.size.toNat c1

/-- Result of `_GIF_LoadFrameHdr`: the returned count, the cursor and `*rpal`. -/
structure HdrRes where
  ret : Int
  cur : Cur
  rpal : Int
deriving DecidableEq, Repr

/-- `_GIF_LoadFrameHdr`.  With `flen = 0` (the master-header call, made with
null pointers) neither the cursor nor `*rpal` is touched. -/
def _GIF_LoadFrameHdr (gflg : Nat) (c : Cur) (rpal : Int) (fflg : Nat) (flen : Int) : HdrRes :=
  let c1 : Cur := if flen ≠ 0 then ⟨c.buff + flen, c.size - flen, c.hi⟩ else c
  if flen ≠ 0 ∧ c1.size ≤ 0 then ⟨-2, c1, rpal⟩
  else if flen ≠ 0 ∧ fflg &&& 0x80 ≠ 0 then
    let rclr : Int := ((2 <<< (fflg &&& 7) : Nat) : Int)
    let c2 : Cur := ⟨c1.buff + rclr * 3, c1.size - rclr * 3, c1.hi⟩
    if c2.size ≤ 0 then ⟨-1, c2, c1.buff⟩ else ⟨rclr, c2, c1.buff⟩
  else if gflg &&& 0x80 ≠ 0 then ⟨((2 <<< (gflg &&& 7) : Nat) : Int), c1, rpal⟩
  else ⟨0, c1, rpal⟩

/-- Locals of `_GIF_LoadFrame` together with the scratch memory, which is
addressed by the offset from the `bptr` the function was called with.  `code`
is the table `code[0..4095]` of 32-bit records, which line 108 places in the
16384 bytes in front of the pixel area: record `i` is the four bytes at the
offsets `4 * i - 16384` to `4 * i - 16381`.  `out` holds the bytes at the
offsets from 0 on, the pixel area, `bptr` is the pixel pointer as an offset.
`top` is one more than the highest offset of the pixel area at which the call
has stored (0 if there is none): the number of bytes that the pixel area has
to have for these stores to lie within it. -/
structure Lzw where
  code : Nat → Nat
  out : Int → Nat
  bptr : Int
  ctbl : Nat
  curr : Nat
  prev : Nat
  mask : Nat
  load : Nat
  ccsz : Int
  bszc : Int
  top : Int

/-- Byte `b` (0 is the lowest) of the word `w` replaced by the byte `v`. -/
def setByte (w b v : Nat) : Nat :=
  w % 2 ^ (8 * b) + 2 ^ (8 * b) * v + 2 ^ (8 * b + 8) * (w / 2 ^ (8 * b + 8))

/-- The store `*p = v` of one byte at the offset `p ≥ -16384` of the scratch
memory: into the pixel area for `0 ≤ p`, and else into the byte
`(p + 16384) % 4` of the table record `(p + 16384) / 4`. -/
def store (code : Nat → Nat) (out : Int → Nat) (p : Int) (v : Nat) : (Nat → Nat) × (Int → Nat) :=
  if 0 ≤ p then (code, Function.update out p v)
  else
    (Function.update code ((p + 16384).toNat / 4)
      (setByte (code ((p + 16384).toNat / 4)) ((p + 16384).toNat % 4) v), out)

/-- The `while (!0)` predecessor walk (lines 158-163): stores the pixel of
`iter` at `bptr`, steps `bptr` down, and stops when the chain-length field of
the record of `iter`, read again after the store, is zero; else it goes on
with the predecessor in that record.  The first argument is the number of
bytes of the scratch memory at the offset `bptr` and in front of it,
`bptr + 16385`: when none is left the store would fall in front of the code
table, and the result is `none`.  Otherwise the result is the table, the
pixel area, `bptr` and the last `iter`. -/
def walk : Nat → (Nat → Nat) → (Int → Nat) → Int → Nat →
    Option ((Nat → Nat) × (Int → Nat) × Int × Nat)
  | 0, _, _, _, _ => none
  | n + 1, code, out, bptr, iter =>
    let m := store code out bptr ((code iter >>> 24) % 256)
    if m.1 iter &&& 0xFFF000 = 0 then some (m.1, m.2, bptr - 1, iter)
    else walk n m.1 m.2 (bptr - 1) (m.1 iter &&& 0xFFF)

/-- How one pass through the body of `while (bszc >= 0)` ends: with the next
code, with the END code, or with a store in front of the scratch memory. -/
inductive Flow where
  | next (s : Lzw)
  | ed (s : Lzw)
  | fault

/-- The branch of lines 143-170 for a single-pixel or multi-pixel code `curr`
(already masked), followed by lines 171-174. -/
def pixStep (s : Lzw) (curr : Nat) : Flow :=
  let ctbl := s.ctbl + 1
  let grow : Bool := decide (ctbl < 4096 ∧ ctbl = s.mask ∧ ctbl < 4095)
  let mask := if grow then (s.mask + s.mask + 1) % 65536 else s.mask
  let ccsz := if grow then s.ccsz + 1 else s.ccsz
  let code1 := if ctbl < 4096
    then Function.update s.code ctbl (s.prev + 0x1000 + (s.code s.prev &&& 0xFFF000))
    else s.code
  let iter := if curr ≥ ctbl then s.prev else curr
  let len := (code1 iter >>> 12) &&& 0xFFF
  match walk (s.bptr + len + 16385).toNat code1 s.out (s.bptr + len) iter with
  | none => Flow.fault
  | some (code2, out2, bptr2, iter2) =>
    let bptr3 := bptr2 + len + 2
    let code3 := if curr ≥ ctbl
      then (store code2 out2 bptr3 ((code2 iter2 >>> 24) % 256)).1 else code2
    let out3 := if curr ≥ ctbl
      then (store code2 out2 bptr3 ((code2 iter2 >>> 24) % 256)).2 else out2
    let bptr4 := if curr ≥ ctbl then bptr3 + 1 else bptr3
    let code4 := if ctbl < 4096
      then Function.update code3 ctbl (code3 ctbl ||| (code3 iter2 &&& 0xFF000000))
      else code3
    Flow.next { s with
      code := code4, out := out3, bptr := bptr4, ctbl := ctbl, mask := mask, ccsz := ccsz,
      prev := curr, curr := s.load, bszc := s.bszc - ccsz,
      load := (s.load >>> ccsz.toNat) % 65536,
      top := if curr ≥ ctbl then max (max s.top (s.bptr + len + 1)) (bptr3 + 1)
        else max s.top (s.bptr + len + 1) }

/-- The body of `while (bszc >= 0)` (lines 134-174) for one code. -/
def codeStep (ctsz : Nat) (s : Lzw) : Flow :=
  let curr := s.curr &&& s.mask
  if curr &&& 0xFFFFFFFFFFFFFFFE = 1 <<< ctsz then
    if curr &&& 1 ≠ 0 then Flow.ed { s with curr := curr }
    else
      let ccsz : Int := ctsz + 1
      Flow.next { s with
        ctbl := 1 <<< ctsz, mask := ((1 <<< (ctsz + 1)) - 1) % 65536, ccsz := ccsz,
        prev := curr, curr := s.load, bszc := s.bszc - ccsz,
        load := (s.load >>> ccsz.toNat) % 65536 }
  else pixStep s curr

/-- The loop `while (bszc >= 0)`. -/
def codeLoop (ctsz : Nat) : Nat → Lzw → Option Flow
  | 0, _ => none
  | n + 1, s =>
    if s.bszc ≥ 0 then
      match codeStep ctsz s with
      | Flow.next s1 => codeLoop ctsz n s1
      | r => some r
    else some (Flow.next s)

/-- Lines 130-132: the word `load` of `k` bytes is added to the code being
assembled, what is left of it stays in `load`. -/
def loadWord (s : Lzw) (load : Nat) (k : Int) : Lzw :=
  { s with
    curr := s.curr ||| (load <<< (s.ccsz + s.bszc).toNat),
    load := (load >>> (-s.bszc).toNat) % 65536,
    bszc := s.bszc + 8 * k }

/-- How the `for (; bseq > 0; ...)` loop over one sub-block ends: by a store in
front of the scratch memory, by the END code (with `bseq` and the cursor as
they are inside the body), or by running off the sub-block. -/
inductive WordOut where
  | fault
  | ed (bseq : Int) (c : Cur) (s : Lzw)
  | done (bseq : Int) (c : Cur) (s : Lzw)

/-- The loop `for (; bseq > 0; bseq -= GIF_HLEN, *buff += GIF_HLEN)`. -/
def wordLoop (m : Mem) (ctsz : Nat) : Nat → Int → Cur → Lzw → Option WordOut
  | 0, _, _, _ => none
  | n + 1, bseq, c, s =>
    if bseq > 0 then
      let load := (rd16 m c.buff &&& (if bseq < 2 then (1 <<< (8 * bseq.toNat)) - 1 else 0xFFFFFFFF)) % 65536
      let c1 : Cur := { c with hi := max c.hi (c.buff + 2) }
      let s1 : Lzw := loadWord s load (if bseq < 2 then bseq else 2)
      match codeLoop ctsz (s1.bszc.toNat + 2) s1 with
      | none => none
      | some Flow.fault => some WordOut.fault
      | some (Flow.ed s2) => some (WordOut.ed bseq c1 s2)
      | some (Flow.next s2) => wordLoop m ctsz n (bseq - 2) { c1 with buff := c1.buff + 2 } s2
    else some (WordOut.done bseq c s)

/-- What `_GIF_LoadFrame` does: it either returns a status, leaving the
cursor and the scratch memory in some state, or a predecessor walk runs down
through the pixel area and the code table to a store in front of the scratch
memory. -/
inductive FrameOut where
  | fault
  | ret (r : Int) (c : Cur) (s : Lzw)

/-- The outer `do ... while ((bseq = *(*buff)++))` loop over the sub-blocks. -/
def blockLoop (m : Mem) (ctsz : Nat) : Nat → Int → Cur → Lzw → Option FrameOut
  | 0, _, _, _ => none
  | n + 1, bseq, c, s =>
    let c1 : Cur := { c with size := c.size - (bseq + 1) }
    if c1.size ≤ 0 then some (FrameOut.ret (-5) c1 s)
    else
      match wordLoop m ctsz (bseq.toNat + 1) bseq c1 s with
      | none => none
      | some WordOut.fault => some FrameOut.fault
      | some (WordOut.ed bseq2 c2 s2) =>
        let b := c2.buff + bseq2
        some (FrameOut.ret (if rd8 m b ≠ 0 then -1 else 1)
          ⟨b + 1, c2.size - 1, max c2.hi (b + 1)⟩ s2)
      | some (WordOut.done bseq2 c2 s2) =>
        let b := c2.buff + bseq2
        let c3 : Cur := ⟨b + 1, c2.size, max c2.hi (b + 1)⟩
        if rd8 m b ≠ 0 then blockLoop m ctsz n (rd8 m b) c3 s2
        else some (FrameOut.ret 0 { c3 with size := c3.size - 1 } s2)

/-- `_GIF_LoadFrame(buff, size, bptr)`: `code0` and `out0` are the contents of
the code table and of the pixel area on entry.  The function is not told how
many bytes the pixel area has; the state it returns tells in `top` how far it
has stored.  The `1 << ccsz` of line 113 is evaluated before the range check
on `ctsz`; its value is only used once that check has passed. -/
def _GIF_LoadFrame (m : Mem) (c : Cur) (code0 : Nat → Nat) (out0 : Int → Nat) : Option FrameOut :=
  let s0 : Lzw := ⟨code0, out0, 0, 0, 0, 0, 0, 0, 0, 0, 0⟩
  let c1 : Cur := { c with size := c.size - 1 }
  if c1.size ≤ 2 then some (FrameOut.ret (-5) c1 s0)
  else
    let ctsz := rd8 m c1.buff
    let ccsz : Int := ctsz + 1
    let mask := ((1 <<< (ctsz + 1)) - 1) % 65536
    let bseq := rd8 m (c1.buff + 1)
    let c2 : Cur := ⟨c1.buff + 2, c1.size, max c1.hi (c1.buff + 2)⟩
    if bseq = 0 then some (FrameOut.ret (-4) c2 s0)
    else if ctsz < 2 ∨ ctsz > 8 then some (FrameOut.ret (-3) c2 s0)
    else
      let ctbl := 1 <<< ctsz
      let curr := mask &&& rd16 m c2.buff
      let c3 : Cur := { c2 with hi := max c2.hi (c2.buff + 2) }
      if ctbl ≠ curr then some (FrameOut.ret (-2) c3 { s0 with mask := mask, ccsz := ccsz, ctbl := ctbl, curr := curr })
      else
        let s1 : Lzw := { s0 with
          code := fun i => if i < ctbl then i <<< 24 else code0 i,
          ctbl := ctbl, curr := curr, prev := 0, mask := mask, load := 0,
          ccsz := ccsz, bszc := -ccsz }
        blockLoop m ctsz c3.size.toNat bseq c3 s1

/-- The frame writer info `GIF_WHDR`.  `bptr` and `cpal` are offsets: `cpal`
into the input, `bptr` into the input while it serves as the cursor of the
counting pass or points at metadata, and `0` (the start of the pixel area)
when it points at the frame's pixels. -/
structure GIF_WHDR where
  xdim : Int
  ydim : Int
  clrs : Int
  bkgd : Int
  tran : Int
  intr : Int
  mode : Int
  frxd : Int
  fryd : Int
  frxo : Int
  fryo : Int
  time : Int
  ifrm : Int
  nfrm : Int
  bptr : Int
  cpal : Int
deriving DecidableEq, Repr

/-- One call of the frame writer `gwfr`: the descriptor it receives and the
pixel area `bptr` points at, as it is during the call. -/
structure Delivered where
  hdr : GIF_WHDR
  out : Int → Nat

/-- The `frxd * fryd` pixel indices of a delivered frame. -/
def Delivered.grid (d : Delivered) : List Nat :=
  (List.range (d.hdr.frxd * d.hdr.fryd).toNat).map (fun i => d.out (i : Int))

/-- The frame counting loop (lines 270-285).  Returns the last `desc`, the
cursor `(whdr.bptr, blen)` and `whdr`. -/
def countLoop (m : Mem) (gflg : Nat) : Nat → Cur → GIF_WHDR → Option (Nat × Cur × GIF_WHDR)
  | 0, _, _ => none
  | n + 1, c, w =>
    let desc := rd8 m c.buff
    let c1 : Cur := ⟨c.buff + 1, c.size, max c.hi (c.buff + 1)⟩
    if desc = 0x3B then some (desc, c1, w)
    else
      let c2 : Cur := { c1 with size := c1.size - 1 }
      if desc = 0x2C then
        let fhdr := c2.buff
        let fflg := rd8 m (fhdr + 8)
        let h := _GIF_LoadFrameHdr gflg { c2 with hi := max c2.hi (fhdr + 9) } w.cpal fflg 9
        if h.ret ≤ 0 then some (desc, h.cur, { w with cpal := h.rpal })
        else
          let frxo : Int := rd16 m (fhdr + 4)
          let fryo : Int := rd16 m (fhdr + 6)
          let w1 : GIF_WHDR := { w with
            cpal := h.rpal, frxo := frxo, fryo := fryo,
            frxd := if w.frxd > frxo then w.frxd else frxo,
            fryd := if w.fryd > fryo then w.fryd else fryo,
            ifrm := w.ifrm + 1 }
          match _GIF_SkipChunk m h.cur with
          | none => none
          | some (r, c3) => if r = 0 then some (desc, c3, w1) else countLoop m gflg n c3 w1
      else
        match _GIF_SkipChunk m c2 with
        | none => none
        | some (r, c3) => if r = 0 then some (desc, c3, w) else countLoop m gflg n c3 w

/-- State of the frame extraction loop: the cursor `(buff, size)`, `whdr`,
the pending graphics control header `egch` (an input offset, `none` for the
null pointer), the scratch memory and what the two callbacks have received.
`loads` is a record of the calls of `_GIF_LoadFrame` (line 300): the index of
the frame and the width and height in its descriptor.  `area` is the number
of bytes of the pixel area in the scratch buffer that lines 286-289 allocate,
`frxd * fryd` of the counting loop. -/
structure Ext where
  c : Cur
  w : GIF_WHDR
  egch : Option Int
  code : Nat → Nat
  out : Int → Nat
  frames : List Delivered
  metas : List GIF_WHDR
  loads : List (Int × Int × Int)
  area : Int

/-- What `GIF_Load` does: `ret` is the returned value, `none` when the call
has stored outside the scratch buffer (in front of the code table, or behind
the `frxd * fryd` bytes of the pixel area), where the embedding stops;
`frames` and `metas` are the calls of `gwfr` and `amdf` in order, up to that
point; `hi` is one more than the highest input offset read. -/
structure LoadRes where
  ret : Option Int
  frames : List Delivered
  metas : List GIF_WHDR
  hi : Int

/-- The tail of the extraction loop body (line 330) followed by the next
iterations, given as `k`.  The flag of the result tells whether the loop was
left (`true`) or a store fell outside the scratch buffer (`false`). -/
def extTail (m : Mem) (desc : Nat) (e : Ext) (k : Ext → Option (Bool × Ext)) : Option (Bool × Ext) :=
  if desc = 0x3B then some (true, e)
  else
    match _GIF_SkipChunk m e.c with
    | none => none
    | some (r, c1) => if r = 0 then some (true, { e with c := c1 }) else k { e with c := c1 }

/-- The block `if (++whdr.ifrm >= skip) { ... }` of lines 298-317, entered
with `whdr.ifrm` already incremented; `fhdr` is the offset of the frame
header.  The inner `none` stands for a store outside the scratch buffer: in
front of the code table, or, as `top` of the state that `_GIF_LoadFrame`
returns tells, behind the `area` bytes of the pixel area. -/
def extFrame (m : Mem) (skip : Int) (fhdr : Int) (e : Ext) : Option (Option Ext) :=
  if e.w.ifrm ≥ skip then
    if e.w.clrs ≤ 0 then
      some (some { e with c := { e.c with size := -e.w.ifrm }, w := { e.w with ifrm := e.w.ifrm - 1 } })
    else
      match _GIF_LoadFrame m e.c e.code e.out with
      | none => none
      | some FrameOut.fault => some none
      | some (FrameOut.ret r c2 s) =>
        if s.top > e.area then some none
        else if r < 0 then
          some (some { e with c := { c2 with size := -e.w.ifrm }, w := { e.w with ifrm := e.w.ifrm - 1 },
                              code := s.code, out := s.out })
        else
          let g : Option Int := e.egch
          let gf : Nat := match g with | some p => rd8 m p | none => 0
          let time0 : Int := match g with | some p => rd16 m (p + 1) | none => 0
          let w2 : GIF_WHDR := { e.w with
            frxd := rd16 m (fhdr + 4), fryd := rd16 m (fhdr + 6),
            frxo := rd16 m fhdr, fryo := rd16 m (fhdr + 2),
            tran := if g.isSome ∧ gf &&& 0x01 ≠ 0
              then (match g with | some p => (rd8 m (p + 3) : Int) | none => 0) else -1,
            time := if g.isSome ∧ gf &&& 0x02 ≠ 0 then -time0 - 1 else time0,
            mode := if g.isSome ∧ ¬ (gf &&& 0x10 ≠ 0) then (((gf &&& 0x0C) >>> 2 : Nat) : Int) else 0 }
          let hi2 := match g with
            | some p => max c2.hi (if gf &&& 0x01 ≠ 0 then p + 4 else p + 3)
            | none => c2.hi
          some (some { e with
            c := { c2 with hi := hi2 }, w := w2, egch := none, code := s.code, out := s.out,
            frames := e.frames ++ [⟨w2, s.out⟩] })
  else some (some e)

/-- The frame extraction loop (lines 291-332). -/
def extLoop (m : Mem) (gflg : Nat) (amdf : Bool) (skip : Int) : Nat → Ext → Option (Bool × Ext)
  | 0, _ => none
  | n + 1, e =>
    if skip < (if e.w.nfrm < 0 then -e.w.nfrm else e.w.nfrm) then
      let desc := rd8 m e.c.buff
      let c1 : Cur := ⟨e.c.buff + 1, e.c.size - 1, max e.c.hi (e.c.buff + 1)⟩
      if desc = 0x2C then
        let fhdr := c1.buff
        let fflg := rd8 m (fhdr + 8)
        let intr : Int := if fflg &&& 0x40 ≠ 0 then 1 else 0
        let h := _GIF_LoadFrameHdr gflg { c1 with hi := max c1.hi (fhdr + 9) } 13 fflg 9
        let w1 : GIF_WHDR := { e.w with intr := intr, cpal := h.rpal, clrs := h.ret, ifrm := e.w.ifrm + 1 }
        let e1 : Ext := { e with
          c := h.cur, w := w1,
          loads := if w1.ifrm ≥ skip ∧ ¬ (w1.clrs ≤ 0)
            then e.loads ++ [(w1.ifrm, (rd16 m (fhdr + 4) : Int), (rd16 m (fhdr + 6) : Int))]
            else e.loads }
        match extFrame m skip fhdr e1 with
        | none => none
        | some none => some (false, e1)
        | some (some e2) =>
          if e2.w.ifrm ≥ skip ∧ e2.c.size > 0 then extLoop m gflg amdf skip n e2
          else extTail m desc e2 (extLoop m gflg amdf skip n)
      else if desc = 0x21 then
        let lbl := rd8 m c1.buff
        let c2 : Cur := { c1 with hi := max c1.hi (c1.buff + 1) }
        if lbl = 0xF9 then
          extTail m desc { e with c := c2, egch := some (c1.buff + 2) } (extLoop m gflg amdf skip n)
        else if lbl = 0xFF ∧ amdf = true then
          extTail m desc { e with c := c2, metas := e.metas ++ [{ e.w with bptr := c1.buff + 2 }] }
            (extLoop m gflg amdf skip n)
        else extTail m desc { e with c := c2 } (extLoop m gflg amdf skip n)
      else extTail m desc { e with c := c1 } (extLoop m gflg amdf skip n)
    else some (true, e)

/-- Lines 259-335 of `GIF_Load`: what happens once the checks of lines
254-257 have passed.  The scratch buffer of lines 286-289 has the code table
and `wa.frxd * wa.fryd` bytes of pixel area, `wa` being `whdr` after the
counting loop. -/
def loadPasses (m : Mem) (size : Int) (amdf : Bool) (skip : Int)
    (code0 : Nat → Nat) (out0 : Int → Nat) : Option LoadRes :=
  let gflg := rd8 m 10
  let buff : Int := 13 + (_GIF_LoadFrameHdr gflg ⟨0, 0, 0⟩ 0 0 0).ret * 3
  let size1 := size - buff
  if size1 ≤ 0 then some ⟨some 0, [], [], 11⟩
  else
    let w0 : GIF_WHDR :=
      { xdim := rd16 m 6, ydim := rd16 m 8, clrs := 0, bkgd := rd8 m 11,
        tran := 0, intr := 0, mode := 0, frxd := 0, fryd := 0, frxo := 0, fryo := 0,
        time := 0, ifrm := 0, nfrm := 0, bptr := buff, cpal := 0 }
    match countLoop m gflg size1.toNat ⟨buff, size1, 12⟩ w0 with
    | none => none
    | some (desc, ca, wa) =>
      let wb : GIF_WHDR := { wa with nfrm := if desc ≠ 0x3B then -wa.ifrm else wa.ifrm,
                                     bptr := 0, ifrm := -1 }
      match extLoop m gflg amdf skip (size1.toNat + 1)
          ⟨⟨buff, size1, ca.hi⟩, wb, none, code0, out0, [], [], [], wa.frxd * wa.fryd⟩ with
      | none => none
      | some (b, e) =>
        some ⟨if b then some (if e.w.nfrm < 0 then skip - e.w.ifrm - 1 else e.w.ifrm + 1) else none,
              e.frames, e.metas, e.c.hi⟩

/-- `GIF_Load(data, size, gwfr, amdf, anim, skip)`.  `data` is `none` for a
null pointer, `gwfr` and `amdf` tell whether the callbacks are non-null;
`code0` and `out0` are the contents of the scratch buffer as `GIF_MGET`
returns it (the allocation is taken to succeed).  The outer `none` means that
a loop ran out of fuel. -/
def GIF_Load (data : Option Mem) (size : Int) (gwfr amdf : Bool) (skip : Int)
    (code0 : Nat → Nat) (out0 : Int → Nat) : Option LoadRes :=
  match data with
  | none => some ⟨some 0, [], [], 0⟩
  | some m =>
    if size ≤ 13 then some ⟨some 0, [], [], 0⟩
    else if rd8 m 0 ≠ 71 then some ⟨some 0, [], [], 1⟩
    else if rd8 m 1 ≠ 73 then some ⟨some 0, [], [], 2⟩
    else if rd8 m 2 ≠ 70 then some ⟨some 0, [], [], 3⟩
    else if rd8 m 3 ≠ 56 then some ⟨some 0, [], [], 4⟩
    else if skip < 0 then some ⟨some 0, [], [], 4⟩
    else if rd8 m 4 ≠ 55 ∧ rd8 m 4 ≠ 57 then some ⟨some 0, [], [], 5⟩
    else if rd8 m 5 ≠ 97 then some ⟨some 0, [], [], 6⟩
    else if gwfr = false then some ⟨some 0, [], [], 6⟩
    else loadPasses m size amdf skip code0 out0

/-! ## Reference notions the claims are stated against -/

/-- The signature test of lines 254-256: the first six bytes are `GIF87a` or `GIF89a`. -/
def sigOk (m : Mem) : Prop :=
  rd8 m 0 = 71 ∧ rd8 m 1 = 73 ∧ rd8 m 2 = 70 ∧ rd8 m 3 = 56 ∧ (rd8 m 4 = 55 ∨ rd8 m 4 = 57) ∧ rd8 m 5 = 97

instance (m : Mem) : Decidable (sigOk m) := by unfold sigOk; infer_instance

/-- State of the canonical LZW decoder: before the first code, right after a
CLEAR, or running with the strings of the table slots `2^ctsz + 2, ...` and
the string of the previous code. -/
inductive Dec where
  | start
  | fresh
  | run (dict : List (List Nat)) (prev : List Nat)
deriving DecidableEq, Repr

/-- The strings of the variable table slots. -/
def Dec.dict : Dec → List (List Nat)
  | Dec.run dict _ => dict
  | _ => []

/-- The next free table slot. -/
def nextFree (ctsz : Nat) (d : Dec) : Nat := 2 ^ ctsz + 2 + d.dict.length

/-- The standard growing code width: the number of bits of the next free
slot, at most 12. -/
def widthOf (ctsz : Nat) (d : Dec) : Nat := min 12 (Nat.log2 (nextFree ctsz d) + 1)

/-- The string of a code: a literal stands for itself, a table slot for its
string. -/
def entry (ctsz : Nat) (dict : List (List Nat)) (c : Nat) : List Nat :=
  if c < 2 ^ ctsz then [c] else dict.getD (c - (2 ^ ctsz + 2)) []

/-- One code of the canonical decoder, other than END: the next state and the
pixels the code expands to; `none` for a code that is not allowed there.  The
first code is CLEAR, the code after a CLEAR is a literal; any other code is a
literal, CLEAR, or a slot no greater than the next free one.  A code equal to
the next free slot (KwKwK) expands to the previous string followed by its own
first pixel; each code adds the slot "previous string + first pixel of this
string" while the table has room. -/
def decStep (ctsz : Nat) : Dec → Nat → Option (Dec × List Nat)
  | Dec.start, c => if c = 2 ^ ctsz then some (Dec.fresh, []) else none
  | Dec.fresh, c => if c < 2 ^ ctsz then some (Dec.run [] [c], [c]) else none
  | Dec.run dict prev, c =>
    if c = 2 ^ ctsz then some (Dec.fresh, [])
    else if c < 2 ^ ctsz ∨ (2 ^ ctsz + 2 ≤ c ∧ c ≤ 2 ^ ctsz + 2 + dict.length ∧ c < 4096) then
      let s := if c < 2 ^ ctsz + 2 + dict.length then entry ctsz dict c else prev ++ [prev.headD 0]
      let dict1 := if 2 ^ ctsz + 2 + dict.length < 4096 then dict ++ [prev ++ [s.headD 0]] else dict
      some (Dec.run dict1 s, s)
    else none

/-- The canonical decoder on a whole code sequence: the pixel string, or
`none` when the sequence is not valid (it has to end with END, which may not
follow a CLEAR). -/
def decode (ctsz : Nat) : Dec → List Nat → Option (List Nat)
  | _, [] => none
  | d, c :: cs =>
    if c = 2 ^ ctsz + 1 then
      match d, cs with
      | Dec.run _ _, [] => some []
      | _, _ => none
    else
      match decStep ctsz d c with
      | none => none
      | some (d1, s) =>
        match decode ctsz d1 cs with
        | none => none
        | some t => some (s ++ t)

/-- The codes packed least significant bit first, each with the width that
is current when it is written: the value of the bit string and its length. -/
def packBits (ctsz : Nat) : Dec → List Nat → Nat × Nat
  | _, [] => (0, 0)
  | d, c :: cs =>
    let w := widthOf ctsz d
    let d1 := match decStep ctsz d c with
      | some (d1, _) => d1
      | none => d
    let r := packBits ctsz d1 cs
    (c + 2 ^ w * r.1, w + r.2)

/-- The payload bytes of a code sequence. -/
def payload (ctsz : Nat) (codes : List Nat) : List Nat :=
  let r := packBits ctsz Dec.start codes
  (List.range ((r.2 + 7) / 8)).map (fun i => r.1 / 256 ^ i % 256)

/-- A sub-block chain: every sub-block behind its length byte, then the
zero-length terminator. -/
def chain (blocks : List (List Nat)) : List Nat :=
  (blocks.map (fun b => b.length :: b)).flatten ++ [0]

/-- The bytes of the image data of a frame: the code size byte and the chain. -/
def frameData (ctsz : Nat) (blocks : List (List Nat)) : List Nat := ctsz :: chain blocks

/-- The memory holds the bytes of `l` from offset `p` on. -/
def holds (m : Mem) (p : Int) (l : List Nat) : Prop :=
  ∀ i, i < l.length → m (p + (i : Int)) = l.getD i 0

instance (m : Mem) (p : Int) (l : List Nat) : Decidable (holds m p l) := by
  unfold holds; infer_instance

/-- The sub-blocks carry the payload of the codes: they are non-empty, at
most 255 bytes long, the first one has at least two bytes, and together they
are the payload. -/
def chunks (ctsz : Nat) (codes : List Nat) (blocks : List (List Nat)) : Prop :=
  blocks.flatten = payload ctsz codes ∧ (∀ b ∈ blocks, 0 < b.length ∧ b.length ≤ 255) ∧
    2 ≤ (blocks.headD []).length

instance (ctsz : Nat) (codes : List Nat) (blocks : List (List Nat)) :
    Decidable (chunks ctsz codes blocks) := by
  unfold chunks; infer_instance

/-- The part of a `_GIF_LoadFrame` outcome that can be compared: `none` for a
store in front of the scratch memory, else the status, the cursor and the
final `bptr`. -/
def FrameOut.view : FrameOut → Option (Int × Cur × Int)
  | FrameOut.fault => none
  | FrameOut.ret r c s => some (r, c, s.bptr)

/-- The status that `_GIF_LoadFrame` returns, `none` when the call ends at a
store in front of the scratch memory. -/
def FrameOut.status : FrameOut → Option Int
  | FrameOut.fault => none
  | FrameOut.ret r _ _ => some r

/-- How far a call of `_GIF_LoadFrame` that returns has stored in the pixel
area: one more than the highest offset. -/
def FrameOut.top : FrameOut → Option Int
  | FrameOut.fault => none
  | FrameOut.ret _ _ s => some s.top

/-- The code-width invariant of the decode loop: `mask = 2^ccsz - 1`,
`ctsz + 1 <= ccsz <= 12`, and a table top below 4095 is below `mask`. -/
def WidthInv (ctsz : Nat) (s : Lzw) : Prop :=
  s.mask = 2 ^ s.ccsz.toNat - 1 ∧ (ctsz : Int) + 1 ≤ s.ccsz ∧ s.ccsz ≤ 12 ∧
    (s.ctbl < 4095 → s.ctbl < s.mask)

/-- A property of the decoder state with which a pass through the loop body
ends (nothing is said when a store falls in front of the scratch memory). -/
def Flow.all (P : Lzw → Prop) : Flow → Prop
  | Flow.next s => P s
  | Flow.ed s => P s
  | Flow.fault => True

/-- A property of the decoder state with which the loop over a sub-block ends. -/
def WordOut.all (P : Lzw → Prop) : WordOut → Prop
  | WordOut.fault => True
  | WordOut.ed _ _ s => P s
  | WordOut.done _ _ s => P s

/-- A property of the decoder state with which `_GIF_LoadFrame` returns. -/
def FrameOut.all (P : Lzw → Prop) : FrameOut → Prop
  | FrameOut.fault => True
  | FrameOut.ret _ _ s => P s

/-- A property of a result that may be missing. -/
def optAll {α : Type} (P : α → Prop) : Option α → Prop
  | none => True
  | some a => P a

/-- The graphics-control fields `(time, tran, mode)` of a descriptor as a
function of the pending graphics-control extension, given by its flags `f`,
delay `d` and transparent byte `t`; `none` when no extension is pending. -/
def gceFields : Option (Nat × Nat × Nat) → Int × Int × Int
  | none => (0, -1, 0)
  | some (f, d, t) =>
    (if f.testBit 1 then -(d : Int) - 1 else (d : Int),
     if f.testBit 0 then (t : Int) else -1,
     if f.testBit 4 then 0 else (((f >>> 2) &&& 3 : Nat) : Int))

/-- The pending graphics-control extension as the loop state holds it: the
flags, the 16-bit delay and the transparent byte behind the pointer `egch`. -/
def pendingGce (m : Mem) (egch : Option Int) : Option (Nat × Nat × Nat) :=
  egch.map (fun p => (rd8 m p, rd16 m (p + 1), rd8 m (p + 3)))

/-- The two passes of `GIF_Load` as lines 259-332 run them, once the checks
of lines 254-257 and 262 have passed: the result of the counting loop (the
last mark, the cursor, and `whdr` with the number of frames counted in `ifrm`
and the largest width and height in `frxd` and `fryd`) and, entered as line
288-290 prepare it, the result of the extraction loop. -/
def loadLoops (m : Mem) (size : Int) (amdf : Bool) (skip : Int)
    (code0 : Nat → Nat) (out0 : Int → Nat) : Option ((Nat × Cur × GIF_WHDR) × Option (Bool × Ext)) :=
  let gflg := rd8 m 10
  let buff : Int := 13 + (_GIF_LoadFrameHdr gflg ⟨0, 0, 0⟩ 0 0 0).ret * 3
  let size1 := size - buff
  let w0 : GIF_WHDR :=
    { xdim := rd16 m 6, ydim := rd16 m 8, clrs := 0, bkgd := rd8 m 11,
      tran := 0, intr := 0, mode := 0, frxd := 0, fryd := 0, frxo := 0, fryo := 0,
      time := 0, ifrm := 0, nfrm := 0, bptr := buff, cpal := 0 }
  match countLoop m gflg size1.toNat ⟨buff, size1, 12⟩ w0 with
  | none => none
  | some (desc, ca, wa) =>
    let wb : GIF_WHDR := { wa with nfrm := if desc ≠ 0x3B then -wa.ifrm else wa.ifrm,
                                   bptr := 0, ifrm := -1 }
    some ((desc, ca, wa), extLoop m gflg amdf skip (size1.toNat + 1)
      ⟨⟨buff, size1, ca.hi⟩, wb, none, code0, out0, [], [], [], wa.frxd * wa.fryd⟩)

/-- The calls of the frame writer as data: each descriptor with its pixel grid. -/
def LoadRes.calls (r : LoadRes) : List (GIF_WHDR × List Nat) :=
  r.frames.map (fun d => (d.hdr, d.grid))

/-- The part of a `GIF_Load` result that can be compared: the returned value,
the calls of the frame writer, the number of metadata calls and the read
watermark. -/
def LoadRes.view (r : LoadRes) : Option Int × List (GIF_WHDR × List Nat) × Nat × Int :=
  (r.ret, r.calls, r.metas.length, r.hi)

/-- A GIF89a header for a 1x1 screen with a global palette of two colours. -/
def hdr2 : List Nat := [71, 73, 70, 56, 57, 97, 1, 0, 1, 0, 0x80, 0, 0, 1, 2, 3, 4, 5, 6]

/-- A 1x1 image at the origin without local palette, with code size 2 and one
sub-block of image data. -/
def img1 (data : List Nat) : List Nat :=
  [0x2C, 0, 0, 0, 0, 1, 0, 1, 0, 0, 2] ++ [data.length] ++ data ++ [0]

/-- A graphics control extension: transparent index 1, delay 10, disposal 2. -/
def gce1 : List Nat := [0x21, 0xF9, 4, 0x09, 10, 0, 1, 0]

/-! ### Well-formed GIF files -/

/-- A 16-bit field as stored in the file: low byte first. -/
def le16 (n : Nat) : List Nat := [n % 256, n / 256 % 256]

/-- The number of palette bytes that a flags byte announces. -/
def palLen (flg : Nat) : Nat := if flg &&& 0x80 ≠ 0 then 3 * (2 <<< (flg &&& 7)) else 0

/-- An image: the fields of its descriptor, the bytes of its local palette,
the initial code size, the codes and the sub-blocks that carry them. -/
structure Img where
  xoff : Nat
  yoff : Nat
  w : Nat
  h : Nat
  flgs : Nat
  lpal : List Nat
  ctsz : Nat
  codes : List Nat
  blocks : List (List Nat)
deriving DecidableEq, Repr

/-- A block of a GIF file: an extension with its label and sub-blocks, or an
image. -/
inductive Blk where
  | ext (label : Nat) (subs : List (List Nat))
  | img (i : Img)
deriving DecidableEq, Repr

/-- A GIF file: version digit, screen descriptor, global palette, blocks. -/
structure Gif where
  ver : Nat
  xdim : Nat
  ydim : Nat
  gflg : Nat
  bkgd : Nat
  aspr : Nat
  gpal : List Nat
  blks : List Blk
deriving DecidableEq, Repr

/-- The bytes of an image, from the 0x2C mark on. -/
def Img.bytes (i : Img) : List Nat :=
  0x2C :: (le16 i.xoff ++ le16 i.yoff ++ le16 i.w ++ le16 i.h ++ [i.flgs] ++ i.lpal
    ++ frameData i.ctsz i.blocks)

/-- The bytes of a block. -/
def Blk.bytes : Blk → List Nat
  | Blk.ext l subs => 0x21 :: l :: chain subs
  | Blk.img i => i.bytes

/-- The bytes of all blocks. -/
def blksBytes (blks : List Blk) : List Nat := (blks.map Blk.bytes).flatten

/-- The bytes of a complete GIF file, the 0x3B mark included. -/
def Gif.bytes (g : Gif) : List Nat :=
  [71, 73, 70, 56, g.ver, 97] ++ le16 g.xdim ++ le16 g.ydim ++ [g.gflg, g.bkgd, g.aspr] ++ g.gpal
    ++ blksBytes g.blks ++ [0x3B]

/-- The pixel string of an image according to the canonical decoder. -/
def Img.pixels (i : Img) : List Nat := (decode i.ctsz Dec.start i.codes).getD []

/-- The palette size of an image: that of its local palette if it has one,
else that of the global palette. -/
def Img.clrs (gflg : Nat) (i : Img) : Nat :=
  if i.flgs &&& 0x80 ≠ 0 then 2 <<< (i.flgs &&& 7) else 2 <<< (gflg &&& 7)

/-- Sub-blocks are non-empty and at most 255 bytes long. -/
def subsOK (subs : List (List Nat)) : Prop := ∀ b ∈ subs, 0 < b.length ∧ b.length ≤ 255

instance (subs : List (List Nat)) : Decidable (subsOK subs) := by
  unfold subsOK; infer_instance

/-- A well-formed image: the fields fit, the local palette has the announced
length, some palette exists, and the image data is a valid LZW stream. -/
def Img.wf (gflg : Nat) (i : Img) : Prop :=
  i.xoff < 65536 ∧ i.yoff < 65536 ∧ i.w < 65536 ∧ i.h < 65536 ∧ i.flgs < 256 ∧
  i.lpal.length = palLen i.flgs ∧ (i.flgs &&& 0x80 ≠ 0 ∨ gflg &&& 0x80 ≠ 0) ∧
  2 ≤ i.ctsz ∧ i.ctsz ≤ 8 ∧ (decode i.ctsz Dec.start i.codes).isSome = true ∧
  chunks i.ctsz i.codes i.blocks

instance (gflg : Nat) (i : Img) : Decidable (i.wf gflg) := by
  unfold Img.wf; infer_instance

/-- A well-formed block. -/
def Blk.wf (gflg : Nat) : Blk → Prop
  | Blk.ext l subs => l < 256 ∧ subsOK subs
  | Blk.img i => i.wf gflg

instance (gflg : Nat) (b : Blk) : Decidable (b.wf gflg) := by
  cases b <;> unfold Blk.wf <;> infer_instance

/-- A well-formed complete GIF: a valid header and well-formed blocks. -/
def Gif.wf (g : Gif) : Prop :=
  (g.ver = 55 ∨ g.ver = 57) ∧ g.xdim < 65536 ∧ g.ydim < 65536 ∧ g.gflg < 256 ∧ g.bkgd < 256 ∧
  g.gpal.length = palLen g.gflg ∧ ∀ b ∈ g.blks, b.wf g.gflg

instance (g : Gif) : Decidable g.wf := by
  unfold Gif.wf; infer_instance

/-- The images among the blocks, in stream order. -/
def imgsOf : List Blk → List Img
  | [] => []
  | Blk.ext _ _ :: t => imgsOf t
  | Blk.img i :: t => i :: imgsOf t

/-- The number of frames of a GIF. -/
def Gif.nframes (g : Gif) : Nat := (imgsOf g.blks).length


/-- A 1x1 image at the origin without local palette: the codes CLEAR, 1, END
for code size 2 in one sub-block. -/
def im1 : Img := ⟨0, 0, 1, 1, 0, [], 2, [4, 1, 5], [[0x4C, 0x01]]⟩

/-- A complete GIF89a file for a 1x1 screen with a global palette of two
colours: a graphics control extension and two images. -/
def gif2 : Gif :=
  ⟨57, 1, 1, 0x80, 0, 0, [1, 2, 3, 4, 5, 6], [Blk.ext 0xF9 [[0x09, 10, 0, 1]], Blk.img im1, Blk.img im1]⟩

/-- The predecessor field of a table record (`code[iter] & 0xFFF`, line 162). -/
def recPred (r : Nat) : Nat := r &&& 0xFFF

/-- The chain-length field of a table record (`(code[iter] >> 12) & 0xFFF`,
line 156). -/
def recLen (r : Nat) : Nat := (r >>> 12) &&& 0xFFF

/-- The pixel field of a table record (`(uint8_t)(code[iter] >> 24)`,
line 158). -/
def recPix (r : Nat) : Nat := (r >>> 24) % 256

/-- Code-table well-formedness: every literal entry `j < 2^ctsz` has chain
length 0 and pixel `j`; every entry `i` with `2^ctsz + 1 < i <= min(ctbl, 4095)`
has a predecessor below `i` that is neither CLEAR nor END, and a chain length
one more than its predecessor's. -/
def TableOK (ctsz : Nat) (s : Lzw) : Prop :=
  (∀ j, j < 2 ^ ctsz → recLen (s.code j) = 0 ∧ recPix (s.code j) = j) ∧
  (∀ i, 2 ^ ctsz + 1 < i → i ≤ min s.ctbl 4095 →
    recPred (s.code i) < i ∧ recPred (s.code i) ≠ 2 ^ ctsz ∧ recPred (s.code i) ≠ 2 ^ ctsz + 1 ∧
    recLen (s.code i) = recLen (s.code (recPred (s.code i))) + 1)

/-- What the decode loop keeps besides `TableOK`: the code-width invariant,
a table top no lower than CLEAR, a previous code that is a literal or an
entry of the table unless the table top is CLEAR (entry of the loop, or a
CLEAR code just processed), and an output position in the pixel area. -/
def TableInv (ctsz : Nat) (s : Lzw) : Prop :=
  TableOK ctsz s ∧ WidthInv ctsz s ∧ 2 ^ ctsz ≤ s.ctbl ∧
  (s.ctbl = 2 ^ ctsz ∨ s.prev < 2 ^ ctsz ∨ (2 ^ ctsz + 1 < s.prev ∧ s.prev ≤ min s.ctbl 4095)) ∧
  0 ≤ s.bptr

/-- A valid next code `c` in state `s`: CLEAR, END, a literal, or at most the
table top after the increment; after a CLEAR (the previous code is CLEAR) only
a literal. -/
def ValidCode (ctsz : Nat) (s : Lzw) (c : Nat) : Prop :=
  if s.prev = 2 ^ ctsz then c < 2 ^ ctsz
  else c = 2 ^ ctsz ∨ c = 2 ^ ctsz + 1 ∨ c < 2 ^ ctsz ∨ c ≤ s.ctbl + 1

/-- The number of bytes of the pixel area that `GIF_Load` allocates for the
file (line 286): the largest width times the largest height of its images. -/
def Gif.area (g : Gif) : Nat :=
  ((imgsOf g.blks).map Img.w).foldl max 0 * ((imgsOf g.blks).map Img.h).foldl max 0

/-- An image whose code stream holds a pixel for every cell of its frame. -/
def Img.covers (i : Img) : Prop := i.w * i.h ≤ i.pixels.length

instance (i : Img) : Decidable i.covers := by
  unfold Img.covers; infer_instance
/-! ## Notions used in the proofs -/

/-- A packed table record: predecessor in bits 0-11, chain length in bits
12-23, pixel in bits 24-31. -/
def mkRec (p l x : Nat) : Nat := p + 4096 * l + 16777216 * x

/-- The predecessor walk on a table that the stores do not reach: it stores
in the pixel area only and reads a fixed table.  (The walk of
`_GIF_LoadFrame` is this walk as long as no store falls below offset 0.) -/
def walkT (code : Nat → Nat) : Nat → (Int → Nat) → Int → Nat → Option ((Int → Nat) × Int × Nat)
  | 0, _, _, _ => none
  | n + 1, out, bptr, iter =>
    let out1 := Function.update out bptr ((code iter >>> 24) % 256)
    if code iter &&& 0xFFF000 = 0 then some (out1, bptr - 1, iter)
    else walkT code n out1 (bptr - 1) (code iter &&& 0xFFF)

/-- The pixel memory after the string `s` has been stored from `pos` on. -/
def writeAt (out : Int → Nat) (pos : Int) (s : List Nat) : Int → Nat :=
  fun j => if pos ≤ j ∧ j < pos + s.length then s.getD (j - pos).toNat 0 else out j

/-- A code that has a string: a literal or a defined table slot. -/
def isCode (ctsz : Nat) (dict : List (List Nat)) (c : Nat) : Prop :=
  c < 2 ^ ctsz ∨ (2 ^ ctsz + 2 ≤ c ∧ c < 2 ^ ctsz + 2 + dict.length)

/-- The code table of the C decoder represents the canonical dictionary. -/
def TabOK (ctsz : Nat) (code : Nat → Nat) (dict : List (List Nat)) : Prop :=
  (∀ j, j < 2 ^ ctsz → code j = 16777216 * j) ∧
  (∀ k, k < dict.length → ∃ p x, code (2 ^ ctsz + 2 + k) = mkRec p (entry ctsz dict p).length x ∧
      x < 256 ∧ (p < 2 ^ ctsz ∨ (2 ^ ctsz + 2 ≤ p ∧ p < 2 ^ ctsz + 2 + k)) ∧
      dict.getD k [] = entry ctsz dict p ++ [x]) ∧
  dict.length + 2 ^ ctsz ≤ 4094

/-- The table part of the canonical state `d` as the C decoder holds it:
after a CLEAR the table top is the CLEAR code; while running, the table
represents the dictionary, `prev` is the previous code and `ctbl` is one less
than the next free slot (or beyond the table once it is full). -/
def runOK (ctsz : Nat) (s : Lzw) : Dec → Prop
  | Dec.start => True
  | Dec.fresh => s.ctbl = 2 ^ ctsz
  | Dec.run dict prev =>
    TabOK ctsz s.code dict ∧ isCode ctsz dict s.prev ∧ prev = entry ctsz dict s.prev ∧
      2 ^ ctsz + 1 + dict.length ≤ s.ctbl ∧
      (2 ^ ctsz + 1 + dict.length < s.ctbl → dict.length + 2 ^ ctsz = 4094)

/-- The decoder state `s` matches the canonical decoder in state `d` that has
produced the pixels `acc`, the pixel area having been `out0` on entry. -/
def LzwOK (ctsz : Nat) (out0 : Int → Nat) (s : Lzw) (d : Dec) (acc : List Nat) : Prop :=
  s.out = writeAt out0 0 acc ∧ (s.bptr = acc.length ∧ s.top ≤ acc.length) ∧
  s.ccsz = widthOf ctsz d ∧ s.mask = 2 ^ widthOf ctsz d - 1 ∧
  (∀ j, j < 2 ^ ctsz → s.code j = 16777216 * j) ∧ runOK ctsz s d

/-- A byte string read as a little-endian number. -/
def bytesVal : List Nat → Nat
  | [] => 0
  | b :: bs => b + 256 * bytesVal bs

/-- The bit accumulator of the decoder: `V` is the value of the bit string
that starts at the next code, of which the low `a` bits have been loaded. -/
def BitsOK (s : Lzw) (V a w : Nat) : Prop :=
  s.curr = V % 2 ^ a ∧ s.load = V % 2 ^ a / 2 ^ w ∧ s.bszc = (a : Int) - w ∧ s.load < 65536

/-- What the loops of `_GIF_LoadFrame` maintain on a valid stream: `rest` are
the codes still to come, `a` the number of their bits that are loaded, `R`
the payload bytes not yet loaded and `full` the whole pixel string. -/
def StreamOK (ctsz : Nat) (out0 : Int → Nat) (full : List Nat) (s : Lzw) (d : Dec)
    (acc rest : List Nat) (a : Nat) (R : List Nat) : Prop :=
  LzwOK ctsz out0 s d acc ∧
  BitsOK s (packBits ctsz d rest).1 a (widthOf ctsz d) ∧
  (packBits ctsz d rest).1 / 2 ^ a = bytesVal R ∧
  (packBits ctsz d rest).2 ≤ 8 * R.length + a ∧ 8 * R.length + a < (packBits ctsz d rest).2 + 8 ∧
  ∃ tail, decode ctsz d rest = some tail ∧ acc ++ tail = full

/-- What the theorems say about a call of the frame writer: frame index,
frame count, frame size, palette size and the pixel area. -/
def Delivered.sum (d : Delivered) : Int × Int × Int × Int × Int × (Int → Nat) :=
  (d.hdr.ifrm, d.hdr.nfrm, d.hdr.frxd, d.hdr.fryd, d.hdr.clrs, d.out)

/-- The calls of the frame writer that well-formed blocks lead to, as
`Delivered.sum` shows them: `i` is the index of the last frame before the
blocks and `o` the pixel area before them. -/
def expect (gflg : Nat) (skip N : Int) :
    List Blk → Int → (Int → Nat) → List (Int × Int × Int × Int × Int × (Int → Nat))
  | [], _, _ => []
  | Blk.ext _ _ :: t, i, o => expect gflg skip N t i o
  | Blk.img im :: t, i, o =>
    if i + 1 ≥ skip then
      (i + 1, N, (im.w : Int), (im.h : Int), (im.clrs gflg : Int), writeAt o 0 im.pixels)
        :: expect gflg skip N t (i + 1) (writeAt o 0 im.pixels)
    else expect gflg skip N t (i + 1) o

/-- The images among the blocks that are decoded, those from index `skip` on,
have no more pixels than the `A` bytes of the pixel area; `i` is the index of
the last frame before the blocks. -/
def fitsFrom (skip A : Int) : List Blk → Int → Prop
  | [], _ => True
  | Blk.ext _ _ :: t, i => fitsFrom skip A t i
  | Blk.img im :: t, i => (i + 1 ≥ skip → (im.pixels.length : Int) ≤ A) ∧ fitsFrom skip A t (i + 1)

/-- The calls of the frame writer for a list of images that are all
delivered, `j` being the index of the first. -/
def describe (gflg : Nat) (N : Int) :
    Nat → (Int → Nat) → List Img → List (Int × Int × Int × Int × Int × (Int → Nat))
  | _, _, [] => []
  | j, o, im :: t =>
    ((j : Int), N, (im.w : Int), (im.h : Int), (im.clrs gflg : Int), writeAt o 0 im.pixels)
      :: describe gflg N (j + 1) (writeAt o 0 im.pixels) t

/-- All pixels in the strings of a decoder state are literals. -/
def PixLt (ctsz : Nat) : Dec → Prop
  | Dec.run dict prev => (∀ s ∈ dict, ∀ p ∈ s, p < 2 ^ ctsz) ∧ ∀ p ∈ prev, p < 2 ^ ctsz
  | _ => True

/-- The part of a `_GIF_SkipChunk` result that does not depend on the read
watermark. -/
def skipView (x : Option (Int × Cur)) : Option (Int × Int × Int) :=
  x.map (fun p => (p.1, p.2.buff, p.2.size))


/-- The descriptor after lines 302-313: the frame geometry from the frame
header at `fhdr` and the fields of the pending graphics-control extension `g`
put into `w`. -/
def frameHdr (m : Mem) (fhdr : Int) (w : GIF_WHDR) (g : Option Int) : GIF_WHDR :=
  let gf : Nat := match g with | some p => rd8 m p | none => 0
  let time0 : Int := match g with | some p => rd16 m (p + 1) | none => 0
  { w with
    frxd := rd16 m (fhdr + 4), fryd := rd16 m (fhdr + 6),
    frxo := rd16 m fhdr, fryo := rd16 m (fhdr + 2),
    tran := if g.isSome ∧ gf &&& 0x01 ≠ 0
      then (match g with | some p => (rd8 m (p + 3) : Int) | none => 0) else -1,
    time := if g.isSome ∧ gf &&& 0x02 ≠ 0 then -time0 - 1 else time0,
    mode := if g.isSome ∧ ¬ (gf &&& 0x10 ≠ 0) then (((gf &&& 0x0C) >>> 2 : Nat) : Int) else 0 }

/-- The descriptor with which the image `i`, stored at offset `b`, is
delivered when the descriptor was `w` before and `g` is the pending
graphics-control extension. -/
def imgHdr (m : Mem) (gflg : Nat) (b : Int) (i : Img) (w : GIF_WHDR) (g : Option Int) : GIF_WHDR :=
  frameHdr m (b + 1)
    { w with intr := if i.flgs &&& 0x40 ≠ 0 then 1 else 0,
             cpal := if i.flgs &&& 0x80 ≠ 0 then b + 1 + 9 else 13,
             clrs := (i.clrs gflg : Nat), ifrm := w.ifrm + 1 } g

/-- What the frame writer sees of a call: the descriptor and the pixel grid. -/
def Delivered.pub (d : Delivered) : GIF_WHDR × List Nat := (d.hdr, d.grid)

/-- Whether a pass through the body of the code loop goes on to the next code. -/
def Flow.isNext : Flow → Bool
  | Flow.next _ => true
  | _ => false

/-- The decoder state that a pass through the body of the code loop leaves
(an empty state in place of a fault). -/
def Flow.get : Flow → Lzw
  | Flow.next s => s
  | Flow.ed s => s
  | Flow.fault => ⟨fun _ => 0, fun _ => 0, 0, 0, 0, 0, 0, 0, 0, 0, 0⟩

/-- The decoder state after `k` passes through the body of the code loop. -/
def codeSteps (ctsz : Nat) : Nat → Lzw → Lzw
  | 0, s => s
  | k + 1, s => codeSteps ctsz k (codeStep ctsz s).get

/-! ## Bit masks -/

theorem and_low12 (e : Nat) : e &&& 0xFFF = e % 4096 := by
  have := Nat.and_pow_two_sub_one_eq_mod e 12
  simpa using this

theorem and_shifted_mask (e k n : Nat) :
    e &&& ((2 ^ n - 1) <<< k) = 2 ^ k * (e / 2 ^ k % 2 ^ n) := by
  apply Nat.eq_of_testBit_eq
  intro i
  rw [Nat.testBit_and, Nat.testBit_shiftLeft, Nat.testBit_two_pow_sub_one, Nat.testBit_mul_pow_two,
    Nat.testBit_mod_two_pow, ← Nat.shiftRight_eq_div_pow, Nat.testBit_shiftRight]
  by_cases h : i ≥ k
  · have : k + (i - k) = i := by omega
    simp [h, this, Bool.and_comm]
  · simp [h]

theorem and_mid12 (e : Nat) : e &&& 0xFFF000 = 4096 * (e / 4096 % 4096) := by
  have := and_shifted_mask e 12 12
  simpa using this

theorem and_top8 (e : Nat) : e &&& 0xFF000000 = 16777216 * (e / 16777216 % 256) := by
  have := and_shifted_mask e 24 8
  simpa using this

theorem and_one (e : Nat) : e &&& 1 = e % 2 := by
  simp

theorem and_not_one (e : Nat) (h : e < 2 ^ 16) : e &&& 0xFFFFFFFFFFFFFFFE = 2 * (e / 2) := by
  have h1 := and_shifted_mask e 1 63
  have h2 : ((2 ^ 63 - 1) <<< 1 : Nat) = 0xFFFFFFFFFFFFFFFE := by decide
  rw [h2] at h1
  rw [h1]
  have : e / 2 ^ 1 < 2 ^ 63 := by
    have : e / 2 ^ 1 ≤ e := Nat.div_le_self _ _
    have : (2:Nat) ^ 16 < 2 ^ 63 := by decide
    omega
  rw [Nat.mod_eq_of_lt this]
  simp

/-! ## Fields of a packed record -/

theorem mkRec_pred (p l x : Nat) (hp : p < 4096) : mkRec p l x &&& 0xFFF = p := by
  rw [and_low12]; unfold mkRec; omega

theorem mkRec_len (p l x : Nat) (hp : p < 4096) (hl : l < 4096) :
    (mkRec p l x >>> 12) &&& 0xFFF = l := by
  rw [and_low12, Nat.shiftRight_eq_div_pow]; unfold mkRec; omega

theorem mkRec_mid (p l x : Nat) (hp : p < 4096) (hl : l < 4096) :
    mkRec p l x &&& 0xFFF000 = 4096 * l := by
  rw [and_mid12]; unfold mkRec; omega

theorem mkRec_pix (p l x : Nat) (hp : p < 4096) (hl : l < 4096) (hx : x < 256) :
    (mkRec p l x >>> 24) % 256 = x := by
  rw [Nat.shiftRight_eq_div_pow]; unfold mkRec; omega

theorem mkRec_top (p l x : Nat) (hp : p < 4096) (hl : l < 4096) (hx : x < 256) :
    mkRec p l x &&& 0xFF000000 = 16777216 * x := by
  rw [and_top8]; unfold mkRec; omega

theorem entry_lit (ctsz : Nat) (dict : List (List Nat)) (c : Nat) (h : c < 2 ^ ctsz) :
    entry ctsz dict c = [c] := by
  simp [entry, h]

theorem entry_slot (ctsz : Nat) (dict : List (List Nat)) (k : Nat) :
    entry ctsz dict (2 ^ ctsz + 2 + k) = dict.getD k [] := by
  have : ¬ (2 ^ ctsz + 2 + k < 2 ^ ctsz) := by omega
  simp [entry, this]

/-- Strings of defined codes are non-empty, start with a literal and are no
longer than the slot number allows. -/
theorem TabOK.entry_bounds {ctsz : Nat} {code : Nat → Nat} {dict : List (List Nat)}
    (h : TabOK ctsz code dict) :
    ∀ c, isCode ctsz dict c →
      1 ≤ (entry ctsz dict c).length ∧ (entry ctsz dict c).length + 2 ^ ctsz ≤ max c (2 ^ ctsz) + 1 ∧
      (entry ctsz dict c).headD 0 < 2 ^ ctsz := by
  intro c
  induction c using Nat.strong_induction_on with
  | _ c ih =>
    intro hc
    rcases hc with hc | ⟨hc1, hc2⟩
    · rw [entry_lit _ _ _ hc]
      simp
      omega
    · obtain ⟨k, rfl⟩ : ∃ k, c = 2 ^ ctsz + 2 + k := ⟨c - (2 ^ ctsz + 2), by omega⟩
      have hk : k < dict.length := by omega
      obtain ⟨p, x, -, -, hp, hd⟩ := h.2.1 k hk
      rw [entry_slot, hd]
      have hpc : isCode ctsz dict p := by
        rcases hp with hp | hp
        · exact Or.inl hp
        · exact Or.inr ⟨hp.1, by omega⟩
      have := ih p (by omega) hpc
      obtain ⟨h1, h2, h3⟩ := this
      refine ⟨by simp, ?_, ?_⟩
      · simp only [List.length_append, List.length_singleton]
        rcases hp with hp | hp
        · have : max p (2 ^ ctsz) = 2 ^ ctsz := by omega
          rw [this] at h2
          omega
        · omega
      · cases hs : entry ctsz dict p with
        | nil => rw [hs] at h1; simp at h1
        | cons a t => rw [hs] at h3; simpa using h3

theorem writeAt_single (out : Int → Nat) (b : Int) (x : Nat) :
    Function.update out b x = writeAt out b [x] := by
  funext j
  unfold writeAt Function.update
  by_cases h : j = b
  · subst h; simp
  · have : ¬ (b ≤ j ∧ j < b + 1) := by omega
    simp [h, this]

theorem writeAt_snoc (out : Int → Nat) (b : Int) (x : Nat) (s : List Nat) :
    writeAt (Function.update out b x) (b - s.length) s = writeAt out (b - s.length) (s ++ [x]) := by
  funext j
  unfold writeAt Function.update
  simp only [List.length_append, List.length_singleton, Nat.cast_add, Nat.cast_one]
  by_cases h1 : b - (s.length : Int) ≤ j ∧ j < b - s.length + s.length
  · have h2 : b - (s.length : Int) ≤ j ∧ j < b - s.length + (s.length + 1) := ⟨h1.1, by omega⟩
    have h3 : (j - (b - (s.length : Int))).toNat < s.length := by omega
    rw [if_pos h1, if_pos h2, List.getD_append _ _ _ _ h3]
  · rw [if_neg h1]
    by_cases h : j = b
    · subst h
      have h2 : j - (s.length : Int) ≤ j ∧ j < j - s.length + (s.length + 1) := by omega
      have h3 : (j - (j - (s.length : Int))).toNat = s.length := by omega
      rw [if_pos h2, h3, List.getD_append_right _ _ _ _ (le_refl _)]
      simp
    · have h2 : ¬ (b - (s.length : Int) ≤ j ∧ j < b - s.length + (s.length + 1)) := by omega
      rw [if_neg h2, dif_neg h]

theorem walk_entry {ctsz : Nat} {code : Nat → Nat} {dict : List (List Nat)}
    (h : TabOK ctsz code dict) (hct : ctsz ≤ 8) :
    ∀ c, isCode ctsz dict c → ∀ (fuel : Nat) (out : Int → Nat) (b : Int),
      (entry ctsz dict c).length ≤ fuel →
      walkT code fuel out b c =
        some (writeAt out (b + 1 - (entry ctsz dict c).length) (entry ctsz dict c),
              b - (entry ctsz dict c).length, (entry ctsz dict c).headD 0) := by
  have hD : 2 ^ ctsz ≤ 256 := by
    calc 2 ^ ctsz ≤ 2 ^ 8 := Nat.pow_le_pow_right (by decide) hct
      _ = 256 := by decide
  intro c
  induction c using Nat.strong_induction_on with
  | _ c ih =>
    intro hc fuel out b hf
    rcases hc with hc | ⟨hc1, hc2⟩
    · rw [entry_lit _ _ _ hc] at hf ⊢
      obtain ⟨n, rfl⟩ : ∃ n, fuel = n + 1 := ⟨fuel - 1, by simp at hf; omega⟩
      rw [walkT, h.1 c hc]
      have e1 : 16777216 * c &&& 0xFFF000 = 0 := by rw [and_mid12]; omega
      have e2 : (16777216 * c) >>> 24 % 256 = c := by rw [Nat.shiftRight_eq_div_pow]; omega
      simp only [e1, e2, if_true, List.length_singleton, Nat.cast_one, List.headD_cons]
      rw [writeAt_single]
      simp
    · obtain ⟨k, rfl⟩ : ∃ k, c = 2 ^ ctsz + 2 + k := ⟨c - (2 ^ ctsz + 2), by omega⟩
      have hk : k < dict.length := by omega
      obtain ⟨p, x, hrec, hx, hp, hd⟩ := h.2.1 k hk
      have hpc : isCode ctsz dict p := by
        rcases hp with hp | hp
        · exact Or.inl hp
        · exact Or.inr ⟨hp.1, by omega⟩
      have hb := h.entry_bounds p hpc
      have hlen := h.2.2
      have hp4 : p < 4096 := by rcases hp with hp | hp <;> omega
      have hl4 : (entry ctsz dict p).length < 4096 := by
        have := hb.2.1
        rcases hp with hp | hp
        · have : max p (2 ^ ctsz) = 2 ^ ctsz := by omega
          omega
        · omega
      rw [entry_slot, hd] at hf ⊢
      simp only [List.length_append, List.length_singleton] at hf
      obtain ⟨n, rfl⟩ : ∃ n, fuel = n + 1 := ⟨fuel - 1, by omega⟩
      rw [walkT, hrec, mkRec_mid _ _ _ hp4 hl4, mkRec_pred _ _ _ hp4, mkRec_pix _ _ _ hp4 hl4 hx]
      have : ¬ (4096 * (entry ctsz dict p).length = 0) := by omega
      simp only [this, if_false]
      rw [ih p (by rcases hp with hp | hp <;> omega) hpc n _ _ (by omega)]
      have e1 : b - 1 + 1 - ((entry ctsz dict p).length : Int) = b - (entry ctsz dict p).length := by ring
      have e2 : b + 1 - (((entry ctsz dict p ++ [x]).length : Nat) : Int) = b - (entry ctsz dict p).length := by
        simp
      rw [e1, e2, writeAt_snoc]
      congr 1
      refine Prod.ext rfl (Prod.ext ?_ ?_)
      · simp; ring
      · cases hs : entry ctsz dict p with
        | nil => rw [hs] at hb; simp at hb
        | cons a t => simp

theorem store_nonneg (code : Nat → Nat) (out : Int → Nat) (p : Int) (v : Nat) (h : 0 ≤ p) :
    store code out p v = (code, Function.update out p v) := by
  unfold store
  rw [if_pos h]

/-- A walk whose stores all lie in the pixel area leaves the table as it is
and is the walk on a fixed table. -/
theorem walk_fixed (code : Nat → Nat) :
    ∀ (k : Nat) (out : Int → Nat) (b : Int) (iter : Nat) (out' : Int → Nat) (b' : Int) (lit : Nat),
      walkT code k out b iter = some (out', b', lit) →
      b' < b ∧ (0 ≤ b' + 1 → ∀ n : Nat, b - b' ≤ n →
        walk n code out b iter = some (code, out', b', lit)) := by
  intro k
  induction k with
  | zero => intro out b iter out' b' lit h; simp [walkT] at h
  | succ k ih =>
    intro out b iter out' b' lit h
    rw [walkT] at h
    by_cases hz : code iter &&& 0xFFF000 = 0
    · rw [if_pos hz] at h
      simp only [Option.some.injEq, Prod.mk.injEq] at h
      obtain ⟨rfl, rfl, rfl⟩ := h
      refine ⟨by omega, ?_⟩
      intro hb n hn
      obtain ⟨n, rfl⟩ : ∃ n', n = n' + 1 := ⟨n - 1, by omega⟩
      rw [walk, store_nonneg _ _ _ _ (by omega)]
      simp only [hz, if_true]
    · rw [if_neg hz] at h
      obtain ⟨hlt, hw⟩ := ih _ _ _ _ _ _ h
      refine ⟨by omega, ?_⟩
      intro hb n hn
      obtain ⟨n, rfl⟩ : ∃ n', n = n' + 1 := ⟨n - 1, by omega⟩
      rw [walk, store_nonneg _ _ _ _ (by omega)]
      simp only [hz, if_false]
      exact hw hb n (by omega)

/-- The walk of `_GIF_LoadFrame` on the record of a code of a well-formed
table, started where the string of the code ends. -/
theorem walk_code {ctsz : Nat} {code : Nat → Nat} {dict : List (List Nat)}
    (h : TabOK ctsz code dict) (hct : ctsz ≤ 8) (c : Nat) (hc : isCode ctsz dict c)
    (n : Nat) (out : Int → Nat) (b : Int) (hb : 0 ≤ b + 1 - ((entry ctsz dict c).length : Int))
    (hn : (entry ctsz dict c).length ≤ n) :
    walk n code out b c =
      some (code, writeAt out (b + 1 - (entry ctsz dict c).length) (entry ctsz dict c),
            b - (entry ctsz dict c).length, (entry ctsz dict c).headD 0) := by
  have hw := walk_entry h hct c hc (entry ctsz dict c).length out b (le_refl _)
  exact (walk_fixed code _ _ _ _ _ _ _ hw).2 (by omega) n (by omega)

theorem log2_eq_of (n k : Nat) (h1 : 2 ^ k ≤ n) (h2 : n < 2 ^ (k + 1)) : Nat.log2 n = k := by
  have hn : n ≠ 0 := by
    have : 0 < 2 ^ k := Nat.two_pow_pos k
    omega
  have a : k ≤ Nat.log2 n := (Nat.le_log2 hn).2 h1
  have b : Nat.log2 n < k + 1 := (Nat.log2_lt hn).2 h2
  omega

theorem width_step (nf nf' : Nat) (h0 : 1 ≤ nf) (h1 : nf ≤ nf') (h2 : nf' ≤ nf + 1) :
    min 12 (Nat.log2 nf' + 1) =
      if nf' = 2 ^ (min 12 (Nat.log2 nf + 1)) ∧ nf' < 4096 then min 12 (Nat.log2 nf + 1) + 1
      else min 12 (Nat.log2 nf + 1) := by
  have hn : nf ≠ 0 := by omega
  have a : 2 ^ Nat.log2 nf ≤ nf := (Nat.le_log2 hn).1 (le_refl _)
  have b : nf < 2 ^ (Nat.log2 nf + 1) := (Nat.log2_lt hn).1 (Nat.lt_succ_self _)
  by_cases hw : Nat.log2 nf + 1 ≤ 12
  · rw [min_eq_right hw]
    by_cases he : nf' = 2 ^ (Nat.log2 nf + 1)
    · have hl : Nat.log2 nf' = Nat.log2 nf + 1 := by
        apply log2_eq_of
        · omega
        · rw [he]; exact Nat.pow_lt_pow_right (by decide) (Nat.lt_succ_self _)
      rw [hl]
      by_cases h12 : Nat.log2 nf + 1 < 12
      · have : nf' < 4096 := by
          rw [he]
          calc 2 ^ (Nat.log2 nf + 1) < 2 ^ 12 := Nat.pow_lt_pow_right (by decide) h12
            _ = 4096 := by decide
        rw [if_pos ⟨he, this⟩]
        omega
      · have e12 : Nat.log2 nf + 1 = 12 := by omega
        have : ¬ (nf' < 4096) := by rw [he, e12]; decide
        rw [if_neg (fun h => this h.2)]
        omega
    · have hl : Nat.log2 nf' = Nat.log2 nf := by
        apply log2_eq_of
        · omega
        · omega
      rw [hl, if_neg (fun h => he h.1), min_eq_right hw]
  · have hw' : 12 ≤ Nat.log2 nf := by omega
    have h4 : 4096 ≤ nf := by
      calc 4096 = 2 ^ 12 := by decide
        _ ≤ 2 ^ Nat.log2 nf := Nat.pow_le_pow_right (by decide) hw'
        _ ≤ nf := a
    have hn' : nf' ≠ 0 := by omega
    have hl : 12 ≤ Nat.log2 nf' := (Nat.le_log2 hn').2 (by
      calc 2 ^ 12 = 4096 := by decide
        _ ≤ nf' := by omega)
    rw [min_eq_left (by omega), min_eq_left (by omega), if_neg (fun h => by omega)]

theorem width_base (ctsz : Nat) (h2 : 2 ≤ ctsz) : min 12 (Nat.log2 (2 ^ ctsz + 2) + 1) = min 12 (ctsz + 1) := by
  have : Nat.log2 (2 ^ ctsz + 2) = ctsz := by
    apply log2_eq_of
    · omega
    · have : 2 ^ 2 ≤ 2 ^ ctsz := Nat.pow_le_pow_right (by decide) h2
      rw [pow_succ]
      omega
  rw [this]

theorem widthOf_fresh (ctsz : Nat) (h2 : 2 ≤ ctsz) (h8 : ctsz ≤ 8) : widthOf ctsz Dec.fresh = ctsz + 1 := by
  unfold widthOf nextFree Dec.dict
  simp only [List.length_nil, Nat.add_zero]
  rw [width_base _ h2]
  omega

theorem widthOf_start (ctsz : Nat) (h2 : 2 ≤ ctsz) (h8 : ctsz ≤ 8) : widthOf ctsz Dec.start = ctsz + 1 := by
  unfold widthOf nextFree Dec.dict
  simp only [List.length_nil, Nat.add_zero]
  rw [width_base _ h2]
  omega

theorem writeAt_append (out : Int → Nat) (a s : List Nat) :
    writeAt (writeAt out 0 a) a.length s = writeAt out 0 (a ++ s) := by
  funext j
  unfold writeAt
  simp only [List.length_append, Nat.cast_add, zero_add, sub_zero]
  by_cases h1 : (a.length : Int) ≤ j ∧ j < a.length + s.length
  · have h2 : (0 : Int) ≤ j ∧ j < a.length + s.length := by omega
    have h3 : a.length ≤ j.toNat := by omega
    rw [if_pos h1, if_pos h2, List.getD_append_right _ _ _ _ h3]
    congr 1
    omega
  · rw [if_neg h1]
    by_cases h2 : (0 : Int) ≤ j ∧ j < a.length
    · have h3 : (0 : Int) ≤ j ∧ j < a.length + s.length := by omega
      have h4 : j.toNat < a.length := by omega
      rw [if_pos h2, if_pos h3, List.getD_append _ _ _ _ h4]
    · have h3 : ¬ ((0 : Int) ≤ j ∧ j < a.length + s.length) := by omega
      rw [if_neg h2, if_neg h3]

/-- The chain-length field of a defined code is the length of its string less one. -/
theorem TabOK.len_field {ctsz : Nat} {code : Nat → Nat} {dict : List (List Nat)}
    (h : TabOK ctsz code dict) (c : Nat) (hc : isCode ctsz dict c) :
    (code c >>> 12) &&& 0xFFF = (entry ctsz dict c).length - 1 ∧
    code c &&& 0xFFF000 = 4096 * ((entry ctsz dict c).length - 1) := by
  rcases hc with hc | ⟨hc1, hc2⟩
  · rw [entry_lit _ _ _ hc, h.1 c hc, and_low12, and_mid12, Nat.shiftRight_eq_div_pow]
    simp only [List.length_singleton]
    omega
  · obtain ⟨k, rfl⟩ : ∃ k, c = 2 ^ ctsz + 2 + k := ⟨c - (2 ^ ctsz + 2), by omega⟩
    have hk : k < dict.length := by omega
    obtain ⟨p, x, hrec, hx, hp, hd⟩ := h.2.1 k hk
    have hpc : isCode ctsz dict p := by
      rcases hp with hp | hp
      · exact Or.inl hp
      · exact Or.inr ⟨hp.1, by omega⟩
    have hb := h.entry_bounds p hpc
    have hlen := h.2.2
    have hp4 : p < 4096 := by rcases hp with hp | hp <;> omega
    have hl4 : (entry ctsz dict p).length < 4096 := by
      have := hb.2.1
      rcases hp with hp | hp
      · have : max p (2 ^ ctsz) = 2 ^ ctsz := by omega
        omega
      · omega
    rw [entry_slot, hd, hrec, mkRec_len _ _ _ hp4 hl4, mkRec_mid _ _ _ hp4 hl4]
    simp

theorem pow_bounds (ctsz : Nat) (h2 : 2 ≤ ctsz) (h8 : ctsz ≤ 8) : 4 ≤ 2 ^ ctsz ∧ 2 ^ ctsz ≤ 256 := by
  constructor
  · calc 4 = 2 ^ 2 := by decide
      _ ≤ 2 ^ ctsz := Nat.pow_le_pow_right (by decide) h2
  · calc 2 ^ ctsz ≤ 2 ^ 8 := Nat.pow_le_pow_right (by decide) h8
      _ = 256 := by decide

theorem pixStep_fresh {ctsz : Nat} (h2 : 2 ≤ ctsz) (h8 : ctsz ≤ 8) {out0 : Int → Nat} {s : Lzw}
    {acc : List Nat} {c : Nat} (hs : LzwOK ctsz out0 s Dec.fresh acc) (hc : c < 2 ^ ctsz) :
    ∃ s', pixStep s c = Flow.next s' ∧ LzwOK ctsz out0 s' (Dec.run [] [c]) (acc ++ [c]) ∧
      s'.curr = s.load ∧ s'.bszc = s.bszc - s'.ccsz ∧
      s'.load = (s.load >>> s'.ccsz.toNat) % 65536 := by
  obtain ⟨hout, ⟨hbptr, htop⟩, hccsz, hmask, hlit, hrun⟩ := hs
  have hD := pow_bounds ctsz h2 h8
  simp only [runOK] at hrun
  have hw : widthOf ctsz Dec.fresh = ctsz + 1 := widthOf_fresh ctsz h2 h8
  have hw' : widthOf ctsz (Dec.run [] [c]) = ctsz + 1 := widthOf_fresh ctsz h2 h8
  rw [hw] at hccsz hmask
  have hm : s.mask = 2 * 2 ^ ctsz - 1 := by rw [hmask, pow_succ]; omega
  -- the table after the store at the END slot still has its literal records
  set code1 := Function.update s.code (2 ^ ctsz + 1) (s.prev + 0x1000 + (s.code s.prev &&& 0xFFF000)) with hcode1
  have hlit1 : ∀ j, j < 2 ^ ctsz → code1 j = 16777216 * j := by
    intro j hj
    rw [hcode1, Function.update_noteq (by omega), hlit j hj]
  have htab1 : TabOK ctsz code1 [] := ⟨hlit1, by intro k hk; simp at hk, by simp; omega⟩
  have hcc : isCode ctsz [] c := Or.inl hc
  have hlen := (htab1.len_field c hcc).1
  have hwalk := walk_code htab1 h8 c hcc
    (s.bptr + ((code1 c >>> 12 &&& 0xFFF : Nat) : Int) + 16385).toNat s.out
    (s.bptr + ((code1 c >>> 12 &&& 0xFFF : Nat) : Int))
    (by rw [entry_lit _ _ _ hc]; simp; omega)
    (by rw [entry_lit _ _ _ hc]; simp; omega)
  rw [entry_lit _ _ _ hc] at hwalk hlen
  simp only [List.length_singleton, Nat.sub_self, Nat.cast_one, List.headD_cons] at hwalk hlen
  have hg : decide (s.ctbl + 1 < 4096 ∧ s.ctbl + 1 = s.mask ∧ s.ctbl + 1 < 4095) = false := by
    rw [hrun, hm]; simp; omega
  have hlt : s.ctbl + 1 < 4096 := by rw [hrun]; omega
  have hge : ¬ (c ≥ s.ctbl + 1) := by rw [hrun]; omega
  unfold pixStep
  simp only [hg]
  simp only [hlt, hge, if_false, if_true, Bool.false_eq_true]
  rw [hrun, ← hcode1, hwalk]
  refine ⟨_, rfl, ⟨?_, ⟨?_, ?_⟩, ?_, ?_, ?_, ?_⟩, rfl, rfl, rfl⟩
  · simp only [hout, hlen]
    rw [← writeAt_append]
    simp [hbptr]
  · simp [hbptr, hlen]; ring
  · simp [hbptr, hlen]; omega
  · simp [hccsz, hw']
  · simp [hw', hmask]
  · intro j hj
    simp only
    rw [Function.update_noteq (by omega), hlit1 j hj]
  · simp only [runOK, List.length_nil, Nat.add_zero]
    refine ⟨⟨?_, by intro k hk; simp at hk, by simp; omega⟩, hcc, (entry_lit _ _ _ hc).symm, le_refl _, by omega⟩
    intro j hj
    rw [Function.update_noteq (by omega), hlit1 j hj]

theorem entry_append {ctsz : Nat} {dict : List (List Nat)} (x : List Nat) {c : Nat}
    (hc : isCode ctsz dict c) : entry ctsz (dict ++ [x]) c = entry ctsz dict c := by
  rcases hc with hc | ⟨hc1, hc2⟩
  · rw [entry_lit _ _ _ hc, entry_lit _ _ _ hc]
  · obtain ⟨k, rfl⟩ : ∃ k, c = 2 ^ ctsz + 2 + k := ⟨c - (2 ^ ctsz + 2), by omega⟩
    rw [entry_slot, entry_slot, List.getD_append _ _ _ _ (by omega)]

theorem entry_append_new (ctsz : Nat) (dict : List (List Nat)) (x : List Nat) :
    entry ctsz (dict ++ [x]) (2 ^ ctsz + 2 + dict.length) = x := by
  rw [entry_slot, List.getD_append_right _ _ _ _ (le_refl _)]
  simp

theorem isCode_append {ctsz : Nat} {dict : List (List Nat)} (x : List Nat) {c : Nat}
    (hc : isCode ctsz dict c) : isCode ctsz (dict ++ [x]) c := by
  rcases hc with hc | ⟨hc1, hc2⟩
  · exact Or.inl hc
  · exact Or.inr ⟨hc1, by simp; omega⟩

/-- The record of `prev` in the table, in either of its two shapes, has the
length of the string of `prev` less one in its chain-length field. -/
theorem TabOK.first_store {ctsz : Nat} {code : Nat → Nat} {dict : List (List Nat)}
    (h : TabOK ctsz code dict) {p : Nat} (hp : isCode ctsz dict p) (n : Nat)
    (hn : n = 2 ^ ctsz + 2 + dict.length) :
    TabOK ctsz (Function.update code n (p + 0x1000 + (code p &&& 0xFFF000))) dict ∧
    Function.update code n (p + 0x1000 + (code p &&& 0xFFF000)) n =
      mkRec p (entry ctsz dict p).length 0 := by
  have hb := h.entry_bounds p hp
  refine ⟨⟨?_, ?_, h.2.2⟩, ?_⟩
  · intro j hj
    rw [Function.update_noteq (by omega), h.1 j hj]
  · intro k hk
    obtain ⟨q, x, h1, h2, h3, h4⟩ := h.2.1 k hk
    refine ⟨q, x, ?_, h2, h3, h4⟩
    rw [Function.update_noteq (by omega), h1]
  · rw [Function.update_same, (h.len_field p hp).2]
    unfold mkRec
    omega

theorem or_top (a r : Nat) (ha : a < 16777216) : a ||| 16777216 * r = a + 16777216 * r := by
  have := @Nat.mul_add_lt_is_or 24 a (by simpa using ha) r
  rw [Nat.lor_comm]
  simp only [Nat.reducePow] at this
  rw [← this]
  ring

theorem TabOK.second_store {ctsz : Nat} {code : Nat → Nat} {dict : List (List Nat)}
    (h : TabOK ctsz code dict) (h8 : ctsz ≤ 8) {p : Nat} (hp : isCode ctsz dict p) (n : Nat)
    (hn : n = 2 ^ ctsz + 2 + dict.length) (hn4 : n < 4096)
    (hrec : code n = mkRec p (entry ctsz dict p).length 0) {r : Nat} (hr : r < 2 ^ ctsz) :
    TabOK ctsz (Function.update code n (code n ||| (code r &&& 0xFF000000)))
      (dict ++ [entry ctsz dict p ++ [r]]) := by
  have hb := h.entry_bounds p hp
  have hD : 2 ^ ctsz ≤ 256 := by
    calc 2 ^ ctsz ≤ 2 ^ 8 := Nat.pow_le_pow_right (by decide) h8
      _ = 256 := by decide
  have hp4 : p < 4096 := by
    rcases hp with hp | hp <;> omega
  have hl4 : (entry ctsz dict p).length < 4096 := by
    have := hb.2.1
    rcases hp with hp | hp
    · have : max p (2 ^ ctsz) = 2 ^ ctsz := by omega
      omega
    · omega
  have hval : code n ||| (code r &&& 0xFF000000) = mkRec p (entry ctsz dict p).length r := by
    rw [h.1 r hr, and_top8, hrec]
    have : 16777216 * r / 16777216 % 256 = r := by omega
    rw [this, or_top _ _ (by unfold mkRec; omega)]
    unfold mkRec
    omega
  rw [hval]
  refine ⟨?_, ?_, ?_⟩
  · intro j hj
    rw [Function.update_noteq (by omega), h.1 j hj]
  · intro k hk
    simp only [List.length_append, List.length_singleton] at hk
    by_cases hk' : k < dict.length
    · obtain ⟨q, x, h1, h2, h3, h4⟩ := h.2.1 k hk'
      have hq : isCode ctsz dict q := by
        rcases h3 with h3 | h3
        · exact Or.inl h3
        · exact Or.inr ⟨h3.1, by omega⟩
      refine ⟨q, x, ?_, h2, h3, ?_⟩
      · rw [Function.update_noteq (by omega), h1, entry_append _ hq]
      · rw [List.getD_append _ _ _ _ hk', h4, entry_append _ hq]
    · have hke : k = dict.length := by omega
      subst hke
      refine ⟨p, r, ?_, by omega, ?_, ?_⟩
      · rw [← hn, Function.update_same, entry_append _ hp]
      · rcases hp with hp | hp
        · exact Or.inl hp
        · exact Or.inr hp
      · rw [List.getD_append_right _ _ _ _ (le_refl _), entry_append _ hp]
        simp
  · simp only [List.length_append, List.length_singleton]
    omega

/-- The widening test of line 147 agrees with the standard width rule. -/
theorem grow_ok (ctsz : Nat) (dict : List (List Nat)) (p q x : List Nat) (n : Nat)
    (hn : n = 2 ^ ctsz + 2 + dict.length) (hlt : n < 4096) :
    ((if decide (n < 4096 ∧ n = 2 ^ widthOf ctsz (Dec.run dict p) - 1 ∧ n < 4095) = true
        then ((widthOf ctsz (Dec.run dict p) : Nat) : Int) + 1 else (widthOf ctsz (Dec.run dict p) : Nat))
      = ((widthOf ctsz (Dec.run (dict ++ [x]) q) : Nat) : Int)) ∧
    ((if decide (n < 4096 ∧ n = 2 ^ widthOf ctsz (Dec.run dict p) - 1 ∧ n < 4095) = true
        then (2 ^ widthOf ctsz (Dec.run dict p) - 1 + (2 ^ widthOf ctsz (Dec.run dict p) - 1) + 1) % 65536
        else 2 ^ widthOf ctsz (Dec.run dict p) - 1)
      = 2 ^ widthOf ctsz (Dec.run (dict ++ [x]) q) - 1) := by
  have hpos := Nat.two_pow_pos ctsz
  have h1n : 1 ≤ n := by omega
  have hstep := width_step n (n + 1) h1n (Nat.le_succ n) (le_refl _)
  have e1 : widthOf ctsz (Dec.run dict p) = min 12 (Nat.log2 n + 1) := by
    simp only [widthOf, nextFree, Dec.dict, hn]
  have e2 : widthOf ctsz (Dec.run (dict ++ [x]) q) = min 12 (Nat.log2 (n + 1) + 1) := by
    simp only [widthOf, nextFree, Dec.dict, hn, List.length_append, List.length_singleton]
    rfl
  rw [e1, e2, hstep]
  generalize min 12 (Nat.log2 n + 1) = w at *
  have hw1 : 1 ≤ 2 ^ w := Nat.one_le_two_pow
  by_cases hc : n + 1 = 2 ^ w ∧ n + 1 < 4096
  · have hd : decide (n < 4096 ∧ n = 2 ^ w - 1 ∧ n < 4095) = true := by
      simp only [decide_eq_true_eq]; omega
    rw [if_pos hc, if_pos hd, if_pos hd]
    refine ⟨by push_cast; ring, ?_⟩
    have : 2 ^ (w + 1) = 2 * 2 ^ w := by rw [pow_succ]; ring
    rw [this]
    omega
  · have hd : ¬ (decide (n < 4096 ∧ n = 2 ^ w - 1 ∧ n < 4095) = true) := by
      simp only [decide_eq_true_eq]; omega
    rw [if_neg hc, if_neg hd, if_neg hd]
    exact ⟨rfl, rfl⟩

theorem headD_append_of_ne (a b : List Nat) (h : 1 ≤ a.length) : (a ++ b).headD 0 = a.headD 0 := by
  cases a with
  | nil => simp at h
  | cons x t => simp

theorem writeAt_update_end (out : Int → Nat) (p : Int) (w : List Nat) (r : Nat) :
    Function.update (writeAt out p w) (p + w.length) r = writeAt out p (w ++ [r]) := by
  have := writeAt_snoc out (p + w.length) r w
  rw [add_sub_cancel_right] at this
  rw [← this]
  funext j
  unfold writeAt Function.update
  by_cases h : j = p + w.length
  · have : ¬ (p ≤ j ∧ j < p + w.length) := by omega
    simp [h]
  · simp [h]

/-- A data code while the table still has room (lines 146-170). -/
theorem pixStep_store {ctsz : Nat} (h2 : 2 ≤ ctsz) (h8 : ctsz ≤ 8) {out0 : Int → Nat} {s : Lzw}
    {dict : List (List Nat)} {prev acc : List Nat} {c : Nat}
    (hs : LzwOK ctsz out0 s (Dec.run dict prev) acc)
    (hn : s.ctbl + 1 = 2 ^ ctsz + 2 + dict.length) (hlt : s.ctbl + 1 < 4096)
    (hc : isCode ctsz dict c ∨ c = s.ctbl + 1) (str : List Nat)
    (hstr : str = if c < 2 ^ ctsz + 2 + dict.length then entry ctsz dict c else prev ++ [prev.headD 0]) :
    ∃ s', pixStep s c = Flow.next s' ∧
      LzwOK ctsz out0 s' (Dec.run (dict ++ [prev ++ [str.headD 0]]) str) (acc ++ str) ∧
      s'.curr = s.load ∧ s'.bszc = s.bszc - s'.ccsz ∧
      s'.load = (s.load >>> s'.ccsz.toNat) % 65536 := by
  obtain ⟨hout, ⟨hbptr, htop⟩, hccsz, hmask, hlit, htab, hprev, hpstr, -, -⟩ := hs
  have hD := pow_bounds ctsz h2 h8
  obtain ⟨htab1, hrec1⟩ := htab.first_store hprev (s.ctbl + 1) hn
  set code1 := Function.update s.code (s.ctbl + 1) (s.prev + 0x1000 + (s.code s.prev &&& 0xFFF000))
    with hcode1
  -- the code whose string is walked
  set iter := if c ≥ s.ctbl + 1 then s.prev else c with hiter
  have hic : isCode ctsz dict iter := by
    rw [hiter]
    split_ifs with hk
    · exact hprev
    · rcases hc with hc | hc
      · exact hc
      · omega
  have hb := htab1.entry_bounds iter hic
  have hlen := (htab1.len_field iter hic).1
  have hl0 : ((code1 iter >>> 12 &&& 0xFFF : Nat) : Int) = ((entry ctsz dict iter).length : Int) - 1 := by
    rw [hlen]; have := hb.1; omega
  have hwalk := walk_code htab1 h8 iter hic
    (s.bptr + ((code1 iter >>> 12 &&& 0xFFF : Nat) : Int) + 16385).toNat s.out
    (s.bptr + ((code1 iter >>> 12 &&& 0xFFF : Nat) : Int)) (by rw [hl0]; omega) (by
      have := hb.2.1
      have := htab.2.2
      rw [hl0]
      rcases hic with hi | hi
      · have : max iter (2 ^ ctsz) = 2 ^ ctsz := by omega
        omega
      · omega)
  have hst : ∀ (co : Nat → Nat) (o : Int → Nat) (v : Nat),
      store co o (s.bptr + ((code1 iter >>> 12 &&& 0xFFF : Nat) : Int)
          - ((entry ctsz dict iter).length : Int) + ((code1 iter >>> 12 &&& 0xFFF : Nat) : Int) + 2) v
        = (co, Function.update o (s.bptr + ((code1 iter >>> 12 &&& 0xFFF : Nat) : Int)
          - ((entry ctsz dict iter).length : Int) + ((code1 iter >>> 12 &&& 0xFFF : Nat) : Int) + 2) v) :=
    fun co o v => store_nonneg _ _ _ _ (by rw [hl0]; have := hb.1; omega)
  have hroot : (entry ctsz dict iter).headD 0 < 2 ^ ctsz := hb.2.2
  have htab2 := htab1.second_store h8 hprev (s.ctbl + 1) hn hlt hrec1 hroot
  have hg := grow_ok ctsz dict prev str (prev ++ [str.headD 0]) (s.ctbl + 1) hn hlt
  -- the pixels of this code
  have hstr' : str = entry ctsz dict iter ++ (if c ≥ s.ctbl + 1 then [(entry ctsz dict iter).headD 0] else []) := by
    rw [hstr, hiter]
    by_cases hk : c ≥ s.ctbl + 1
    · rw [if_neg (by omega), if_pos hk, if_pos hk, ← hpstr]
    · rw [if_pos (by omega), if_neg hk, if_neg hk]; simp
  have hhead : str.headD 0 = (entry ctsz dict iter).headD 0 := by
    rw [hstr', headD_append_of_ne _ _ hb.1]
  have hpix : (code1 ((entry ctsz dict iter).headD 0) >>> 24) % 256 = (entry ctsz dict iter).headD 0 := by
    rw [htab1.1 _ hroot, Nat.shiftRight_eq_div_pow]
    omega
  have hl1 : ((code1 iter >>> 12 &&& 0xFFF : Nat) : Int) = ((entry ctsz dict iter).length : Int) - 1 := by
    rw [hlen]; have := hb.1; omega
  simp only [hlt, true_and] at hg
  unfold pixStep
  simp only [hlt, if_true, true_and]
  rw [← hcode1, ← hiter, hwalk]
  simp only [hst, ite_self]
  refine ⟨_, rfl, ⟨?_, ⟨?_, ?_⟩, ?_, ?_, ?_, ?_⟩, rfl, rfl, rfl⟩
  · simp only [hpix, hl1, hout, hbptr]
    have e1 : (acc.length : Int) + ((entry ctsz dict iter).length - 1) + 1 - (entry ctsz dict iter).length
        = acc.length := by ring
    have e2 : (acc.length : Int) + ((entry ctsz dict iter).length - 1) - (entry ctsz dict iter).length
        + ((entry ctsz dict iter).length - 1) + 2 = acc.length + (entry ctsz dict iter).length := by ring
    rw [e1, e2, ← writeAt_append, hstr']
    by_cases hk : c ≥ s.ctbl + 1
    · rw [if_pos hk, if_pos hk, writeAt_update_end]
    · rw [if_neg hk, if_neg hk, List.append_nil]
  · simp only [hl1, hbptr, hstr']
    by_cases hk : c ≥ s.ctbl + 1
    · rw [if_pos hk, if_pos hk]
      simp only [List.length_append, List.length_singleton, Nat.cast_add, Nat.cast_one]
      ring
    · rw [if_neg hk, if_neg hk]
      simp only [List.length_append, List.length_nil, Nat.cast_add, Nat.cast_zero]
      ring
  · simp only [hl1, hbptr, hstr']
    have := hb.1
    by_cases hk : c ≥ s.ctbl + 1
    · rw [if_pos hk, if_pos hk]
      simp only [List.length_append, List.length_singleton, Nat.cast_add, Nat.cast_one]
      omega
    · rw [if_neg hk, if_neg hk]
      simp only [List.length_append, List.length_nil, Nat.cast_add, Nat.cast_zero]
      omega
  · simp only [hccsz, hmask]
    exact hg.1
  · simp only [hmask]
    exact hg.2
  · intro j hj
    exact htab2.1 j hj
  · simp only [runOK]
    rw [hhead, hpstr]
    refine ⟨htab2, ?_, ?_, ?_, ?_⟩
    · rcases hc with hc | hc
      · exact isCode_append _ hc
      · refine Or.inr ⟨by omega, ?_⟩
        simp only [List.length_append, List.length_singleton]
        omega
    · by_cases hk : c ≥ s.ctbl + 1
      · have hce : c = 2 ^ ctsz + 2 + dict.length := by
          rcases hc with hc | hc
          · rcases hc with hc | hc <;> omega
          · omega
        rw [hce, entry_append_new, hstr, if_neg (by omega), hpstr]
        have : iter = s.prev := by rw [hiter, if_pos hk]
        rw [this]
      · have hcc : isCode ctsz dict c := by
          rcases hc with hc | hc
          · exact hc
          · omega
        rw [entry_append _ hcc, hstr, if_pos (by omega)]
    · simp only [List.length_append, List.length_singleton]
      omega
    · simp only [List.length_append, List.length_singleton]
      omega

/-- A data code once the table is full: nothing is stored any more. -/
theorem pixStep_full {ctsz : Nat} (h2 : 2 ≤ ctsz) (h8 : ctsz ≤ 8) {out0 : Int → Nat} {s : Lzw}
    {dict : List (List Nat)} {prev acc : List Nat} {c : Nat}
    (hs : LzwOK ctsz out0 s (Dec.run dict prev) acc)
    (hfull : ¬ (s.ctbl + 1 < 4096)) (hc : isCode ctsz dict c) :
    ∃ s', pixStep s c = Flow.next s' ∧
      LzwOK ctsz out0 s' (Dec.run dict (entry ctsz dict c)) (acc ++ entry ctsz dict c) ∧
      s'.curr = s.load ∧ s'.bszc = s.bszc - s'.ccsz ∧
      s'.load = (s.load >>> s'.ccsz.toNat) % 65536 := by
  obtain ⟨hout, ⟨hbptr, htop⟩, hccsz, hmask, hlit, htab, hprev, hpstr, hct1, hct2⟩ := hs
  have hD := pow_bounds ctsz h2 h8
  have hlenD := htab.2.2
  have hc4 : c < 4096 := by rcases hc with hc | hc <;> omega
  have hge : ¬ (c ≥ s.ctbl + 1) := by omega
  have hb := htab.entry_bounds c hc
  have hlen := (htab.len_field c hc).1
  have hl1 : ((s.code c >>> 12 &&& 0xFFF : Nat) : Int) = ((entry ctsz dict c).length : Int) - 1 := by
    rw [hlen]; have := hb.1; omega
  have hwalk := walk_code htab h8 c hc
    (s.bptr + ((s.code c >>> 12 &&& 0xFFF : Nat) : Int) + 16385).toNat s.out
    (s.bptr + ((s.code c >>> 12 &&& 0xFFF : Nat) : Int)) (by rw [hl1]; omega) (by
      have := hb.2.1
      rw [hl1]
      rcases hc with hi | hi
      · have : max c (2 ^ ctsz) = 2 ^ ctsz := by omega
        omega
      · omega)
  have hg : decide (s.ctbl + 1 < 4096 ∧ s.ctbl + 1 = s.mask ∧ s.ctbl + 1 < 4095) = false := by
    simp only [decide_eq_false_iff_not]; omega
  unfold pixStep
  simp only [hg]
  simp only [hfull, hge, if_false, Bool.false_eq_true]
  rw [hwalk]
  refine ⟨_, rfl, ⟨?_, ⟨?_, ?_⟩, hccsz, hmask, hlit, ?_⟩, rfl, rfl, rfl⟩
  · simp only [hl1, hout, hbptr]
    have e1 : (acc.length : Int) + ((entry ctsz dict c).length - 1) + 1 - (entry ctsz dict c).length
        = acc.length := by ring
    rw [e1, ← writeAt_append]
  · simp only [hl1, hbptr, List.length_append, Nat.cast_add]
    ring
  · simp only [hl1, hbptr, List.length_append, Nat.cast_add]
    omega
  · simp only [runOK]
    exact ⟨htab, hc, trivial, by omega, fun _ => by omega⟩

/-- Any code but CLEAR and END that the canonical decoder accepts is handled
by `pixStep` as the canonical decoder does. -/
theorem pixStep_ok {ctsz : Nat} (h2 : 2 ≤ ctsz) (h8 : ctsz ≤ 8) {out0 : Int → Nat} {s : Lzw}
    {d d' : Dec} {acc str : List Nat} {c : Nat}
    (hs : LzwOK ctsz out0 s d acc) (hnc : c ≠ 2 ^ ctsz)
    (hd : decStep ctsz d c = some (d', str)) :
    ∃ s', pixStep s c = Flow.next s' ∧ LzwOK ctsz out0 s' d' (acc ++ str) ∧
      s'.curr = s.load ∧ s'.bszc = s.bszc - s'.ccsz ∧
      s'.load = (s.load >>> s'.ccsz.toNat) % 65536 := by
  cases d with
  | start =>
    simp only [decStep, hnc, if_false] at hd
    cases hd
  | fresh =>
    simp only [decStep] at hd
    split_ifs at hd with hc
    cases hd
    exact pixStep_fresh h2 h8 hs hc
  | run dict prev =>
    simp only [decStep, hnc, if_false] at hd
    by_cases hv : c < 2 ^ ctsz ∨ (2 ^ ctsz + 2 ≤ c ∧ c ≤ 2 ^ ctsz + 2 + dict.length ∧ c < 4096)
    · rw [if_pos hv] at hd
      simp only [Option.some.injEq, Prod.mk.injEq] at hd
      obtain ⟨hd1, hd2⟩ := hd
      have hD := pow_bounds ctsz h2 h8
      have hrun := hs.2.2.2.2.2
      simp only [runOK] at hrun
      obtain ⟨htab, hprev, hpstr, hct1, hct2⟩ := hrun
      have hlenD := htab.2.2
      by_cases hlt : s.ctbl + 1 < 4096
      · have hn : s.ctbl + 1 = 2 ^ ctsz + 2 + dict.length := by
          by_contra hne
          have := hct2 (by omega)
          omega
        have hc : isCode ctsz dict c ∨ c = s.ctbl + 1 := by
          rcases hv with hv | hv
          · exact Or.inl (Or.inl hv)
          · by_cases hk : c < 2 ^ ctsz + 2 + dict.length
            · exact Or.inl (Or.inr ⟨hv.1, hk⟩)
            · exact Or.inr (by omega)
        have := pixStep_store h2 h8 hs hn hlt hc str hd2.symm
        rw [if_pos (by omega), hd2] at hd1
        rw [← hd1]
        exact this
      · have hfl : dict.length + 2 ^ ctsz = 4094 := by
          by_cases he : 2 ^ ctsz + 1 + dict.length < s.ctbl
          · exact hct2 he
          · omega
        have hc : isCode ctsz dict c := by
          rcases hv with hv | hv
          · exact Or.inl hv
          · exact Or.inr ⟨hv.1, by omega⟩
        have hk : c < 2 ^ ctsz + 2 + dict.length := by
          rcases hc with hc | hc <;> omega
        rw [if_pos hk] at hd2
        rw [if_neg (by omega), if_pos hk, hd2] at hd1
        rw [← hd1, ← hd2]
        exact pixStep_full h2 h8 hs hlt hc
    · rw [if_neg hv] at hd
      cases hd

theorem widthOf_le (ctsz : Nat) (d : Dec) : widthOf ctsz d ≤ 12 := by
  unfold widthOf; exact min_le_left _ _

theorem clear_test (ctsz c : Nat) (h2 : 2 ≤ ctsz) (hc : c < 2 ^ 16) :
    (c &&& 0xFFFFFFFFFFFFFFFE = 1 <<< ctsz) ↔ (c = 2 ^ ctsz ∨ c = 2 ^ ctsz + 1) := by
  rw [and_not_one c hc, Nat.shiftLeft_eq, one_mul]
  have : 2 ^ ctsz = 2 * 2 ^ (ctsz - 1) := by
    rw [← pow_succ']; congr 1; omega
  omega

theorem LzwOK.code_lt {ctsz : Nat} {out0 : Int → Nat} {s : Lzw} {d : Dec} {acc : List Nat}
    (hs : LzwOK ctsz out0 s d acc) : s.curr &&& s.mask < 2 ^ 16 := by
  have h1 : s.curr &&& s.mask ≤ s.mask := Nat.and_le_right
  have h2 : s.mask = 2 ^ widthOf ctsz d - 1 := hs.2.2.2.1
  have h3 : 2 ^ widthOf ctsz d ≤ 2 ^ 12 := Nat.pow_le_pow_right (by decide) (widthOf_le ctsz d)
  have h4 : (2:Nat) ^ 12 < 2 ^ 16 := by decide
  omega

/-- The END code leaves the loop. -/
theorem codeStep_end {ctsz : Nat} (h2 : 2 ≤ ctsz) {out0 : Int → Nat} {s : Lzw} {d : Dec}
    {acc : List Nat} (hs : LzwOK ctsz out0 s d acc) (hcur : s.curr &&& s.mask = 2 ^ ctsz + 1) :
    codeStep ctsz s = Flow.ed { s with curr := 2 ^ ctsz + 1 } := by
  have hlt := hs.code_lt
  have ht := (clear_test ctsz _ h2 hlt).2 (Or.inr hcur)
  have hodd : (s.curr &&& s.mask) &&& 1 ≠ 0 := by
    rw [and_one, hcur]
    have : 2 ^ ctsz = 2 * 2 ^ (ctsz - 1) := by
      rw [← pow_succ']; congr 1; omega
    omega
  rw [hcur] at ht hodd
  unfold codeStep
  simp only [hcur, ht, hodd, if_true, ne_eq, not_false_eq_true]

/-- Any code but END that the canonical decoder accepts is handled by the loop
body as the canonical decoder does, and the bit accumulator moves on. -/
theorem codeStep_ok {ctsz : Nat} (h2 : 2 ≤ ctsz) (h8 : ctsz ≤ 8) {out0 : Int → Nat} {s : Lzw}
    {d d' : Dec} {acc str : List Nat} {c : Nat}
    (hs : LzwOK ctsz out0 s d acc) (hcur : s.curr &&& s.mask = c) (hne : c ≠ 2 ^ ctsz + 1)
    (hd : decStep ctsz d c = some (d', str)) :
    ∃ s', codeStep ctsz s = Flow.next s' ∧ LzwOK ctsz out0 s' d' (acc ++ str) ∧
      s'.curr = s.load ∧ s'.bszc = s.bszc - s'.ccsz ∧
      s'.load = (s.load >>> s'.ccsz.toNat) % 65536 := by
  have hlt := hs.code_lt
  rw [hcur] at hlt
  by_cases hcl : c = 2 ^ ctsz
  · have ht := (clear_test ctsz c h2 hlt).2 (Or.inl hcl)
    have heven : ¬ (c &&& 1 ≠ 0) := by
      rw [and_one, hcl]
      have : 2 ^ ctsz = 2 * 2 ^ (ctsz - 1) := by
        rw [← pow_succ']; congr 1; omega
      omega
    have hd' : d' = Dec.fresh ∧ str = [] := by
      cases d with
      | start => simp only [decStep, hcl, if_true] at hd; cases hd; exact ⟨rfl, rfl⟩
      | fresh => simp only [decStep, hcl, lt_irrefl, if_false] at hd; cases hd
      | run dict prev => simp only [decStep, hcl, if_true] at hd; cases hd; exact ⟨rfl, rfl⟩
    obtain ⟨rfl, rfl⟩ := hd'
    obtain ⟨hout, ⟨hbptr, htop⟩, hccsz, hmask, hlit, hrun⟩ := hs
    have hw := widthOf_fresh ctsz h2 h8
    unfold codeStep
    simp only [hcur, ht, heven, if_true, if_false]
    refine ⟨_, rfl, ⟨?_, ⟨?_, ?_⟩, ?_, ?_, hlit, ?_⟩, rfl, rfl, rfl⟩
    · simpa using hout
    · simpa using hbptr
    · simpa using htop
    · simp [hw]
    · simp only [hw, Nat.shiftLeft_eq, one_mul]
      apply Nat.mod_eq_of_lt
      have : 2 ^ (ctsz + 1) ≤ 2 ^ 9 := Nat.pow_le_pow_right (by decide) (by omega)
      have : (2:Nat) ^ 9 < 65536 := by decide
      omega
    · simp only [runOK, Nat.shiftLeft_eq, one_mul]
  · have ht : ¬ (c &&& 0xFFFFFFFFFFFFFFFE = 1 <<< ctsz) := by
      rw [clear_test ctsz c h2 hlt]; omega
    have := pixStep_ok h2 h8 hs hcl hd
    unfold codeStep
    simp only [hcur, ht, if_false]
    exact this

/-! ## The canonical decoder and the packed bit string -/

theorem decode_cons {ctsz : Nat} {d : Dec} {rest tail : List Nat}
    (h : decode ctsz d rest = some tail) :
    ∃ c cs, rest = c :: cs ∧
      ((c = 2 ^ ctsz + 1 ∧ cs = [] ∧ tail = [] ∧ ∃ dict prev, d = Dec.run dict prev) ∨
       (c ≠ 2 ^ ctsz + 1 ∧ ∃ d1 str t, decStep ctsz d c = some (d1, str) ∧
          decode ctsz d1 cs = some t ∧ tail = str ++ t)) := by
  cases rest with
  | nil => simp [decode] at h
  | cons c cs =>
    refine ⟨c, cs, rfl, ?_⟩
    by_cases hc : c = 2 ^ ctsz + 1
    · left
      cases d with
      | start => simp [decode, hc] at h
      | fresh => simp [decode, hc] at h
      | run dict prev =>
        cases cs with
        | nil =>
          simp only [decode, hc, if_true, Option.some.injEq] at h
          exact ⟨hc, rfl, h.symm, dict, prev, rfl⟩
        | cons x xs => simp [decode, hc] at h
    · right
      refine ⟨hc, ?_⟩
      simp only [decode, hc, if_false] at h
      cases hs : decStep ctsz d c with
      | none => rw [hs] at h; simp at h
      | some p =>
        obtain ⟨d1, str⟩ := p
        rw [hs] at h
        simp only at h
        cases ht : decode ctsz d1 cs with
        | none => rw [ht] at h; simp at h
        | some t =>
          rw [ht] at h
          simp only [Option.some.injEq] at h
          exact ⟨d1, str, t, rfl, ht, h.symm⟩

theorem lt_two_pow_width (ctsz : Nat) (d : Dec) (c : Nat) (h1 : c ≤ nextFree ctsz d) (h2 : c < 4096) :
    c < 2 ^ widthOf ctsz d := by
  unfold widthOf
  have hpos := Nat.two_pow_pos ctsz
  have hn : nextFree ctsz d ≠ 0 := by unfold nextFree; omega
  by_cases hw : Nat.log2 (nextFree ctsz d) + 1 ≤ 12
  · rw [min_eq_right hw]
    have := (Nat.log2_lt hn).1 (Nat.lt_succ_self _)
    omega
  · rw [min_eq_left (by omega)]
    exact h2

theorem decStep_lt {ctsz : Nat} (h8 : ctsz ≤ 8) {d d1 : Dec} {c : Nat} {str : List Nat}
    (h : decStep ctsz d c = some (d1, str)) : c < 2 ^ widthOf ctsz d := by
  have hD : 2 ^ ctsz ≤ 256 := by
    calc 2 ^ ctsz ≤ 2 ^ 8 := Nat.pow_le_pow_right (by decide) h8
      _ = 256 := by decide
  apply lt_two_pow_width
  · unfold nextFree
    cases d with
    | start => simp only [decStep] at h; split_ifs at h with hc; omega
    | fresh => simp only [decStep] at h; split_ifs at h with hc; omega
    | run dict prev =>
      simp only [decStep] at h
      by_cases h1 : c = 2 ^ ctsz
      · simp only [Dec.dict]; omega
      · rw [if_neg h1] at h
        by_cases hv : c < 2 ^ ctsz ∨ (2 ^ ctsz + 2 ≤ c ∧ c ≤ 2 ^ ctsz + 2 + dict.length ∧ c < 4096)
        · simp only [Dec.dict]; omega
        · rw [if_neg hv] at h; cases h
  · cases d with
    | start => simp only [decStep] at h; split_ifs at h with hc; omega
    | fresh => simp only [decStep] at h; split_ifs at h with hc; omega
    | run dict prev =>
      simp only [decStep] at h
      by_cases h1 : c = 2 ^ ctsz
      · omega
      · rw [if_neg h1] at h
        by_cases hv : c < 2 ^ ctsz ∨ (2 ^ ctsz + 2 ≤ c ∧ c ≤ 2 ^ ctsz + 2 + dict.length ∧ c < 4096)
        · omega
        · rw [if_neg hv] at h; cases h

theorem end_lt (ctsz : Nat) (h8 : ctsz ≤ 8) (d : Dec) : 2 ^ ctsz + 1 < 2 ^ widthOf ctsz d := by
  have hD : 2 ^ ctsz ≤ 256 := by
    calc 2 ^ ctsz ≤ 2 ^ 8 := Nat.pow_le_pow_right (by decide) h8
      _ = 256 := by decide
  apply lt_two_pow_width
  · unfold nextFree; omega
  · omega

theorem widthOf_pos (ctsz : Nat) (d : Dec) : 1 ≤ widthOf ctsz d := by
  unfold widthOf
  omega

theorem packBits_cons {ctsz : Nat} {d d1 : Dec} {c : Nat} {str : List Nat} (cs : List Nat)
    (h : decStep ctsz d c = some (d1, str)) :
    packBits ctsz d (c :: cs) =
      (c + 2 ^ widthOf ctsz d * (packBits ctsz d1 cs).1, widthOf ctsz d + (packBits ctsz d1 cs).2) := by
  simp only [packBits, h]

theorem packBits_end (ctsz : Nat) (d : Dec) (c : Nat) :
    packBits ctsz d [c] = (c, widthOf ctsz d) := by
  simp [packBits]

theorem mod_mod_pow (V a w : Nat) (h : w ≤ a) : V % 2 ^ a % 2 ^ w = V % 2 ^ w :=
  Nat.mod_mod_of_dvd V (pow_dvd_pow 2 h)

theorem mod_div_pow (V a w : Nat) (h : w ≤ a) : V % 2 ^ a / 2 ^ w = V / 2 ^ w % 2 ^ (a - w) := by
  have : 2 ^ a = 2 ^ w * 2 ^ (a - w) := by rw [← pow_add]; congr 1; omega
  rw [this, Nat.mod_mul_right_div_self]

theorem add_mul_mod (c w V : Nat) (h : c < 2 ^ w) : (c + 2 ^ w * V) % 2 ^ w = c := by
  rw [Nat.add_mul_mod_self_left, Nat.mod_eq_of_lt h]

theorem add_mul_div (c w V : Nat) (h : c < 2 ^ w) : (c + 2 ^ w * V) / 2 ^ w = V := by
  rw [Nat.add_mul_div_left _ _ (Nat.two_pow_pos w), Nat.div_eq_of_lt h, zero_add]

/-- The loop `while (bszc >= 0)` on a valid stream: it handles the loaded
codes as the canonical decoder does and stops either at END, and then no
payload byte is left, or when the next code is not fully loaded. -/
theorem codeLoop_ok {ctsz : Nat} (h2 : 2 ≤ ctsz) (h8 : ctsz ≤ 8) {out0 : Int → Nat}
    {full R : List Nat} :
    ∀ (n : Nat) (s : Lzw) (d : Dec) (acc rest : List Nat) (a : Nat),
      StreamOK ctsz out0 full s d acc rest a R → 1 ≤ n → a + 2 ≤ widthOf ctsz d + n →
      (∃ s', codeLoop ctsz n s = some (Flow.ed s') ∧ R = [] ∧
          s'.out = writeAt out0 0 full ∧ (s'.bptr = full.length ∧ s'.top ≤ full.length)) ∨
      (∃ s' d' acc' rest' a', codeLoop ctsz n s = some (Flow.next s') ∧
          StreamOK ctsz out0 full s' d' acc' rest' a' R ∧ a' < widthOf ctsz d') := by
  intro n
  induction n with
  | zero => intro s d acc rest a _ h1; omega
  | succ n ih =>
    intro s d acc rest a hs _ hfuel
    obtain ⟨hl, ⟨hb1, hb2, hb3, hb4⟩, hV, hlo, hhi, tail, hdec, hfull⟩ := hs
    have hccsz : s.ccsz = widthOf ctsz d := hl.2.2.1
    have hmask : s.mask = 2 ^ widthOf ctsz d - 1 := hl.2.2.2.1
    rw [codeLoop]
    by_cases ha : widthOf ctsz d ≤ a
    · have hge : s.bszc ≥ 0 := by rw [hb3]; omega
      rw [if_pos hge]
      obtain ⟨c, cs, rfl, hcase⟩ := decode_cons hdec
      rcases hcase with ⟨hce, rfl, rfl, dict, prev, rfl⟩ | ⟨hne, d1, str, t, hstep, hdec1, rfl⟩
      · -- END
        left
        rw [packBits_end] at hb1 hV hlo hhi
        simp only at hb1 hV hlo hhi
        have hcur : s.curr &&& s.mask = 2 ^ ctsz + 1 := by
          rw [hmask, Nat.and_pow_two_sub_one_eq_mod, hb1, mod_mod_pow _ _ _ ha, hce]
          exact Nat.mod_eq_of_lt (end_lt ctsz h8 _)
        rw [codeStep_end h2 hl hcur]
        refine ⟨_, rfl, ?_, ?_, ?_⟩
        · have : R.length = 0 := by omega
          exact List.length_eq_zero.mp this
        · rw [← hfull, List.append_nil]; exact hl.1
        · rw [← hfull, List.append_nil]; exact hl.2.1
      · -- any other code
        have hclt := decStep_lt h8 hstep
        rw [packBits_cons cs hstep] at hb1 hb2 hV hlo hhi
        simp only at hb1 hb2 hV hlo hhi
        have hcur : s.curr &&& s.mask = c := by
          rw [hmask, Nat.and_pow_two_sub_one_eq_mod, hb1, mod_mod_pow _ _ _ ha, add_mul_mod _ _ _ hclt]
        obtain ⟨s1, hs1, hl1, hc1, hz1, hld1⟩ := codeStep_ok h2 h8 hl hcur hne hstep
        rw [hs1]
        simp only
        have hccsz1 : s1.ccsz = widthOf ctsz d1 := hl1.2.2.1
        have hw1 := widthOf_pos ctsz d1
        have hVdiv : (c + 2 ^ widthOf ctsz d * (packBits ctsz d1 cs).1) / 2 ^ widthOf ctsz d
            = (packBits ctsz d1 cs).1 := add_mul_div _ _ _ hclt
        have hcurr1 : s1.curr = (packBits ctsz d1 cs).1 % 2 ^ (a - widthOf ctsz d) := by
          rw [hc1, hb2, mod_div_pow _ _ _ ha, hVdiv]
        have hst1 : StreamOK ctsz out0 full s1 d1 (acc ++ str) cs (a - widthOf ctsz d) R := by
          refine ⟨hl1, ⟨hcurr1, ?_, ?_, ?_⟩, ?_, by omega, by omega, t, hdec1, ?_⟩
          · rw [hld1, hccsz1, Int.toNat_ofNat, Nat.shiftRight_eq_div_pow, ← hcurr1, hc1]
            apply Nat.mod_eq_of_lt
            have : s.load / 2 ^ widthOf ctsz d1 ≤ s.load := Nat.div_le_self _ _
            omega
          · rw [hz1, hb3, hccsz1]
            omega
          · rw [hld1]
            exact Nat.mod_lt _ (by decide)
          · have e : (c + 2 ^ widthOf ctsz d * (packBits ctsz d1 cs).1) / 2 ^ a
                = (c + 2 ^ widthOf ctsz d * (packBits ctsz d1 cs).1) / 2 ^ widthOf ctsz d
                    / 2 ^ (a - widthOf ctsz d) := by
              rw [Nat.div_div_eq_div_mul, ← pow_add]
              congr 2
              omega
            rw [← hV, e, hVdiv]
          · rw [← hfull, List.append_assoc]
        by_cases hn : 1 ≤ n
        · exact ih s1 d1 (acc ++ str) cs (a - widthOf ctsz d) hst1 hn (by omega)
        · omega
    · right
      have hlt : ¬ (s.bszc ≥ 0) := by rw [hb3]; omega
      rw [if_neg hlt]
      exact ⟨s, d, acc, rest, a, rfl, ⟨hl, ⟨hb1, hb2, hb3, hb4⟩, hV, hlo, hhi, tail, hdec, hfull⟩, by omega⟩

theorem and_low32 (e : Nat) : e &&& 0xFFFFFFFF = e % 4294967296 := by
  have := Nat.and_pow_two_sub_one_eq_mod e 32
  simpa using this

theorem and_low8 (e : Nat) : e &&& 255 = e % 256 := by
  have := Nat.and_pow_two_sub_one_eq_mod e 8
  simpa using this

/-- The word loaded at line 128 when two bytes of the sub-block are left. -/
theorem load_two (m : Mem) (p : Int) (b0 b1 : Nat) (h0 : m p = b0) (h1 : m (p + 1) = b1)
    (l0 : b0 < 256) (l1 : b1 < 256) :
    (rd16 m p &&& 0xFFFFFFFF) % 65536 = b0 + 256 * b1 := by
  rw [and_low32]
  unfold rd16 rd8
  rw [h0, h1]
  omega

/-- The word loaded at line 128 when one byte of the sub-block is left. -/
theorem load_one (m : Mem) (p : Int) (b0 : Nat) (h0 : m p = b0) (l0 : b0 < 256) :
    (rd16 m p &&& ((1 <<< (8 * (1 : Int).toNat)) - 1)) % 65536 = b0 := by
  have : (1 <<< (8 * (1 : Int).toNat)) - 1 = 255 := by decide
  rw [this, and_low8]
  unfold rd16 rd8
  rw [h0]
  omega

/-- Loading `j` more bits `x` behind the `a` bits that the accumulator holds. -/
theorem load_bits (V a j x w : Nat) (hx : V / 2 ^ a % 2 ^ j = x) (haw : a < w) :
    (V % 2 ^ a ||| x <<< a) = V % 2 ^ (a + j) ∧
    x >>> (w - a) = V % 2 ^ (a + j) / 2 ^ w := by
  have hlt : V % 2 ^ a < 2 ^ a := Nat.mod_lt _ (Nat.two_pow_pos a)
  have e1 : V % 2 ^ (a + j) = 2 ^ a * x + V % 2 ^ a := by
    rw [pow_add, Nat.mod_mul, hx]; ring
  constructor
  · rw [e1, Nat.shiftLeft_eq, Nat.mul_add_lt_is_or hlt, Nat.lor_comm, Nat.mul_comm]
  · rw [e1, Nat.shiftRight_eq_div_pow]
    have : 2 ^ w = 2 ^ a * 2 ^ (w - a) := by rw [← pow_add]; congr 1; omega
    rw [this, ← Nat.div_div_eq_div_mul, Nat.add_comm, add_mul_div _ _ _ hlt]

theorem LzwOK.bits_irrel {ctsz : Nat} {out0 : Int → Nat} {s : Lzw} {d : Dec} {acc : List Nat}
    (h : LzwOK ctsz out0 s d acc) (cu lo : Nat) (bz : Int) :
    LzwOK ctsz out0 { s with curr := cu, load := lo, bszc := bz } d acc := by
  obtain ⟨h1, h2, h3, h4, h5, h6⟩ := h
  refine ⟨h1, h2, h3, h4, h5, ?_⟩
  cases d with
  | start => trivial
  | fresh => exact h6
  | run dict prev => exact h6

theorem bytesVal_lt (l : List Nat) (h : ∀ b ∈ l, b < 256) : bytesVal l < 256 ^ l.length := by
  induction l with
  | nil => simp [bytesVal]
  | cons b t ih =>
    have hb := h b (List.mem_cons_self _ _)
    have ht := ih (fun x hx => h x (List.mem_cons_of_mem _ hx))
    simp only [bytesVal, List.length_cons, pow_succ]
    omega

theorem bytesVal_append (l r : List Nat) :
    bytesVal (l ++ r) = bytesVal l + 256 ^ l.length * bytesVal r := by
  induction l with
  | nil => simp [bytesVal]
  | cons b t ih =>
    have e : bytesVal (b :: t ++ r) = b + 256 * bytesVal (t ++ r) := rfl
    rw [e, ih]
    simp only [bytesVal, List.length_cons, pow_succ]
    ring

/-- Loading the next one or two payload bytes keeps the stream invariant. -/
theorem StreamOK.load {ctsz : Nat} {out0 : Int → Nat} {full : List Nat} {s : Lzw} {d : Dec}
    {acc rest : List Nat} {a : Nat} (pre R : List Nat)
    (hs : StreamOK ctsz out0 full s d acc rest a (pre ++ R)) (haw : a < widthOf ctsz d)
    (hpre : ∀ b ∈ pre, b < 256) (hk2 : pre.length ≤ 2) (k : Int) (hk : k = pre.length) :
    StreamOK ctsz out0 full (loadWord s (bytesVal pre) k) d acc rest (a + 8 * pre.length) R := by
  unfold loadWord
  obtain ⟨hl, ⟨hb1, hb2, hb3, hb4⟩, hV, hlo, hhi, htail⟩ := hs
  have hccsz : s.ccsz = widthOf ctsz d := hl.2.2.1
  have hxlt := bytesVal_lt pre hpre
  have h256 : (256 : Nat) ^ pre.length = 2 ^ (8 * pre.length) := by
    rw [pow_mul]; rfl
  have hx : (packBits ctsz d rest).1 / 2 ^ a % 2 ^ (8 * pre.length) = bytesVal pre := by
    rw [hV, bytesVal_append, ← h256, Nat.add_mul_mod_self_left, Nat.mod_eq_of_lt hxlt]
  have hlb := load_bits (packBits ctsz d rest).1 a (8 * pre.length) (bytesVal pre) (widthOf ctsz d) hx haw
  have e1 : (s.ccsz + s.bszc).toNat = a := by rw [hccsz, hb3]; omega
  have e2 : (-s.bszc).toNat = widthOf ctsz d - a := by rw [hb3]; omega
  refine ⟨hl.bits_irrel _ _ _, ⟨?_, ?_, ?_, ?_⟩, ?_, ?_, ?_, htail⟩
  · simp only [e1, hb1]
    exact hlb.1
  · simp only [e2]
    rw [hlb.2]
    apply Nat.mod_eq_of_lt
    rw [← hlb.2, Nat.shiftRight_eq_div_pow]
    have : bytesVal pre / 2 ^ (widthOf ctsz d - a) ≤ bytesVal pre := Nat.div_le_self _ _
    have : (256 : Nat) ^ pre.length ≤ 256 ^ 2 := Nat.pow_le_pow_right (by decide) hk2
    have : (256 : Nat) ^ 2 = 65536 := by decide
    omega
  · simp only [hb3, hk]
    push_cast
    ring
  · exact Nat.mod_lt _ (by decide)
  · rw [pow_add, ← Nat.div_div_eq_div_mul, hV, bytesVal_append, ← h256,
      Nat.add_mul_div_left _ _ (Nat.pos_pow_of_pos _ (by decide)), Nat.div_eq_of_lt hxlt, zero_add]
  · simp only [List.length_append] at hlo
    omega
  · simp only [List.length_append] at hhi
    omega

theorem holds_cons {m : Mem} {p : Int} {b : Nat} {t : List Nat} (h : holds m p (b :: t)) :
    m p = b ∧ holds m (p + 1) t := by
  constructor
  · have := h 0 (by simp)
    simpa using this
  · intro i hi
    have := h (i + 1) (by simp; omega)
    simp only [List.getD_cons_succ, Nat.cast_add, Nat.cast_one] at this
    rw [← this]
    congr 1
    ring

/-- The loop over the words of one sub-block on a valid stream. -/
theorem wordLoop_ok {ctsz : Nat} (h2 : 2 ≤ ctsz) (h8 : ctsz ≤ 8) {out0 : Int → Nat}
    {full later : List Nat} (m : Mem) :
    ∀ (n : Nat) (blk : List Nat) (c : Cur) (s : Lzw) (d : Dec) (acc rest : List Nat) (a : Nat),
      StreamOK ctsz out0 full s d acc rest a (blk ++ later) → a < widthOf ctsz d →
      holds m c.buff blk → (∀ b ∈ blk, b < 256) → blk.length + 1 ≤ n →
      (∃ bseq' c' s', wordLoop m ctsz n (blk.length : Nat) c s = some (WordOut.ed bseq' c' s') ∧
          c'.buff + bseq' = c.buff + (blk.length : Nat) ∧ c'.size = c.size ∧ later = [] ∧
          s'.out = writeAt out0 0 full ∧ (s'.bptr = full.length ∧ s'.top ≤ full.length)) ∨
      (∃ bseq' c' s' d' acc' rest' a',
          wordLoop m ctsz n (blk.length : Nat) c s = some (WordOut.done bseq' c' s') ∧
          c'.buff + bseq' = c.buff + (blk.length : Nat) ∧ c'.size = c.size ∧
          StreamOK ctsz out0 full s' d' acc' rest' a' later ∧ a' < widthOf ctsz d') := by
  intro n
  induction n with
  | zero => intro blk c s d acc rest a _ _ _ _ hn; omega
  | succ n ih =>
    intro blk c s d acc rest a hs haw hm hbl hn
    match blk, hs, hm, hbl, hn with
    | [], hs, _, _, _ =>
      right
      refine ⟨0, c, s, d, acc, rest, a, ?_, by simp, rfl, by simpa using hs, haw⟩
      simp [wordLoop]
    | [b0], hs, hm, hbl, hn =>
      have hb0 := hbl b0 (List.mem_singleton_self _)
      have hm0 := (holds_cons hm).1
      have hld := load_one m c.buff b0 hm0 hb0
      have hv : bytesVal [b0] = b0 := by simp [bytesVal]
      have hs1 := StreamOK.load [b0] later hs haw hbl (by simp) 1 (by simp)
      rw [hv] at hs1
      have hz : (loadWord s b0 1).bszc = ((a + 8 * [b0].length : Nat) : Int) - widthOf ctsz d :=
        hs1.2.1.2.2.1
      simp only [List.length_singleton, Nat.cast_one]
      rw [wordLoop, if_pos (by decide)]
      simp only [show ((1 : Int) < 2) from by decide, if_true]
      rw [hld]
      rcases codeLoop_ok h2 h8 ((loadWord s b0 1).bszc.toNat + 2) (loadWord s b0 1) d acc rest _ hs1
          (by omega) (by rw [hz]; omega) with
        ⟨s2, hc2, hR, ho, hp⟩ | ⟨s2, d2, acc2, rest2, a2, hc2, hs2, ha2⟩
      · left
        rw [hc2]
        exact ⟨1, _, s2, rfl, rfl, rfl, hR, ho, hp⟩
      · right
        rw [hc2]
        simp only
        obtain ⟨n', rfl⟩ : ∃ n', n = n' + 1 := ⟨n - 1, by simp at hn; omega⟩
        rw [wordLoop, if_neg (by decide)]
        refine ⟨_, _, s2, d2, acc2, rest2, a2, rfl, ?_, rfl, hs2, ha2⟩
        simp only
        ring
    | b0 :: b1 :: t, hs, hm, hbl, hn =>
      have hb0 := hbl b0 (List.mem_cons_self _ _)
      have hb1 := hbl b1 (List.mem_cons_of_mem _ (List.mem_cons_self _ _))
      obtain ⟨hm0, hm'⟩ := holds_cons hm
      obtain ⟨hm1, hm2⟩ := holds_cons hm'
      have hbs : ¬ (((b0 :: b1 :: t).length : Nat) : Int) < 2 := by simp; omega
      have hld := load_two m c.buff b0 b1 hm0 hm1 hb0 hb1
      have hv : bytesVal [b0, b1] = b0 + 256 * b1 := by simp [bytesVal]
      have hs1 := StreamOK.load [b0, b1] (t ++ later) hs haw
        (by intro b hb; simp at hb; rcases hb with rfl | rfl <;> assumption) (by simp) 2 (by simp)
      rw [hv] at hs1
      have hz : (loadWord s (b0 + 256 * b1) 2).bszc
          = ((a + 8 * [b0, b1].length : Nat) : Int) - widthOf ctsz d := hs1.2.1.2.2.1
      rw [wordLoop, if_pos (by simp; omega)]
      simp only [hbs, if_false]
      rw [hld]
      rcases codeLoop_ok h2 h8 ((loadWord s (b0 + 256 * b1) 2).bszc.toNat + 2)
          (loadWord s (b0 + 256 * b1) 2) d acc rest _ hs1 (by omega) (by rw [hz]; omega) with
        ⟨s2, hc2, hR, ho, hp⟩ | ⟨s2, d2, acc2, rest2, a2, hc2, hs2, ha2⟩
      · left
        rw [hc2]
        have hl : later = [] := by
          have := congrArg List.length hR
          simp at this
          exact this.2
        exact ⟨_, _, s2, rfl, rfl, rfl, hl, ho, hp⟩
      · rw [hc2]
        simp only
        have e : (((b0 :: b1 :: t).length : Nat) : Int) - 2 = (t.length : Nat) := by
          simp only [List.length_cons, Nat.cast_add, Nat.cast_one]; ring
        rw [e]
        have hm2' : holds m (c.buff + 2) t := by
          have : c.buff + 1 + 1 = c.buff + 2 := by ring
          rw [← this]; exact hm2
        rcases ih t ⟨c.buff + 2, c.size, max c.hi (c.buff + 2)⟩ s2 d2 acc2 rest2 a2 hs2 ha2 hm2'
            (fun b hb => hbl b (List.mem_cons_of_mem _ (List.mem_cons_of_mem _ hb)))
            (by simp at hn; omega) with
          ⟨q, c', s', hw, hbf, hsz, hl, ho, hp⟩ | ⟨q, c', s', d', acc', rest', a', hw, hbf, hsz, hs', ha'⟩
        · left
          refine ⟨q, c', s', hw, ?_, hsz, hl, ho, hp⟩
          rw [hbf]; simp; ring
        · right
          refine ⟨q, c', s', d', acc', rest', a', hw, ?_, hsz, hs', ha'⟩
          rw [hbf]; simp; ring

theorem holds_append {m : Mem} {p : Int} {l1 l2 : List Nat} (h : holds m p (l1 ++ l2)) :
    holds m p l1 ∧ holds m (p + (l1.length : Nat)) l2 := by
  constructor
  · intro i hi
    have := h i (by simp; omega)
    rw [this, List.getD_append _ _ _ _ hi]
  · intro i hi
    have := h (l1.length + i) (by simp; omega)
    rw [List.getD_append_right _ _ _ _ (by omega)] at this
    simp only [Nat.add_sub_cancel_left, Nat.cast_add] at this
    rw [← this]
    congr 1
    ring

theorem chain_cons (b : List Nat) (bs : List (List Nat)) :
    chain (b :: bs) = (b.length :: b) ++ chain bs := by
  simp [chain]

theorem chain_nil : chain [] = [0] := by
  simp [chain]

theorem packBits_width_le {ctsz : Nat} {d : Dec} {rest tail : List Nat}
    (h : decode ctsz d rest = some tail) : widthOf ctsz d ≤ (packBits ctsz d rest).2 := by
  obtain ⟨c, cs, rfl, hcase⟩ := decode_cons h
  simp only [packBits]
  omega

/-- The loop over the sub-blocks on a valid stream: it returns 1 with the
cursor behind the terminator and the pixel string stored. -/
theorem blockLoop_ok {ctsz : Nat} (h2 : 2 ≤ ctsz) (h8 : ctsz ≤ 8) {out0 : Int → Nat}
    {full : List Nat} (m : Mem) :
    ∀ (bs : List (List Nat)) (b : List Nat) (n : Nat) (c : Cur) (s : Lzw) (d : Dec)
      (acc rest : List Nat) (a : Nat),
      StreamOK ctsz out0 full s d acc rest a (b :: bs).flatten → a < widthOf ctsz d →
      holds m c.buff (b ++ chain bs) →
      (∀ blk ∈ b :: bs, 0 < blk.length ∧ blk.length ≤ 255 ∧ ∀ x ∈ blk, x < 256) →
      (b.length : Int) + 1 + (chain bs).length ≤ c.size → (b :: bs).length ≤ n →
      ∃ c' s', blockLoop m ctsz n (b.length : Nat) c s = some (FrameOut.ret 1 c' s') ∧
        c'.buff = c.buff + (b.length : Nat) + ((chain bs).length : Nat) ∧
        c'.size = c.size - ((b.length : Nat) + 1 + ((chain bs).length : Nat)) ∧
        s'.out = writeAt out0 0 full ∧ (s'.bptr = full.length ∧ s'.top ≤ full.length) := by
  intro bs
  induction bs with
  | nil =>
    intro b n c s d acc rest a hs haw hm hbl hsz hn
    obtain ⟨n, rfl⟩ : ∃ n', n = n' + 1 := ⟨n - 1, by simp at hn; omega⟩
    obtain ⟨hmb, hmc⟩ := holds_append hm
    rw [chain_nil] at hsz hmc ⊢
    simp only [List.length_singleton, Nat.cast_one] at hsz ⊢
    have hterm : m (c.buff + (b.length : Nat)) = 0 := by
      have := hmc 0 (by simp)
      simpa using this
    rw [blockLoop]
    simp only
    rw [if_neg (by omega), Int.toNat_ofNat]
    have hs' : StreamOK ctsz out0 full s d acc rest a (b ++ [].flatten) := by simpa using hs
    rcases wordLoop_ok h2 h8 m (b.length + 1) b ⟨c.buff, c.size - ((b.length : Nat) + 1), c.hi⟩ s d acc rest a
        hs' haw hmb (hbl b (List.mem_cons_self _ _)).2.2 (le_refl _) with
      ⟨q, c', s', hw, hbf, hsz', -, ho, hp⟩ | ⟨q, c', s', d', acc', rest', a', hw, hbf, hsz', hst, ha'⟩
    · rw [hw]
      simp only at hbf hsz' ⊢
      rw [hbf]
      have : rd8 m (c.buff + (b.length : Nat)) = 0 := by unfold rd8; rw [hterm]
      simp only [this, ne_eq, not_true_eq_false, if_false]
      refine ⟨_, s', rfl, rfl, ?_, ho, hp⟩
      simp only [hsz']
      ring
    · exfalso
      obtain ⟨-, -, -, hlo, -, tail, hdec, -⟩ := hst
      have := packBits_width_le hdec
      simp at hlo
      omega
  | cons b' bs' ih =>
    intro b n c s d acc rest a hs haw hm hbl hsz hn
    obtain ⟨n, rfl⟩ : ∃ n', n = n' + 1 := ⟨n - 1, by simp at hn; omega⟩
    obtain ⟨hmb, hmc⟩ := holds_append hm
    rw [chain_cons] at hsz hmc ⊢
    simp only [List.cons_append, List.length_cons, List.length_append, Nat.cast_add, Nat.cast_one] at hsz ⊢
    obtain ⟨hlen, hmc'⟩ := holds_cons hmc
    have hb' := hbl b' (List.mem_cons_of_mem _ (List.mem_cons_self _ _))
    rw [blockLoop]
    simp only
    rw [if_neg (by omega), Int.toNat_ofNat]
    have hs' : StreamOK ctsz out0 full s d acc rest a (b ++ (b' :: bs').flatten) := by simpa using hs
    rcases wordLoop_ok h2 h8 m (b.length + 1) b ⟨c.buff, c.size - ((b.length : Nat) + 1), c.hi⟩ s d acc rest a
        hs' haw hmb (hbl b (List.mem_cons_self _ _)).2.2 (le_refl _) with
      ⟨q, c', s', hw, hbf, hsz', hl, ho, hp⟩ | ⟨q, c', s', d', acc', rest', a', hw, hbf, hsz', hst, ha'⟩
    · exfalso
      have h0 : b' = [] := by
        cases b' with
        | nil => rfl
        | cons x t => simp at hl
      have := hb'.1
      rw [h0] at this
      simp at this
    · rw [hw]
      simp only at hbf hsz' ⊢
      rw [hbf]
      have hr : rd8 m (c.buff + (b.length : Nat)) = b'.length := by
        unfold rd8; rw [hlen]; omega
      have hne : (b'.length : Nat) ≠ 0 := by omega
      simp only [hr, ne_eq, hne, not_false_eq_true, if_true]
      obtain ⟨c'', s'', hbl', hb1, hb2, hb3, hb4⟩ :=
        ih b' n ⟨c.buff + (b.length : Nat) + 1, c'.size, max c'.hi (c.buff + (b.length : Nat) + 1)⟩
          s' d' acc' rest' a' hst ha' hmc'
          (fun blk hblk => hbl blk (List.mem_cons_of_mem _ hblk))
          (by simp only [hsz']; omega) (by simp at hn ⊢; omega)
      refine ⟨c'', s'', hbl', ?_, ?_, hb3, hb4⟩
      · rw [hb1]; simp only; ring
      · rw [hb2]; simp only [hsz']; ring

theorem packBits_lt {ctsz : Nat} (h8 : ctsz ≤ 8) :
    ∀ (rest : List Nat) (d : Dec) (tail : List Nat), decode ctsz d rest = some tail →
      (packBits ctsz d rest).1 < 2 ^ (packBits ctsz d rest).2 := by
  intro rest
  induction rest with
  | nil => intro d tail h; simp [decode] at h
  | cons c cs ih =>
    intro d tail h
    obtain ⟨c', cs', hrest, hcase⟩ := decode_cons h
    cases hrest
    rcases hcase with ⟨hce, rfl, -, -⟩ | ⟨hne, d1, str, t, hstep, hdec1, -⟩
    · rw [packBits_end, hce]
      exact end_lt ctsz h8 d
    · rw [packBits_cons cs hstep]
      simp only
      have h1 := decStep_lt h8 hstep
      have h2 := ih d1 t hdec1
      rw [pow_add]
      have hp := Nat.two_pow_pos (widthOf ctsz d)
      calc c + 2 ^ widthOf ctsz d * (packBits ctsz d1 cs).1
          < 2 ^ widthOf ctsz d + 2 ^ widthOf ctsz d * (packBits ctsz d1 cs).1 := by omega
        _ = 2 ^ widthOf ctsz d * ((packBits ctsz d1 cs).1 + 1) := by ring
        _ ≤ 2 ^ widthOf ctsz d * 2 ^ (packBits ctsz d1 cs).2 := Nat.mul_le_mul_left _ h2

theorem bytesVal_digits (n : Nat) : ∀ V : Nat,
    bytesVal ((List.range n).map (fun i => V / 256 ^ i % 256)) = V % 256 ^ n := by
  induction n with
  | zero => intro V; simp [bytesVal, Nat.mod_one]
  | succ n ih =>
    intro V
    rw [List.range_succ_eq_map, List.map_cons, List.map_map, bytesVal]
    have e : ((fun i => V / 256 ^ i % 256) ∘ Nat.succ) = (fun i => (V / 256) / 256 ^ i % 256) := by
      funext i
      simp only [Function.comp, Nat.succ_eq_add_one, pow_succ, Nat.div_div_eq_div_mul]
      rw [Nat.mul_comm]
    rw [e, ih (V / 256), pow_succ, Nat.mul_comm (256 ^ n) 256, Nat.mod_mul]
    simp

theorem payload_val {ctsz : Nat} (h8 : ctsz ≤ 8) {codes pixels : List Nat}
    (h : decode ctsz Dec.start codes = some pixels) :
    bytesVal (payload ctsz codes) = (packBits ctsz Dec.start codes).1 ∧
    (packBits ctsz Dec.start codes).2 ≤ 8 * (payload ctsz codes).length ∧
    8 * (payload ctsz codes).length < (packBits ctsz Dec.start codes).2 + 8 ∧
    ∀ x ∈ payload ctsz codes, x < 256 := by
  have hlt := packBits_lt h8 codes Dec.start pixels h
  unfold payload
  simp only [List.length_map, List.length_range]
  refine ⟨?_, by omega, by omega, ?_⟩
  · rw [bytesVal_digits]
    apply Nat.mod_eq_of_lt
    calc (packBits ctsz Dec.start codes).1 < 2 ^ (packBits ctsz Dec.start codes).2 := hlt
      _ ≤ 2 ^ (8 * (((packBits ctsz Dec.start codes).2 + 7) / 8)) :=
          Nat.pow_le_pow_right (by decide) (by omega)
      _ = 256 ^ (((packBits ctsz Dec.start codes).2 + 7) / 8) := by rw [pow_mul]; rfl
  · intro x hx
    simp only [List.mem_map, List.mem_range] at hx
    obtain ⟨i, -, rfl⟩ := hx
    exact Nat.mod_lt _ (by decide)

theorem writeAt_nil (out : Int → Nat) (p : Int) : writeAt out p [] = out := by
  funext j
  unfold writeAt
  have : ¬ (p ≤ j ∧ j < p + (([] : List Nat).length : Nat)) := by simp
  rw [if_neg this]

theorem and_or_self (a x : Nat) : (a &&& x) ||| x = x := by
  apply Nat.eq_of_testBit_eq
  intro i
  rw [Nat.testBit_or, Nat.testBit_and]
  cases a.testBit i <;> cases x.testBit i <;> rfl

theorem chain_length_ge (bs : List (List Nat)) : bs.length + 1 ≤ (chain bs).length := by
  induction bs with
  | nil => simp [chain]
  | cons b t ih =>
    rw [chain_cons]
    simp only [List.cons_append, List.length_cons, List.length_append]
    omega

/-- The first pass through the word loop does not depend on `curr` holding
the first code already (lines 119 and 130). -/
theorem blockLoop_first (m : Mem) (ctsz n : Nat) (bseq : Int) (c : Cur) (s : Lzw)
    (hsz : ¬ (c.size - (bseq + 1) ≤ 0)) (hb : 2 ≤ bseq) (h0 : (s.ccsz + s.bszc).toNat = 0)
    (hc : s.curr ||| (rd16 m c.buff &&& 0xFFFFFFFF) % 65536 = (rd16 m c.buff &&& 0xFFFFFFFF) % 65536) :
    blockLoop m ctsz (n + 1) bseq c s = blockLoop m ctsz (n + 1) bseq c { s with curr := 0 } := by
  have hw : wordLoop m ctsz (bseq.toNat + 1) bseq { c with size := c.size - (bseq + 1) } s
      = wordLoop m ctsz (bseq.toNat + 1) bseq { c with size := c.size - (bseq + 1) } { s with curr := 0 } := by
    rw [wordLoop, wordLoop]
    have hpos : bseq > 0 := by omega
    have h2 : ¬ bseq < 2 := by omega
    simp only [hpos, h2, if_true, if_false]
    have e : loadWord s ((rd16 m c.buff &&& 0xFFFFFFFF) % 65536) 2
        = loadWord { s with curr := 0 } ((rd16 m c.buff &&& 0xFFFFFFFF) % 65536) 2 := by
      unfold loadWord
      simp only [h0, Nat.shiftLeft_zero, hc, Nat.zero_or]
    rw [e]
  rw [blockLoop, blockLoop]
  simp only [hsz, if_false]
  rw [hw]

/-! ## `_GIF_LoadFrame` on a valid stream -/

/-- On a valid code stream `_GIF_LoadFrame` returns 1, leaves the cursor behind
the terminator and has stored the canonical pixel string from the start of
the pixel area, touching nothing else. -/
theorem loadFrame_valid {ctsz : Nat} (h2 : 2 ≤ ctsz) (h8 : ctsz ≤ 8) {codes pixels : List Nat}
    {blocks : List (List Nat)} (hdec : decode ctsz Dec.start codes = some pixels)
    (hch : chunks ctsz codes blocks) (m : Mem) (c : Cur)
    (hm : holds m c.buff (frameData ctsz blocks))
    (hsz : ((frameData ctsz blocks).length : Int) ≤ c.size) (code0 : Nat → Nat) (out0 : Int → Nat) :
    ∃ c' s', _GIF_LoadFrame m c code0 out0 = some (FrameOut.ret 1 c' s') ∧
      c'.buff = c.buff + ((frameData ctsz blocks).length : Nat) ∧
      c'.size = c.size - ((frameData ctsz blocks).length : Nat) ∧
      s'.out = writeAt out0 0 pixels ∧ (s'.bptr = pixels.length ∧ s'.top ≤ pixels.length) := by
  obtain ⟨hflat, hblk, hhead⟩ := hch
  obtain ⟨hval, hlo, hhi, hbytes⟩ := payload_val h8 hdec
  have hD := pow_bounds ctsz h2 h8
  -- the first sub-block has two bytes at least
  obtain ⟨b, bs, rfl⟩ : ∃ b bs, blocks = b :: bs := by
    cases blocks with
    | nil => simp at hhead
    | cons b bs => exact ⟨b, bs, rfl⟩
  simp only [List.headD_cons] at hhead
  obtain ⟨b0, b1, t, rfl⟩ : ∃ b0 b1 t, b = b0 :: b1 :: t := by
    match b, hhead with
    | b0 :: b1 :: t, _ => exact ⟨b0, b1, t, rfl⟩
  have hblk' := hblk
  -- what the memory holds
  unfold frameData at hm hsz ⊢
  rw [chain_cons] at hm hsz ⊢
  obtain ⟨hm0, hm'⟩ := holds_cons hm
  obtain ⟨hm1, hm2⟩ := holds_cons hm'
  have hm2' : holds m (c.buff + 2) ((b0 :: b1 :: t) ++ chain bs) := by
    have : c.buff + 1 + 1 = c.buff + 2 := by ring
    rw [← this]; exact hm2
  obtain ⟨hb0, hm3⟩ := holds_cons hm2'
  obtain ⟨hb1, -⟩ := holds_cons hm3
  have hx0 : b0 < 256 := hbytes b0 (by rw [← hflat]; simp)
  have hx1 : b1 < 256 := hbytes b1 (by rw [← hflat]; simp)
  have hr16 : rd16 m (c.buff + 2) = b0 + 256 * b1 := by
    unfold rd16 rd8
    rw [hb0, hb1]; omega
  -- the first code is CLEAR
  obtain ⟨c0, cs, rfl, hcase⟩ := decode_cons hdec
  have hc0 : c0 = 2 ^ ctsz := by
    rcases hcase with ⟨-, -, -, dict, prev, hd⟩ | ⟨-, d1, str, tl, hstep, -, -⟩
    · cases hd
    · simp only [decStep] at hstep
      by_contra hne
      rw [if_neg hne] at hstep
      cases hstep
  subst hc0
  have hw := widthOf_start ctsz h2 h8
  have hstep : decStep ctsz Dec.start (2 ^ ctsz) = some (Dec.fresh, []) := by simp [decStep]
  have hV : (packBits ctsz Dec.start (2 ^ ctsz :: cs)).1 % 2 ^ (ctsz + 1) = 2 ^ ctsz := by
    rw [packBits_cons cs hstep, hw]
    simp only
    apply add_mul_mod
    rw [pow_succ]; omega
  have hV16 : (packBits ctsz Dec.start (2 ^ ctsz :: cs)).1 % 65536 = b0 + 256 * b1 := by
    rw [← hval, ← hflat]
    simp only [List.flatten_cons, List.cons_append, bytesVal]
    omega
  have hmask : (2 ^ (ctsz + 1) - 1) % 65536 = 2 ^ (ctsz + 1) - 1 := by
    apply Nat.mod_eq_of_lt
    have : 2 ^ (ctsz + 1) ≤ 2 ^ 9 := Nat.pow_le_pow_right (by decide) (by omega)
    have : (2:Nat) ^ 9 < 65536 := by decide
    omega
  have hcurr : (2 ^ (ctsz + 1) - 1) &&& rd16 m (c.buff + 2) = 2 ^ ctsz := by
    rw [Nat.land_comm, Nat.and_pow_two_sub_one_eq_mod, hr16, ← hV16]
    have : (2 : Nat) ^ (ctsz + 1) ∣ 65536 := by
      have : (65536 : Nat) = 2 ^ 16 := by decide
      rw [this]
      exact pow_dvd_pow 2 (by omega)
    rw [Nat.mod_mod_of_dvd _ this, hV]
  have hr0 : rd8 m c.buff = ctsz := by unfold rd8; rw [hm0]; omega
  have hL := (hblk' _ (List.mem_cons_self _ _)).2
  have hr1 : rd8 m (c.buff + 1) = (b0 :: b1 :: t).length := by
    unfold rd8; rw [hm1]; omega
  simp only [List.length_cons, List.length_append, Nat.cast_add, Nat.cast_one] at hsz
  have hclen := chain_length_ge bs
  have hs1 : ¬ (c.size - 1 ≤ 2) := by omega
  have hne0 : ¬ ((b0 :: b1 :: t).length = 0) := by simp
  have hct : ¬ (ctsz < 2 ∨ ctsz > 8) := by omega
  unfold _GIF_LoadFrame
  simp only [hs1, hr0, hr1, hne0, hct, hmask, hcurr, if_false, Nat.shiftLeft_eq, one_mul, ne_eq,
    not_true_eq_false]
  obtain ⟨n, hn⟩ : ∃ n, (c.size - 1).toNat = n + 1 := ⟨(c.size - 1).toNat - 1, by omega⟩
  rw [hn]
  have hX : (rd16 m (c.buff + 2) &&& 0xFFFFFFFF) % 65536 = b0 + 256 * b1 :=
    load_two m (c.buff + 2) b0 b1 hb0 hb1 hx0 hx1
  rw [blockLoop_first m ctsz n _ _ _ (by simp only [List.length_cons, Nat.cast_add, Nat.cast_one]; omega)
    (by simp only [List.length_cons, Nat.cast_add, Nat.cast_one]; omega) (by simp only; omega)
    (by
      simp only
      rw [hX, ← hr16, ← hcurr]
      exact and_or_self _ _)]
  have hst : StreamOK ctsz out0 pixels
      { code := fun i => if i < 2 ^ ctsz then i * 2 ^ 24 else code0 i, out := out0, bptr := 0,
        ctbl := 2 ^ ctsz, curr := 0, prev := 0, mask := 2 ^ (ctsz + 1) - 1, load := 0,
        ccsz := (ctsz : Int) + 1, bszc := -((ctsz : Int) + 1), top := 0 }
      Dec.start [] (2 ^ ctsz :: cs) 0 ((b0 :: b1 :: t) :: bs).flatten := by
    refine ⟨⟨?_, ⟨rfl, le_refl _⟩, ?_, ?_, ?_, trivial⟩, ⟨?_, ?_, ?_, ?_⟩, ?_, ?_, ?_, pixels, hdec, rfl⟩
    · simp only [writeAt_nil]
    · simp only [hw]; push_cast; rfl
    · simp only [hw]
    · intro j hj
      simp only [hj, if_true]
      rw [Nat.mul_comm]; rfl
    · simp [Nat.mod_one]
    · simp [Nat.mod_one]
    · simp only [hw]; push_cast; ring
    · show (0 : Nat) < 65536
      decide
    · rw [hflat, hval]; simp
    · rw [hflat]; omega
    · rw [hflat]; omega
  obtain ⟨c', s', hbl, h1, h2', h3, h4⟩ := blockLoop_ok h2 h8 m bs (b0 :: b1 :: t) (n + 1)
    ⟨c.buff + 2, c.size - 1, max (max c.hi (c.buff + 2)) (c.buff + 2 + 2)⟩ _ Dec.start [] _ 0 hst
    (by rw [hw]; omega) hm2'
    (fun blk hblk => ⟨(hblk' blk hblk).1, (hblk' blk hblk).2, fun x hx => hbytes x (by
      rw [← hflat]; exact List.mem_flatten.mpr ⟨blk, hblk, hx⟩)⟩)
    (by simp only [List.length_cons, Nat.cast_add, Nat.cast_one]; omega)
    (by simp only [List.length_cons]; omega)
  refine ⟨c', s', hbl, ?_, ?_, h3, h4⟩
  · rw [h1]
    simp only [List.length_cons, List.length_append, Nat.cast_add, Nat.cast_one]
    ring
  · rw [h2']
    simp only [List.length_cons, List.length_append, Nat.cast_add, Nat.cast_one]
    ring

/-! ## `GIF_Load` on a well-formed file -/

theorem skipLoop_chain (m : Mem) :
    ∀ (subs : List (List Nat)) (n : Nat) (c : Cur), subsOK subs → holds m c.buff (chain subs) →
      ((chain subs).length : Int) < c.size → subs.length + 1 ≤ n →
      ∃ hi', skipLoop m n c =
        some (1, ⟨c.buff + ((chain subs).length : Nat), c.size - ((chain subs).length : Nat), hi'⟩) := by
  intro subs
  induction subs with
  | nil =>
    intro n c _ hm hsz hn
    obtain ⟨n, rfl⟩ : ∃ n', n = n' + 1 := ⟨n - 1, by omega⟩
    rw [chain_nil] at hm hsz ⊢
    have h0 := (holds_cons hm).1
    have hr : rd8 m c.buff = 0 := by unfold rd8; rw [h0]
    simp only [List.length_singleton, Nat.cast_one] at hsz ⊢
    rw [skipLoop]
    simp only [hr, Nat.cast_zero, add_zero]
    rw [if_neg (by omega), if_neg (by decide)]
    exact ⟨_, rfl⟩
  | cons b t ih =>
    intro n c hs hm hsz hn
    obtain ⟨n, rfl⟩ : ∃ n', n = n' + 1 := ⟨n - 1, by omega⟩
    rw [chain_cons] at hm hsz ⊢
    obtain ⟨h0, hm'⟩ := holds_cons hm
    obtain ⟨-, hm2⟩ := holds_append hm'
    have hb := hs b (List.mem_cons_self _ _)
    have hr : rd8 m c.buff = b.length := by unfold rd8; rw [h0]; omega
    simp only [List.cons_append, List.length_cons, List.length_append, Nat.cast_add, Nat.cast_one]
      at hsz ⊢
    rw [skipLoop]
    simp only [hr]
    rw [if_neg (by omega), if_pos (by omega)]
    have hm3 : holds m (c.buff + (1 + (b.length : Int))) (chain t) := by
      have : c.buff + 1 + ((b.length : Nat) : Int) = c.buff + (1 + (b.length : Int)) := by ring
      rw [← this]; exact hm2
    obtain ⟨hi', h⟩ := ih n ⟨c.buff + (1 + (b.length : Int)), c.size - (1 + (b.length : Int)),
        max c.hi (c.buff + 1)⟩ (fun x hx => hs x (List.mem_cons_of_mem _ hx)) hm3
        (by simp only; omega) (by simp at hn; omega)
    refine ⟨hi', ?_⟩
    rw [h]
    simp only
    congr 3
    · ring
    · ring

/-- `_GIF_SkipChunk` steps over one byte and a well-formed chain behind it,
provided a byte is left behind the terminator. -/
theorem skipChunk_chain (m : Mem) (subs : List (List Nat)) (c : Cur) (hs : subsOK subs)
    (hm : holds m (c.buff + 1) (chain subs)) (hsz : 1 + ((chain subs).length : Int) < c.size) :
    ∃ hi', _GIF_SkipChunk m c =
      some (1, ⟨c.buff + 1 + ((chain subs).length : Nat), c.size - 1 - ((chain subs).length : Nat), hi'⟩) := by
  unfold _GIF_SkipChunk
  simp only
  rw [if_neg (by omega)]
  have hl := chain_length_ge subs
  obtain ⟨hi', h⟩ := skipLoop_chain m subs (c.size - 1).toNat ⟨c.buff + 1, c.size - 1, c.hi⟩ hs hm
    (by simp only; omega) (by omega)
  exact ⟨hi', h⟩

theorem shl_pos (x : Nat) : 0 < 2 <<< x := by
  rw [Nat.shiftLeft_eq]
  exact Nat.mul_pos (by decide) (Nat.two_pow_pos x)

/-- `_GIF_LoadFrameHdr` on the descriptor of a well-formed image. -/
theorem loadFrameHdr_img (gflg : Nat) (i : Img) (hw : i.wf gflg) (c : Cur) (rp : Int)
    (hsz : 9 + (i.lpal.length : Int) < c.size) :
    ∃ rp', _GIF_LoadFrameHdr gflg c rp i.flgs 9 =
      ⟨(i.clrs gflg : Nat), ⟨c.buff + 9 + (i.lpal.length : Nat), c.size - 9 - (i.lpal.length : Nat), c.hi⟩, rp'⟩ ∧
      0 < i.clrs gflg := by
  obtain ⟨-, -, -, -, -, hpl, hpal, -⟩ := hw
  unfold _GIF_LoadFrameHdr Img.clrs
  have h9 : (9 : Int) ≠ 0 := by decide
  simp only [h9, ne_eq, not_false_eq_true, if_true, true_and]
  rw [if_neg (by omega)]
  by_cases hl : i.flgs &&& 0x80 ≠ 0
  · have hlen : i.lpal.length = 3 * (2 <<< (i.flgs &&& 7)) := by
      rw [hpl]; unfold palLen; rw [if_pos hl]
    rw [if_pos hl, if_pos hl]
    rw [if_neg (by rw [hlen] at hsz; push_cast at hsz ⊢; omega)]
    refine ⟨c.buff + 9, ?_, shl_pos _⟩
    congr 2
    · rw [hlen]; push_cast; ring
    · rw [hlen]; push_cast; ring
  · have hlen : i.lpal.length = 0 := by
      rw [hpl]; unfold palLen; rw [if_neg hl]
    have hg : gflg &&& 0x80 ≠ 0 := by
      rcases hpal with h | h
      · exact absurd h hl
      · exact h
    rw [if_neg hl, if_neg hl, if_pos hg]
    refine ⟨rp, ?_, shl_pos _⟩
    congr 2
    · rw [hlen]; simp
    · rw [hlen]; simp

theorem Img.bytes_length (i : Img) :
    i.bytes.length = 10 + i.lpal.length + (frameData i.ctsz i.blocks).length := by
  simp [Img.bytes, le16]
  omega

/-- What the memory holds where an image is stored. -/
theorem holds_img {m : Mem} {p : Int} {i : Img} {rest : List Nat}
    (hm : holds m p (i.bytes ++ rest)) :
    m p = 0x2C ∧ m (p + 9) = i.flgs ∧
    (m (p + 5) = i.w % 256 ∧ m (p + 6) = i.w / 256 % 256 ∧
      m (p + 7) = i.h % 256 ∧ m (p + 8) = i.h / 256 % 256) ∧
    holds m (p + 10 + (i.lpal.length : Nat)) (frameData i.ctsz i.blocks) ∧
    holds m (p + (i.bytes.length : Nat)) rest := by
  obtain ⟨hb, hrest⟩ := holds_append hm
  refine ⟨?_, ?_, ⟨?_, ?_, ?_, ?_⟩, ?_, hrest⟩
  · have := hb 0 (by simp [Img.bytes])
    simpa [Img.bytes] using this
  · have := hb 9 (by simp [Img.bytes, le16])
    simpa [Img.bytes, le16] using this
  · have := hb 5 (by simp [Img.bytes, le16])
    simpa [Img.bytes, le16] using this
  · have := hb 6 (by simp [Img.bytes, le16])
    simpa [Img.bytes, le16] using this
  · have := hb 7 (by simp [Img.bytes, le16])
    simpa [Img.bytes, le16] using this
  · have := hb 8 (by simp [Img.bytes, le16])
    simpa [Img.bytes, le16] using this
  · have e : i.bytes = (0x2C :: (le16 i.xoff ++ le16 i.yoff ++ le16 i.w ++ le16 i.h ++ [i.flgs] ++ i.lpal))
        ++ frameData i.ctsz i.blocks := by
      simp [Img.bytes]
    rw [e] at hb
    have := (holds_append hb).2
    have e2 : ((0x2C :: (le16 i.xoff ++ le16 i.yoff ++ le16 i.w ++ le16 i.h ++ [i.flgs] ++ i.lpal)).length : Int)
        = 10 + (i.lpal.length : Nat) := by
      simp [le16]; ring
    rw [e2, ← add_assoc] at this
    exact this

theorem blksBytes_cons (b : Blk) (t : List Blk) : blksBytes (b :: t) = b.bytes ++ blksBytes t := by
  simp [blksBytes]

theorem frameData_length (ctsz : Nat) (blocks : List (List Nat)) :
    (frameData ctsz blocks).length = 1 + (chain blocks).length := by
  simp [frameData]; omega

/-- The counting pass over well-formed blocks reaches the 0x3B mark and has
counted the images. -/
theorem rd16_le16 (m : Mem) (p : Int) (n : Nat) (hn : n < 65536) (h0 : m p = n % 256)
    (h1 : m (p + 1) = n / 256 % 256) : rd16 m p = n := by
  unfold rd16 rd8
  rw [h0, h1]
  omega

theorem countLoop_wf (m : Mem) (gflg : Nat) :
    ∀ (blks : List Blk) (n : Nat) (c : Cur) (w : GIF_WHDR) (a b : Nat),
      (∀ b ∈ blks, b.wf gflg) → holds m c.buff (blksBytes blks ++ [0x3B]) →
      ((blksBytes blks).length : Int) + 1 ≤ c.size → blks.length + 1 ≤ n →
      w.frxd = a → w.fryd = b →
      ∃ c' w', countLoop m gflg n c w = some (0x3B, c', w') ∧
        w'.ifrm = w.ifrm + ((imgsOf blks).length : Nat) ∧
        w'.frxd = ((((imgsOf blks).map Img.w).foldl max a : Nat) : Int) ∧
        w'.fryd = ((((imgsOf blks).map Img.h).foldl max b : Nat) : Int) := by
  intro blks
  induction blks with
  | nil =>
    intro n c w a b _ hm _ hn ha hb
    obtain ⟨n, rfl⟩ : ∃ n', n = n' + 1 := ⟨n - 1, by omega⟩
    have h0 : m c.buff = 0x3B := by
      have := hm 0 (by simp [blksBytes])
      simpa [blksBytes] using this
    have hr : rd8 m c.buff = 0x3B := by unfold rd8; rw [h0]
    rw [countLoop]
    simp only [hr, if_true]
    exact ⟨_, _, rfl, by simp [imgsOf], by simpa [imgsOf] using ha, by simpa [imgsOf] using hb⟩
  | cons b t ih =>
    intro n c w a0 b0 hwf hm hsz hn ha hb
    obtain ⟨n, rfl⟩ : ∃ n', n = n' + 1 := ⟨n - 1, by omega⟩
    rw [blksBytes_cons] at hm hsz
    rw [List.append_assoc] at hm
    have hwt : ∀ b ∈ t, b.wf gflg := fun x hx => hwf x (List.mem_cons_of_mem _ hx)
    have hwb := hwf b (List.mem_cons_self _ _)
    simp only [List.length_append, Nat.cast_add] at hsz
    cases b with
    | ext l subs =>
      obtain ⟨-, hsubs⟩ := hwb
      simp only [Blk.bytes, List.cons_append, List.length_cons, Nat.cast_add, Nat.cast_one] at hm hsz
      obtain ⟨h0, hm1⟩ := holds_cons hm
      obtain ⟨-, hm2⟩ := holds_cons hm1
      obtain ⟨hmc, hmr⟩ := holds_append hm2
      have hr : rd8 m c.buff = 0x21 := by unfold rd8; rw [h0]
      obtain ⟨hi', hsk⟩ := skipChunk_chain m subs ⟨c.buff + 1, c.size - 1, max c.hi (c.buff + 1)⟩ hsubs
        hmc (by simp only; omega)
      rw [countLoop]
      simp only [hr]
      rw [if_neg (by decide), if_neg (by decide), hsk]
      simp only
      rw [if_neg (by decide)]
      obtain ⟨c', w', h, hi, hx, hy⟩ := ih n
        ⟨c.buff + 1 + 1 + ((chain subs).length : Nat), c.size - 1 - 1 - ((chain subs).length : Nat), hi'⟩
        w a0 b0 hwt hmr (by simp only; omega) (by simp at hn; omega) ha hb
      exact ⟨c', w', h, by rw [hi]; simp [imgsOf], by simpa [imgsOf] using hx,
        by simpa [imgsOf] using hy⟩
    | img i =>
      have hwi : i.wf gflg := hwb
      obtain ⟨h0, hflg, ⟨hw0, hw1, hh0, hh1⟩, hfd, hrest⟩ := holds_img hm
      have hfx : rd16 m (c.buff + 1 + 4) = i.w := by
        apply rd16_le16 m _ _ hwi.2.2.1
        · rw [← hw0]; congr 1; ring
        · rw [← hw1]; congr 1; ring
      have hfy : rd16 m (c.buff + 1 + 6) = i.h := by
        apply rd16_le16 m _ _ hwi.2.2.2.1
        · rw [← hh0]; congr 1; ring
        · rw [← hh1]; congr 1; ring
      have hfd' := (holds_cons hfd).2
      have hlen := i.bytes_length
      have hfl := frameData_length i.ctsz i.blocks
      simp only [Blk.bytes] at hsz
      have hr : rd8 m c.buff = 0x2C := by unfold rd8; rw [h0]
      have hrf : rd8 m (c.buff + 1 + 8) = i.flgs := by
        have : c.buff + 1 + 8 = c.buff + 9 := by ring
        unfold rd8; rw [this, hflg]
        exact Nat.mod_eq_of_lt hwi.2.2.2.2.1
      obtain ⟨rp', hh, hpos⟩ := loadFrameHdr_img gflg i hwi
        ⟨c.buff + 1, c.size - 1, max (max c.hi (c.buff + 1)) (c.buff + 1 + 9)⟩ w.cpal
        (by simp only; omega)
      obtain ⟨hi', hsk⟩ := skipChunk_chain m i.blocks
        ⟨c.buff + 1 + 9 + (i.lpal.length : Nat), c.size - 1 - 9 - (i.lpal.length : Nat),
          max (max c.hi (c.buff + 1)) (c.buff + 1 + 9)⟩ hwi.2.2.2.2.2.2.2.2.2.2.2.1
        (by
          have : c.buff + 1 + 9 + ((i.lpal.length : Nat) : Int) + 1
              = c.buff + 10 + (i.lpal.length : Nat) + 1 := by ring
          simp only
          rw [this]; exact hfd')
        (by simp only; omega)
      simp only at hh hsk
      rw [countLoop]
      simp only [hr, hrf, if_true]
      rw [if_neg (by decide), hh]
      simp only
      rw [if_neg (by omega), hsk]
      simp only
      rw [if_neg (by decide)]
      have hbuf : c.buff + 1 + 9 + ((i.lpal.length : Nat) : Int) + 1 + ((chain i.blocks).length : Nat)
          = c.buff + ((Blk.img i).bytes.length : Nat) := by
        simp only [Blk.bytes, hlen, hfl]; push_cast; ring
      rw [hbuf]
      obtain ⟨c', w', h, hi, hx, hy⟩ := ih n ⟨c.buff + ((Blk.img i).bytes.length : Nat),
          c.size - 1 - 9 - (i.lpal.length : Nat) - 1 - ((chain i.blocks).length : Nat), hi'⟩
        { w with cpal := rp', frxo := rd16 m (c.buff + 1 + 4), fryo := rd16 m (c.buff + 1 + 6),
                 frxd := if w.frxd > rd16 m (c.buff + 1 + 4) then w.frxd else rd16 m (c.buff + 1 + 4),
                 fryd := if w.fryd > rd16 m (c.buff + 1 + 6) then w.fryd else rd16 m (c.buff + 1 + 6),
                 ifrm := w.ifrm + 1 }
        (max a0 i.w) (max b0 i.h) hwt hrest
        (by simp only [hlen, hfl] at hsz ⊢; push_cast at hsz ⊢; omega) (by simp at hn; omega)
        (by simp only [ha, hfx]; split_ifs <;> omega)
        (by simp only [hb, hfy]; split_ifs <;> omega)
      refine ⟨c', w', h, ?_, ?_, ?_⟩
      · rw [hi]
        simp [imgsOf]
        ring
      · simpa [imgsOf] using hx
      · simpa [imgsOf] using hy

theorem extTail_skip (m : Mem) (desc : Nat) (e : Ext) (k : Ext → Option (Bool × Ext)) (c3 : Cur)
    (hd : desc ≠ 0x3B) (hs : _GIF_SkipChunk m e.c = some (1, c3)) :
    extTail m desc e k = k { e with c := c3 } := by
  unfold extTail
  rw [if_neg hd, hs]
  simp

/-- The delivery of a frame whose image data is a valid stream (lines 298-316). -/
theorem extFrame_deliver (m : Mem) (skip fhdr : Int) (e : Ext) (i : Img) (gflg : Nat)
    (hwi : i.wf gflg) (hge : e.w.ifrm ≥ skip) (hclrs : 0 < e.w.clrs)
    (hm : holds m e.c.buff (frameData i.ctsz i.blocks))
    (hsz : ((frameData i.ctsz i.blocks).length : Int) ≤ e.c.size)
    (hfit : (i.pixels.length : Int) ≤ e.area) :
    ∃ e2, extFrame m skip fhdr e = some (some e2) ∧
      e2.c.buff = e.c.buff + ((frameData i.ctsz i.blocks).length : Nat) ∧
      e2.c.size = e.c.size - ((frameData i.ctsz i.blocks).length : Nat) ∧
      e2.w.ifrm = e.w.ifrm ∧ e2.w.nfrm = e.w.nfrm ∧ e2.w.clrs = e.w.clrs ∧
      e2.w.frxd = rd16 m (fhdr + 4) ∧ e2.w.fryd = rd16 m (fhdr + 6) ∧
      e2.out = writeAt e.out 0 i.pixels ∧ e2.frames = e.frames ++ [⟨e2.w, e2.out⟩] ∧
      e2.area = e.area := by
  obtain ⟨-, -, -, -, -, -, -, h2, h8, hdec, hch⟩ := hwi
  obtain ⟨pixels, hpx⟩ := Option.isSome_iff_exists.mp hdec
  have hpix : i.pixels = pixels := by unfold Img.pixels; rw [hpx]; rfl
  obtain ⟨c2, s, hlf, hb, hs, hout, -, htop⟩ :=
    loadFrame_valid h2 h8 hpx hch m e.c hm hsz e.code e.out
  unfold extFrame
  rw [if_pos hge, if_neg (by omega), hlf]
  simp only
  rw [if_neg (by rw [hpix] at hfit; omega), if_neg (by decide)]
  refine ⟨_, rfl, ?_, ?_, rfl, rfl, rfl, rfl, rfl, ?_, rfl, rfl⟩
  · simp only [hb]
  · simp only [hs]
  · simp only [hout, hpix]

/-- The extraction pass over well-formed blocks reaches the 0x3B mark, has
counted the images and has delivered those from index `skip` on. -/
theorem extLoop_wf (m : Mem) (gflg : Nat) (amdf : Bool) (skip N : Int) (hs0 : 0 ≤ skip)
    (hsN : skip < N) (A : Int) :
    ∀ (blks : List Blk) (n : Nat) (e : Ext),
      (∀ b ∈ blks, b.wf gflg) → holds m e.c.buff (blksBytes blks ++ [0x3B]) →
      ((blksBytes blks).length : Int) + 1 ≤ e.c.size → blks.length + 1 ≤ n →
      e.w.nfrm = N → e.area = A → fitsFrom skip A blks e.w.ifrm →
      ∃ e', extLoop m gflg amdf skip n e = some (true, e') ∧
        e'.w.ifrm = e.w.ifrm + ((imgsOf blks).length : Nat) ∧ e'.w.nfrm = N ∧
        ∃ L, e'.frames = e.frames ++ L ∧
          L.map Delivered.sum = expect gflg skip N blks e.w.ifrm e.out := by
  intro blks
  induction blks with
  | nil =>
    intro n e _ hm _ hn hN _ _
    obtain ⟨n, rfl⟩ : ∃ n', n = n' + 1 := ⟨n - 1, by omega⟩
    have h0 : m e.c.buff = 0x3B := by
      have := hm 0 (by simp [blksBytes])
      simpa [blksBytes] using this
    have hr : rd8 m e.c.buff = 0x3B := by unfold rd8; rw [h0]
    rw [extLoop]
    rw [if_pos (by rw [hN, if_neg (by omega)]; exact hsN)]
    simp only [hr]
    rw [if_neg (by decide), if_neg (by decide)]
    unfold extTail
    rw [if_pos rfl]
    exact ⟨_, rfl, by simp [imgsOf], hN, [], by simp, by simp [expect]⟩
  | cons b t ih =>
    intro n e hwf hm hsz hn hN hA hfit
    obtain ⟨n, rfl⟩ : ∃ n', n = n' + 1 := ⟨n - 1, by omega⟩
    rw [blksBytes_cons] at hm hsz
    rw [List.append_assoc] at hm
    have hwt : ∀ b ∈ t, b.wf gflg := fun x hx => hwf x (List.mem_cons_of_mem _ hx)
    have hwb := hwf b (List.mem_cons_self _ _)
    have hcond : skip < (if e.w.nfrm < 0 then -e.w.nfrm else e.w.nfrm) := by
      rw [hN, if_neg (by omega)]; exact hsN
    simp only [List.length_append, Nat.cast_add] at hsz
    cases b with
    | ext l subs =>
      obtain ⟨hl, hsubs⟩ := hwb
      simp only [Blk.bytes, List.cons_append, List.length_cons, Nat.cast_add, Nat.cast_one] at hm hsz
      obtain ⟨h0, hm1⟩ := holds_cons hm
      obtain ⟨-, hm2⟩ := holds_cons hm1
      obtain ⟨hmc, hmr⟩ := holds_append hm2
      have hr : rd8 m e.c.buff = 0x21 := by unfold rd8; rw [h0]
      obtain ⟨hi', hsk⟩ := skipChunk_chain m subs
        ⟨e.c.buff + 1, e.c.size - 1, max (max e.c.hi (e.c.buff + 1)) (e.c.buff + 1 + 1)⟩ hsubs
        hmc (by simp only; omega)
      have key : ∀ e1 : Ext, e1.c = ⟨e.c.buff + 1, e.c.size - 1,
          max (max e.c.hi (e.c.buff + 1)) (e.c.buff + 1 + 1)⟩ → e1.w = e.w → e1.out = e.out →
          e1.frames = e.frames → e1.area = A →
          ∃ e', extTail m 0x21 e1 (extLoop m gflg amdf skip n) = some (true, e') ∧
            e'.w.ifrm = e.w.ifrm + ((imgsOf (Blk.ext l subs :: t)).length : Nat) ∧ e'.w.nfrm = N ∧
            ∃ L, e'.frames = e.frames ++ L ∧
              L.map Delivered.sum = expect gflg skip N (Blk.ext l subs :: t) e.w.ifrm e.out := by
        intro e1 hc hw ho hf ha
        rw [extTail_skip m 0x21 e1 _ _ (by decide) (by rw [hc]; exact hsk)]
        obtain ⟨e', h, hi, hnf, L, hL, hLs⟩ := ih n
          { e1 with c := ⟨e.c.buff + 1 + 1 + ((chain subs).length : Nat),
                          e.c.size - 1 - 1 - ((chain subs).length : Nat), hi'⟩ }
          hwt hmr (by simp only; omega) (by simp at hn; omega) (by simp only [hw]; exact hN)
          ha (by simp only [hw]; exact hfit)
        simp only [hw, ho, hf] at hi hL hLs
        exact ⟨e', h, by rw [hi]; simp [imgsOf], hnf, L, hL, by rw [hLs]; simp [expect]⟩
      rw [extLoop]
      rw [if_pos hcond]
      simp only [hr, if_true]
      rw [if_neg (by decide)]
      split_ifs
      · exact key _ rfl rfl rfl rfl hA
      · exact key _ rfl rfl rfl rfl hA
      · exact key _ rfl rfl rfl rfl hA
    | img i =>
      have hwi : i.wf gflg := hwb
      obtain ⟨h0, hflg, ⟨hw0, hw1, hh0, hh1⟩, hfd, hrest⟩ := holds_img hm
      have hfd' := (holds_cons hfd).2
      have hlen := i.bytes_length
      have hfl := frameData_length i.ctsz i.blocks
      simp only [Blk.bytes] at hsz
      have hr : rd8 m e.c.buff = 0x2C := by unfold rd8; rw [h0]
      have hrf : rd8 m (e.c.buff + 1 + 8) = i.flgs := by
        have : e.c.buff + 1 + 8 = e.c.buff + 9 := by ring
        unfold rd8; rw [this, hflg]
        exact Nat.mod_eq_of_lt hwi.2.2.2.2.1
      have hfx : rd16 m (e.c.buff + 1 + 4) = i.w := by
        apply rd16_le16 m _ _ hwi.2.2.1
        · rw [← hw0]; congr 1; ring
        · rw [← hw1]; congr 1; ring
      have hfy : rd16 m (e.c.buff + 1 + 6) = i.h := by
        apply rd16_le16 m _ _ hwi.2.2.2.1
        · rw [← hh0]; congr 1; ring
        · rw [← hh1]; congr 1; ring
      obtain ⟨rp', hh, hpos⟩ := loadFrameHdr_img gflg i hwi
        ⟨e.c.buff + 1, e.c.size - 1, max (max e.c.hi (e.c.buff + 1)) (e.c.buff + 1 + 9)⟩ 13
        (by simp only; omega)
      simp only at hh
      have hbuf : e.c.buff + 1 + 9 + ((i.lpal.length : Nat) : Int) + 1 + ((chain i.blocks).length : Nat)
          = e.c.buff + ((Blk.img i).bytes.length : Nat) := by
        simp only [Blk.bytes, hlen, hfl]; push_cast; ring
      rw [extLoop]
      rw [if_pos hcond]
      simp only [hr, hrf, if_true]
      rw [hh]
      simp only
      by_cases hge : e.w.ifrm + 1 ≥ skip
      · obtain ⟨e2, hef, hb, hs, hif, hnf, hcl, hx, hy, hout, hfr, har⟩ := extFrame_deliver m skip
          (e.c.buff + 1)
          { e with
            c := ⟨e.c.buff + 1 + 9 + (i.lpal.length : Nat), e.c.size - 1 - 9 - (i.lpal.length : Nat),
                  max (max e.c.hi (e.c.buff + 1)) (e.c.buff + 1 + 9)⟩,
            w := { e.w with intr := if i.flgs &&& 0x40 ≠ 0 then 1 else 0, cpal := rp',
                            clrs := (i.clrs gflg : Nat), ifrm := e.w.ifrm + 1 },
            loads := if e.w.ifrm + 1 ≥ skip ∧ ¬ (((i.clrs gflg : Nat) : Int) ≤ 0)
              then e.loads ++ [(e.w.ifrm + 1, (rd16 m (e.c.buff + 1 + 4) : Int),
                (rd16 m (e.c.buff + 1 + 6) : Int))]
              else e.loads }
          i gflg hwi hge (by simp only; exact_mod_cast hpos)
          (by
            have : e.c.buff + 1 + 9 + ((i.lpal.length : Nat) : Int)
                = e.c.buff + 10 + (i.lpal.length : Nat) := by ring
            simp only
            rw [this]; exact hfd)
          (by simp only [hfl]; push_cast; omega)
          (by simp only [hA]; exact hfit.1 hge)
        simp only at hef hb hs hif hnf hcl hout hfr har
        rw [hef]
        simp only
        rw [if_pos ⟨by rw [hif]; exact hge, by rw [hs, hfl]; push_cast; omega⟩]
        obtain ⟨e', h, hi, hnf', L, hL, hLs⟩ := ih n e2 hwt
          (by
            have : e2.c.buff = e.c.buff + ((Blk.img i).bytes.length : Nat) := by
              rw [hb, hfl, ← hbuf]; push_cast; ring
            rw [this]; exact hrest)
          (by rw [hs]; simp only [hlen, hfl] at hsz ⊢; push_cast at hsz ⊢; omega)
          (by simp at hn; omega) (by rw [hnf]; exact hN) (by rw [har]; exact hA)
          (by rw [hif]; exact hfit.2)
        refine ⟨e', h, ?_, hnf', ⟨e2.w, e2.out⟩ :: L, ?_, ?_⟩
        · rw [hi, hif]; simp [imgsOf]; ring
        · rw [hL, hfr]; simp
        · simp only [List.map_cons, hLs, expect, if_pos hge, Delivered.sum, hif, hnf, hN, hcl, hx,
            hy, hfx, hfy, hout]
      · obtain ⟨hi', hsk⟩ := skipChunk_chain m i.blocks
          ⟨e.c.buff + 1 + 9 + (i.lpal.length : Nat), e.c.size - 1 - 9 - (i.lpal.length : Nat),
            max (max e.c.hi (e.c.buff + 1)) (e.c.buff + 1 + 9)⟩ hwi.2.2.2.2.2.2.2.2.2.2.2.1
          (by
            have : e.c.buff + 1 + 9 + ((i.lpal.length : Nat) : Int) + 1
                = e.c.buff + 10 + (i.lpal.length : Nat) + 1 := by ring
            simp only
            rw [this]; exact hfd')
          (by simp only; omega)
        simp only at hsk
        unfold extFrame
        simp only
        rw [if_neg hge]
        simp only
        rw [if_neg (fun hc => hge hc.1)]
        rw [extTail_skip m 0x2C _ _ _ (by decide) hsk]
        simp only
        rw [hbuf]
        obtain ⟨e', h, hi, hnf', L, hL, hLs⟩ := ih n
          { e with
            c := ⟨e.c.buff + ((Blk.img i).bytes.length : Nat),
                  e.c.size - 1 - 9 - (i.lpal.length : Nat) - 1 - ((chain i.blocks).length : Nat), hi'⟩,
            w := { e.w with intr := if i.flgs &&& 0x40 ≠ 0 then 1 else 0, cpal := rp',
                            clrs := (i.clrs gflg : Nat), ifrm := e.w.ifrm + 1 },
            loads := if e.w.ifrm + 1 ≥ skip ∧ ¬ (((i.clrs gflg : Nat) : Int) ≤ 0)
              then e.loads ++ [(e.w.ifrm + 1, (rd16 m (e.c.buff + 1 + 4) : Int),
                (rd16 m (e.c.buff + 1 + 6) : Int))]
              else e.loads }
          hwt hrest
          (by simp only [hlen, hfl] at hsz ⊢; push_cast at hsz ⊢; omega)
          (by simp at hn; omega) hN hA hfit.2
        simp only at hi hL hLs
        refine ⟨e', h, ?_, hnf', L, hL, ?_⟩
        · rw [hi]; simp [imgsOf]; ring
        · simp only [hLs, expect, if_neg hge]

theorem hdr_palLen (gflg : Nat) :
    (_GIF_LoadFrameHdr gflg ⟨0, 0, 0⟩ 0 0 0).ret * 3 = (palLen gflg : Nat) := by
  unfold _GIF_LoadFrameHdr palLen
  by_cases h : gflg &&& 0x80 ≠ 0
  · simp [h]; ring
  · simp [h]

theorem blksBytes_length_ge (blks : List Blk) : blks.length ≤ (blksBytes blks).length := by
  induction blks with
  | nil => simp [blksBytes]
  | cons b t ih =>
    rw [blksBytes_cons]
    cases b with
    | ext l subs => simp [Blk.bytes]; omega
    | img i => simp [Blk.bytes, Img.bytes]; omega

theorem gifBytes_length (g : Gif) (hg : g.wf) :
    g.bytes.length = 13 + palLen g.gflg + (blksBytes g.blks).length + 1 := by
  obtain ⟨-, -, -, -, -, hp, -⟩ := hg
  simp [Gif.bytes, le16, hp]
  omega

/-- A complete well-formed GIF with `n ≥ 1` frames and `0 ≤ skip < n`:
`GIF_Load` returns `n` and calls the frame writer as `expect` tells. -/
theorem load_wf (g : Gif) (hg : g.wf) (m : Mem) (size : Int) (hm : holds m 0 g.bytes)
    (hsz : (g.bytes.length : Int) ≤ size) (amdf : Bool) (skip : Int) (hs0 : 0 ≤ skip)
    (hsn : skip < (g.nframes : Nat)) (hfit : fitsFrom skip (g.area : Nat) g.blks (-1))
    (code0 : Nat → Nat) (out0 : Int → Nat) :
    ∃ r, GIF_Load (some m) size true amdf skip code0 out0 = some r ∧
      r.ret = some ((g.nframes : Nat) : Int) ∧
      r.frames.map Delivered.sum = expect g.gflg skip (g.nframes : Nat) g.blks (-1) out0 := by
  have hlen := gifBytes_length g hg
  obtain ⟨hver, -, -, hgf, -, hp, hwf⟩ := hg
  have hb : ∀ k : Nat, k < g.bytes.length → m (k : Int) = g.bytes.getD k 0 := by
    intro k hk
    have := hm k hk
    simpa using this
  have hl6 : 13 ≤ g.bytes.length := by omega
  have e0 : rd8 m 0 = 71 := by
    have := hb 0 (by omega); unfold rd8; simp only [Nat.cast_zero] at this; rw [this]; simp [Gif.bytes]
  have e1 : rd8 m 1 = 73 := by
    have := hb 1 (by omega); unfold rd8; simp only [Nat.cast_one] at this; rw [this]; simp [Gif.bytes]
  have e2 : rd8 m 2 = 70 := by
    have := hb 2 (by omega); unfold rd8; simp only [Nat.cast_ofNat] at this; rw [this]; simp [Gif.bytes]
  have e3 : rd8 m 3 = 56 := by
    have := hb 3 (by omega); unfold rd8; simp only [Nat.cast_ofNat] at this; rw [this]; simp [Gif.bytes]
  have e4 : rd8 m 4 = g.ver := by
    have := hb 4 (by omega); unfold rd8; simp only [Nat.cast_ofNat] at this; rw [this]
    simp [Gif.bytes]; omega
  have e5 : rd8 m 5 = 97 := by
    have := hb 5 (by omega); unfold rd8; simp only [Nat.cast_ofNat] at this; rw [this]; simp [Gif.bytes]
  have e10 : rd8 m 10 = g.gflg := by
    have := hb 10 (by omega); unfold rd8; simp only [Nat.cast_ofNat] at this; rw [this]
    simp [Gif.bytes, le16]; omega
  have hblk : holds m (13 + (palLen g.gflg : Nat)) (blksBytes g.blks ++ [0x3B]) := by
    have h1 : g.bytes = ([71, 73, 70, 56, g.ver, 97] ++ le16 g.xdim ++ le16 g.ydim
        ++ [g.gflg, g.bkgd, g.aspr] ++ g.gpal) ++ (blksBytes g.blks ++ [0x3B]) := by
      simp [Gif.bytes]
    rw [h1] at hm
    have := (holds_append hm).2
    simp only [List.length_append, List.length_cons, List.length_nil, le16, hp] at this
    convert this using 1
    push_cast; ring
  have hge := blksBytes_length_ge g.blks
  have hsz1 : ¬ (size - (13 + ((palLen g.gflg : Nat) : Int)) ≤ 0) := by
    rw [hlen] at hsz; push_cast at hsz; omega
  have hv : ¬ (g.ver ≠ 55 ∧ g.ver ≠ 57) := by
    rcases hver with h | h <;> omega
  obtain ⟨ca, wa, hcnt, hci, hcx, hcy⟩ := countLoop_wf m g.gflg g.blks
    (size - (13 + ((palLen g.gflg : Nat) : Int))).toNat
    ⟨13 + ((palLen g.gflg : Nat) : Int), size - (13 + ((palLen g.gflg : Nat) : Int)), 12⟩
    { xdim := rd16 m 6, ydim := rd16 m 8, clrs := 0, bkgd := rd8 m 11,
      tran := 0, intr := 0, mode := 0, frxd := 0, fryd := 0, frxo := 0, fryo := 0,
      time := 0, ifrm := 0, nfrm := 0, bptr := 13 + ((palLen g.gflg : Nat) : Int), cpal := 0 }
    0 0 hwf hblk (by simp only; rw [hlen] at hsz; push_cast at hsz; omega)
    (by rw [hlen] at hsz; push_cast at hsz; omega) rfl rfl
  simp only [zero_add] at hci
  have harea : wa.frxd * wa.fryd = ((g.area : Nat) : Int) := by
    rw [hcx, hcy]; unfold Gif.area; push_cast; rfl
  have hN : (if (0x3B : Nat) ≠ 0x3B then -wa.ifrm else wa.ifrm) = ((g.nframes : Nat) : Int) := by
    rw [if_neg (by decide), hci]; rfl
  obtain ⟨e', hext, hei, hen, L, hL, hLs⟩ := extLoop_wf m g.gflg amdf skip (g.nframes : Nat) hs0 hsn
    ((g.area : Nat) : Int)
    g.blks ((size - (13 + ((palLen g.gflg : Nat) : Int))).toNat + 1)
    ⟨⟨13 + ((palLen g.gflg : Nat) : Int), size - (13 + ((palLen g.gflg : Nat) : Int)), ca.hi⟩,
      { wa with nfrm := if (0x3B : Nat) ≠ 0x3B then -wa.ifrm else wa.ifrm, bptr := 0, ifrm := -1 },
      none, code0, out0, [], [], [], wa.frxd * wa.fryd⟩
    hwf hblk (by simp only; rw [hlen] at hsz; push_cast at hsz; omega)
    (by rw [hlen] at hsz; push_cast at hsz; omega) hN harea hfit
  simp only [List.nil_append] at hei hL hLs
  unfold GIF_Load
  simp only [e0, e1, e2, e3, e4, e5]
  rw [if_neg (by omega), if_neg (by decide), if_neg (by decide), if_neg (by decide),
    if_neg (by decide), if_neg (by omega), if_neg hv, if_neg (by decide), if_neg (by decide)]
  unfold loadPasses
  simp only [e10, hdr_palLen]
  rw [if_neg hsz1, hcnt]
  simp only
  rw [hext]
  simp only [if_true]
  refine ⟨_, rfl, ?_, ?_⟩
  · simp only
    rw [if_neg (by rw [hen]; omega), hei]
    congr 1
    unfold Gif.nframes
    ring
  · simp only [hL, hLs]

/-- The images from index `k` on fit the pixel area: the form of `fitsFrom`
for a whole file. -/
theorem fitsFrom_drop (k : Nat) (A : Int) :
    ∀ (blks : List Blk) (a : Nat),
      (∀ im ∈ (imgsOf blks).drop (k - a), (im.pixels.length : Int) ≤ A) →
      fitsFrom (k : Int) A blks ((a : Int) - 1) := by
  intro blks
  induction blks with
  | nil => intro a _; trivial
  | cons b t ih =>
    intro a h
    cases b with
    | ext l subs => exact ih a h
    | img i =>
      have hcast : (a : Int) - 1 + 1 = ((a + 1 : Nat) : Int) - 1 := by push_cast; ring
      simp only [fitsFrom, imgsOf] at h ⊢
      rw [hcast]
      refine ⟨?_, ih (a + 1) ?_⟩
      · intro hge
        apply h i
        have : k - a = 0 := by omega
        rw [this, List.drop_zero]
        exact List.mem_cons_self _ _
      · intro im him
        apply h im
        by_cases hka : k - a = 0
        · rw [hka, List.drop_zero]
          exact List.mem_cons_of_mem _ (List.mem_of_mem_drop him)
        · obtain ⟨d, hd⟩ : ∃ d, k - a = d + 1 := ⟨k - a - 1, by omega⟩
          have hd' : k - (a + 1) = d := by omega
          rw [hd, List.drop_succ_cons, ← hd']
          exact him

/-- The calls that `expect` lists are those of the images from index `k` on. -/
theorem expect_describe (gflg : Nat) (k : Nat) (N : Int) :
    ∀ (blks : List Blk) (a : Nat) (o : Int → Nat),
      expect gflg (k : Int) N blks ((a : Int) - 1) o
        = describe gflg N (max a k) o ((imgsOf blks).drop (k - a)) := by
  intro blks
  induction blks with
  | nil => intro a o; simp [expect, imgsOf, describe]
  | cons b t ih =>
    intro a o
    cases b with
    | ext l subs => simp only [expect, imgsOf]; exact ih a o
    | img i =>
      have hcast : (a : Int) - 1 + 1 = ((a + 1 : Nat) : Int) - 1 := by push_cast; ring
      simp only [expect, imgsOf]
      by_cases h : (a : Int) - 1 + 1 ≥ (k : Int)
      · have hak : k ≤ a := by omega
        rw [if_pos h, hcast, ih (a + 1) _]
        have h1 : k - a = 0 := by omega
        have h2 : k - (a + 1) = 0 := by omega
        have h3 : max a k = a := by omega
        have h4 : max (a + 1) k = a + 1 := by omega
        rw [h1, h2, h3, h4]
        simp only [List.drop_zero, describe]
        congr 2
        omega
      · have hak : a < k := by omega
        rw [if_neg h, hcast, ih (a + 1) _]
        have h1 : k - a = (k - (a + 1)) + 1 := by omega
        have h3 : max a k = k := by omega
        have h4 : max (a + 1) k = k := by omega
        rw [h1, h3, h4]
        simp only [List.drop_succ_cons]

theorem describe_idx (gflg : Nat) (N : Int) :
    ∀ (imgs : List Img) (j : Nat) (o : Int → Nat),
      (describe gflg N j o imgs).map (fun s => (s.1, s.2.1))
        = (List.range' j imgs.length).map (fun i => ((i : Int), N)) := by
  intro imgs
  induction imgs with
  | nil => intro j o; rfl
  | cons im t ih => intro j o; simp [describe, ih, List.range']

theorem entry_pix {ctsz : Nat} {dict : List (List Nat)} (hd : ∀ s ∈ dict, ∀ p ∈ s, p < 2 ^ ctsz)
    (c : Nat) : ∀ p ∈ entry ctsz dict c, p < 2 ^ ctsz := by
  intro p hp
  unfold entry at hp
  by_cases hc : c < 2 ^ ctsz
  · rw [if_pos hc] at hp
    simp at hp
    omega
  · rw [if_neg hc] at hp
    by_cases hk : c - (2 ^ ctsz + 2) < dict.length
    · rw [List.getD_eq_getElem _ _ hk] at hp
      exact hd _ (List.getElem_mem _) p hp
    · rw [List.getD_eq_default _ _ (by omega)] at hp
      simp at hp

theorem headD_pix {ctsz : Nat} {s : List Nat} (hs : ∀ p ∈ s, p < 2 ^ ctsz) :
    s.headD 0 < 2 ^ ctsz := by
  cases s with
  | nil => exact Nat.two_pow_pos ctsz
  | cons a t => exact hs a (List.mem_cons_self _ _)

theorem decStep_pix {ctsz : Nat} {d d1 : Dec} {c : Nat} {str : List Nat} (hd : PixLt ctsz d)
    (h : decStep ctsz d c = some (d1, str)) : PixLt ctsz d1 ∧ ∀ p ∈ str, p < 2 ^ ctsz := by
  cases d with
  | start =>
    simp only [decStep] at h
    split_ifs at h
    simp only [Option.some.injEq, Prod.mk.injEq] at h
    obtain ⟨rfl, rfl⟩ := h
    exact ⟨trivial, by simp⟩
  | fresh =>
    simp only [decStep] at h
    split_ifs at h with hc
    simp only [Option.some.injEq, Prod.mk.injEq] at h
    obtain ⟨rfl, rfl⟩ := h
    refine ⟨⟨by simp, ?_⟩, ?_⟩ <;> · intro p hp; simp at hp; omega
  | run dict prev =>
    obtain ⟨hdict, hprev⟩ := hd
    simp only [decStep] at h
    by_cases hcl : c = 2 ^ ctsz
    · rw [if_pos hcl] at h
      simp only [Option.some.injEq, Prod.mk.injEq] at h
      obtain ⟨rfl, rfl⟩ := h
      exact ⟨trivial, by simp⟩
    · rw [if_neg hcl] at h
      by_cases hv : c < 2 ^ ctsz ∨ (2 ^ ctsz + 2 ≤ c ∧ c ≤ 2 ^ ctsz + 2 + dict.length ∧ c < 4096)
      · rw [if_pos hv] at h
        simp only [Option.some.injEq, Prod.mk.injEq] at h
        obtain ⟨rfl, rfl⟩ := h
        have hS : ∀ p ∈ (if c < 2 ^ ctsz + 2 + dict.length then entry ctsz dict c
            else prev ++ [prev.headD 0]), p < 2 ^ ctsz := by
          split_ifs
          · exact entry_pix hdict c
          · intro p hp
            rcases List.mem_append.mp hp with h2 | h2
            · exact hprev p h2
            · simp only [List.mem_singleton] at h2
              rw [h2]; exact headD_pix hprev
        generalize (if c < 2 ^ ctsz + 2 + dict.length then entry ctsz dict c
            else prev ++ [prev.headD 0]) = S at hS ⊢
        refine ⟨⟨?_, hS⟩, hS⟩
        by_cases hf : 2 ^ ctsz + 2 + dict.length < 4096
        · rw [if_pos hf]
          intro s hs p hp
          rcases List.mem_append.mp hs with h1 | h1
          · exact hdict s h1 p hp
          · simp only [List.mem_singleton] at h1
            subst h1
            rcases List.mem_append.mp hp with h2 | h2
            · exact hprev p h2
            · simp only [List.mem_singleton] at h2
              rw [h2]; exact headD_pix hS
        · rw [if_neg hf]
          exact hdict
      · rw [if_neg hv] at h
        simp at h

/-- The canonical decoder emits literals only. -/
theorem decode_pix {ctsz : Nat} : ∀ (codes : List Nat) (d : Dec) (pixels : List Nat),
    PixLt ctsz d → decode ctsz d codes = some pixels → ∀ p ∈ pixels, p < 2 ^ ctsz := by
  intro codes
  induction codes with
  | nil => intro d pixels _ h; simp [decode] at h
  | cons c cs ih =>
    intro d pixels hd h
    obtain ⟨c', cs', hcc, hcase⟩ := decode_cons h
    obtain ⟨rfl, rfl⟩ := List.cons.inj hcc
    rcases hcase with ⟨-, -, rfl, -⟩ | ⟨-, d1, str, t, hstep, hrest, rfl⟩
    · simp
    · obtain ⟨hd1, hstr⟩ := decStep_pix hd hstep
      intro p hp
      rcases List.mem_append.mp hp with h1 | h1
      · exact hstr p h1
      · exact ih d1 t hd1 hrest p h1

theorem Img.pixels_lt (i : Img) : ∀ p ∈ i.pixels, p < 2 ^ i.ctsz := by
  unfold Img.pixels
  cases h : decode i.ctsz Dec.start i.codes with
  | none => simp
  | some px => exact decode_pix i.codes Dec.start px trivial h

theorem writeAt_lt {ctsz : Nat} (o : Int → Nat) (px : List Nat) (h : ∀ p ∈ px, p < 2 ^ ctsz)
    (p : Nat) (hp : p < px.length) : writeAt o 0 px p < 2 ^ ctsz := by
  unfold writeAt
  have : (0 : Int) ≤ (p : Int) ∧ (p : Int) < 0 + (px.length : Nat) := by omega
  rw [if_pos this]
  simp only [sub_zero, Int.toNat_ofNat]
  rw [List.getD_eq_getElem _ _ hp]
  exact h _ (List.getElem_mem _)

theorem describe_lt (gflg : Nat) (N : Int) :
    ∀ (imgs : List Img) (L : List Delivered) (j : Nat) (o : Int → Nat),
      L.map Delivered.sum = describe gflg N j o imgs →
      List.Forall₂ (fun d im => d.hdr.clrs = ((im.clrs gflg : Nat) : Int) ∧
        ∀ p : Nat, p < im.pixels.length → d.out p < 2 ^ im.ctsz) L imgs := by
  intro imgs
  induction imgs with
  | nil =>
    intro L j o h
    simp only [describe, List.map_eq_nil_iff] at h
    rw [h]; exact List.Forall₂.nil
  | cons im t ih =>
    intro L j o h
    cases L with
    | nil => simp [describe] at h
    | cons d L' =>
      simp only [describe, List.map_cons, List.cons.injEq] at h
      obtain ⟨hd, ht⟩ := h
      simp only [Delivered.sum, Prod.mk.injEq] at hd
      obtain ⟨-, -, -, -, hc, ho⟩ := hd
      refine List.Forall₂.cons ⟨hc, ?_⟩ (ih L' _ _ ht)
      intro p hp
      rw [ho]
      exact writeAt_lt o im.pixels im.pixels_lt p hp

/-! ### Facts about the loops on arbitrary input -/

theorem skipChunk_empty (m : Mem) (c : Cur) (h : c.size ≤ 0) :
    _GIF_SkipChunk m c = some (0, ⟨c.buff + 1, c.size - 1, c.hi⟩) := by
  unfold _GIF_SkipChunk
  simp only
  rw [if_pos (by omega)]

theorem rd8_rd8 (m : Mem) (p : Int) : rd8 (rd8 m) p = rd8 m p := by
  unfold rd8; omega

theorem rd8_lt (m : Mem) (p : Int) : rd8 m p < 256 := by
  unfold rd8; omega

theorem skipLoop_rd8 (m : Mem) : ∀ (n : Nat) (c : Cur), skipLoop (rd8 m) n c = skipLoop m n c := by
  intro n
  induction n with
  | zero => intro c; rfl
  | succ n ih =>
    intro c
    rw [skipLoop, skipLoop]
    simp only [rd8_rd8, ih]

theorem skipChunk_rd8 (m : Mem) (c : Cur) : _GIF_SkipChunk (rd8 m) c = _GIF_SkipChunk m c := by
  unfold _GIF_SkipChunk
  simp only [skipLoop_rd8]

theorem skipLoop_total (m : Mem) : ∀ (n : Nat) (c : Cur), 1 ≤ n → c.size ≤ n →
    ∃ r c', skipLoop m n c = some (r, c') ∧ (r = 0 ∨ r = 1) := by
  intro n
  induction n with
  | zero => intro c h1; omega
  | succ n ih =>
    intro c _ hn
    rw [skipLoop]
    simp only
    by_cases h1 : c.size - (1 + (rd8 m c.buff : Int)) ≤ 0
    · rw [if_pos h1]; exact ⟨_, _, rfl, Or.inl rfl⟩
    · rw [if_neg h1]
      by_cases h2 : (1 + (rd8 m c.buff : Int)) > 1
      · rw [if_pos h2]
        exact ih _ (by omega) (by simp only; omega)
      · rw [if_neg h2]; exact ⟨_, _, rfl, Or.inr rfl⟩

theorem skipChunk_total (m : Mem) (c : Cur) :
    ∃ r c', _GIF_SkipChunk m c = some (r, c') ∧ (r = 0 ∨ r = 1) := by
  unfold _GIF_SkipChunk
  simp only
  by_cases h : c.size - 1 ≤ 0
  · rw [if_pos h]; exact ⟨_, _, rfl, Or.inl rfl⟩
  · rw [if_neg h]
    exact skipLoop_total m _ _ (by omega) (by simp only; omega)

/-- A successful run of the skip loop has walked a chain of non-empty
sub-blocks up to its terminator and has left at least one byte. -/
theorem skipLoop_walked (m : Mem) : ∀ (n : Nat) (c c' : Cur), skipLoop m n c = some (1, c') →
    ∃ subs, subsOK subs ∧ holds (rd8 m) c.buff (chain subs) ∧
      ((chain subs).length : Int) < c.size ∧
      c'.buff = c.buff + ((chain subs).length : Nat) ∧
      c'.size = c.size - ((chain subs).length : Nat) := by
  intro n
  induction n with
  | zero => intro c c' h; simp [skipLoop] at h
  | succ n ih =>
    intro c c' h
    rw [skipLoop] at h
    simp only at h
    by_cases h1 : c.size - (1 + (rd8 m c.buff : Int)) ≤ 0
    · rw [if_pos h1] at h; simp at h
    · rw [if_neg h1] at h
      by_cases h2 : (1 + (rd8 m c.buff : Int)) > 1
      · rw [if_pos h2] at h
        obtain ⟨subs, hs, hm, hlt, hb, hsz⟩ := ih _ _ h
        simp only at hm hlt hb hsz
        let b : List Nat := List.map (fun (i : Nat) => rd8 m (c.buff + 1 + (i : Int))) (List.range (rd8 m c.buff))
        have hbl : b.length = rd8 m c.buff := by simp [b]
        have h255 := rd8_lt m c.buff
        refine ⟨b :: subs, ?_, ?_, ?_, ?_, ?_⟩
        · intro x hx
          rcases List.mem_cons.mp hx with rfl | hx
          · rw [hbl]; omega
          · exact hs x hx
        · rw [chain_cons]
          intro i hi
          simp only [List.cons_append, List.length_cons, List.length_append, hbl] at hi
          rcases Nat.eq_zero_or_pos i with rfl | hpos
          · simp [hbl]
          · obtain ⟨j, rfl⟩ : ∃ j, i = j + 1 := ⟨i - 1, by omega⟩
            simp only [List.cons_append, List.getD_cons_succ]
            by_cases hj : j < rd8 m c.buff
            · rw [List.getD_append _ _ _ _ (by rw [hbl]; exact hj)]
              rw [List.getD_eq_getElem _ _ (by rw [hbl]; exact hj)]
              simp only [b, List.getElem_map, List.getElem_range, rd8_rd8]
              congr 1
              push_cast; ring
            · rw [List.getD_append_right _ _ _ _ (by rw [hbl]; omega), hbl]
              have := hm (j - rd8 m c.buff) (by omega)
              rw [← this]
              congr 1
              push_cast [Nat.cast_sub (Nat.le_of_not_lt hj)]
              ring
        · rw [chain_cons]
          simp only [List.cons_append, List.length_cons, List.length_append, hbl]
          push_cast; omega
        · rw [chain_cons]
          simp only [List.cons_append, List.length_cons, List.length_append, hbl]
          rw [hb]; push_cast; ring
        · rw [chain_cons]
          simp only [List.cons_append, List.length_cons, List.length_append, hbl]
          rw [hsz]; push_cast; ring
      · rw [if_neg h2] at h
        simp only [Option.some.injEq, Prod.mk.injEq, true_and] at h
        have h0 : rd8 m c.buff = 0 := by omega
        refine ⟨[], by intro x hx; simp at hx, ?_, ?_, ?_, ?_⟩
        · rw [chain_nil]
          intro i hi
          simp only [List.length_singleton] at hi
          have : i = 0 := by omega
          subst this
          simp [rd8_rd8, h0]
        · rw [chain_nil]; simp only [List.length_singleton]; push_cast; omega
        · rw [chain_nil, ← h]; simp only [List.length_singleton, h0]; push_cast; ring
        · rw [chain_nil, ← h]; simp only [List.length_singleton, h0]; push_cast; ring

theorem pow_sub_one_lt_4095 (k : Nat) (hk : k ≤ 12) (h : 2 ^ k - 1 < 4095) : k < 12 := by
  interval_cases k <;> simp_all

theorem WidthInv.clear (ctsz : Nat) (h2 : 2 ≤ ctsz) (h8 : ctsz ≤ 8) (s : Lzw)
    (hm : s.mask = ((1 <<< (ctsz + 1)) - 1) % 65536) (hc : s.ccsz = (ctsz : Int) + 1)
    (ht : s.ctbl = 1 <<< ctsz) : WidthInv ctsz s := by
  have hD := pow_bounds ctsz h2 h8
  have e1 : (1 <<< (ctsz + 1) : Nat) = 2 * 2 ^ ctsz := by
    rw [Nat.shiftLeft_eq, one_mul, pow_succ]; ring
  have e2 : (1 <<< ctsz : Nat) = 2 ^ ctsz := by rw [Nat.shiftLeft_eq, one_mul]
  have e3 : s.ccsz.toNat = ctsz + 1 := by rw [hc]; omega
  refine ⟨?_, by omega, by omega, ?_⟩
  · rw [hm, e1, e3, pow_succ]; omega
  · intro _; rw [ht, hm, e1, e2]; omega

theorem pixStep_width (ctsz : Nat) (s : Lzw) (curr : Nat) (hs : WidthInv ctsz s) :
    (pixStep s curr).all (fun s' => WidthInv ctsz s' ∧ s'.ctbl = s.ctbl + 1 ∧
      s'.ccsz = (if s.ctbl + 1 = s.mask ∧ s.ctbl + 1 < 4095 then s.ccsz + 1 else s.ccsz)) := by
  obtain ⟨hm, hlo, hhi, hct⟩ := hs
  obtain ⟨k, hk⟩ : ∃ k : Nat, s.ccsz = k := ⟨s.ccsz.toNat, by omega⟩
  have hkn : s.ccsz.toNat = k := by omega
  rw [hkn] at hm
  have hP : 1 ≤ 2 ^ k := Nat.one_le_two_pow
  have hP2 : 2 ^ (k + 1) = 2 * 2 ^ k := by rw [pow_succ]; ring
  unfold pixStep
  simp only
  cases hw : walk _ _ s.out _ _ with
  | none => simp only [Flow.all]
  | some r =>
    obtain ⟨code2, out2, bptr2, iter2⟩ := r
    simp only [Flow.all]
    by_cases hg : s.ctbl + 1 < 4096 ∧ s.ctbl + 1 = s.mask ∧ s.ctbl + 1 < 4095
    · have hd : decide (s.ctbl + 1 < 4096 ∧ s.ctbl + 1 = s.mask ∧ s.ctbl + 1 < 4095) = true := by
        simp only [decide_eq_true_eq]; exact hg
      have hk12 : k < 12 := pow_sub_one_lt_4095 k (by omega) (by omega)
      have hP3 : 2 ^ k ≤ 2 ^ 11 := Nat.pow_le_pow_right (by decide) (by omega)
      have hP4 : (2:Nat) ^ 11 = 2048 := by decide
      simp only [hd, if_true, WidthInv]
      refine ⟨⟨?_, by omega, by omega, ?_⟩, trivial, ?_⟩
      · have : (s.ccsz + 1).toNat = k + 1 := by omega
        rw [this, hP2, hm]; omega
      · intro _; rw [hm]; omega
      · rw [if_pos ⟨hg.2.1, hg.2.2⟩]
    · have hd : decide (s.ctbl + 1 < 4096 ∧ s.ctbl + 1 = s.mask ∧ s.ctbl + 1 < 4095) = false := by
        simp only [decide_eq_false_iff_not]; exact hg
      simp only [hd, Bool.false_eq_true, if_false, WidthInv]
      refine ⟨⟨?_, hlo, hhi, ?_⟩, trivial, ?_⟩
      · rw [hkn]; exact hm
      · intro h4
        have := hct (by omega)
        by_contra hc
        exact hg ⟨by omega, by omega, h4⟩
      · rw [if_neg (fun hc => hg ⟨by omega, hc.1, hc.2⟩)]

/-- One pass through the body of the code loop keeps the width invariant;
a CLEAR code resets, any other code moves the table top on by one and
widens the code exactly when the new top equals `mask` below 4095. -/
theorem codeStep_width (ctsz : Nat) (h2 : 2 ≤ ctsz) (h8 : ctsz ≤ 8) (s : Lzw)
    (hs : WidthInv ctsz s) :
    (codeStep ctsz s).all (fun s' => WidthInv ctsz s') ∧
    (∀ s', codeStep ctsz s = Flow.next s' →
      if s.curr &&& s.mask = 2 ^ ctsz then s'.ccsz = (ctsz : Int) + 1 ∧ s'.ctbl = 2 ^ ctsz
      else s'.ctbl = s.ctbl + 1 ∧
        s'.ccsz = (if s.ctbl + 1 = s.mask ∧ s.ctbl + 1 < 4095 then s.ccsz + 1 else s.ccsz)) := by
  have hlt : s.curr &&& s.mask < 2 ^ 16 := by
    have h1 : s.curr &&& s.mask ≤ s.mask := Nat.and_le_right
    obtain ⟨hm, hlo, hhi, -⟩ := hs
    have h3 : 2 ^ s.ccsz.toNat ≤ 2 ^ 12 := Nat.pow_le_pow_right (by decide) (by omega)
    have h4 : (2:Nat) ^ 12 < 2 ^ 16 := by decide
    omega
  have hev : 2 ^ ctsz = 2 * 2 ^ (ctsz - 1) := by
    rw [← pow_succ']; congr 1; omega
  have hpx := pixStep_width ctsz s (s.curr &&& s.mask) hs
  unfold codeStep
  simp only
  by_cases ht : (s.curr &&& s.mask) &&& 0xFFFFFFFFFFFFFFFE = 1 <<< ctsz
  · rw [if_pos ht]
    have hcase := (clear_test ctsz _ h2 hlt).1 ht
    by_cases hodd : (s.curr &&& s.mask) &&& 1 ≠ 0
    · rw [if_pos hodd]
      refine ⟨?_, fun s' h => by cases h⟩
      simp only [Flow.all]
      exact hs
    · rw [if_neg hodd]
      have hcl : s.curr &&& s.mask = 2 ^ ctsz := by
        rcases hcase with h | h
        · exact h
        · exfalso; apply hodd; rw [and_one, h]; omega
      refine ⟨?_, ?_⟩
      · simp only [Flow.all]
        exact WidthInv.clear ctsz h2 h8 _ rfl rfl rfl
      · intro s' h
        cases h
        rw [if_pos hcl]
        simp only [Nat.shiftLeft_eq, one_mul, and_self]
  · rw [if_neg ht]
    have hne : ¬ (s.curr &&& s.mask = 2 ^ ctsz) := fun h =>
      ht ((clear_test ctsz _ h2 hlt).2 (Or.inl h))
    refine ⟨?_, ?_⟩
    · cases hp : pixStep s (s.curr &&& s.mask) with
      | fault => simp only [Flow.all]
      | ed s' => rw [hp] at hpx; simp only [Flow.all] at hpx ⊢; exact hpx.1
      | next s' => rw [hp] at hpx; simp only [Flow.all] at hpx ⊢; exact hpx.1
    · intro s' h
      rw [h] at hpx
      simp only [Flow.all] at hpx
      rw [if_neg hne]
      exact hpx.2

theorem codeLoop_width (ctsz : Nat) (h2 : 2 ≤ ctsz) (h8 : ctsz ≤ 8) :
    ∀ (n : Nat) (s : Lzw), WidthInv ctsz s →
      optAll (Flow.all (WidthInv ctsz)) (codeLoop ctsz n s) := by
  intro n
  induction n with
  | zero => intro s _; simp only [codeLoop, optAll]
  | succ n ih =>
    intro s hs
    rw [codeLoop]
    by_cases hb : s.bszc ≥ 0
    · rw [if_pos hb]
      have h := (codeStep_width ctsz h2 h8 s hs).1
      cases hc : codeStep ctsz s with
      | next s1 =>
        rw [hc] at h
        exact ih s1 h
      | ed s1 => rw [hc] at h; exact h
      | fault => simp only [optAll, Flow.all]
    · rw [if_neg hb]
      exact hs

theorem loadWord_width (ctsz : Nat) (s : Lzw) (load : Nat) (k : Int) (hs : WidthInv ctsz s) :
    WidthInv ctsz (loadWord s load k) := hs

theorem wordLoop_width (m : Mem) (ctsz : Nat) (h2 : 2 ≤ ctsz) (h8 : ctsz ≤ 8) :
    ∀ (n : Nat) (bseq : Int) (c : Cur) (s : Lzw), WidthInv ctsz s →
      optAll (WordOut.all (WidthInv ctsz)) (wordLoop m ctsz n bseq c s) := by
  intro n
  induction n with
  | zero => intro bseq c s _; simp only [wordLoop, optAll]
  | succ n ih =>
    intro bseq c s hs
    rw [wordLoop]
    by_cases hb : bseq > 0
    · rw [if_pos hb]
      simp only
      have hs1 := loadWord_width ctsz s
        ((rd16 m c.buff &&& (if bseq < 2 then (1 <<< (8 * bseq.toNat)) - 1 else 0xFFFFFFFF)) % 65536)
        (if bseq < 2 then bseq else 2) hs
      generalize loadWord s
        ((rd16 m c.buff &&& (if bseq < 2 then (1 <<< (8 * bseq.toNat)) - 1 else 0xFFFFFFFF)) % 65536)
        (if bseq < 2 then bseq else 2) = s1 at hs1 ⊢
      have h := codeLoop_width ctsz h2 h8 (s1.bszc.toNat + 2) s1 hs1
      cases hc : codeLoop ctsz (s1.bszc.toNat + 2) s1 with
      | none => simp only [optAll]
      | some r =>
        rw [hc] at h
        cases r with
        | fault => simp only [optAll, WordOut.all]
        | ed s2 => exact h
        | next s2 => exact ih _ _ s2 h
    · rw [if_neg hb]
      exact hs

theorem blockLoop_width (m : Mem) (ctsz : Nat) (h2 : 2 ≤ ctsz) (h8 : ctsz ≤ 8) :
    ∀ (n : Nat) (bseq : Int) (c : Cur) (s : Lzw), WidthInv ctsz s →
      optAll (FrameOut.all (WidthInv ctsz)) (blockLoop m ctsz n bseq c s) := by
  intro n
  induction n with
  | zero => intro bseq c s _; simp only [blockLoop, optAll]
  | succ n ih =>
    intro bseq c s hs
    rw [blockLoop]
    simp only
    by_cases hz : c.size - (bseq + 1) ≤ 0
    · rw [if_pos hz]; exact hs
    · rw [if_neg hz]
      have h := wordLoop_width m ctsz h2 h8 (bseq.toNat + 1) bseq
        { c with size := c.size - (bseq + 1) } s hs
      cases hc : wordLoop m ctsz (bseq.toNat + 1) bseq { c with size := c.size - (bseq + 1) } s with
      | none => simp only [optAll]
      | some r =>
        rw [hc] at h
        cases r with
        | fault => simp only [optAll, FrameOut.all]
        | ed b2 c2 s2 => exact h
        | done b2 c2 s2 =>
          simp only
          by_cases hr : rd8 m (c2.buff + b2) ≠ 0
          · rw [if_pos hr]; exact ih _ _ s2 h
          · rw [if_neg hr]; exact h

theorem byte_bits : ∀ f : Nat, f < 256 →
    ((f &&& 0x80 ≠ 0) ↔ f.testBit 7 = true) ∧ ((f &&& 0x40 ≠ 0) ↔ f.testBit 6 = true) ∧
    ((f &&& 0x10 ≠ 0) ↔ f.testBit 4 = true) ∧ ((f &&& 0x02 ≠ 0) ↔ f.testBit 1 = true) ∧
    ((f &&& 0x01 ≠ 0) ↔ f.testBit 0 = true) ∧ (f &&& 0x0C) >>> 2 = (f >>> 2) &&& 3 ∧
    2 <<< (f &&& 7) = 2 ^ ((f &&& 7) + 1) ∧ (f &&& 7) + 1 ≤ 8 := by
  decide!

/-- What a pass through the block of lines 298-317 can do to the list of
calls: nothing, or one call with the palette size of the state and the
graphics-control fields of the pending extension, which needs a palette. -/
theorem extFrame_frames (m : Mem) (skip fhdr : Int) (e e2 : Ext)
    (h : extFrame m skip fhdr e = some (some e2)) :
    e2.frames = e.frames ∨
    (0 < e.w.clrs ∧ skip ≤ e.w.ifrm ∧ ∃ d, e2.frames = e.frames ++ [d] ∧ d.hdr.clrs = e.w.clrs ∧
      d.hdr.ifrm = e.w.ifrm ∧ d.hdr.nfrm = e.w.nfrm ∧
      d.hdr.frxd = (rd16 m (fhdr + 4) : Int) ∧ d.hdr.fryd = (rd16 m (fhdr + 6) : Int) ∧
      (d.hdr.time, d.hdr.tran, d.hdr.mode) = gceFields (pendingGce m e.egch)) := by
  unfold extFrame at h
  by_cases h1 : e.w.ifrm ≥ skip
  · rw [if_pos h1] at h
    by_cases h2 : e.w.clrs ≤ 0
    · rw [if_pos h2] at h
      simp only [Option.some.injEq] at h
      left; rw [← h]
    · rw [if_neg h2] at h
      cases hl : _GIF_LoadFrame m e.c e.code e.out with
      | none => rw [hl] at h; simp at h
      | some o =>
        rw [hl] at h
        cases o with
        | fault => simp at h
        | ret r c2 s =>
          simp only at h
          by_cases h0 : s.top > e.area
          · rw [if_pos h0] at h
            simp at h
          rw [if_neg h0] at h
          by_cases h3 : r < 0
          · rw [if_pos h3] at h
            simp only [Option.some.injEq] at h
            left; rw [← h]
          · rw [if_neg h3] at h
            simp only [Option.some.injEq] at h
            right
            subst h
            refine ⟨by omega, h1, _, rfl, rfl, rfl, rfl, rfl, rfl, ?_⟩
            simp only
            cases hg : e.egch with
            | none => simp [pendingGce, gceFields]
            | some p =>
              obtain ⟨-, -, b4, b1, b0, bm, -, -⟩ := byte_bits (rd8 m p) (rd8_lt m p)
              simp only [pendingGce, gceFields, Option.map_some', Option.isSome_some, true_and,
                Prod.mk.injEq]
              refine ⟨?_, ?_, ?_⟩
              · by_cases hb : (rd8 m p).testBit 1 = true
                · rw [if_pos (b1.2 hb), if_pos hb]
                · rw [if_neg (fun hx => hb (b1.1 hx)), if_neg hb]
              · by_cases hb : (rd8 m p).testBit 0 = true
                · rw [if_pos (b0.2 hb), if_pos hb]
                · rw [if_neg (fun hx => hb (b0.1 hx)), if_neg hb]
              · by_cases hb : (rd8 m p).testBit 4 = true
                · rw [if_neg (fun hx => hx (b4.2 hb)), if_pos hb]
                · rw [if_pos (fun hx => hb (b4.1 hx)), if_neg hb, bm]
  · rw [if_neg h1] at h
    simp only [Option.some.injEq] at h
    left; rw [← h]

theorem hdr_ret_pow (gflg : Nat) (hg : gflg < 256) (c : Cur) (rp : Int) (fflg : Nat)
    (hf : fflg < 256) (flen : Int)
    (h : 0 < (_GIF_LoadFrameHdr gflg c rp fflg flen).ret) :
    ∃ k, 1 ≤ k ∧ k ≤ 8 ∧ (_GIF_LoadFrameHdr gflg c rp fflg flen).ret = 2 ^ k := by
  obtain ⟨-, -, -, -, -, -, gp, g8⟩ := byte_bits gflg hg
  obtain ⟨-, -, -, -, -, -, fp, f8⟩ := byte_bits fflg hf
  unfold _GIF_LoadFrameHdr at h ⊢
  simp only at h ⊢
  split_ifs at h ⊢ <;> simp only at h ⊢
  all_goals first
    | omega
    | exact ⟨(fflg &&& 7) + 1, by omega, f8, by rw [fp]; push_cast; rfl⟩
    | exact ⟨(gflg &&& 7) + 1, by omega, g8, by rw [gp]; push_cast; rfl⟩

theorem extTail_cases (m : Mem) (desc : Nat) (e : Ext) (k : Ext → Option (Bool × Ext))
    (b : Bool) (e' : Ext) (h : extTail m desc e k = some (b, e')) :
    (e'.frames = e.frames ∧ e'.w = e.w) ∨ ∃ c1, k { e with c := c1 } = some (b, e') := by
  unfold extTail at h
  by_cases hd : desc = 0x3B
  · rw [if_pos hd] at h
    simp only [Option.some.injEq, Prod.mk.injEq] at h
    left; rw [← h.2]; exact ⟨rfl, rfl⟩
  · rw [if_neg hd] at h
    cases hs : _GIF_SkipChunk m e.c with
    | none => rw [hs] at h; simp at h
    | some rc =>
      rw [hs] at h
      obtain ⟨r, c1⟩ := rc
      simp only at h
      by_cases hr : r = 0
      · rw [if_pos hr] at h
        simp only [Option.some.injEq, Prod.mk.injEq] at h
        left; rw [← h.2]; exact ⟨rfl, rfl⟩
      · rw [if_neg hr] at h
        right; exact ⟨c1, h⟩

/-- A property of the calls of the frame writer that holds for each call
made by a pass through lines 298-317, entered with `clrs` as
`_GIF_LoadFrameHdr` returned it, holds for all calls of the extraction loop. -/
theorem extLoop_frames_inv (m : Mem) (gflg : Nat) (amdf : Bool) (skip : Int) (P : Delivered → Prop)
    (hP : ∀ (e e2 : Ext) (fhdr : Int) (c : Cur) (rp : Int) (fflg : Nat), fflg < 256 →
      e.w.clrs = (_GIF_LoadFrameHdr gflg c rp fflg 9).ret →
      extFrame m skip fhdr e = some (some e2) → ∀ d, e2.frames = e.frames ++ [d] → P d) :
    ∀ (n : Nat) (e : Ext) (b : Bool) (e' : Ext), extLoop m gflg amdf skip n e = some (b, e') →
      (∀ d ∈ e.frames, P d) → ∀ d ∈ e'.frames, P d := by
  intro n
  induction n with
  | zero => intro e b e' h; simp [extLoop] at h
  | succ n ih =>
    intro e b e' h hfr
    rw [extLoop] at h
    by_cases hg : skip < (if e.w.nfrm < 0 then -e.w.nfrm else e.w.nfrm)
    · rw [if_pos hg] at h
      simp only at h
      have tail : ∀ (desc : Nat) (e1 : Ext),
          extTail m desc e1 (extLoop m gflg amdf skip n) = some (b, e') →
          (∀ d ∈ e1.frames, P d) → ∀ d ∈ e'.frames, P d := by
        intro desc e1 ht h1
        rcases extTail_cases m desc e1 _ b e' ht with ⟨hf, -⟩ | ⟨c1, hk⟩
        · rw [hf]; exact h1
        · exact ih _ b e' hk h1
      by_cases hd : rd8 m e.c.buff = 0x2C
      · rw [if_pos hd] at h
        cases hx : extFrame m skip (e.c.buff + 1)
            { e with
              c := (_GIF_LoadFrameHdr gflg
                ⟨e.c.buff + 1, e.c.size - 1, max (max e.c.hi (e.c.buff + 1)) (e.c.buff + 1 + 9)⟩ 13
                (rd8 m (e.c.buff + 1 + 8)) 9).cur,
              w := { e.w with
                intr := if rd8 m (e.c.buff + 1 + 8) &&& 0x40 ≠ 0 then 1 else 0,
                cpal := (_GIF_LoadFrameHdr gflg
                  ⟨e.c.buff + 1, e.c.size - 1, max (max e.c.hi (e.c.buff + 1)) (e.c.buff + 1 + 9)⟩ 13
                  (rd8 m (e.c.buff + 1 + 8)) 9).rpal,
                clrs := (_GIF_LoadFrameHdr gflg
                  ⟨e.c.buff + 1, e.c.size - 1, max (max e.c.hi (e.c.buff + 1)) (e.c.buff + 1 + 9)⟩ 13
                  (rd8 m (e.c.buff + 1 + 8)) 9).ret,
                ifrm := e.w.ifrm + 1 },
              loads := if e.w.ifrm + 1 ≥ skip ∧ ¬ ((_GIF_LoadFrameHdr gflg
                  ⟨e.c.buff + 1, e.c.size - 1, max (max e.c.hi (e.c.buff + 1)) (e.c.buff + 1 + 9)⟩ 13
                  (rd8 m (e.c.buff + 1 + 8)) 9).ret ≤ 0)
                then e.loads ++ [(e.w.ifrm + 1, (rd16 m (e.c.buff + 1 + 4) : Int),
                  (rd16 m (e.c.buff + 1 + 6) : Int))]
                else e.loads } with
        | none => rw [hx] at h; simp at h
        | some o =>
          rw [hx] at h
          cases o with
          | none =>
            simp only [Option.some.injEq, Prod.mk.injEq] at h
            rw [← h.2]; exact hfr
          | some e2 =>
            simp only at h
            have h2 : ∀ d ∈ e2.frames, P d := by
              rcases extFrame_frames m skip _ _ e2 hx with hf | ⟨-, -, d, hf, -⟩
              · rw [hf]; exact hfr
              · have hPd := hP _ e2 _ _ 13 (rd8 m (e.c.buff + 1 + 8)) (rd8_lt _ _) rfl hx d hf
                intro d' hd'
                rw [hf] at hd'
                rcases List.mem_append.mp hd' with hm | hm
                · exact hfr d' hm
                · simp only [List.mem_singleton] at hm
                  rw [hm]; exact hPd
            by_cases hc : e2.w.ifrm ≥ skip ∧ e2.c.size > 0
            · rw [if_pos hc] at h
              exact ih e2 b e' h h2
            · rw [if_neg hc] at h
              exact tail _ e2 h h2
      · rw [if_neg hd] at h
        by_cases hx : rd8 m e.c.buff = 0x21
        · rw [if_pos hx] at h
          split_ifs at h
          · exact tail _ _ h hfr
          · exact tail _ _ h hfr
          · exact tail _ _ h hfr
        · rw [if_neg hx] at h
          exact tail _ _ h hfr
    · rw [if_neg hg] at h
      simp only [Option.some.injEq, Prod.mk.injEq] at h
      rw [← h.2]; exact hfr

/-- A property of the calls of the frame writer that holds for each call made
by a pass through lines 298-317 holds for all calls of `GIF_Load`. -/
theorem load_frames_inv (m : Mem) (size : Int) (gwfr amdf : Bool) (skip : Int) (code0 : Nat → Nat)
    (out0 : Int → Nat) (P : Delivered → Prop)
    (hP : ∀ (e e2 : Ext) (fhdr : Int) (c : Cur) (rp : Int) (fflg : Nat), fflg < 256 →
      e.w.clrs = (_GIF_LoadFrameHdr (rd8 m 10) c rp fflg 9).ret →
      extFrame m skip fhdr e = some (some e2) → ∀ d, e2.frames = e.frames ++ [d] → P d)
    (r : LoadRes) (h : GIF_Load (some m) size gwfr amdf skip code0 out0 = some r) :
    ∀ d ∈ r.frames, P d := by
  have nil : ∀ (x : Option Int) (hi : Int), some (⟨x, [], [], hi⟩ : LoadRes) = some r →
      ∀ d ∈ r.frames, P d := by
    intro x hi hx d hd
    simp only [Option.some.injEq] at hx
    rw [← hx] at hd
    simp at hd
  unfold GIF_Load at h
  simp only at h
  split_ifs at h
  all_goals first
    | exact nil _ _ h
    | skip
  unfold loadPasses at h
  simp only at h
  split_ifs at h
  · exact nil _ _ h
  · cases hc : countLoop m (rd8 m 10)
        (size - (13 + (_GIF_LoadFrameHdr (rd8 m 10) ⟨0, 0, 0⟩ 0 0 0).ret * 3)).toNat
        ⟨13 + (_GIF_LoadFrameHdr (rd8 m 10) ⟨0, 0, 0⟩ 0 0 0).ret * 3,
          size - (13 + (_GIF_LoadFrameHdr (rd8 m 10) ⟨0, 0, 0⟩ 0 0 0).ret * 3), 12⟩ _ with
    | none => rw [hc] at h; simp at h
    | some x =>
      rw [hc] at h
      obtain ⟨desc, ca, wa⟩ := x
      simp only at h
      cases he : extLoop m (rd8 m 10) amdf skip _ _ with
      | none => rw [he] at h; simp at h
      | some y =>
        rw [he] at h
        obtain ⟨b, e⟩ := y
        simp only [Option.some.injEq] at h
        rw [← h]
        exact extLoop_frames_inv m (rd8 m 10) amdf skip P hP _ _ b e he (by simp)

/-- The loop over a sub-block ends with the cursor as far from the end of the
sub-block as `bseq` says and with the size untouched. -/
theorem wordLoop_cursor (m : Mem) (ctsz : Nat) :
    ∀ (n : Nat) (bseq : Int) (c : Cur) (s : Lzw),
      optAll (fun o : WordOut => match o with
        | WordOut.fault => True
        | WordOut.ed b2 c2 _ => c2.buff + b2 = c.buff + bseq ∧ c2.size = c.size ∧ 0 < b2
        | WordOut.done b2 c2 _ => c2.buff + b2 = c.buff + bseq ∧ c2.size = c.size)
        (wordLoop m ctsz n bseq c s) := by
  intro n
  induction n with
  | zero => intro bseq c s; simp only [wordLoop, optAll]
  | succ n ih =>
    intro bseq c s
    rw [wordLoop]
    by_cases hb : bseq > 0
    · rw [if_pos hb]
      simp only
      cases hc : codeLoop ctsz _ _ with
      | none => simp only [optAll]
      | some r =>
        cases r with
        | fault => simp only [optAll]
        | ed s2 => simp only [optAll]; exact ⟨trivial, trivial, hb⟩
        | next s2 =>
          simp only
          have := ih (bseq - 2) { buff := c.buff + 2, size := c.size, hi := max c.hi (c.buff + 2) } s2
          cases hw : wordLoop m ctsz n (bseq - 2)
              { buff := c.buff + 2, size := c.size, hi := max c.hi (c.buff + 2) } s2 with
          | none => simp only [optAll]
          | some o =>
            rw [hw] at this
            simp only [optAll] at this ⊢
            cases o with
            | fault => trivial
            | ed b2 c2 s3 => simp only at this ⊢; exact ⟨by omega, this.2.1, this.2.2⟩
            | done b2 c2 s3 => simp only at this ⊢; exact ⟨by omega, this.2⟩
    · rw [if_neg hb]
      simp only [optAll]
      exact ⟨trivial, trivial⟩

/-- The bytes of a memory behind a length byte form a sub-block in front of
the chain that follows them. -/
theorem holds_chain_block (m : Mem) (p : Int) (t : List (List Nat))
    (ht : holds (rd8 m) (p + 1 + (rd8 m p : Nat)) (chain t)) :
    holds (rd8 m) p (chain (List.map (fun (i : Nat) => rd8 m (p + 1 + (i : Int)))
      (List.range (rd8 m p)) :: t)) ∧
    (List.map (fun (i : Nat) => rd8 m (p + 1 + (i : Int))) (List.range (rd8 m p))).length
      = rd8 m p := by
  have hbl : (List.map (fun (i : Nat) => rd8 m (p + 1 + (i : Int))) (List.range (rd8 m p))).length
      = rd8 m p := by simp
  refine ⟨?_, hbl⟩
  rw [chain_cons]
  intro i hi
  simp only [List.cons_append, List.length_cons, List.length_append, hbl] at hi
  rcases Nat.eq_zero_or_pos i with rfl | hpos
  · simp [rd8_rd8]
  · obtain ⟨j, rfl⟩ : ∃ j, i = j + 1 := ⟨i - 1, by omega⟩
    simp only [List.cons_append, List.getD_cons_succ]
    by_cases hj : j < rd8 m p
    · rw [List.getD_append _ _ _ _ (by rw [hbl]; exact hj)]
      rw [List.getD_eq_getElem _ _ (by rw [hbl]; exact hj)]
      simp only [List.getElem_map, List.getElem_range, rd8_rd8]
      congr 1
      push_cast; ring
    · rw [List.getD_append_right _ _ _ _ (by rw [hbl]; omega), hbl]
      have := ht (j - rd8 m p) (by omega)
      rw [← this]
      congr 1
      push_cast [Nat.cast_sub (Nat.le_of_not_lt hj)]
      ring

/-- When the loop over the sub-blocks returns 0 or 1 it has walked a chain of
non-empty sub-blocks up to and including its terminator, and the size has
decreased by what the cursor advanced. -/
theorem blockLoop_walked (m : Mem) (ctsz : Nat) :
    ∀ (n bseq : Nat) (c : Cur) (s : Lzw) (r : Int) (c' : Cur) (s' : Lzw),
      blockLoop m ctsz n (bseq : Int) c s = some (FrameOut.ret r c' s') → (r = 0 ∨ r = 1) →
      0 < bseq → rd8 m (c.buff - 1) = bseq →
      ∃ subs, subsOK subs ∧ holds (rd8 m) (c.buff - 1) (chain subs) ∧
        c'.buff = c.buff - 1 + ((chain subs).length : Nat) ∧
        c'.size = c.size - ((chain subs).length : Nat) ∧ 0 ≤ c'.size := by
  intro n
  induction n with
  | zero => intro bseq c s r c' s' h; simp [blockLoop] at h
  | succ n ih =>
    intro bseq c s r c' s' h hr hpos hlen
    have h255 : bseq < 256 := by rw [← hlen]; exact rd8_lt _ _
    -- the sub-block that starts at the cursor
    have one : ∀ t : List (List Nat),
        holds (rd8 m) (c.buff + (bseq : Int)) (chain t) → subsOK t →
        ∃ subs, subsOK subs ∧ holds (rd8 m) (c.buff - 1) (chain subs) ∧
          (chain subs).length = 1 + bseq + (chain t).length := by
      intro t ht hst
      have hb := holds_chain_block m (c.buff - 1) t (by
        rw [hlen]
        have : c.buff - 1 + 1 + ((bseq : Nat) : Int) = c.buff + (bseq : Int) := by ring
        rw [this]; exact ht)
      rw [hlen] at hb
      refine ⟨_ :: t, ?_, hb.1, ?_⟩
      · intro x hx
        rcases List.mem_cons.mp hx with rfl | hx
        · rw [hb.2]; omega
        · exact hst x hx
      · rw [chain_cons]
        simp only [List.cons_append, List.length_cons, List.length_append, hb.2]
        omega
    have term : rd8 m (c.buff + (bseq : Int)) = 0 → holds (rd8 m) (c.buff + (bseq : Int)) (chain []) := by
      intro h0
      rw [chain_nil]
      intro i hi
      simp only [List.length_singleton] at hi
      have : i = 0 := by omega
      subst this
      simp [rd8_rd8, h0]
    rw [blockLoop] at h
    simp only at h
    by_cases hz : c.size - ((bseq : Int) + 1) ≤ 0
    · rw [if_pos hz] at h
      simp only [Option.some.injEq, FrameOut.ret.injEq] at h
      omega
    · rw [if_neg hz] at h
      have hw := wordLoop_cursor m ctsz ((bseq : Int).toNat + 1) bseq
        { c with size := c.size - ((bseq : Int) + 1) } s
      cases hx : wordLoop m ctsz ((bseq : Int).toNat + 1) bseq
          { c with size := c.size - ((bseq : Int) + 1) } s with
      | none => rw [hx] at h; simp at h
      | some o =>
        rw [hx] at h hw
        simp only [optAll] at hw
        cases o with
        | fault => simp at h
        | ed b2 c2 s2 =>
          simp only at hw h
          obtain ⟨hb2, hs2, -⟩ := hw
          simp only [Option.some.injEq, FrameOut.ret.injEq] at h
          obtain ⟨hrr, hc', -⟩ := h
          have h0 : rd8 m (c.buff + (bseq : Int)) = 0 := by
            by_contra hne
            rw [hb2] at hrr
            rw [if_pos hne] at hrr
            omega
          obtain ⟨subs, hso, hm, hl⟩ := one [] (term h0) (by intro x hx; simp at hx)
          rw [chain_nil] at hl
          simp only [List.length_singleton] at hl
          refine ⟨subs, hso, hm, ?_, ?_, ?_⟩
          · rw [← hc', hl, hb2]; push_cast; ring
          · rw [← hc', hl, hs2]; push_cast; ring
          · rw [← hc']; simp only; omega
        | done b2 c2 s2 =>
          simp only at hw h
          obtain ⟨hb2, hs2⟩ := hw
          rw [hb2] at h
          by_cases hne : rd8 m (c.buff + (bseq : Int)) ≠ 0
          · rw [if_pos hne] at h
            obtain ⟨t, hst, hmt, hbt, hszt, hnn⟩ := ih (rd8 m (c.buff + (bseq : Int))) _ s2 r c' s' h hr
              (by omega) (by simp only; congr 1; ring)
            simp only at hmt hbt hszt
            have e1 : c.buff + (bseq : Int) + 1 - 1 = c.buff + (bseq : Int) := by ring
            rw [e1] at hmt hbt
            obtain ⟨subs, hso, hm, hl⟩ := one t hmt hst
            refine ⟨subs, hso, hm, ?_, ?_, hnn⟩
            · rw [hbt, hl]; push_cast; ring
            · rw [hszt, hl, hs2]; push_cast; ring
          · rw [if_neg hne] at h
            simp only [Option.some.injEq, FrameOut.ret.injEq] at h
            obtain ⟨-, hc', -⟩ := h
            have h0 : rd8 m (c.buff + (bseq : Int)) = 0 := by omega
            obtain ⟨subs, hso, hm, hl⟩ := one [] (term h0) (by intro x hx; simp at hx)
            rw [chain_nil] at hl
            simp only [List.length_singleton] at hl
            refine ⟨subs, hso, hm, ?_, ?_, ?_⟩
            · rw [← hc', hl]; push_cast; ring
            · rw [← hc', hl, hs2]; push_cast; ring
            · rw [← hc']; simp only; omega

/-- When `_GIF_LoadFrame` returns 0 or 1 it has walked the code size byte and
a chain of non-empty sub-blocks up to and including its terminator. -/
theorem loadFrame_walked (m : Mem) (c : Cur) (code0 : Nat → Nat) (out0 : Int → Nat)
    (r : Int) (c' : Cur) (s' : Lzw)
    (h : _GIF_LoadFrame m c code0 out0 = some (FrameOut.ret r c' s')) (hr : r = 0 ∨ r = 1) :
    ∃ subs, subsOK subs ∧ holds (rd8 m) (c.buff + 1) (chain subs) ∧
      c'.buff = c.buff + 1 + ((chain subs).length : Nat) ∧
      c'.size = c.size - (1 + ((chain subs).length : Nat)) ∧ 0 ≤ c'.size := by
  unfold _GIF_LoadFrame at h
  simp only at h
  split_ifs at h with h1 h2 h3 h4
  all_goals first
    | (simp only [Option.some.injEq, FrameOut.ret.injEq] at h; omega)
    | skip
  obtain ⟨subs, hso, hm, hb, hs, hnn⟩ := blockLoop_walked m _ _ (rd8 m (c.buff + 1)) _ _ r c' s' h hr
    (by omega) (by simp only; congr 1; ring)
  simp only at hm hb hs
  have e1 : c.buff + 2 - 1 = c.buff + 1 := by ring
  rw [e1] at hm hb
  exact ⟨subs, hso, hm, hb, by rw [hs]; ring, hnn⟩

theorem skipLoop_chain_le (m : Mem) :
    ∀ (subs : List (List Nat)) (n : Nat) (c : Cur), subsOK subs → holds m c.buff (chain subs) →
      ((chain subs).length : Int) ≤ c.size → subs.length + 1 ≤ n →
      ∃ r hi', skipLoop m n c =
        some (r, ⟨c.buff + ((chain subs).length : Nat), c.size - ((chain subs).length : Nat), hi'⟩) ∧
        (r = if ((chain subs).length : Int) < c.size then 1 else 0) := by
  intro subs
  induction subs with
  | nil =>
    intro n c _ hm hsz hn
    obtain ⟨n, rfl⟩ : ∃ n', n = n' + 1 := ⟨n - 1, by omega⟩
    rw [chain_nil] at hm hsz ⊢
    have h0 := (holds_cons hm).1
    have hr : rd8 m c.buff = 0 := by unfold rd8; rw [h0]
    simp only [List.length_singleton, Nat.cast_one] at hsz ⊢
    rw [skipLoop]
    simp only [hr, Nat.cast_zero, add_zero]
    by_cases hlt : (1 : Int) < c.size
    · rw [if_neg (by omega), if_neg (by decide), if_pos hlt]
      exact ⟨_, _, rfl, rfl⟩
    · rw [if_pos (by omega), if_neg hlt]
      exact ⟨_, _, rfl, rfl⟩
  | cons b t ih =>
    intro n c hs hm hsz hn
    obtain ⟨n, rfl⟩ : ∃ n', n = n' + 1 := ⟨n - 1, by omega⟩
    rw [chain_cons] at hm hsz ⊢
    obtain ⟨h0, hm'⟩ := holds_cons hm
    obtain ⟨-, hm2⟩ := holds_append hm'
    have hb := hs b (List.mem_cons_self _ _)
    have hr : rd8 m c.buff = b.length := by unfold rd8; rw [h0]; omega
    have hcl := chain_length_ge t
    simp only [List.cons_append, List.length_cons, List.length_append, Nat.cast_add, Nat.cast_one]
      at hsz ⊢
    rw [skipLoop]
    simp only [hr]
    rw [if_neg (by omega), if_pos (by omega)]
    have hm3 : holds m (c.buff + (1 + (b.length : Int))) (chain t) := by
      have : c.buff + 1 + ((b.length : Nat) : Int) = c.buff + (1 + (b.length : Int)) := by ring
      rw [← this]; exact hm2
    obtain ⟨r, hi', h, hrr⟩ := ih n ⟨c.buff + (1 + (b.length : Int)), c.size - (1 + (b.length : Int)),
        max c.hi (c.buff + 1)⟩ (fun x hx => hs x (List.mem_cons_of_mem _ hx)) hm3
        (by simp only; omega) (by simp at hn; omega)
    refine ⟨r, hi', ?_, ?_⟩
    · rw [h]
      simp only [Option.some.injEq, Prod.mk.injEq, Cur.mk.injEq, true_and, and_true]
      constructor <;> ring
    · rw [hrr]
      simp only
      by_cases hlt : ((chain t).length : Int) < c.size - (1 + (b.length : Int))
      · rw [if_pos hlt, if_pos (by omega)]
      · rw [if_neg hlt, if_neg (by omega)]

theorem skipChunk_chain_le (m : Mem) (subs : List (List Nat)) (c : Cur) (hs : subsOK subs)
    (hm : holds (rd8 m) (c.buff + 1) (chain subs))
    (hsz : 1 + ((chain subs).length : Int) ≤ c.size) :
    ∃ r hi', _GIF_SkipChunk m c =
        some (r, ⟨c.buff + 1 + ((chain subs).length : Nat), c.size - 1 - ((chain subs).length : Nat), hi'⟩) ∧
      (r = if 1 + ((chain subs).length : Int) < c.size then 1 else 0) := by
  have hcl := chain_length_ge subs
  rw [← skipChunk_rd8]
  unfold _GIF_SkipChunk
  simp only
  rw [if_neg (by omega)]
  obtain ⟨r, hi', h, hr⟩ := skipLoop_chain_le (rd8 m) subs (c.size - 1).toNat
    ⟨c.buff + 1, c.size - 1, c.hi⟩ hs hm (by simp only; omega) (by omega)
  refine ⟨r, hi', h, ?_⟩
  rw [hr]
  simp only
  by_cases hlt : ((chain subs).length : Int) < c.size - 1
  · rw [if_pos hlt, if_pos (by omega)]
  · rw [if_neg hlt, if_neg (by omega)]

theorem view_ret {o : Option FrameOut} {r : Int} {c' : Cur} {b : Int}
    (h : o.map FrameOut.view = some (some (r, c', b))) :
    ∃ s', o = some (FrameOut.ret r c' s') := by
  cases o with
  | none => simp at h
  | some x =>
    cases x with
    | fault => simp [FrameOut.view] at h
    | ret r1 c1 s1 =>
      simp only [Option.map_some', FrameOut.view, Option.some.injEq, Prod.mk.injEq] at h
      obtain ⟨rfl, rfl, -⟩ := h
      exact ⟨s1, rfl⟩

/-- The count and the cursor that `_GIF_LoadFrameHdr` returns depend on the
position and the size only. -/
theorem hdr_pos (gflg : Nat) (c c' : Cur) (rp rp' : Int) (fflg : Nat) (flen : Int)
    (hb : c.buff = c'.buff) (hs : c.size = c'.size) :
    (_GIF_LoadFrameHdr gflg c rp fflg flen).ret = (_GIF_LoadFrameHdr gflg c' rp' fflg flen).ret ∧
    (_GIF_LoadFrameHdr gflg c rp fflg flen).cur.buff
      = (_GIF_LoadFrameHdr gflg c' rp' fflg flen).cur.buff ∧
    (_GIF_LoadFrameHdr gflg c rp fflg flen).cur.size
      = (_GIF_LoadFrameHdr gflg c' rp' fflg flen).cur.size := by
  unfold _GIF_LoadFrameHdr
  simp only [hb, hs]
  split_ifs <;> simp_all

theorem skipLoop_pos (m : Mem) : ∀ (n : Nat) (c c' : Cur), c.buff = c'.buff → c.size = c'.size →
    skipView (skipLoop m n c) = skipView (skipLoop m n c') := by
  intro n
  induction n with
  | zero => intro c c' _ _; rfl
  | succ n ih =>
    intro c c' hb hs
    rw [skipLoop, skipLoop]
    simp only [hb, hs]
    split_ifs
    · rfl
    · exact ih _ _ rfl rfl
    · rfl

theorem skipChunk_pos (m : Mem) (c c' : Cur) (hb : c.buff = c'.buff) (hs : c.size = c'.size) :
    skipView (_GIF_SkipChunk m c) = skipView (_GIF_SkipChunk m c') := by
  unfold _GIF_SkipChunk
  simp only [hb, hs]
  split_ifs
  · rfl
  · exact skipLoop_pos m _ _ _ rfl rfl

/-- The counting pass only adds to the frame count and to the largest width
and height. -/
theorem countLoop_mono (m : Mem) (gflg : Nat) :
    ∀ (n : Nat) (c : Cur) (w : GIF_WHDR) (desc : Nat) (c' : Cur) (w' : GIF_WHDR),
      countLoop m gflg n c w = some (desc, c', w') →
      w.ifrm ≤ w'.ifrm ∧ w.frxd ≤ w'.frxd ∧ w.fryd ≤ w'.fryd := by
  intro n
  induction n with
  | zero => intro c w desc c' w' h; simp [countLoop] at h
  | succ n ih =>
    intro c w desc c' w' h
    rw [countLoop] at h
    simp only at h
    by_cases h1 : rd8 m c.buff = 0x3B
    · rw [if_pos h1] at h
      simp only [Option.some.injEq, Prod.mk.injEq] at h
      obtain ⟨-, -, rfl⟩ := h
      exact ⟨le_refl _, le_refl _, le_refl _⟩
    · rw [if_neg h1] at h
      by_cases h2 : rd8 m c.buff = 0x2C
      · rw [if_pos h2] at h
        by_cases h3 : (_GIF_LoadFrameHdr gflg
            ⟨c.buff + 1, c.size - 1, max (max c.hi (c.buff + 1)) (c.buff + 1 + 9)⟩ w.cpal
            (rd8 m (c.buff + 1 + 8)) 9).ret ≤ 0
        · rw [if_pos h3] at h
          simp only [Option.some.injEq, Prod.mk.injEq] at h
          obtain ⟨-, -, rfl⟩ := h
          exact ⟨le_refl _, le_refl _, le_refl _⟩
        · rw [if_neg h3] at h
          cases hs : _GIF_SkipChunk m (_GIF_LoadFrameHdr gflg
              ⟨c.buff + 1, c.size - 1, max (max c.hi (c.buff + 1)) (c.buff + 1 + 9)⟩ w.cpal
              (rd8 m (c.buff + 1 + 8)) 9).cur with
          | none => rw [hs] at h; simp at h
          | some x =>
            rw [hs] at h
            obtain ⟨r, c3⟩ := x
            simp only at h
            have hw1 : w.ifrm ≤ w.ifrm + 1 ∧
                w.frxd ≤ (if w.frxd > (rd16 m (c.buff + 1 + 4) : Int) then w.frxd
                  else (rd16 m (c.buff + 1 + 4) : Int)) ∧
                w.fryd ≤ (if w.fryd > (rd16 m (c.buff + 1 + 6) : Int) then w.fryd
                  else (rd16 m (c.buff + 1 + 6) : Int)) := by
              refine ⟨by omega, ?_, ?_⟩ <;> split_ifs <;> omega
            by_cases hr : r = 0
            · rw [if_pos hr] at h
              simp only [Option.some.injEq, Prod.mk.injEq] at h
              obtain ⟨-, -, rfl⟩ := h
              exact hw1
            · rw [if_neg hr] at h
              have h4 := ih _ _ _ _ _ h
              simp only at h4
              exact ⟨by omega, by omega, by omega⟩
      · rw [if_neg h2] at h
        cases hs : _GIF_SkipChunk m ⟨c.buff + 1, c.size - 1, max c.hi (c.buff + 1)⟩ with
        | none => rw [hs] at h; simp at h
        | some x =>
          rw [hs] at h
          obtain ⟨r, c3⟩ := x
          simp only at h
          by_cases hr : r = 0
          · rw [if_pos hr] at h
            simp only [Option.some.injEq, Prod.mk.injEq] at h
            obtain ⟨-, -, rfl⟩ := h
            exact ⟨le_refl _, le_refl _, le_refl _⟩
          · rw [if_neg hr] at h
            exact ih _ _ _ _ _ h

theorem blockLoop_status (m : Mem) (ctsz : Nat) :
    ∀ (n : Nat) (bseq : Int) (c : Cur) (s : Lzw) (r : Int) (c' : Cur) (s' : Lzw),
      blockLoop m ctsz n bseq c s = some (FrameOut.ret r c' s') → r < 0 ∨ r = 0 ∨ r = 1 := by
  intro n
  induction n with
  | zero => intro bseq c s r c' s' h; simp [blockLoop] at h
  | succ n ih =>
    intro bseq c s r c' s' h
    rw [blockLoop] at h
    simp only at h
    by_cases hz : c.size - (bseq + 1) ≤ 0
    · rw [if_pos hz] at h
      simp only [Option.some.injEq, FrameOut.ret.injEq] at h
      omega
    · rw [if_neg hz] at h
      cases hx : wordLoop m ctsz (bseq.toNat + 1) bseq { c with size := c.size - (bseq + 1) } s with
      | none => rw [hx] at h; simp at h
      | some o =>
        rw [hx] at h
        cases o with
        | fault => simp at h
        | ed b2 c2 s2 =>
          simp only [Option.some.injEq, FrameOut.ret.injEq] at h
          obtain ⟨hr, -, -⟩ := h
          split_ifs at hr <;> omega
        | done b2 c2 s2 =>
          simp only at h
          by_cases hne : rd8 m (c2.buff + b2) ≠ 0
          · rw [if_pos hne] at h
            exact ih _ _ _ _ _ _ h
          · rw [if_neg hne] at h
            simp only [Option.some.injEq, FrameOut.ret.injEq] at h
            omega

/-- The statuses of `_GIF_LoadFrame` are negative, 0 or 1. -/
theorem loadFrame_status (m : Mem) (c : Cur) (code0 : Nat → Nat) (out0 : Int → Nat)
    (r : Int) (c' : Cur) (s' : Lzw)
    (h : _GIF_LoadFrame m c code0 out0 = some (FrameOut.ret r c' s')) : r < 0 ∨ r = 0 ∨ r = 1 := by
  unfold _GIF_LoadFrame at h
  simp only at h
  split_ifs at h
  all_goals first
    | (simp only [Option.some.injEq, FrameOut.ret.injEq] at h; omega)
    | exact blockLoop_status m _ _ _ _ _ r c' s' h

theorem extTail_loads (m : Mem) (desc : Nat) (e : Ext) (k : Ext → Option (Bool × Ext))
    (b : Bool) (e' : Ext) (h : extTail m desc e k = some (b, e')) :
    e'.loads = e.loads ∨
    ∃ r c1, desc ≠ 0x3B ∧ _GIF_SkipChunk m e.c = some (r, c1) ∧ r ≠ 0 ∧
      k { e with c := c1 } = some (b, e') := by
  unfold extTail at h
  by_cases hd : desc = 0x3B
  · rw [if_pos hd] at h
    simp only [Option.some.injEq, Prod.mk.injEq] at h
    left; rw [← h.2]
  · rw [if_neg hd] at h
    cases hs : _GIF_SkipChunk m e.c with
    | none => rw [hs] at h; simp at h
    | some rc =>
      rw [hs] at h
      obtain ⟨r, c1⟩ := rc
      simp only at h
      by_cases hr : r = 0
      · rw [if_pos hr] at h
        simp only [Option.some.injEq, Prod.mk.injEq] at h
        left; rw [← h.2]
      · rw [if_neg hr] at h
        right; exact ⟨r, c1, hd, rfl, hr, h⟩

theorem extTail_stop (m : Mem) (desc : Nat) (e : Ext) (k : Ext → Option (Bool × Ext))
    (b : Bool) (e' : Ext) (hz : e.c.size ≤ 1) (h : extTail m desc e k = some (b, e')) :
    e'.loads = e.loads := by
  rcases extTail_loads m desc e k b e' h with hl | ⟨r, c1, -, hs, hr, -⟩
  · exact hl
  · exfalso
    unfold _GIF_SkipChunk at hs
    simp only at hs
    rw [if_pos (by omega)] at hs
    simp only [Option.some.injEq, Prod.mk.injEq] at hs
    exact hr hs.1.symm

/-- What a pass through lines 298-317 does to the cursor and to the record of
the calls of `_GIF_LoadFrame`. -/
theorem extFrame_loads (m : Mem) (skip fhdr : Int) (e e2 : Ext)
    (h : extFrame m skip fhdr e = some (some e2)) :
    e2.loads = e.loads ∧ e2.w.nfrm = e.w.nfrm ∧
    ((e2 = e ∧ e.w.ifrm < skip) ∨
     (skip ≤ e.w.ifrm ∧ e2.c.size = -e.w.ifrm ∧ e2.w.ifrm = e.w.ifrm - 1) ∨
     (skip ≤ e.w.ifrm ∧ 0 < e.w.clrs ∧ e2.w.ifrm = e.w.ifrm ∧
       ∃ r c2 s, _GIF_LoadFrame m e.c e.code e.out = some (FrameOut.ret r c2 s) ∧ (r = 0 ∨ r = 1) ∧
         e2.c.buff = c2.buff ∧ e2.c.size = c2.size)) := by
  unfold extFrame at h
  by_cases h1 : e.w.ifrm ≥ skip
  · rw [if_pos h1] at h
    by_cases h2 : e.w.clrs ≤ 0
    · rw [if_pos h2] at h
      simp only [Option.some.injEq] at h
      subst h
      exact ⟨rfl, rfl, Or.inr (Or.inl ⟨h1, rfl, rfl⟩)⟩
    · rw [if_neg h2] at h
      cases hl : _GIF_LoadFrame m e.c e.code e.out with
      | none => rw [hl] at h; simp at h
      | some o =>
        rw [hl] at h
        cases o with
        | fault => simp at h
        | ret r c2 s =>
          simp only at h
          by_cases h0 : s.top > e.area
          · rw [if_pos h0] at h
            simp at h
          rw [if_neg h0] at h
          by_cases h3 : r < 0
          · rw [if_pos h3] at h
            simp only [Option.some.injEq] at h
            subst h
            exact ⟨rfl, rfl, Or.inr (Or.inl ⟨h1, rfl, rfl⟩)⟩
          · rw [if_neg h3] at h
            simp only [Option.some.injEq] at h
            subst h
            have hst := loadFrame_status m e.c e.code e.out r c2 s hl
            exact ⟨rfl, rfl, Or.inr (Or.inr ⟨h1, by omega, rfl, r, c2, s, rfl, by omega, rfl, rfl⟩)⟩
  · rw [if_neg h1] at h
    simp only [Option.some.injEq] at h
    subst h
    exact ⟨rfl, rfl, Or.inl ⟨rfl, by omega⟩⟩

theorem skipView_some {x : Option (Int × Cur)} {r : Int} {c1 : Cur} {y : Option (Int × Cur)}
    (hx : x = some (r, c1)) (h : skipView y = skipView x) :
    ∃ c3, y = some (r, c3) ∧ c3.buff = c1.buff ∧ c3.size = c1.size := by
  subst hx
  cases y with
  | none => simp [skipView] at h
  | some p =>
    obtain ⟨r', c3⟩ := p
    simp only [skipView, Option.map_some', Option.some.injEq, Prod.mk.injEq] at h
    obtain ⟨rfl, h2, h3⟩ := h
    exact ⟨c3, rfl, h2, h3⟩

/-- The two passes in step: every call of `_GIF_LoadFrame` that the extraction
loop makes from a cursor at which the counting loop continues is a call for a
frame that the counting loop counts. -/
theorem lockstep (m : Mem) (gflg : Nat) (amdf : Bool) (skip : Int) (hs0 : 0 ≤ skip) :
    ∀ (n : Nat) (c : Cur) (w : GIF_WHDR) (desc : Nat) (c' : Cur) (w' : GIF_WHDR),
      countLoop m gflg n c w = some (desc, c', w') →
      ∀ (n' : Nat) (e : Ext) (b : Bool) (e' : Ext),
        e.c.buff = c.buff → e.c.size = c.size → e.w.ifrm + 1 = w.ifrm →
        (if e.w.nfrm < 0 then -e.w.nfrm else e.w.nfrm) = w'.ifrm →
        extLoop m gflg amdf skip n' e = some (b, e') →
        ∀ l ∈ e'.loads, l ∈ e.loads ∨ (l.1 < w'.ifrm ∧ l.2.1 ≤ w'.frxd ∧ l.2.2 ≤ w'.fryd ∧ 0 ≤ l.2.1 ∧ 0 ≤ l.2.2) := by
  intro n
  induction n with
  | zero => intro c w desc c' w' h; simp [countLoop] at h
  | succ n ih =>
    intro c w desc c' w' hcount n' e b e' hb hs hi hn hext
    obtain ⟨n', rfl⟩ : ∃ k, n' = k + 1 := by
      cases n' with
      | zero => simp [extLoop] at hext
      | succ k => exact ⟨k, rfl⟩
    -- both sides skip a chunk
    have P1 : ∀ (cc : Cur) (w1 : GIF_WHDR) (d d0 : Nat) (e1 : Ext),
        extTail m d e1 (extLoop m gflg amdf skip n') = some (b, e') →
        (match _GIF_SkipChunk m cc with
          | none => none
          | some (r, c3) => if r = 0 then some (d0, c3, w1) else countLoop m gflg n c3 w1)
          = some (desc, c', w') →
        e1.c.buff = cc.buff → e1.c.size = cc.size → e1.w.ifrm + 1 = w1.ifrm →
        e1.w.nfrm = e.w.nfrm →
        ∀ l ∈ e'.loads, l ∈ e1.loads ∨ (l.1 < w'.ifrm ∧ l.2.1 ≤ w'.frxd ∧ l.2.2 ≤ w'.fryd ∧ 0 ≤ l.2.1 ∧ 0 ≤ l.2.2) := by
      intro cc w1 d d0 e1 ht hc hb1 hs1 hi1 hn1
      rcases extTail_loads m d e1 _ b e' ht with hl | ⟨r, c1, -, hsk, hr, hk⟩
      · intro l hl'; left; rw [← hl]; exact hl'
      · obtain ⟨c3, hsc, hb3, hs3⟩ := skipView_some hsk (skipChunk_pos m cc e1.c hb1.symm hs1.symm)
        rw [hsc] at hc
        simp only at hc
        rw [if_neg hr] at hc
        exact ih c3 w1 desc c' w' hc n' { e1 with c := c1 } b e' hb3.symm hs3.symm hi1
          (by simp only; rw [hn1]; exact hn) hk
    -- the extraction side has decoded the frame that the counting side skips
    have P2 : ∀ (cc : Cur) (w1 : GIF_WHDR) (d0 : Nat) (c1 : Cur) (code1 : Nat → Nat)
        (out1 : Int → Nat) (e2 : Ext) (r : Int) (c2 : Cur) (s : Lzw),
        (match _GIF_SkipChunk m cc with
          | none => none
          | some (r, c3) => if r = 0 then some (d0, c3, w1) else countLoop m gflg n c3 w1)
          = some (desc, c', w') →
        c1.buff = cc.buff → c1.size = cc.size →
        _GIF_LoadFrame m c1 code1 out1 = some (FrameOut.ret r c2 s) → (r = 0 ∨ r = 1) →
        e2.c.buff = c2.buff → e2.c.size = c2.size → 0 < e2.c.size →
        e2.w.ifrm + 1 = w1.ifrm → e2.w.nfrm = e.w.nfrm →
        extLoop m gflg amdf skip n' e2 = some (b, e') →
        ∀ l ∈ e'.loads, l ∈ e2.loads ∨ (l.1 < w'.ifrm ∧ l.2.1 ≤ w'.frxd ∧ l.2.2 ≤ w'.fryd ∧ 0 ≤ l.2.1 ∧ 0 ≤ l.2.2) := by
      intro cc w1 d0 c1 code1 out1 e2 r c2 s hc hb1 hs1 hl hr hb2 hs2 hpos hi2 hn2 hx
      obtain ⟨subs, hso, hm, hcb, hcs, -⟩ := loadFrame_walked m c1 code1 out1 r c2 s hl hr
      obtain ⟨hi', hsk⟩ := skipChunk_chain (rd8 m) subs cc hso (by rw [← hb1]; exact hm) (by omega)
      rw [skipChunk_rd8] at hsk
      rw [hsk] at hc
      simp only at hc
      rw [if_neg (by decide)] at hc
      exact ih _ w1 desc c' w' hc n' e2 b e' (by simp only; omega) (by simp only; omega) hi2
        (by rw [hn2]; exact hn) hx
    rw [extLoop] at hext
    by_cases hg : skip < (if e.w.nfrm < 0 then -e.w.nfrm else e.w.nfrm)
    · rw [if_pos hg] at hext
      simp only at hext
      rw [countLoop] at hcount
      simp only at hcount
      rw [← hb, ← hs] at hcount
      by_cases hA : rd8 m e.c.buff = 0x3B
      · rw [if_neg (by omega), if_neg (by omega)] at hext
        rcases extTail_loads m _ _ _ b e' hext with hl | ⟨r, c1, hd, -⟩
        · intro l hl'; left; rw [hl] at hl'; exact hl'
        · exact absurd hA hd
      · rw [if_neg hA] at hcount
        by_cases hB : rd8 m e.c.buff = 0x2C
        · rw [if_pos hB] at hcount hext
          have hrel := hdr_pos gflg
            ⟨e.c.buff + 1, e.c.size - 1, max (max c.hi (e.c.buff + 1)) (e.c.buff + 1 + 9)⟩
            ⟨e.c.buff + 1, e.c.size - 1, max (max e.c.hi (e.c.buff + 1)) (e.c.buff + 1 + 9)⟩
            w.cpal 13 (rd8 m (e.c.buff + 1 + 8)) 9 rfl rfl
          generalize _GIF_LoadFrameHdr gflg
            ⟨e.c.buff + 1, e.c.size - 1, max (max c.hi (e.c.buff + 1)) (e.c.buff + 1 + 9)⟩
            w.cpal (rd8 m (e.c.buff + 1 + 8)) 9 = Hc at hcount hrel
          generalize _GIF_LoadFrameHdr gflg
            ⟨e.c.buff + 1, e.c.size - 1, max (max e.c.hi (e.c.buff + 1)) (e.c.buff + 1 + 9)⟩
            13 (rd8 m (e.c.buff + 1 + 8)) 9 = He at hext hrel
          obtain ⟨hret, hcb, hcs⟩ := hrel
          -- the frame is counted whenever it has a palette
          have hl0 : ¬ (He.ret ≤ 0) →
              e.w.ifrm + 1 < w'.ifrm ∧ (rd16 m (e.c.buff + 1 + 4) : Int) ≤ w'.frxd ∧
                (rd16 m (e.c.buff + 1 + 6) : Int) ≤ w'.fryd ∧
                (0 : Int) ≤ (rd16 m (e.c.buff + 1 + 4) : Int) ∧
                (0 : Int) ≤ (rd16 m (e.c.buff + 1 + 6) : Int) := by
            intro hpos
            rw [if_neg (by rw [hret]; exact hpos)] at hcount
            have hw1 : w.frxd ≤ (if w.frxd > (rd16 m (e.c.buff + 1 + 4) : Int) then w.frxd
                  else (rd16 m (e.c.buff + 1 + 4) : Int)) ∧
                (rd16 m (e.c.buff + 1 + 4) : Int) ≤ (if w.frxd > (rd16 m (e.c.buff + 1 + 4) : Int)
                  then w.frxd else (rd16 m (e.c.buff + 1 + 4) : Int)) ∧
                (rd16 m (e.c.buff + 1 + 6) : Int) ≤ (if w.fryd > (rd16 m (e.c.buff + 1 + 6) : Int)
                  then w.fryd else (rd16 m (e.c.buff + 1 + 6) : Int)) := by
              refine ⟨?_, ?_, ?_⟩ <;> split_ifs <;> omega
            cases hsk : _GIF_SkipChunk m Hc.cur with
            | none => rw [hsk] at hcount; simp at hcount
            | some x =>
              rw [hsk] at hcount
              obtain ⟨r, c3⟩ := x
              simp only at hcount
              by_cases hr : r = 0
              · rw [if_pos hr] at hcount
                simp only [Option.some.injEq, Prod.mk.injEq] at hcount
                obtain ⟨-, -, rfl⟩ := hcount
                simp only
                exact ⟨by omega, hw1.2.1, hw1.2.2, by omega, by omega⟩
              · rw [if_neg hr] at hcount
                have hmono := countLoop_mono m gflg n _ _ _ _ _ hcount
                simp only at hmono
                exact ⟨by omega, by omega, by omega, by omega, by omega⟩
          have hE1 : ∀ l ∈ (if e.w.ifrm + 1 ≥ skip ∧ ¬ He.ret ≤ 0
              then e.loads ++ [(e.w.ifrm + 1, (rd16 m (e.c.buff + 1 + 4) : Int),
                (rd16 m (e.c.buff + 1 + 6) : Int))]
              else e.loads),
              l ∈ e.loads ∨ (l.1 < w'.ifrm ∧ l.2.1 ≤ w'.frxd ∧ l.2.2 ≤ w'.fryd ∧ 0 ≤ l.2.1 ∧ 0 ≤ l.2.2) := by
            intro l hl
            by_cases hc : e.w.ifrm + 1 ≥ skip ∧ ¬ He.ret ≤ 0
            · rw [if_pos hc] at hl
              rcases List.mem_append.mp hl with h1 | h1
              · exact Or.inl h1
              · simp only [List.mem_singleton] at h1
                right; rw [h1]; exact hl0 hc.2
            · rw [if_neg hc] at hl
              exact Or.inl hl
          have hgd : skip < w'.ifrm := by rw [← hn]; exact hg
          split at hext
          · simp at hext
          · simp only [Option.some.injEq, Prod.mk.injEq] at hext
            rw [← hext.2]
            exact hE1
          · rename_i x e2 heq
            obtain ⟨hld, hnf, hcases⟩ := extFrame_loads m skip _ _ e2 heq
            simp only at hld hnf hcases
            have fin : e'.loads = e2.loads →
                ∀ l ∈ e'.loads, l ∈ e.loads ∨ (l.1 < w'.ifrm ∧ l.2.1 ≤ w'.frxd ∧ l.2.2 ≤ w'.fryd ∧ 0 ≤ l.2.1 ∧ 0 ≤ l.2.2) := by
              intro h1 l hl
              rw [h1, hld] at hl
              exact hE1 l hl
            have fin2 : (∀ l ∈ e'.loads, l ∈ e2.loads ∨ (l.1 < w'.ifrm ∧ l.2.1 ≤ w'.frxd ∧ l.2.2 ≤ w'.fryd ∧ 0 ≤ l.2.1 ∧ 0 ≤ l.2.2)) →
                ∀ l ∈ e'.loads, l ∈ e.loads ∨ (l.1 < w'.ifrm ∧ l.2.1 ≤ w'.frxd ∧ l.2.2 ≤ w'.fryd ∧ 0 ≤ l.2.1 ∧ 0 ≤ l.2.2) := by
              intro h1 l hl
              rcases h1 l hl with h2 | h2
              · rw [hld] at h2; exact hE1 l h2
              · exact Or.inr h2
            rcases hcases with ⟨he2, hlt⟩ | ⟨hge, hsz, hif⟩ | ⟨hge, hclrs, hif, r, c2, s, hl, hr, hb2, hs2⟩
            · -- the frame is skipped on both sides
              have hw2 : e2.w.ifrm = e.w.ifrm + 1 := by rw [he2]
              have hc2 : e2.c = He.cur := by rw [he2]
              rw [if_neg (fun hc => by omega)] at hext
              by_cases hH : Hc.ret ≤ 0
              · rw [if_pos hH] at hcount
                simp only [Option.some.injEq, Prod.mk.injEq] at hcount
                obtain ⟨-, -, rfl⟩ := hcount
                simp only at hgd
                omega
              · rw [if_neg hH] at hcount
                have hP := P1 Hc.cur _ _ _ e2 hext hcount (by rw [hc2]; exact hcb.symm)
                  (by rw [hc2]; exact hcs.symm) (by rw [hw2]; simp only; omega) hnf
                exact fin2 hP
            · -- the frame has failed
              rw [if_neg (fun hc => by omega)] at hext
              exact fin (by rw [extTail_stop m _ e2 _ b e' (by omega) hext])
            · by_cases hc : e2.w.ifrm ≥ skip ∧ e2.c.size > 0
              · rw [if_pos hc] at hext
                rw [if_neg (by rw [hret]; omega)] at hcount
                have hP := P2 Hc.cur _ _ He.cur e.code e.out e2 r c2 s hcount hcb.symm
                  hcs.symm hl hr hb2 hs2 hc.2 (by rw [hif]; simp only; omega) hnf hext
                exact fin2 hP
              · rw [if_neg hc] at hext
                exact fin (by rw [extTail_stop m _ e2 _ b e' (by omega) hext])
        · rw [if_neg hB] at hcount hext
          by_cases hx : rd8 m e.c.buff = 0x21
          · rw [if_pos hx] at hext
            split_ifs at hext
            · have hP := P1 ⟨e.c.buff + 1, e.c.size - 1, max c.hi (e.c.buff + 1)⟩ w _ _ _ hext hcount rfl rfl
                hi rfl
              exact hP
            · have hP := P1 ⟨e.c.buff + 1, e.c.size - 1, max c.hi (e.c.buff + 1)⟩ w _ _ _ hext hcount rfl rfl
                hi rfl
              exact hP
            · have hP := P1 ⟨e.c.buff + 1, e.c.size - 1, max c.hi (e.c.buff + 1)⟩ w _ _ _ hext hcount rfl rfl
                hi rfl
              exact hP
          · rw [if_neg hx] at hext
            have hP := P1 ⟨e.c.buff + 1, e.c.size - 1, max c.hi (e.c.buff + 1)⟩ w _ _ _ hext hcount rfl rfl
              hi rfl
            exact hP
    · rw [if_neg hg] at hext
      simp only [Option.some.injEq, Prod.mk.injEq] at hext
      intro l hl; left; rw [← hext.2] at hl; exact hl

/-- The function `loadLoops` runs the two loops as `loadPasses` does. -/
theorem loadPasses_loops (m : Mem) (size : Int) (amdf : Bool) (skip : Int)
    (code0 : Nat → Nat) (out0 : Int → Nat) :
    loadPasses m size amdf skip code0 out0 =
      if size - (13 + (_GIF_LoadFrameHdr (rd8 m 10) ⟨0, 0, 0⟩ 0 0 0).ret * 3) ≤ 0
      then some ⟨some 0, [], [], 11⟩
      else match loadLoops m size amdf skip code0 out0 with
        | none => none
        | some (_, none) => none
        | some (_, some (b, e)) =>
          some ⟨if b then some (if e.w.nfrm < 0 then skip - e.w.ifrm - 1 else e.w.ifrm + 1) else none,
                e.frames, e.metas, e.c.hi⟩ := by
  unfold loadPasses loadLoops
  simp only
  split_ifs
  · rfl
  · cases hc : countLoop m (rd8 m 10) _ _ _ with
    | none => rfl
    | some x =>
      obtain ⟨desc, ca, wa⟩ := x
      simp only
      cases he : extLoop m (rd8 m 10) amdf skip _ _ with
      | none => rfl
      | some y => rfl

/-! ## The code table as a set of chains -/

theorem recPred_eq (r : Nat) : recPred r = r % 4096 := by
  unfold recPred; exact and_low12 r

theorem recLen_eq (r : Nat) : recLen r = r / 4096 % 4096 := by
  unfold recLen
  rw [and_low12, Nat.shiftRight_eq_div_pow]

theorem recPix_eq (r : Nat) : recPix r = r / 16777216 % 256 := by
  unfold recPix
  rw [Nat.shiftRight_eq_div_pow]

theorem recLen_stop (r : Nat) : (r &&& 0xFFF000 = 0) ↔ recLen r = 0 := by
  rw [and_mid12, recLen_eq]; omega

/-- The predecessor walk along a well-formed chain: it stores one pixel per
link, from the end of the string down to its start, and stops at a record of
chain length zero. -/
theorem walkT_chain (code : Nat → Nat) (V : Nat → Prop)
    (hV : ∀ i, V i → recLen (code i) = 0 ∨ (V (recPred (code i)) ∧ recPred (code i) < i ∧
      recLen (code i) = recLen (code (recPred (code i))) + 1)) :
    ∀ iter, V iter → ∀ (n : Nat) (out : Int → Nat) (b : Int), recLen (code iter) < n →
      ∃ str lit, walkT code n out (b + (recLen (code iter) : Nat)) iter
          = some (writeAt out b str, b - 1, lit) ∧
        str.length = recLen (code iter) + 1 ∧ V lit ∧ recLen (code lit) = 0 := by
  intro iter
  induction iter using Nat.strong_induction_on with
  | _ iter ih =>
    intro hv n out b hn
    cases n with
    | zero => omega
    | succ n =>
      rw [walkT]
      by_cases hl : recLen (code iter) = 0
      · rw [if_pos ((recLen_stop _).2 hl), hl]
        refine ⟨[(code iter >>> 24) % 256], iter, ?_, rfl, hv, hl⟩
        rw [writeAt_single]
        simp
      · rw [if_neg (fun h => hl ((recLen_stop _).1 h))]
        rcases hV iter hv with h0 | ⟨hvp, hlt, hlen⟩
        · exact absurd h0 hl
        · obtain ⟨str, lit, hw, hsl, hvl, hll⟩ :=
            ih (recPred (code iter)) hlt hvp n
              (Function.update out (b + (recLen (code iter) : Nat)) ((code iter >>> 24) % 256)) b
              (by omega)
          have e1 : b + ((recLen (code iter) : Nat) : Int) - 1
              = b + ((recLen (code (recPred (code iter))) : Nat) : Int) := by
            rw [hlen]; push_cast; ring
          have e2 : code iter &&& 0xFFF = recPred (code iter) := rfl
          rw [e1, e2, hw]
          refine ⟨str ++ [(code iter >>> 24) % 256], lit, ?_, ?_, hvl, hll⟩
          · have e3 : b = b + ((recLen (code iter) : Nat) : Int) - (str.length : Nat) := by
              rw [hsl, hlen]; push_cast; ring
            have := writeAt_snoc out (b + ((recLen (code iter) : Nat) : Int))
              ((code iter >>> 24) % 256) str
            rw [← e3] at this
            rw [this]
          · simp only [List.length_append, List.length_singleton]
            omega

/-- The walk of `_GIF_LoadFrame` along a well-formed chain whose string starts
in the pixel area: the table stays as it is. -/
theorem walk_chain (code : Nat → Nat) (V : Nat → Prop)
    (hV : ∀ i, V i → recLen (code i) = 0 ∨ (V (recPred (code i)) ∧ recPred (code i) < i ∧
      recLen (code i) = recLen (code (recPred (code i))) + 1))
    (iter : Nat) (hv : V iter) (n : Nat) (out : Int → Nat) (b : Int) (hb : 0 ≤ b)
    (hn : recLen (code iter) < n) :
    ∃ str lit, walk n code out (b + (recLen (code iter) : Nat)) iter
        = some (code, writeAt out b str, b - 1, lit) ∧
      str.length = recLen (code iter) + 1 ∧ V lit ∧ recLen (code lit) = 0 := by
  obtain ⟨str, lit, hw, h1, h2, h3⟩ := walkT_chain code V hV iter hv n out b hn
  exact ⟨str, lit, (walk_fixed code _ _ _ _ _ _ _ hw).2 (by omega) n (by omega), h1, h2, h3⟩

/-- In a well-formed table the chain length of an entry is at most its index. -/
theorem TableOK.len_le {ctsz : Nat} {s : Lzw} (h : TableOK ctsz s) :
    ∀ i, (i < 2 ^ ctsz ∨ (2 ^ ctsz + 1 < i ∧ i ≤ min s.ctbl 4095)) → recLen (s.code i) ≤ i := by
  intro i
  induction i using Nat.strong_induction_on with
  | _ i ih =>
    intro hi
    rcases hi with hi | hi
    · rw [(h.1 i hi).1]; omega
    · obtain ⟨h1, h2, h3, h4⟩ := h.2 i hi.1 hi.2
      have := ih (recPred (s.code i)) h1 (by omega)
      omega

/-- The record stored for a new table entry (lines 152-153 and 170). -/
theorem newRec_fields (p r y : Nat) (hp : p < 4096) (hl : recLen r < 4095) :
    recPred ((p + 0x1000 + (r &&& 0xFFF000)) ||| (y &&& 0xFF000000)) = p ∧
    recLen ((p + 0x1000 + (r &&& 0xFFF000)) ||| (y &&& 0xFF000000)) = recLen r + 1 := by
  rw [recLen_eq] at hl
  rw [and_mid12, and_top8, or_top _ _ (by omega), recPred_eq, recLen_eq, recLen_eq]
  omega

/-- What a data code does to the decoder state (lines 146-174). -/
theorem pixStep_fields {ctsz : Nat} (h2 : 2 ≤ ctsz) (h8 : ctsz ≤ 8) {s : Lzw}
    (hs : TableInv ctsz s) (c : Nat) (hc : c ≤ s.ctbl + 1) (hc4 : c ≤ 4095)
    (hne : c ≠ 2 ^ ctsz) (hne' : c ≠ 2 ^ ctsz + 1) :
    ∃ s' str y, pixStep s c = Flow.next s' ∧
      (∀ i, i ≠ s.ctbl + 1 → s'.code i = s.code i) ∧
      (s.ctbl + 1 < 4096 → s'.code (s.ctbl + 1)
        = (s.prev + 0x1000 + (s.code s.prev &&& 0xFFF000)) ||| (y &&& 0xFF000000)) ∧
      s'.out = writeAt s.out s.bptr str ∧
      str.length = recLen (s.code (if c = s.ctbl + 1 then s.prev else c)) + 1
        + (if c = s.ctbl + 1 then 1 else 0) ∧
      s'.bptr = s.bptr + (str.length : Nat) ∧ s'.ctbl = s.ctbl + 1 ∧ s'.prev = c := by
  obtain ⟨htab, hw, hge, hprev, hbp⟩ := hs
  have hD := pow_bounds ctsz h2 h8
  set code1 := (if s.ctbl + 1 < 4096
    then Function.update s.code (s.ctbl + 1) (s.prev + 0x1000 + (s.code s.prev &&& 0xFFF000))
    else s.code) with hcode1
  have h1 : ∀ i, i ≠ s.ctbl + 1 → code1 i = s.code i := by
    intro i hi
    rw [hcode1]
    split_ifs
    · rw [Function.update_noteq hi]
    · rfl
  set iter := (if c ≥ s.ctbl + 1 then s.prev else c) with hiter
  have hiter' : iter = if c = s.ctbl + 1 then s.prev else c := by
    rw [hiter]
    by_cases hk : c = s.ctbl + 1
    · rw [if_pos (by omega), if_pos hk]
    · rw [if_neg (by omega), if_neg hk]
  have hV : ∀ i, (i < 2 ^ ctsz ∨ (2 ^ ctsz + 1 < i ∧ i ≤ min s.ctbl 4095)) →
      recLen (code1 i) = 0 ∨
      ((recPred (code1 i) < 2 ^ ctsz ∨ (2 ^ ctsz + 1 < recPred (code1 i) ∧ recPred (code1 i) ≤ min s.ctbl 4095)) ∧
        recPred (code1 i) < i ∧ recLen (code1 i) = recLen (code1 (recPred (code1 i))) + 1) := by
    intro i hi
    have hi1 : i ≠ s.ctbl + 1 := by omega
    rw [h1 i hi1]
    rcases hi with hi | hi
    · exact Or.inl (htab.1 i hi).1
    · obtain ⟨a1, a2, a3, a4⟩ := htab.2 i hi.1 hi.2
      refine Or.inr ⟨by omega, a1, ?_⟩
      rw [h1 _ (by omega)]
      exact a4
  have hiv : iter < 2 ^ ctsz ∨ (2 ^ ctsz + 1 < iter ∧ iter ≤ min s.ctbl 4095) := by
    rw [hiter']
    by_cases hk : c = s.ctbl + 1
    · rw [if_pos hk]
      rcases hprev with hp | hp
      · omega
      · exact hp
    · rw [if_neg hk]; omega
  have hin : iter ≠ s.ctbl + 1 := by omega
  obtain ⟨str, lit, hwalk, hsl, hvl, hll⟩ :=
    walk_chain code1 _ hV iter hiv (s.bptr + ((recLen (code1 iter) : Nat) : Int) + 16385).toNat
      s.out s.bptr hbp (by omega)
  have hrl : ((code1 iter >>> 12) &&& 0xFFF) = recLen (code1 iter) := rfl
  have hst : ∀ (co : Nat → Nat) (o : Int → Nat) (v : Nat),
      store co o (s.bptr - 1 + ((recLen (code1 iter) : Nat) : Int) + 2) v
        = (co, Function.update o (s.bptr - 1 + ((recLen (code1 iter) : Nat) : Int) + 2) v) :=
    fun co o v => store_nonneg _ _ _ _ (by omega)
  unfold pixStep
  simp only []
  rw [← hcode1, ← hiter, hrl, hwalk]
  simp only [hst, ite_self]
  refine ⟨_, str ++ (if c ≥ s.ctbl + 1 then [(code1 lit >>> 24) % 256] else []), code1 lit,
    rfl, ?_, ?_, ?_, ?_, ?_, rfl, rfl⟩
  · intro i hi
    simp only []
    split_ifs
    · rw [Function.update_noteq hi, h1 i hi]
    · exact h1 i hi
  · intro hlt
    simp only [hlt, if_true]
    rw [Function.update_same, hcode1]
    simp only [hlt, if_true]
    rw [Function.update_same]
  · simp only []
    have e : s.bptr - 1 + ((recLen (code1 iter) : Nat) : Int) + 2 = s.bptr + (str.length : Nat) := by
      rw [hsl]; push_cast; ring
    rw [e]
    by_cases hk : c ≥ s.ctbl + 1
    · rw [if_pos hk, if_pos hk, writeAt_update_end]
    · rw [if_neg hk, if_neg hk, List.append_nil]
  · rw [← hiter', ← h1 iter hin]
    by_cases hk : c = s.ctbl + 1
    · rw [if_pos (by omega), if_pos hk]
      simp only [List.length_append, List.length_singleton]
      omega
    · rw [if_neg (by omega), if_neg hk]
      simp only [List.length_append, List.length_nil]
      omega
  · simp only []
    by_cases hk : c ≥ s.ctbl + 1
    · rw [if_pos hk, if_pos hk]
      simp only [List.length_append, List.length_singleton]
      rw [hsl]; push_cast; ring
    · rw [if_neg hk, if_neg hk]
      simp only [List.length_append, List.length_nil]
      rw [hsl]; push_cast; ring

/-- A data code keeps the table well formed. -/
theorem pixStep_table {ctsz : Nat} (h2 : 2 ≤ ctsz) (h8 : ctsz ≤ 8) {s : Lzw}
    (hs : TableInv ctsz s) (c : Nat) (hc : c ≤ s.ctbl + 1) (hc4 : c ≤ 4095)
    (hne : c ≠ 2 ^ ctsz) (hne' : c ≠ 2 ^ ctsz + 1) :
    ∃ s' str, pixStep s c = Flow.next s' ∧ TableInv ctsz s' ∧
      s'.out = writeAt s.out s.bptr str ∧
      str.length = recLen (s.code (if c = s.ctbl + 1 then s.prev else c)) + 1
        + (if c = s.ctbl + 1 then 1 else 0) ∧
      s'.bptr = s.bptr + (str.length : Nat) := by
  obtain ⟨s', str, y, hstep, hold, hnew, hout, hlen, hb, hct, hpv⟩ :=
    pixStep_fields h2 h8 hs c hc hc4 hne hne'
  have hwd := pixStep_width ctsz s c hs.2.1
  rw [hstep] at hwd
  obtain ⟨htab, hw, hge, hprev, hbp⟩ := hs
  have hD := pow_bounds ctsz h2 h8
  refine ⟨s', str, hstep, ⟨⟨?_, ?_⟩, hwd.1, by omega, ?_, by omega⟩, hout, hlen, hb⟩
  · intro j hj
    rw [hold j (by omega)]
    exact htab.1 j hj
  · intro i hi1 hi2
    rw [hct] at hi2
    by_cases hi : i = s.ctbl + 1
    · have hlt : s.ctbl + 1 < 4096 := by omega
      have hp : s.prev < 2 ^ ctsz ∨ (2 ^ ctsz + 1 < s.prev ∧ s.prev ≤ min s.ctbl 4095) := by
        rcases hprev with hp | hp
        · omega
        · exact hp
      have hl := htab.len_le s.prev hp
      obtain ⟨f1, f2⟩ := newRec_fields s.prev (s.code s.prev) y (by omega) (by omega)
      rw [hi, hnew hlt, f1, f2, hold s.prev (by omega)]
      refine ⟨by omega, by omega, by omega, rfl⟩
    · obtain ⟨a1, a2, a3, a4⟩ := htab.2 i hi1 (by omega)
      rw [hold i hi, hold _ (by omega)]
      exact ⟨a1, a2, a3, a4⟩
  · rw [hct, hpv]
    omega

/-- The masked code is a 12-bit number. -/
theorem WidthInv.code_le {ctsz : Nat} {s : Lzw} (hs : WidthInv ctsz s) : s.curr &&& s.mask ≤ 4095 := by
  have h1 : s.curr &&& s.mask ≤ s.mask := Nat.and_le_right
  obtain ⟨hm, hlo, hhi, -⟩ := hs
  have h3 : 2 ^ s.ccsz.toNat ≤ 2 ^ 12 := Nat.pow_le_pow_right (by decide) (by omega)
  have h4 : (2:Nat) ^ 12 = 4096 := by decide
  omega

theorem ValidCode.le {ctsz : Nat} {s : Lzw} {c : Nat} (hv : ValidCode ctsz s c)
    (hge : 2 ^ ctsz ≤ s.ctbl) : c ≤ s.ctbl + 1 := by
  unfold ValidCode at hv
  split_ifs at hv
  · omega
  · omega

/-- One pass through the loop body on a valid code keeps the table well
formed; a data code writes its string from the output position on. -/
theorem codeStep_table {ctsz : Nat} (h2 : 2 ≤ ctsz) (h8 : ctsz ≤ 8) {s : Lzw}
    (hs : TableInv ctsz s) (hv : ValidCode ctsz s (s.curr &&& s.mask)) :
    (codeStep ctsz s).all (TableInv ctsz) ∧ codeStep ctsz s ≠ Flow.fault ∧
    (s.curr &&& s.mask ≠ 2 ^ ctsz → s.curr &&& s.mask ≠ 2 ^ ctsz + 1 →
      ∃ s' str, codeStep ctsz s = Flow.next s' ∧ s'.out = writeAt s.out s.bptr str ∧
        str.length = recLen (s.code (if s.curr &&& s.mask = s.ctbl + 1 then s.prev
          else s.curr &&& s.mask)) + 1 + (if s.curr &&& s.mask = s.ctbl + 1 then 1 else 0) ∧
        s'.bptr = s.bptr + (str.length : Nat) ∧ ∀ j, j < s.bptr → s'.out j = s.out j) := by
  have hc4 := hs.2.1.code_le
  have hle := hv.le hs.2.2.1
  have hlt : s.curr &&& s.mask < 2 ^ 16 := by
    have : (2:Nat) ^ 16 = 65536 := by decide
    omega
  have ht := clear_test ctsz _ h2 hlt
  have hD := pow_bounds ctsz h2 h8
  by_cases hce : s.curr &&& s.mask = 2 ^ ctsz ∨ s.curr &&& s.mask = 2 ^ ctsz + 1
  · have hwd := (codeStep_width ctsz h2 h8 s hs.2.1).1
    have hP : 2 ^ ctsz = 2 * 2 ^ (ctsz - 1) := by
      rw [← pow_succ']; congr 1; omega
    unfold codeStep at hwd ⊢
    simp only [ht.2 hce, if_true] at hwd ⊢
    rcases hce with hce | hce
    · have hev : ¬ ((s.curr &&& s.mask) &&& 1 ≠ 0) := by
        rw [and_one, hce]; omega
      rw [if_neg hev] at hwd ⊢
      refine ⟨⟨⟨hs.1.1, ?_⟩, hwd, ?_, Or.inl ?_, hs.2.2.2.2⟩, by simp, fun h => absurd hce h⟩
      · intro i hi1 hi2
        simp only [Nat.shiftLeft_eq, one_mul] at hi2
        omega
      · simp only [Nat.shiftLeft_eq, one_mul]; exact le_refl _
      · simp only [Nat.shiftLeft_eq, one_mul]
    · have hod : (s.curr &&& s.mask) &&& 1 ≠ 0 := by
        rw [and_one, hce]; omega
      rw [if_pos hod] at hwd ⊢
      exact ⟨⟨hs.1, hwd, hs.2.2.1, hs.2.2.2⟩, by simp, fun _ h => absurd hce h⟩
  · have hn1 : s.curr &&& s.mask ≠ 2 ^ ctsz := fun h => hce (Or.inl h)
    have hn2 : s.curr &&& s.mask ≠ 2 ^ ctsz + 1 := fun h => hce (Or.inr h)
    obtain ⟨s', str, hstep, hinv, hout, hlen, hb⟩ := pixStep_table h2 h8 hs _ hle hc4 hn1 hn2
    have hcs : codeStep ctsz s = Flow.next s' := by
      unfold codeStep
      simp only []
      rw [if_neg (fun h => hce (ht.1 h)), hstep]
    rw [hcs]
    refine ⟨hinv, by simp, fun _ _ => ⟨s', str, rfl, hout, hlen, hb, ?_⟩⟩
    intro j hj
    rw [hout]
    unfold writeAt
    rw [if_neg (by omega)]

/-- The table built by lines 121-122 is well formed. -/
theorem TableInv.init (ctsz : Nat) (h2 : 2 ≤ ctsz) (h8 : ctsz ≤ 8) (s : Lzw)
    (hcode : ∀ i, i < 1 <<< ctsz → s.code i = i <<< 24)
    (hm : s.mask = ((1 <<< (ctsz + 1)) - 1) % 65536) (hc : s.ccsz = (ctsz : Int) + 1)
    (ht : s.ctbl = 1 <<< ctsz) (hb : 0 ≤ s.bptr) : TableInv ctsz s := by
  have hD := pow_bounds ctsz h2 h8
  have e2 : (1 <<< ctsz : Nat) = 2 ^ ctsz := by rw [Nat.shiftLeft_eq, one_mul]
  rw [e2] at hcode ht
  refine ⟨⟨?_, ?_⟩, WidthInv.clear ctsz h2 h8 s hm hc (by rw [ht, e2]), by omega, Or.inl ht, hb⟩
  · intro j hj
    rw [hcode j hj, recLen_eq, recPix_eq, Nat.shiftLeft_eq]
    omega
  · intro i hi1 hi2
    omega

/-! ## The extraction pass and the contents of the scratch buffer -/

theorem loadFrameHdr_rpal (gflg : Nat) (i : Img) (hw : i.wf gflg) (c : Cur) (rp : Int)
    (hsz : 9 + (i.lpal.length : Int) < c.size) :
    (_GIF_LoadFrameHdr gflg c rp i.flgs 9).rpal = if i.flgs &&& 0x80 ≠ 0 then c.buff + 9 else rp := by
  obtain ⟨-, -, -, -, -, hpl, hpal, -⟩ := hw
  unfold _GIF_LoadFrameHdr
  have h9 : (9 : Int) ≠ 0 := by decide
  simp only [h9, ne_eq, not_false_eq_true, if_true, true_and]
  rw [if_neg (by omega)]
  by_cases hl : i.flgs &&& 0x80 ≠ 0
  · simp only [ne_eq] at hl
    simp only [hl, not_false_eq_true, if_true]
    split_ifs <;> rfl
  · simp only [ne_eq, not_not] at hl
    simp only [hl, not_true_eq_false, if_false]
    split_ifs <;> rfl

/-- One pass of the extraction loop over an extension block. -/
theorem extLoop_step_ext (m : Mem) (gflg : Nat) (amdf : Bool) (skip : Int) (n : Nat) (e : Ext)
    (l : Nat) (subs : List (List Nat)) (rest : List Nat) (hsubs : subsOK subs)
    (hm : holds m e.c.buff ((Blk.ext l subs).bytes ++ rest))
    (hsz : 2 + ((chain subs).length : Int) < e.c.size)
    (hcond : skip < (if e.w.nfrm < 0 then -e.w.nfrm else e.w.nfrm)) :
    ∃ hi, extLoop m gflg amdf skip (n + 1) e = extLoop m gflg amdf skip n
      { e with
        c := ⟨e.c.buff + 1 + 1 + ((chain subs).length : Nat),
              e.c.size - 1 - 1 - ((chain subs).length : Nat), hi⟩,
        egch := if rd8 m (e.c.buff + 1) = 0xF9 then some (e.c.buff + 1 + 2) else e.egch,
        metas := if rd8 m (e.c.buff + 1) ≠ 0xF9 ∧ rd8 m (e.c.buff + 1) = 0xFF ∧ amdf = true
          then e.metas ++ [{ e.w with bptr := e.c.buff + 1 + 2 }] else e.metas } := by
  simp only [Blk.bytes, List.cons_append] at hm
  obtain ⟨h0, hm1⟩ := holds_cons hm
  obtain ⟨-, hm2⟩ := holds_cons hm1
  obtain ⟨hmc, hmr⟩ := holds_append hm2
  have hr : rd8 m e.c.buff = 0x21 := by unfold rd8; rw [h0]
  obtain ⟨hi', hsk⟩ := skipChunk_chain m subs
    ⟨e.c.buff + 1, e.c.size - 1, max (max e.c.hi (e.c.buff + 1)) (e.c.buff + 1 + 1)⟩ hsubs
    hmc (by simp only; omega)
  simp only at hsk
  refine ⟨hi', ?_⟩
  rw [extLoop]
  rw [if_pos hcond]
  simp only [hr, if_true]
  rw [if_neg (by decide)]
  by_cases h1 : rd8 m (e.c.buff + 1) = 0xF9
  · rw [if_pos h1, extTail_skip m 0x21 _ _ _ (by decide) hsk, if_pos h1, if_neg (fun h => h.1 h1)]
  · rw [if_neg h1]
    by_cases h2 : rd8 m (e.c.buff + 1) = 0xFF ∧ amdf = true
    · rw [if_pos h2, extTail_skip m 0x21 _ _ _ (by decide) hsk, if_neg h1, if_pos ⟨h1, h2⟩]
    · rw [if_neg h2, extTail_skip m 0x21 _ _ _ (by decide) hsk, if_neg h1, if_neg (fun h => h2 h.2)]

/-- One pass of the extraction loop over an image that is not delivered
(its index is below `skip`). -/
theorem extLoop_step_skip (m : Mem) (gflg : Nat) (amdf : Bool) (skip : Int) (n : Nat) (e : Ext)
    (i : Img) (rest : List Nat) (hwi : i.wf gflg)
    (hm : holds m e.c.buff ((Blk.img i).bytes ++ rest))
    (hsz : ((Blk.img i).bytes.length : Int) + 1 ≤ e.c.size)
    (hcond : skip < (if e.w.nfrm < 0 then -e.w.nfrm else e.w.nfrm))
    (hlt : ¬ e.w.ifrm + 1 ≥ skip) :
    ∃ hi, extLoop m gflg amdf skip (n + 1) e = extLoop m gflg amdf skip n
      { e with
        c := ⟨e.c.buff + ((Blk.img i).bytes.length : Nat),
              e.c.size - 1 - 9 - (i.lpal.length : Nat) - 1 - ((chain i.blocks).length : Nat), hi⟩,
        w := { e.w with intr := if i.flgs &&& 0x40 ≠ 0 then 1 else 0,
                        cpal := if i.flgs &&& 0x80 ≠ 0 then e.c.buff + 1 + 9 else 13,
                        clrs := (i.clrs gflg : Nat), ifrm := e.w.ifrm + 1 } } := by
  obtain ⟨h0, hflg, -, hfd, hrest⟩ := holds_img hm
  have hfd' := (holds_cons hfd).2
  have hlen := i.bytes_length
  have hfl := frameData_length i.ctsz i.blocks
  simp only [Blk.bytes] at hsz
  have hr : rd8 m e.c.buff = 0x2C := by unfold rd8; rw [h0]
  have hrf : rd8 m (e.c.buff + 1 + 8) = i.flgs := by
    have : e.c.buff + 1 + 8 = e.c.buff + 9 := by ring
    unfold rd8; rw [this, hflg]
    exact Nat.mod_eq_of_lt hwi.2.2.2.2.1
  obtain ⟨rp', hh, hpos⟩ := loadFrameHdr_img gflg i hwi
    ⟨e.c.buff + 1, e.c.size - 1, max (max e.c.hi (e.c.buff + 1)) (e.c.buff + 1 + 9)⟩ 13
    (by simp only; omega)
  have hrp := congrArg HdrRes.rpal hh
  rw [loadFrameHdr_rpal gflg i hwi _ _ (by simp only; omega)] at hrp
  simp only at hh hrp
  subst hrp
  have hbuf : e.c.buff + 1 + 9 + ((i.lpal.length : Nat) : Int) + 1 + ((chain i.blocks).length : Nat)
      = e.c.buff + ((Blk.img i).bytes.length : Nat) := by
    simp only [Blk.bytes, hlen, hfl]; push_cast; ring
  obtain ⟨hi', hsk⟩ := skipChunk_chain m i.blocks
    ⟨e.c.buff + 1 + 9 + (i.lpal.length : Nat), e.c.size - 1 - 9 - (i.lpal.length : Nat),
      max (max e.c.hi (e.c.buff + 1)) (e.c.buff + 1 + 9)⟩ hwi.2.2.2.2.2.2.2.2.2.2.2.1
    (by
      have : e.c.buff + 1 + 9 + ((i.lpal.length : Nat) : Int) + 1
          = e.c.buff + 10 + (i.lpal.length : Nat) + 1 := by ring
      simp only
      rw [this]; exact hfd')
    (by simp only; omega)
  simp only at hsk
  refine ⟨hi', ?_⟩
  rw [extLoop]
  rw [if_pos hcond]
  simp only [hr, hrf, if_true]
  rw [hh]
  simp only
  unfold extFrame
  simp only
  rw [if_neg hlt]
  simp only
  rw [if_neg (fun hc => hlt hc.1)]
  rw [extTail_skip m 0x2C _ _ _ (by decide) hsk]
  simp only
  rw [hbuf, if_neg (show ¬ (e.w.ifrm + 1 ≥ skip ∧ ¬ (((i.clrs gflg : Nat) : Int) ≤ 0)) from
    fun hc => hlt hc.1)]

/-- The delivery of a frame whose image data is a valid stream, with the
state it leaves. -/
theorem extFrame_deliver_eq (m : Mem) (skip fhdr : Int) (e : Ext) (i : Img) (gflg : Nat)
    (hwi : i.wf gflg) (hge : e.w.ifrm ≥ skip) (hclrs : 0 < e.w.clrs)
    (hm : holds m e.c.buff (frameData i.ctsz i.blocks))
    (hsz : ((frameData i.ctsz i.blocks).length : Int) ≤ e.c.size)
    (hfit : (i.pixels.length : Int) ≤ e.area) :
    ∃ hi cd, extFrame m skip fhdr e = some (some { e with
      c := ⟨e.c.buff + ((frameData i.ctsz i.blocks).length : Nat),
            e.c.size - ((frameData i.ctsz i.blocks).length : Nat), hi⟩,
      w := frameHdr m fhdr e.w e.egch, egch := none, code := cd,
      out := writeAt e.out 0 i.pixels,
      frames := e.frames ++ [⟨frameHdr m fhdr e.w e.egch, writeAt e.out 0 i.pixels⟩] }) := by
  obtain ⟨-, -, -, -, -, -, -, h2, h8, hdec, hch⟩ := hwi
  obtain ⟨pixels, hpx⟩ := Option.isSome_iff_exists.mp hdec
  have hpix : i.pixels = pixels := by unfold Img.pixels; rw [hpx]; rfl
  obtain ⟨c2, s, hlf, hb, hs, hout, -, htop⟩ :=
    loadFrame_valid h2 h8 hpx hch m e.c hm hsz e.code e.out
  obtain ⟨c2b, c2s, c2h⟩ := c2
  simp only at hb hs
  subst hb hs
  unfold extFrame
  rw [if_pos hge, if_neg (by omega), hlf]
  simp only
  rw [if_neg (show ¬ (s.top > e.area) by rw [hpix] at hfit; omega), if_neg (by decide), hout, hpix]
  exact ⟨_, _, rfl⟩

/-- One pass of the extraction loop over an image that is delivered. -/
theorem extLoop_step_load (m : Mem) (gflg : Nat) (amdf : Bool) (skip : Int) (n : Nat) (e : Ext)
    (i : Img) (rest : List Nat) (hwi : i.wf gflg)
    (hm : holds m e.c.buff ((Blk.img i).bytes ++ rest))
    (hsz : ((Blk.img i).bytes.length : Int) + 1 ≤ e.c.size)
    (hcond : skip < (if e.w.nfrm < 0 then -e.w.nfrm else e.w.nfrm))
    (hge : e.w.ifrm + 1 ≥ skip) (hfit : (i.pixels.length : Int) ≤ e.area) :
    ∃ hi cd lo, extLoop m gflg amdf skip (n + 1) e = extLoop m gflg amdf skip n
      { e with
        c := ⟨e.c.buff + ((Blk.img i).bytes.length : Nat),
              e.c.size - 1 - 9 - (i.lpal.length : Nat) - 1 - ((chain i.blocks).length : Nat), hi⟩,
        w := imgHdr m gflg e.c.buff i e.w e.egch, egch := none, code := cd,
        out := writeAt e.out 0 i.pixels,
        frames := e.frames ++ [⟨imgHdr m gflg e.c.buff i e.w e.egch, writeAt e.out 0 i.pixels⟩],
        loads := lo } := by
  obtain ⟨h0, hflg, -, hfd, hrest⟩ := holds_img hm
  have hlen := i.bytes_length
  have hfl := frameData_length i.ctsz i.blocks
  simp only [Blk.bytes] at hsz
  have hr : rd8 m e.c.buff = 0x2C := by unfold rd8; rw [h0]
  have hrf : rd8 m (e.c.buff + 1 + 8) = i.flgs := by
    have : e.c.buff + 1 + 8 = e.c.buff + 9 := by ring
    unfold rd8; rw [this, hflg]
    exact Nat.mod_eq_of_lt hwi.2.2.2.2.1
  obtain ⟨rp', hh, hpos⟩ := loadFrameHdr_img gflg i hwi
    ⟨e.c.buff + 1, e.c.size - 1, max (max e.c.hi (e.c.buff + 1)) (e.c.buff + 1 + 9)⟩ 13
    (by simp only; omega)
  have hrp := congrArg HdrRes.rpal hh
  rw [loadFrameHdr_rpal gflg i hwi _ _ (by simp only; omega)] at hrp
  simp only at hh hrp
  subst hrp
  obtain ⟨hi, cd, hef⟩ := extFrame_deliver_eq m skip (e.c.buff + 1)
    { e with
      c := ⟨e.c.buff + 1 + 9 + (i.lpal.length : Nat), e.c.size - 1 - 9 - (i.lpal.length : Nat),
            max (max e.c.hi (e.c.buff + 1)) (e.c.buff + 1 + 9)⟩,
      w := { e.w with intr := if i.flgs &&& 0x40 ≠ 0 then 1 else 0,
                      cpal := if i.flgs &&& 0x80 ≠ 0 then e.c.buff + 1 + 9 else 13,
                      clrs := (i.clrs gflg : Nat), ifrm := e.w.ifrm + 1 },
      loads := if e.w.ifrm + 1 ≥ skip ∧ ¬ (((i.clrs gflg : Nat) : Int) ≤ 0)
        then e.loads ++ [(e.w.ifrm + 1, (rd16 m (e.c.buff + 1 + 4) : Int),
          (rd16 m (e.c.buff + 1 + 6) : Int))]
        else e.loads }
    i gflg hwi hge (by simp only; exact_mod_cast hpos)
    (by
      have : e.c.buff + 1 + 9 + ((i.lpal.length : Nat) : Int)
          = e.c.buff + 10 + (i.lpal.length : Nat) := by ring
      simp only
      rw [this]; exact hfd)
    (by simp only [hfl]; push_cast; omega) hfit
  simp only at hef
  have hbuf : e.c.buff + 1 + 9 + ((i.lpal.length : Nat) : Int)
      + ((frameData i.ctsz i.blocks).length : Nat) = e.c.buff + ((Blk.img i).bytes.length : Nat) := by
    simp only [Blk.bytes, hlen, hfl]; push_cast; ring
  have hsize : e.c.size - 1 - 9 - ((i.lpal.length : Nat) : Int)
      - ((frameData i.ctsz i.blocks).length : Nat)
      = e.c.size - 1 - 9 - (i.lpal.length : Nat) - 1 - ((chain i.blocks).length : Nat) := by
    simp only [hfl]; push_cast; ring
  rw [hbuf, hsize] at hef
  refine ⟨hi, cd, (if e.w.ifrm + 1 ≥ skip ∧ ¬ (((i.clrs gflg : Nat) : Int) ≤ 0)
    then e.loads ++ [(e.w.ifrm + 1, (rd16 m (e.c.buff + 1 + 4) : Int),
      (rd16 m (e.c.buff + 1 + 6) : Int))]
    else e.loads), ?_⟩
  rw [extLoop]
  rw [if_pos hcond]
  simp only [hr, hrf, if_true]
  rw [hh]
  simp only
  rw [hef]
  simp only
  rw [if_pos ⟨by simp only [frameHdr]; exact hge, by omega⟩]
  rfl

/-- The extraction loop stops at the 0x3B mark. -/
theorem extLoop_step_end (m : Mem) (gflg : Nat) (amdf : Bool) (skip : Int) (n : Nat) (e : Ext)
    (hm : holds m e.c.buff [0x3B])
    (hcond : skip < (if e.w.nfrm < 0 then -e.w.nfrm else e.w.nfrm)) :
    ∃ hi, extLoop m gflg amdf skip (n + 1) e
      = some (true, { e with c := ⟨e.c.buff + 1, e.c.size - 1, hi⟩ }) := by
  have h0 : m e.c.buff = 0x3B := by
    have := hm 0 (by simp)
    simpa using this
  have hr : rd8 m e.c.buff = 0x3B := by unfold rd8; rw [h0]
  rw [extLoop]
  rw [if_pos hcond]
  simp only [hr]
  rw [if_neg (by decide), if_neg (by decide)]
  unfold extTail
  rw [if_pos rfl]
  exact ⟨_, rfl⟩

/-- The pixel grid of a frame whose stream covers it does not depend on what
the pixel area held before. -/
theorem grid_writeAt (h : GIF_WHDR) (o1 o2 : Int → Nat) (p : List Nat)
    (hc : (h.frxd * h.fryd).toNat ≤ p.length) :
    Delivered.grid ⟨h, writeAt o1 0 p⟩ = Delivered.grid ⟨h, writeAt o2 0 p⟩ := by
  unfold Delivered.grid
  apply List.map_congr_left
  intro k hk
  simp at hk
  obtain ⟨a, ha, rfl⟩ := hk
  simp only
  unfold writeAt
  have : (0 : Int) ≤ (a : Int) ∧ (a : Int) < 0 + (p.length : Int) := by omega
  rw [if_pos this, if_pos this]

theorem imgHdr_dims (m : Mem) (gflg : Nat) (b : Int) (i : Img) (w : GIF_WHDR) (g : Option Int) :
    (imgHdr m gflg b i w g).frxd = rd16 m (b + 1 + 4) ∧
    (imgHdr m gflg b i w g).fryd = rd16 m (b + 1 + 6) ∧
    (imgHdr m gflg b i w g).ifrm = w.ifrm + 1 ∧ (imgHdr m gflg b i w g).nfrm = w.nfrm :=
  ⟨rfl, rfl, rfl, rfl⟩

/-- One pass of the extraction loop over a well-formed block, for two states
that differ in the contents of the scratch buffer only (and in the read
watermark): the states after the pass differ in the same way only, and the
calls of the frame writer made are the same. -/
theorem extLoop_step_pair (m : Mem) (gflg : Nat) (amdf : Bool) (skip : Int) (n : Nat) (e f : Ext)
    (b : Blk) (rest : List Nat) (hwb : b.wf gflg)
    (hcov : e.w.ifrm + 1 ≥ skip → ∀ i ∈ imgsOf [b], i.covers ∧ (i.pixels.length : Int) ≤ e.area)
    (hm : holds m e.c.buff (b.bytes ++ rest))
    (hsz : (b.bytes.length : Int) + 1 ≤ e.c.size)
    (hcond : skip < (if e.w.nfrm < 0 then -e.w.nfrm else e.w.nfrm))
    (hfb : f.c.buff = e.c.buff) (hfs : f.c.size = e.c.size) (hfw : f.w = e.w)
    (hfe : f.egch = e.egch) (hfm : f.metas = e.metas) (hfa : f.area = e.area) :
    ∃ E F D D', extLoop m gflg amdf skip (n + 1) e = extLoop m gflg amdf skip n E ∧
      extLoop m gflg amdf skip (n + 1) f = extLoop m gflg amdf skip n F ∧
      F.c.buff = E.c.buff ∧ F.c.size = E.c.size ∧ F.w = E.w ∧ F.egch = E.egch ∧
      F.metas = E.metas ∧
      E.c.buff = e.c.buff + (b.bytes.length : Nat) ∧ E.c.size = e.c.size - (b.bytes.length : Nat) ∧
      E.w.nfrm = e.w.nfrm ∧ E.w.ifrm = e.w.ifrm + ((imgsOf [b]).length : Nat) ∧
      E.frames = e.frames ++ D ∧ F.frames = f.frames ++ D' ∧
      D.map Delivered.pub = D'.map Delivered.pub ∧ E.area = e.area ∧ F.area = f.area := by
  have hcondf : skip < (if f.w.nfrm < 0 then -f.w.nfrm else f.w.nfrm) := by
    rw [hfw]; exact hcond
  have hmf : holds m f.c.buff (b.bytes ++ rest) := by rw [hfb]; exact hm
  cases b with
  | ext l subs =>
    obtain ⟨hl, hsubs⟩ := hwb
    have hbl : (Blk.ext l subs).bytes.length = 2 + (chain subs).length := by
      simp [Blk.bytes]; omega
    rw [hbl] at hsz
    push_cast at hsz
    obtain ⟨h1, he⟩ := extLoop_step_ext m gflg amdf skip n e l subs _ hsubs hm (by omega) hcond
    obtain ⟨h2, hf⟩ := extLoop_step_ext m gflg amdf skip n f l subs _ hsubs hmf
      (by rw [hfs]; omega) hcondf
    refine ⟨_, _, [], [], he, hf, ?_, ?_, hfw, ?_, ?_, ?_, ?_, rfl, ?_, ?_, ?_, rfl, rfl, rfl⟩
    · simp only [hfb]
    · simp only [hfs]
    · simp only [hfb, hfe]
    · simp only [hfb, hfw, hfm]
    · simp only [hbl]; push_cast; ring
    · simp only [hbl]; push_cast; ring
    · simp [imgsOf]
    · simp
    · simp
  | img i =>
    have hwi : i.wf gflg := hwb
    obtain ⟨-, -, ⟨hw0, hw1, hh0, hh1⟩, -, -⟩ := holds_img hm
    have hlen := i.bytes_length
    have hfl := frameData_length i.ctsz i.blocks
    have hfx : rd16 m (e.c.buff + 1 + 4) = i.w := by
      apply rd16_le16 m _ _ hwi.2.2.1
      · rw [← hw0]; congr 1; ring
      · rw [← hw1]; congr 1; ring
    have hfy : rd16 m (e.c.buff + 1 + 6) = i.h := by
      apply rd16_le16 m _ _ hwi.2.2.2.1
      · rw [← hh0]; congr 1; ring
      · rw [← hh1]; congr 1; ring
    by_cases hge : e.w.ifrm + 1 ≥ skip
    · have hci : i.covers := (hcov hge i (by simp [imgsOf])).1
      have hfi : (i.pixels.length : Int) ≤ e.area := (hcov hge i (by simp [imgsOf])).2
      obtain ⟨h1, cd1, lo1, he⟩ := extLoop_step_load m gflg amdf skip n e i _ hwi hm hsz hcond hge hfi
      obtain ⟨h2, cd2, lo2, hf⟩ := extLoop_step_load m gflg amdf skip n f i _ hwi hmf
        (by rw [hfs]; exact hsz) hcondf (by rw [hfw]; exact hge) (by rw [hfa]; exact hfi)
      refine ⟨_, _, [_], [_], he, hf, ?_, ?_, ?_, rfl, hfm, rfl, ?_, rfl, ?_, rfl, rfl, ?_, rfl, rfl⟩
      · simp only [hfb]
      · simp only [hfs]
      · simp only [hfb, hfw, hfe]
      · simp only [Blk.bytes, hlen, hfl]; push_cast; ring
      · simp only [(imgHdr_dims m gflg e.c.buff i e.w e.egch).2.2.1]
        simp [imgsOf]
      · simp only [List.map_cons, List.map_nil, Delivered.pub, hfb, hfw, hfe]
        congr 2
        apply grid_writeAt
        rw [(imgHdr_dims m gflg e.c.buff i e.w e.egch).1,
          (imgHdr_dims m gflg e.c.buff i e.w e.egch).2.1, hfx, hfy]
        unfold Img.covers at hci
        have : ((i.w : Int) * (i.h : Int)).toNat = i.w * i.h := by
          rw [← Nat.cast_mul]; exact Int.toNat_natCast _
        rw [this]; exact hci
    · obtain ⟨h1, he⟩ := extLoop_step_skip m gflg amdf skip n e i _ hwi hm hsz hcond hge
      obtain ⟨h2, hf⟩ := extLoop_step_skip m gflg amdf skip n f i _ hwi hmf
        (by rw [hfs]; exact hsz) hcondf (by rw [hfw]; exact hge)
      refine ⟨_, _, [], [], he, hf, ?_, ?_, ?_, hfe, hfm, rfl, ?_, rfl, ?_, ?_, ?_, rfl, rfl, rfl⟩
      · simp only [hfb]
      · simp only [hfs]
      · simp only [hfb, hfw]
      · simp only [Blk.bytes, hlen, hfl]; push_cast; ring
      · simp [imgsOf]
      · simp
      · simp

/-- Two runs of the extraction pass over well-formed blocks that differ in
the contents of the scratch buffer only (and in the read watermark) make the
same calls, provided the stream of every delivered image covers its frame. -/
theorem extLoop_wf_scratch (m : Mem) (gflg : Nat) (amdf : Bool) (skip N : Int) (hsN : skip < N)
    (hN0 : 0 ≤ N) (A : Int) :
    ∀ (blks : List Blk) (n : Nat) (e f : Ext),
      (∀ b ∈ blks, b.wf gflg) →
      (∀ im ∈ (imgsOf blks).drop (skip - (e.w.ifrm + 1)).toNat,
        im.covers ∧ (im.pixels.length : Int) ≤ A) →
      holds m e.c.buff (blksBytes blks ++ [0x3B]) →
      ((blksBytes blks).length : Int) + 1 ≤ e.c.size → blks.length + 1 ≤ n →
      e.w.nfrm = N →
      f.c.buff = e.c.buff → f.c.size = e.c.size → f.w = e.w → f.egch = e.egch →
      f.metas = e.metas → e.area = A → f.area = A →
      ∃ e' f' L L', extLoop m gflg amdf skip n e = some (true, e') ∧
        extLoop m gflg amdf skip n f = some (true, f') ∧
        e'.w = f'.w ∧ e'.metas = f'.metas ∧
        e'.frames = e.frames ++ L ∧ f'.frames = f.frames ++ L' ∧
        L.map Delivered.pub = L'.map Delivered.pub := by
  intro blks
  induction blks with
  | nil =>
    intro n e f _ _ hm _ hn hN hfb hfs hfw hfe hfm _ _
    obtain ⟨n, rfl⟩ : ∃ n', n = n' + 1 := ⟨n - 1, by omega⟩
    have hcond : skip < (if e.w.nfrm < 0 then -e.w.nfrm else e.w.nfrm) := by
      rw [hN, if_neg (by omega)]; exact hsN
    simp only [blksBytes, List.map_nil, List.flatten_nil, List.nil_append] at hm
    obtain ⟨h1, he⟩ := extLoop_step_end m gflg amdf skip n e hm hcond
    obtain ⟨h2, hf⟩ := extLoop_step_end m gflg amdf skip n f (by rw [hfb]; exact hm)
      (by rw [hfw]; exact hcond)
    exact ⟨_, _, [], [], he, hf, hfw.symm, hfm.symm, by simp, by simp, rfl⟩
  | cons b t ih =>
    intro n e f hwf hcov hm hsz hn hN hfb hfs hfw hfe hfm hea hfa
    obtain ⟨n, rfl⟩ : ∃ n', n = n' + 1 := ⟨n - 1, by omega⟩
    rw [blksBytes_cons] at hm hsz
    rw [List.append_assoc] at hm
    have hwt : ∀ b ∈ t, b.wf gflg := fun x hx => hwf x (List.mem_cons_of_mem _ hx)
    have hwb := hwf b (List.mem_cons_self _ _)
    have hcond : skip < (if e.w.nfrm < 0 then -e.w.nfrm else e.w.nfrm) := by
      rw [hN, if_neg (by omega)]; exact hsN
    simp only [List.length_append, Nat.cast_add] at hsz
    have hrest : holds m (e.c.buff + (b.bytes.length : Nat)) (blksBytes t ++ [0x3B]) :=
      (holds_append hm).2
    have himgs : imgsOf (b :: t) = imgsOf [b] ++ imgsOf t := by
      cases b <;> simp [imgsOf]
    have hlen1 : (imgsOf [b]).length ≤ 1 := by
      cases b <;> simp [imgsOf]
    rw [himgs] at hcov
    obtain ⟨E, F, D, D', he, hf, b1, b2, b3, b4, b5, b6, b7, b8, b9, b10, b11, b12, b13, b14⟩ :=
      extLoop_step_pair m gflg amdf skip n e f b _ hwb
        (by
          intro hge i hi
          rw [hea]
          apply hcov i
          have hd0 : (skip - (e.w.ifrm + 1)).toNat = 0 := by omega
          rw [hd0, List.drop_zero]
          exact List.mem_append_left _ hi)
        hm (by omega) hcond hfb hfs hfw hfe hfm (by rw [hea, hfa])
    obtain ⟨e', f', L, L', a1, a2, a3, a4, a5, a6, a7⟩ := ih n E F hwt
      (by
        intro im him
        apply hcov im
        rw [b9] at him
        by_cases hl : (imgsOf [b]).length = 0
        · have hnil : imgsOf [b] = [] := List.length_eq_zero.mp hl
          rw [hnil, List.nil_append]
          rw [hl] at him
          simpa using him
        · have h1 : (imgsOf [b]).length = 1 := by omega
          rw [h1] at him
          by_cases hge : e.w.ifrm + 1 ≥ skip
          · have hd0 : (skip - (e.w.ifrm + 1)).toNat = 0 := by omega
            rw [hd0, List.drop_zero]
            exact List.mem_append_right _ (List.mem_of_mem_drop him)
          · have e1 : (skip - (e.w.ifrm + 1)).toNat
                = (imgsOf [b]).length + (skip - (e.w.ifrm + ((1 : Nat) : Int) + 1)).toNat := by
              rw [h1]; push_cast; omega
            rw [e1, ← List.drop_drop, List.drop_left]
            exact him)
      (by rw [b6]; exact hrest) (by rw [b7]; omega) (by simp at hn; omega)
      (by rw [b8]; exact hN) b1 b2 b3 b4 b5 (by rw [b13]; exact hea) (by rw [b14]; exact hfa)
    rw [← he] at a1
    rw [← hf] at a2
    refine ⟨e', f', D ++ L, D' ++ L', a1, a2, a3, a4, ?_, ?_, ?_⟩
    · rw [a5, b10, List.append_assoc]
    · rw [a6, b11, List.append_assoc]
    · rw [List.map_append, List.map_append, b12, a7]

/-- A complete well-formed GIF with `0 ≤ skip < n` in which the stream of
every delivered image covers its frame: two calls of `GIF_Load` that differ
in the contents of the scratch buffer only return the same value and make the
same calls of the frame writer and of the metadata callback. -/
theorem load_wf_scratch (g : Gif) (hg : g.wf) (m : Mem) (size : Int) (hm : holds m 0 g.bytes)
    (hsz : (g.bytes.length : Int) ≤ size) (amdf : Bool) (skip : Int) (hs0 : 0 ≤ skip)
    (hsn : skip < (g.nframes : Nat))
    (hcov : ∀ im ∈ (imgsOf g.blks).drop skip.toNat, im.covers ∧ im.pixels.length ≤ g.area)
    (code1 code2 : Nat → Nat) (out1 out2 : Int → Nat) :
    ∃ r1 r2, GIF_Load (some m) size true amdf skip code1 out1 = some r1 ∧
      GIF_Load (some m) size true amdf skip code2 out2 = some r2 ∧
      r1.ret = r2.ret ∧ r1.calls = r2.calls ∧ r1.metas = r2.metas := by
  have hlen := gifBytes_length g hg
  obtain ⟨hver, -, -, hgf, -, hp, hwf⟩ := hg
  have hb : ∀ k : Nat, k < g.bytes.length → m (k : Int) = g.bytes.getD k 0 := by
    intro k hk
    have := hm k hk
    simpa using this
  have hl6 : 13 ≤ g.bytes.length := by omega
  have e0 : rd8 m 0 = 71 := by
    have := hb 0 (by omega); unfold rd8; simp only [Nat.cast_zero] at this; rw [this]; simp [Gif.bytes]
  have e1 : rd8 m 1 = 73 := by
    have := hb 1 (by omega); unfold rd8; simp only [Nat.cast_one] at this; rw [this]; simp [Gif.bytes]
  have e2 : rd8 m 2 = 70 := by
    have := hb 2 (by omega); unfold rd8; simp only [Nat.cast_ofNat] at this; rw [this]; simp [Gif.bytes]
  have e3 : rd8 m 3 = 56 := by
    have := hb 3 (by omega); unfold rd8; simp only [Nat.cast_ofNat] at this; rw [this]; simp [Gif.bytes]
  have e4 : rd8 m 4 = g.ver := by
    have := hb 4 (by omega); unfold rd8; simp only [Nat.cast_ofNat] at this; rw [this]
    simp [Gif.bytes]; omega
  have e5 : rd8 m 5 = 97 := by
    have := hb 5 (by omega); unfold rd8; simp only [Nat.cast_ofNat] at this; rw [this]; simp [Gif.bytes]
  have e10 : rd8 m 10 = g.gflg := by
    have := hb 10 (by omega); unfold rd8; simp only [Nat.cast_ofNat] at this; rw [this]
    simp [Gif.bytes, le16]; omega
  have hblk : holds m (13 + (palLen g.gflg : Nat)) (blksBytes g.blks ++ [0x3B]) := by
    have h1 : g.bytes = ([71, 73, 70, 56, g.ver, 97] ++ le16 g.xdim ++ le16 g.ydim
        ++ [g.gflg, g.bkgd, g.aspr] ++ g.gpal) ++ (blksBytes g.blks ++ [0x3B]) := by
      simp [Gif.bytes]
    rw [h1] at hm
    have := (holds_append hm).2
    simp only [List.length_append, List.length_cons, List.length_nil, le16, hp] at this
    convert this using 1
    push_cast; ring
  have hge := blksBytes_length_ge g.blks
  have hsz1 : ¬ (size - (13 + ((palLen g.gflg : Nat) : Int)) ≤ 0) := by
    rw [hlen] at hsz; push_cast at hsz; omega
  have hv : ¬ (g.ver ≠ 55 ∧ g.ver ≠ 57) := by
    rcases hver with h | h <;> omega
  obtain ⟨ca, wa, hcnt, hci, hcx, hcy⟩ := countLoop_wf m g.gflg g.blks
    (size - (13 + ((palLen g.gflg : Nat) : Int))).toNat
    ⟨13 + ((palLen g.gflg : Nat) : Int), size - (13 + ((palLen g.gflg : Nat) : Int)), 12⟩
    { xdim := rd16 m 6, ydim := rd16 m 8, clrs := 0, bkgd := rd8 m 11,
      tran := 0, intr := 0, mode := 0, frxd := 0, fryd := 0, frxo := 0, fryo := 0,
      time := 0, ifrm := 0, nfrm := 0, bptr := 13 + ((palLen g.gflg : Nat) : Int), cpal := 0 }
    0 0 hwf hblk (by simp only; rw [hlen] at hsz; push_cast at hsz; omega)
    (by rw [hlen] at hsz; push_cast at hsz; omega) rfl rfl
  simp only [zero_add] at hci
  have harea : wa.frxd * wa.fryd = ((g.area : Nat) : Int) := by
    rw [hcx, hcy]; unfold Gif.area; push_cast; rfl
  have hN : (if (0x3B : Nat) ≠ 0x3B then -wa.ifrm else wa.ifrm) = ((g.nframes : Nat) : Int) := by
    rw [if_neg (by decide), hci]; rfl
  obtain ⟨e', f', L, L', a1, a2, a3, a4, a5, a6, a7⟩ := extLoop_wf_scratch m g.gflg amdf skip
    (g.nframes : Nat) hsn (by omega) ((g.area : Nat) : Int)
    g.blks ((size - (13 + ((palLen g.gflg : Nat) : Int))).toNat + 1)
    ⟨⟨13 + ((palLen g.gflg : Nat) : Int), size - (13 + ((palLen g.gflg : Nat) : Int)), ca.hi⟩,
      { wa with nfrm := if (0x3B : Nat) ≠ 0x3B then -wa.ifrm else wa.ifrm, bptr := 0, ifrm := -1 },
      none, code1, out1, [], [], [], wa.frxd * wa.fryd⟩
    ⟨⟨13 + ((palLen g.gflg : Nat) : Int), size - (13 + ((palLen g.gflg : Nat) : Int)), ca.hi⟩,
      { wa with nfrm := if (0x3B : Nat) ≠ 0x3B then -wa.ifrm else wa.ifrm, bptr := 0, ifrm := -1 },
      none, code2, out2, [], [], [], wa.frxd * wa.fryd⟩
    hwf (by
      have : (skip - ((-1 : Int) + 1)).toNat = skip.toNat := by
        congr 1; ring
      simp only
      rw [this]
      intro im him
      exact ⟨(hcov im him).1, by exact_mod_cast (hcov im him).2⟩)
    hblk (by simp only; rw [hlen] at hsz; push_cast at hsz; omega)
    (by rw [hlen] at hsz; push_cast at hsz; omega) hN rfl rfl rfl rfl rfl harea harea
  simp only [List.nil_append] at a5 a6
  have key : ∀ (code0 : Nat → Nat) (out0 : Int → Nat) (x : Ext),
      extLoop m g.gflg amdf skip ((size - (13 + ((palLen g.gflg : Nat) : Int))).toNat + 1)
        ⟨⟨13 + ((palLen g.gflg : Nat) : Int), size - (13 + ((palLen g.gflg : Nat) : Int)), ca.hi⟩,
          { wa with nfrm := if (0x3B : Nat) ≠ 0x3B then -wa.ifrm else wa.ifrm, bptr := 0,
                    ifrm := -1 },
          none, code0, out0, [], [], [], wa.frxd * wa.fryd⟩ = some (true, x) →
      GIF_Load (some m) size true amdf skip code0 out0
        = some ⟨some (if x.w.nfrm < 0 then skip - x.w.ifrm - 1 else x.w.ifrm + 1),
            x.frames, x.metas, x.c.hi⟩ := by
    intro code0 out0 x hx
    unfold GIF_Load
    simp only [e0, e1, e2, e3, e4, e5]
    rw [if_neg (by omega), if_neg (by decide), if_neg (by decide), if_neg (by decide),
      if_neg (by decide), if_neg (by omega), if_neg hv, if_neg (by decide), if_neg (by decide)]
    unfold loadPasses
    simp only [e10, hdr_palLen]
    rw [if_neg hsz1, hcnt]
    simp only
    rw [hx]
    simp only [if_true]
  refine ⟨_, _, key code1 out1 e' a1, key code2 out2 f' a2, ?_, ?_, a4⟩
  · simp only [a3]
  · simp only [LoadRes.calls, a5, a6]
    exact a7

/-! ## The loops end within their rounds -/

/-- Every pass through the loop body takes `ccsz` bits from the counter. -/
theorem codeStep_bszc (ctsz : Nat) (s s1 : Lzw) (h : codeStep ctsz s = Flow.next s1) :
    s1.bszc = s.bszc - s1.ccsz := by
  unfold codeStep at h
  simp only at h
  split_ifs at h
  · cases h; rfl
  · unfold pixStep at h
    simp only at h
    cases hw : walk _ _ s.out _ _ with
    | none => rw [hw] at h; cases h
    | some x =>
      rw [hw] at h
      simp only [Flow.next.injEq] at h
      subst h
      rfl

/-- The loop `while (bszc >= 0)` ends within `bszc + 2` rounds. -/
theorem codeLoop_total (ctsz : Nat) (h2 : 2 ≤ ctsz) (h8 : ctsz ≤ 8) :
    ∀ (n : Nat) (s : Lzw), WidthInv ctsz s → s.bszc + 2 ≤ n → 1 ≤ n →
      ∃ r, codeLoop ctsz n s = some r := by
  intro n
  induction n with
  | zero => intro s _ _ h; omega
  | succ n ih =>
    intro s hs hn _
    rw [codeLoop]
    by_cases hb : s.bszc ≥ 0
    · rw [if_pos hb]
      have h := (codeStep_width ctsz h2 h8 s hs).1
      cases hc : codeStep ctsz s with
      | next s1 =>
        rw [hc] at h
        have hbz := codeStep_bszc ctsz s s1 hc
        have hcc : (ctsz : Int) + 1 ≤ s1.ccsz := h.2.1
        exact ih s1 h (by omega) (by omega)
      | ed s1 => exact ⟨_, rfl⟩
      | fault => exact ⟨_, rfl⟩
    · rw [if_neg hb]
      exact ⟨_, rfl⟩

/-- The loop over one sub-block ends within `bseq + 1` rounds. -/
theorem wordLoop_total (m : Mem) (ctsz : Nat) (h2 : 2 ≤ ctsz) (h8 : ctsz ≤ 8) :
    ∀ (n : Nat) (bseq : Int) (c : Cur) (s : Lzw), WidthInv ctsz s → bseq + 1 ≤ n → 1 ≤ n →
      ∃ r, wordLoop m ctsz n bseq c s = some r := by
  intro n
  induction n with
  | zero => intro bseq c s _ _ h; omega
  | succ n ih =>
    intro bseq c s hs hn _
    rw [wordLoop]
    by_cases hb : bseq > 0
    · rw [if_pos hb]
      simp only
      have hs1 := loadWord_width ctsz s
        ((rd16 m c.buff &&& (if bseq < 2 then (1 <<< (8 * bseq.toNat)) - 1 else 0xFFFFFFFF)) % 65536)
        (if bseq < 2 then bseq else 2) hs
      generalize loadWord s
        ((rd16 m c.buff &&& (if bseq < 2 then (1 <<< (8 * bseq.toNat)) - 1 else 0xFFFFFFFF)) % 65536)
        (if bseq < 2 then bseq else 2) = s1 at hs1 ⊢
      have h := codeLoop_width ctsz h2 h8 (s1.bszc.toNat + 2) s1 hs1
      obtain ⟨r, hc⟩ := codeLoop_total ctsz h2 h8 (s1.bszc.toNat + 2) s1 hs1 (by omega) (by omega)
      rw [hc] at h ⊢
      cases r with
      | fault => exact ⟨_, rfl⟩
      | ed s2 => exact ⟨_, rfl⟩
      | next s2 => exact ih _ _ s2 h (by omega) (by omega)
    · rw [if_neg hb]
      exact ⟨_, rfl⟩

/-- The loop over the sub-blocks ends within as many rounds as bytes remain. -/
theorem blockLoop_total (m : Mem) (ctsz : Nat) (h2 : 2 ≤ ctsz) (h8 : ctsz ≤ 8) :
    ∀ (n : Nat) (bseq : Int) (c : Cur) (s : Lzw), WidthInv ctsz s → 0 ≤ bseq → c.size ≤ n →
      1 ≤ n → ∃ r, blockLoop m ctsz n bseq c s = some r := by
  intro n
  induction n with
  | zero => intro bseq c s _ _ _ h; omega
  | succ n ih =>
    intro bseq c s hs hb0 hn _
    rw [blockLoop]
    simp only
    by_cases hz : c.size - (bseq + 1) ≤ 0
    · rw [if_pos hz]; exact ⟨_, rfl⟩
    · rw [if_neg hz]
      have hw := wordLoop_width m ctsz h2 h8 (bseq.toNat + 1) bseq
        { c with size := c.size - (bseq + 1) } s hs
      have hc := wordLoop_cursor m ctsz (bseq.toNat + 1) bseq
        { c with size := c.size - (bseq + 1) } s
      obtain ⟨r, hr⟩ := wordLoop_total m ctsz h2 h8 (bseq.toNat + 1) bseq
        { c with size := c.size - (bseq + 1) } s hs (by omega) (by omega)
      rw [hr] at hw hc ⊢
      cases r with
      | fault => exact ⟨_, rfl⟩
      | ed b2 c2 s2 => exact ⟨_, rfl⟩
      | done b2 c2 s2 =>
        simp only [optAll] at hw hc
        simp only
        by_cases hnz : rd8 m (c2.buff + b2) ≠ 0
        · rw [if_pos hnz]
          exact ih _ _ s2 hw (by omega) (by simp only; omega) (by omega)
        · rw [if_neg hnz]; exact ⟨_, rfl⟩

/-- The fuel of `_GIF_LoadFrame` suffices: it returns, or a predecessor walk
stores in front of the code table. -/
theorem loadFrame_total (m : Mem) (c : Cur) (code0 : Nat → Nat) (out0 : Int → Nat) :
    ∃ r, _GIF_LoadFrame m c code0 out0 = some r := by
  unfold _GIF_LoadFrame
  simp only
  split_ifs with h1 h2 h3 h4
  · exact ⟨_, rfl⟩
  · exact ⟨_, rfl⟩
  · exact ⟨_, rfl⟩
  · exact ⟨_, rfl⟩
  · have hc2 : 2 ≤ rd8 m (c.buff) := by omega
    have hc8 : rd8 m (c.buff) ≤ 8 := by omega
    exact blockLoop_total m _ hc2 hc8 _ _ _ _
      (WidthInv.clear _ hc2 hc8 _ rfl rfl rfl) (by omega)
      (by show c.size - 1 ≤ ((c.size - 1).toNat : Int); omega) (by omega)

/-- A successful `_GIF_SkipChunk` leaves at least one byte and has taken at
least one. -/
theorem skipChunk_one (m : Mem) (c c' : Cur) (h : _GIF_SkipChunk m c = some (1, c')) :
    1 ≤ c'.size ∧ c'.size < c.size := by
  unfold _GIF_SkipChunk at h
  simp only at h
  by_cases hs : c.size - 1 ≤ 0
  · rw [if_pos hs] at h; simp at h
  · rw [if_neg hs] at h
    obtain ⟨subs, -, -, hlt, -, hsz⟩ := skipLoop_walked m _ _ _ h
    simp only at hlt hsz
    omega

/-- The frame header reader does not add to the remaining size. -/
theorem hdr_size_le (gflg : Nat) (c : Cur) (rp : Int) (fflg : Nat) :
    (_GIF_LoadFrameHdr gflg c rp fflg 9).cur.size ≤ c.size := by
  unfold _GIF_LoadFrameHdr
  have h9 : (9 : Int) ≠ 0 := by decide
  simp only [h9, ne_eq, not_false_eq_true, if_true, true_and]
  have hp : (0 : Int) ≤ ((2 <<< (fflg &&& 7) : Nat) : Int) := Int.natCast_nonneg _
  split_ifs <;> simp only <;> omega

/-- The fuel of the counting loop suffices. -/
theorem countLoop_total (m : Mem) (gflg : Nat) :
    ∀ (n : Nat) (c : Cur) (w : GIF_WHDR), c.size ≤ n → 1 ≤ n →
      ∃ r, countLoop m gflg n c w = some r := by
  intro n
  induction n with
  | zero => intro c w _ h; omega
  | succ n ih =>
    intro c w hn _
    rw [countLoop]
    simp only
    by_cases h1 : rd8 m c.buff = 0x3B
    · rw [if_pos h1]; exact ⟨_, rfl⟩
    · rw [if_neg h1]
      by_cases h2 : rd8 m c.buff = 0x2C
      · rw [if_pos h2]
        by_cases h3 : (_GIF_LoadFrameHdr gflg
            ⟨c.buff + 1, c.size - 1, max (max c.hi (c.buff + 1)) (c.buff + 1 + 9)⟩ w.cpal
            (rd8 m (c.buff + 1 + 8)) 9).ret ≤ 0
        · rw [if_pos h3]; exact ⟨_, rfl⟩
        · rw [if_neg h3]
          have hsz := hdr_size_le gflg
            ⟨c.buff + 1, c.size - 1, max (max c.hi (c.buff + 1)) (c.buff + 1 + 9)⟩ w.cpal
            (rd8 m (c.buff + 1 + 8))
          simp only at hsz
          obtain ⟨r, c3, hk, hr⟩ := skipChunk_total m (_GIF_LoadFrameHdr gflg
            ⟨c.buff + 1, c.size - 1, max (max c.hi (c.buff + 1)) (c.buff + 1 + 9)⟩ w.cpal
            (rd8 m (c.buff + 1 + 8)) 9).cur
          rw [hk]
          simp only
          rcases hr with hr | hr
          · rw [if_pos hr]; exact ⟨_, rfl⟩
          · rw [if_neg (by omega)]
            subst hr
            have := skipChunk_one m _ _ hk
            exact ih _ _ (by omega) (by omega)
      · rw [if_neg h2]
        obtain ⟨r, c3, hk, hr⟩ := skipChunk_total m
          ⟨c.buff + 1, c.size - 1, max c.hi (c.buff + 1)⟩
        rw [hk]
        simp only
        rcases hr with hr | hr
        · rw [if_pos hr]; exact ⟨_, rfl⟩
        · rw [if_neg (by omega)]
          subst hr
          have := skipChunk_one m _ _ hk
          simp only at this
          exact ih _ _ (by omega) (by omega)

/-- The tail of the extraction loop body returns if the next rounds do. -/
theorem extTail_total (m : Mem) (desc : Nat) (e : Ext) (k : Ext → Option (Bool × Ext))
    (hk : ∀ c1 : Cur, 1 ≤ c1.size → c1.size < e.c.size → ∃ r, k { e with c := c1 } = some r) :
    ∃ r, extTail m desc e k = some r := by
  unfold extTail
  split_ifs with h1
  · exact ⟨_, rfl⟩
  · obtain ⟨r, c3, hs, hr⟩ := skipChunk_total m e.c
    rw [hs]
    simp only
    rcases hr with hr | hr
    · rw [if_pos hr]; exact ⟨_, rfl⟩
    · rw [if_neg (by omega)]
      subst hr
      have := skipChunk_one m _ _ hs
      exact hk c3 this.1 this.2

/-- A call of `_GIF_LoadFrame` that returns 0 or 1 has not added to the
remaining size. -/
theorem loadFrame_size (m : Mem) (c : Cur) (code0 : Nat → Nat) (out0 : Int → Nat)
    (r : Int) (c' : Cur) (s' : Lzw)
    (h : _GIF_LoadFrame m c code0 out0 = some (FrameOut.ret r c' s')) (hr : 0 ≤ r) :
    c'.size ≤ c.size := by
  have hst := loadFrame_status m c code0 out0 r c' s' h
  obtain ⟨subs, -, -, -, hs, -⟩ := loadFrame_walked m c code0 out0 r c' s' h (by omega)
  omega

/-- The block of lines 298-317 ends, and does not add to the remaining size
(a failed frame sets it to a value that is not positive). -/
theorem extFrame_total (m : Mem) (skip fhdr : Int) (e : Ext) (hs0 : 0 ≤ skip) :
    ∃ r, extFrame m skip fhdr e = some r ∧ ∀ e2, r = some e2 → e2.c.size ≤ max e.c.size 0 := by
  unfold extFrame
  by_cases hge : e.w.ifrm ≥ skip
  · rw [if_pos hge]
    by_cases hcl : e.w.clrs ≤ 0
    · rw [if_pos hcl]
      refine ⟨_, rfl, ?_⟩
      intro e2 he
      simp only [Option.some.injEq] at he
      subst he
      simp only
      omega
    · rw [if_neg hcl]
      obtain ⟨o, ho⟩ := loadFrame_total m e.c e.code e.out
      rw [ho]
      cases o with
      | fault => exact ⟨_, rfl, fun e2 he => by cases he⟩
      | ret r c2 s =>
        simp only
        by_cases ht : s.top > e.area
        · rw [if_pos ht]
          exact ⟨_, rfl, fun e2 he => by cases he⟩
        rw [if_neg ht]
        by_cases hr : r < 0
        · rw [if_pos hr]
          refine ⟨_, rfl, ?_⟩
          intro e2 he
          simp only [Option.some.injEq] at he
          subst he
          simp only
          omega
        · rw [if_neg hr]
          refine ⟨_, rfl, ?_⟩
          intro e2 he
          simp only [Option.some.injEq] at he
          subst he
          simp only
          have := loadFrame_size m e.c e.code e.out r c2 s ho (by omega)
          omega
  · rw [if_neg hge]
    refine ⟨_, rfl, ?_⟩
    intro e2 he
    simp only [Option.some.injEq] at he
    subst he
    omega

/-- The fuel of the extraction loop suffices. -/
theorem extLoop_total (m : Mem) (gflg : Nat) (amdf : Bool) (skip : Int) (hs0 : 0 ≤ skip) :
    ∀ (n : Nat) (e : Ext), e.c.size ≤ n → 1 ≤ n →
      ∃ r, extLoop m gflg amdf skip n e = some r := by
  intro n
  induction n with
  | zero => intro e _ h; omega
  | succ n ih =>
    intro e hn _
    have hk : ∀ e1 : Ext, e1.c.size ≤ n →
        ∃ r, extTail m (rd8 m e.c.buff) e1 (extLoop m gflg amdf skip n) = some r := by
      intro e1 h1
      apply extTail_total
      intro c1 ha hb
      exact ih _ (by simp only; omega) (by omega)
    rw [extLoop]
    by_cases h0 : skip < (if e.w.nfrm < 0 then -e.w.nfrm else e.w.nfrm)
    · rw [if_pos h0]
      simp only
      by_cases h1 : rd8 m e.c.buff = 0x2C
      · rw [if_pos h1]
        have hsz := hdr_size_le gflg
          ⟨e.c.buff + 1, e.c.size - 1, max (max e.c.hi (e.c.buff + 1)) (e.c.buff + 1 + 9)⟩ 13
          (rd8 m (e.c.buff + 1 + 8))
        simp only at hsz
        obtain ⟨r, hr, hsize⟩ := extFrame_total m skip (e.c.buff + 1)
          { e with
            c := (_GIF_LoadFrameHdr gflg
              ⟨e.c.buff + 1, e.c.size - 1, max (max e.c.hi (e.c.buff + 1)) (e.c.buff + 1 + 9)⟩ 13
              (rd8 m (e.c.buff + 1 + 8)) 9).cur,
            w := { e.w with
              intr := if rd8 m (e.c.buff + 1 + 8) &&& 0x40 ≠ 0 then 1 else 0,
              cpal := (_GIF_LoadFrameHdr gflg
                ⟨e.c.buff + 1, e.c.size - 1, max (max e.c.hi (e.c.buff + 1)) (e.c.buff + 1 + 9)⟩ 13
                (rd8 m (e.c.buff + 1 + 8)) 9).rpal,
              clrs := (_GIF_LoadFrameHdr gflg
                ⟨e.c.buff + 1, e.c.size - 1, max (max e.c.hi (e.c.buff + 1)) (e.c.buff + 1 + 9)⟩ 13
                (rd8 m (e.c.buff + 1 + 8)) 9).ret,
              ifrm := e.w.ifrm + 1 },
            loads := if e.w.ifrm + 1 ≥ skip ∧ ¬ ((_GIF_LoadFrameHdr gflg
                ⟨e.c.buff + 1, e.c.size - 1, max (max e.c.hi (e.c.buff + 1)) (e.c.buff + 1 + 9)⟩ 13
                (rd8 m (e.c.buff + 1 + 8)) 9).ret ≤ 0)
              then e.loads ++ [(e.w.ifrm + 1, (rd16 m (e.c.buff + 1 + 4) : Int),
                (rd16 m (e.c.buff + 1 + 6) : Int))]
              else e.loads } hs0
        rw [hr]
        cases r with
        | none => exact ⟨_, rfl⟩
        | some e2 =>
          simp only
          have h2 := hsize e2 rfl
          simp only at h2
          have h3 : e2.c.size ≤ n := by
            rcases le_max_iff.mp h2 with h | h <;> omega
          by_cases hc : e2.w.ifrm ≥ skip ∧ e2.c.size > 0
          · rw [if_pos hc]
            exact ih e2 h3 (by omega)
          · rw [if_neg hc]
            exact hk e2 h3
      · rw [if_neg h1]
        by_cases h2 : rd8 m e.c.buff = 0x21
        · rw [if_pos h2]
          by_cases h3 : rd8 m (e.c.buff + 1) = 0xF9
          · rw [if_pos h3]
            exact hk _ (by simp only; omega)
          · rw [if_neg h3]
            by_cases h4 : rd8 m (e.c.buff + 1) = 0xFF ∧ amdf = true
            · rw [if_pos h4]
              exact hk _ (by simp only; omega)
            · rw [if_neg h4]
              exact hk _ (by simp only; omega)
        · rw [if_neg h2]
          exact hk _ (by simp only; omega)
    · rw [if_neg h0]
      exact ⟨_, rfl⟩

/-- The two loops of `GIF_Load` end within their fuel. -/
theorem loadLoops_total (m : Mem) (size : Int) (amdf : Bool) (skip : Int) (hs0 : 0 ≤ skip)
    (hsz : 0 < size - (13 + (_GIF_LoadFrameHdr (rd8 m 10) ⟨0, 0, 0⟩ 0 0 0).ret * 3))
    (code0 : Nat → Nat) (out0 : Int → Nat) :
    ∃ desc ca wa b e, loadLoops m size amdf skip code0 out0 = some ((desc, ca, wa), some (b, e)) := by
  unfold loadLoops
  simp only
  obtain ⟨x, hx⟩ := countLoop_total m (rd8 m 10)
    (size - (13 + (_GIF_LoadFrameHdr (rd8 m 10) ⟨0, 0, 0⟩ 0 0 0).ret * 3)).toNat
    ⟨13 + (_GIF_LoadFrameHdr (rd8 m 10) ⟨0, 0, 0⟩ 0 0 0).ret * 3,
      size - (13 + (_GIF_LoadFrameHdr (rd8 m 10) ⟨0, 0, 0⟩ 0 0 0).ret * 3), 12⟩
    { xdim := rd16 m 6, ydim := rd16 m 8, clrs := 0, bkgd := rd8 m 11,
      tran := 0, intr := 0, mode := 0, frxd := 0, fryd := 0, frxo := 0, fryo := 0,
      time := 0, ifrm := 0, nfrm := 0,
      bptr := 13 + (_GIF_LoadFrameHdr (rd8 m 10) ⟨0, 0, 0⟩ 0 0 0).ret * 3, cpal := 0 }
    (by simp only; omega) (by omega)
  obtain ⟨desc, ca, wa⟩ := x
  rw [hx]
  simp only
  obtain ⟨y, hy⟩ := extLoop_total m (rd8 m 10) amdf skip hs0
    ((size - (13 + (_GIF_LoadFrameHdr (rd8 m 10) ⟨0, 0, 0⟩ 0 0 0).ret * 3)).toNat + 1)
    ⟨⟨13 + (_GIF_LoadFrameHdr (rd8 m 10) ⟨0, 0, 0⟩ 0 0 0).ret * 3,
        size - (13 + (_GIF_LoadFrameHdr (rd8 m 10) ⟨0, 0, 0⟩ 0 0 0).ret * 3), ca.hi⟩,
      { wa with nfrm := if desc ≠ 0x3B then -wa.ifrm else wa.ifrm, bptr := 0, ifrm := -1 },
      none, code0, out0, [], [], [], wa.frxd * wa.fryd⟩
    (by simp only; push_cast; omega) (by omega)
  obtain ⟨b, e⟩ := y
  rw [hy]
  exact ⟨desc, ca, wa, b, e, rfl⟩

/-- The fuel of `GIF_Load` suffices: the call has a result (the returned
value being `none` when a store leaves the scratch buffer). -/
theorem load_total (data : Option Mem) (size : Int) (gwfr amdf : Bool) (skip : Int)
    (code0 : Nat → Nat) (out0 : Int → Nat) :
    ∃ r, GIF_Load data size gwfr amdf skip code0 out0 = some r := by
  unfold GIF_Load
  cases data with
  | none => exact ⟨_, rfl⟩
  | some m =>
    simp only
    by_cases h1 : size ≤ 13
    · rw [if_pos h1]; exact ⟨_, rfl⟩
    rw [if_neg h1]
    by_cases h2 : rd8 m 0 ≠ 71
    · rw [if_pos h2]; exact ⟨_, rfl⟩
    rw [if_neg h2]
    by_cases h3 : rd8 m 1 ≠ 73
    · rw [if_pos h3]; exact ⟨_, rfl⟩
    rw [if_neg h3]
    by_cases h4 : rd8 m 2 ≠ 70
    · rw [if_pos h4]; exact ⟨_, rfl⟩
    rw [if_neg h4]
    by_cases h5 : rd8 m 3 ≠ 56
    · rw [if_pos h5]; exact ⟨_, rfl⟩
    rw [if_neg h5]
    by_cases h6 : skip < 0
    · rw [if_pos h6]; exact ⟨_, rfl⟩
    rw [if_neg h6]
    by_cases h7 : rd8 m 4 ≠ 55 ∧ rd8 m 4 ≠ 57
    · rw [if_pos h7]; exact ⟨_, rfl⟩
    rw [if_neg h7]
    by_cases h8 : rd8 m 5 ≠ 97
    · rw [if_pos h8]; exact ⟨_, rfl⟩
    rw [if_neg h8]
    by_cases h9 : gwfr = false
    · rw [if_pos h9]; exact ⟨_, rfl⟩
    rw [if_neg h9, loadPasses_loops]
    by_cases h10 : size - (13 + (_GIF_LoadFrameHdr (rd8 m 10) ⟨0, 0, 0⟩ 0 0 0).ret * 3) ≤ 0
    · rw [if_pos h10]; exact ⟨_, rfl⟩
    rw [if_neg h10]
    obtain ⟨desc, ca, wa, b, e, h⟩ := loadLoops_total m size amdf skip (by omega) (by omega)
      code0 out0
    rw [h]
    exact ⟨_, rfl⟩

/-- The block of lines 298-317 ends, or a store leaves the scratch buffer. -/
theorem extFrame_some (m : Mem) (skip fhdr : Int) (e : Ext) :
    ∃ o, extFrame m skip fhdr e = some o := by
  unfold extFrame
  by_cases hge : e.w.ifrm ≥ skip
  · rw [if_pos hge]
    by_cases hcl : e.w.clrs ≤ 0
    · rw [if_pos hcl]; exact ⟨_, rfl⟩
    · rw [if_neg hcl]
      obtain ⟨o, ho⟩ := loadFrame_total m e.c e.code e.out
      rw [ho]
      cases o with
      | fault => exact ⟨_, rfl⟩
      | ret r c2 s =>
        simp only
        by_cases ht : s.top > e.area
        · rw [if_pos ht]; exact ⟨_, rfl⟩
        rw [if_neg ht]
        by_cases hr : r < 0
        · rw [if_pos hr]; exact ⟨_, rfl⟩
        · rw [if_neg hr]; exact ⟨_, rfl⟩
  · rw [if_neg hge]; exact ⟨_, rfl⟩

/-! ## A walk that runs down into the code table -/

theorem Flow.next_get (f : Flow) (h : f.isNext = true) : f = Flow.next f.get := by
  cases f with
  | next s => rfl
  | ed s => cases h
  | fault => cases h

/-- The passes of the code loop while codes are loaded and the body goes on. -/
theorem codeLoop_steps (ctsz : Nat) :
    ∀ (k n : Nat) (s : Lzw),
      (∀ j, j < k → (codeSteps ctsz j s).bszc ≥ 0 ∧
        (codeStep ctsz (codeSteps ctsz j s)).isNext = true) →
      codeLoop ctsz (k + n) s = codeLoop ctsz n (codeSteps ctsz k s) := by
  intro k
  induction k with
  | zero => intro n s _; simp only [Nat.zero_add, codeSteps]
  | succ k ih =>
    intro n s h
    have h0 := h 0 (by omega)
    simp only [codeSteps] at h0
    have e : k + 1 + n = (k + n) + 1 := by omega
    rw [e, codeLoop, if_pos h0.1, Flow.next_get _ h0.2]
    simp only [codeSteps]
    apply ih
    intro j hj
    exact h (j + 1) (by omega)

theorem codeLoop_stop (ctsz n : Nat) (s : Lzw) (h : ¬ s.bszc ≥ 0) :
    codeLoop ctsz (n + 1) s = some (Flow.next s) := by
  rw [codeLoop, if_neg h]

/-- A store that does not touch record `i` of the code table. -/
theorem store_other (code : Nat → Nat) (out : Int → Nat) (p : Int) (v i : Nat)
    (h : p < 0 → (p + 16384).toNat / 4 ≠ i) : (store code out p v).1 i = code i := by
  unfold store
  by_cases hp : 0 ≤ p
  · rw [if_pos hp]
  · rw [if_neg hp]
    simp only
    rw [Function.update_noteq (Ne.symm (h (by omega)))]

/-- The walk along a record that is its own predecessor, with chain length 1
and pixel 0 (record 7 holding 0x1007): as long as the stores stay above the
bytes of the record it goes on, one store per pass. -/
theorem walk_self (k : Nat) :
    ∀ (code : Nat → Nat) (out : Int → Nat) (b : Int), code 7 = 0x1007 → -16353 ≤ b - k →
      ∃ code' out', code' 7 = 0x1007 ∧
        ∀ n, walk (k + n) code out b 7 = walk n code' out' (b - k) 7 := by
  induction k with
  | zero =>
    intro code out b h7 _
    exact ⟨code, out, h7, fun n => by simp⟩
  | succ k ih =>
    intro code out b h7 hb
    have hs : (store code out b ((code 7 >>> 24) % 256)).1 7 = 0x1007 := by
      rw [store_other _ _ _ _ _ (by intro hp; omega), h7]
    obtain ⟨code', out', h7', hw⟩ := ih (store code out b ((code 7 >>> 24) % 256)).1
      (store code out b ((code 7 >>> 24) % 256)).2 (b - 1) hs (by push_cast at hb; omega)
    refine ⟨code', out', h7', fun n => ?_⟩
    have e : k + 1 + n = (k + n) + 1 := by omega
    rw [e, walk]
    simp only [hs]
    rw [if_neg (by decide)]
    have e7 : (0x1007 : Nat) &&& 0xFFF = 7 := by decide
    rw [e7, hw n]
    congr 1
    push_cast; ring

/-- A store into a record of the code table sets one of its bytes. -/
theorem store_rec (code : Nat → Nat) (out : Int → Nat) (p : Int) (v : Nat) (hp : p < 0) :
    (store code out p v).1 ((p + 16384).toNat / 4)
      = setByte (code ((p + 16384).toNat / 4)) ((p + 16384).toNat % 4) v := by
  unfold store
  rw [if_neg (not_le.2 hp)]
  simp only [Function.update_same]

/-- The end of that walk: the stores into bytes 3 and 2 of the record leave
it as it is, the store into byte 1 clears its chain length and ends the walk. -/
theorem walk_self_end (code : Nat → Nat) (out : Int → Nat) (h7 : code 7 = 0x1007) :
    ∃ code' out', code' 7 = 7 ∧
      ∀ n, walk (n + 3) code out (-16353) 7 = some (code', out', -16356, 7) := by
  have e0 : ((0x1007 : Nat) >>> 24) % 256 = 0 := by decide
  -- byte 3
  have a1 : (store code out (-16353) 0).1 7 = 0x1007 := by
    have := store_rec code out (-16353) 0 (by decide)
    have i7 : ((-16353 : Int) + 16384).toNat / 4 = 7 := by decide
    have b3 : ((-16353 : Int) + 16384).toNat % 4 = 3 := by decide
    rw [i7, b3, h7] at this
    rw [this]; decide
  -- byte 2
  have a2 : (store (store code out (-16353) 0).1 (store code out (-16353) 0).2 (-16354) 0).1 7
      = 0x1007 := by
    have := store_rec (store code out (-16353) 0).1 (store code out (-16353) 0).2 (-16354) 0
      (by decide)
    have i7 : ((-16354 : Int) + 16384).toNat / 4 = 7 := by decide
    have b2 : ((-16354 : Int) + 16384).toNat % 4 = 2 := by decide
    rw [i7, b2, a1] at this
    rw [this]; decide
  -- byte 1
  have a3 : (store (store (store code out (-16353) 0).1 (store code out (-16353) 0).2 (-16354) 0).1
      (store (store code out (-16353) 0).1 (store code out (-16353) 0).2 (-16354) 0).2
      (-16355) 0).1 7 = 7 := by
    have := store_rec (store (store code out (-16353) 0).1 (store code out (-16353) 0).2 (-16354) 0).1
      (store (store code out (-16353) 0).1 (store code out (-16353) 0).2 (-16354) 0).2 (-16355) 0
      (by decide)
    have i7 : ((-16355 : Int) + 16384).toNat / 4 = 7 := by decide
    have b1 : ((-16355 : Int) + 16384).toNat % 4 = 1 := by decide
    rw [i7, b1, a2] at this
    rw [this]; decide
  refine ⟨_, (store (store (store code out (-16353) 0).1 (store code out (-16353) 0).2 (-16354) 0).1
      (store (store code out (-16353) 0).1 (store code out (-16353) 0).2 (-16354) 0).2
      (-16355) 0).2, a3, fun n => ?_⟩
  have e7 : (0x1007 : Nat) &&& 0xFFF = 7 := by decide
  have n7 : ¬ ((0x1007 : Nat) &&& 0xFFF000 = 0) := by decide
  have z7 : (7 : Nat) &&& 0xFFF000 = 0 := by decide
  have b1 : (-16353 : Int) - 1 = -16354 := by norm_num
  have b2 : (-16354 : Int) - 1 = -16355 := by norm_num
  have b3 : (-16355 : Int) - 1 = -16356 := by norm_num
  rw [walk]
  simp only [h7, e0, a1]
  rw [if_neg n7, e7, b1, walk]
  simp only [a1, e0, a2]
  rw [if_neg n7, e7, b2, walk]
  simp only [a2, e0, a3]
  rw [if_pos z7, b3]

/-- The whole walk along the self-referential record 7, started at offset 5
of the pixel area: 16361 stores, down to byte 1 of the record. -/
theorem walk_self_all (code : Nat → Nat) (out : Int → Nat) (h7 : code 7 = 0x1007) :
    ∃ code' out', code' 7 = 7 ∧ walk 16390 code out 5 7 = some (code', out', -16356, 7) := by
  obtain ⟨c1, o1, h1, hw⟩ := walk_self 16358 code out 5 h7 (by norm_num)
  obtain ⟨c2, o2, h2, hw2⟩ := walk_self_end c1 o1 h1
  refine ⟨c2, o2, h2, ?_⟩
  have e : (16390 : Nat) = 16358 + (29 + 3) := by norm_num
  have eb : (5 : Int) - ((16358 : Nat) : Int) = -16353 := by norm_num
  rw [e, hw, eb, hw2]

/-- The data code 7 in a state where record 7 is its own predecessor with
chain length 1 and pixel 0, the table top is 7 and the output position is 4:
the walk overwrites the table down to the record, and the output position is
left in front of the pixel area. -/
theorem pixStep_self (s : Lzw) (h7 : s.code 7 = 0x1007) (hb : s.bptr = 4) (hct : s.ctbl = 7)
    (hm : s.mask = 15) :
    ∃ s', pixStep s 7 = Flow.next s' ∧ s'.bptr = -16353 ∧ s'.code 7 = 7 ∧
      s'.top = max s.top 6 ∧ s'.bszc = s.bszc - s.ccsz := by
  set code1 := Function.update s.code (s.ctbl + 1) (s.prev + 0x1000 + (s.code s.prev &&& 0xFFF000))
    with hcode1
  have h71 : code1 7 = 0x1007 := by
    rw [hcode1, Function.update_noteq (by omega), h7]
  have hlen : (code1 7 >>> 12 &&& 0xFFF) = 1 := by rw [h71]; decide
  obtain ⟨c2, o2, h2, hw⟩ := walk_self_all code1 s.out h71
  have hfuel : (s.bptr + ((code1 7 >>> 12 &&& 0xFFF : Nat) : Int) + 16385).toNat = 16390 := by
    rw [hlen, hb]; decide
  have hstart : s.bptr + ((code1 7 >>> 12 &&& 0xFFF : Nat) : Int) = 5 := by
    rw [hlen, hb]; decide
  have hg : decide (s.ctbl + 1 < 4096 ∧ s.ctbl + 1 = s.mask ∧ s.ctbl + 1 < 4095) = false := by
    rw [hct, hm]; decide
  have hlt : s.ctbl + 1 < 4096 := by omega
  have hge : ¬ (7 ≥ s.ctbl + 1) := by omega
  unfold pixStep
  simp only [hg]
  simp only [hlt, hge, if_false, if_true, Bool.false_eq_true]
  rw [← hcode1, hfuel, hstart, hw]
  refine ⟨_, rfl, ?_, ?_, ?_, rfl⟩
  · simp only [hlen]; decide
  · simp only
    rw [Function.update_noteq (by omega), h2]
  · simp only [hlen, hb]
    congr 1

/-- The loop over a sub-block of two bytes whose codes do not end the stream. -/
theorem wordLoop_two (m : Mem) (ctsz n : Nat) (c : Cur) (s s2 : Lzw)
    (h : codeLoop ctsz ((loadWord s ((rd16 m c.buff &&& 0xFFFFFFFF) % 65536) 2).bszc.toNat + 2)
      (loadWord s ((rd16 m c.buff &&& 0xFFFFFFFF) % 65536) 2) = some (Flow.next s2)) :
    wordLoop m ctsz (n + 2) 2 c s
      = some (WordOut.done (2 - 2) ⟨c.buff + 2, c.size, max c.hi (c.buff + 2)⟩ s2) := by
  rw [wordLoop, if_pos (by decide)]
  simp only
  rw [if_neg (by decide), if_neg (by decide), h]
  simp only
  rw [wordLoop, if_neg (by decide)]

/-- The loop over the sub-blocks when the first one runs out without an END
code and the terminator follows. -/
theorem blockLoop_done (m : Mem) (ctsz n : Nat) (bseq : Int) (c c2 : Cur) (s s2 : Lzw) (b2 : Int)
    (hs : ¬ (c.size - (bseq + 1) ≤ 0))
    (hw : wordLoop m ctsz (bseq.toNat + 1) bseq { c with size := c.size - (bseq + 1) } s
      = some (WordOut.done b2 c2 s2))
    (hz : rd8 m (c2.buff + b2) = 0) :
    blockLoop m ctsz (n + 1) bseq c s
      = some (FrameOut.ret 0 ⟨c2.buff + b2 + 1, c2.size - 1, max c2.hi (c2.buff + b2 + 1)⟩ s2) := by
  rw [blockLoop]
  simp only
  rw [if_neg hs, hw]
  simp only
  rw [if_neg (by rw [hz]; decide)]
/-! ## The claims -/

/-- C1: for `ctsz` in [2,8] and a valid code sequence `codes` (accepted by the
canonical decoder `decode`, which yields `pixels`), packed least significant
bit first with the standard growing width into non-empty sub-blocks `blocks`,
the first of at least two bytes, that lie in the buffer with their
terminator, `_GIF_LoadFrame` returns 1 and has written exactly `pixels`, in
order from the start of the pixel area, and nothing else. -/
theorem GIF_LoadFrame_decodes (ctsz : Nat) (h2 : 2 ≤ ctsz) (h8 : ctsz ≤ 8)
    (codes pixels : List Nat) (blocks : List (List Nat))
    (hdec : decode ctsz Dec.start codes = some pixels) (hch : chunks ctsz codes blocks)
    (m : Mem) (c : Cur) (hm : holds m c.buff (frameData ctsz blocks))
    (hsz : ((frameData ctsz blocks).length : Int) ≤ c.size)
    (code0 : Nat → Nat) (out0 : Int → Nat) :
    ∃ c' s', _GIF_LoadFrame m c code0 out0 = some (FrameOut.ret 1 c' s') ∧
      s'.bptr = pixels.length ∧
      (∀ i : Nat, i < pixels.length → s'.out i = pixels.getD i 0) ∧
      (∀ j : Int, j < 0 ∨ (pixels.length : Int) ≤ j → s'.out j = out0 j) := by
  obtain ⟨c', s', h, -, -, hout, hb, -⟩ := loadFrame_valid h2 h8 hdec hch m c hm hsz code0 out0
  refine ⟨c', s', h, hb, ?_, ?_⟩
  · intro i hi
    rw [hout]
    unfold writeAt
    have : (0 : Int) ≤ (i : Int) ∧ (i : Int) < 0 + (pixels.length : Nat) := by omega
    rw [if_pos this]
    simp
  · intro j hj
    rw [hout]
    unfold writeAt
    have : ¬ ((0 : Int) ≤ j ∧ j < 0 + (pixels.length : Nat)) := by omega
    rw [if_neg this]

/-- C1 at a concrete stream: the codes CLEAR, 1, 6, 6, END for `ctsz = 2`
in one sub-block of two bytes. -/
theorem GIF_LoadFrame_decodes_witness :
    ∃ c' s', _GIF_LoadFrame (memOfList [2, 2, 0x8C, 0x5D, 0]) ⟨0, 5, 0⟩ (fun _ => 0) (fun _ => 0)
        = some (FrameOut.ret 1 c' s') ∧
      s'.bptr = ([1, 1, 1, 1, 1] : List Nat).length ∧
      (∀ i : Nat, i < ([1, 1, 1, 1, 1] : List Nat).length →
        s'.out i = ([1, 1, 1, 1, 1] : List Nat).getD i 0) ∧
      (∀ j : Int, j < 0 ∨ ((([1, 1, 1, 1, 1] : List Nat).length : Nat) : Int) ≤ j →
        s'.out j = (fun _ => 0) j) :=
  GIF_LoadFrame_decodes 2 (by decide) (by decide) [4, 1, 6, 6, 5] [1, 1, 1, 1, 1] [[0x8C, 0x5D]]
    (by decide) (by decide!) (memOfList [2, 2, 0x8C, 0x5D, 0]) ⟨0, 5, 0⟩ (by decide) (by decide)
    (fun _ => 0) (fun _ => 0)

/-- C3 (code defect): a buffer that ends right behind the first frame (no 0x3B
mark) is reported as -1 with `skip = 0`, one frame delivered; with `skip = 1`
no frame is delivered, yet the result is 1, a positive number. -/
theorem GIF_Load_truncated_positive :
    (GIF_Load (some (memOfList (hdr2 ++ img1 [0x4C, 0x01]))) 34 true false 1
      (fun _ => 0) (fun _ => 0)).map (fun r => (r.ret, r.frames.length)) = some (some 1, 0) ∧
    (GIF_Load (some (memOfList (hdr2 ++ img1 [0x4C, 0x01]))) 34 true false 0
      (fun _ => 0) (fun _ => 0)).map (fun r => (r.ret, r.frames.length)) = some (some (-1), 1) := by
  decide

/-- C4 (code defect): with a graphics control extension in front of frame 0
only, frame 1 is delivered with delay 0, no transparent index and mode 0 when
`skip = 0`, but with the delay, transparent index and mode of that extension
when `skip = 1`: `egch` is only cleared when a frame is delivered. -/
theorem GIF_Load_skip_keeps_egch :
    (GIF_Load (some (memOfList (hdr2 ++ gce1 ++ img1 [0x4C, 0x01] ++ img1 [0x4C, 0x01] ++ [0x3B])))
        58 true false 0 (fun _ => 0) (fun _ => 0)).map
      (fun r => (r.calls.drop 1).map (fun p => (p.1.ifrm, p.1.time, p.1.tran, p.1.mode)))
      = some [(1, 0, -1, 0)] ∧
    (GIF_Load (some (memOfList (hdr2 ++ gce1 ++ img1 [0x4C, 0x01] ++ img1 [0x4C, 0x01] ++ [0x3B])))
        58 true false 1 (fun _ => 0) (fun _ => 0)).map
      (fun r => r.calls.map (fun p => (p.1.ifrm, p.1.time, p.1.tran, p.1.mode)))
      = some [(1, 10, 1, 2)] := by
  decide

/-- C5: `GIF_Load` returns 0 and calls neither callback when `data` is null,
`size <= 13`, the signature is not `GIF87a`/`GIF89a`, `skip < 0` or the frame
writer is null. -/
theorem GIF_Load_rejects (data : Option Mem) (size : Int) (gwfr amdf : Bool) (skip : Int)
    (code0 : Nat → Nat) (out0 : Int → Nat)
    (h : data = none ∨ size ≤ 13 ∨ (∃ m, data = some m ∧ ¬ sigOk m) ∨ skip < 0 ∨ gwfr = false) :
    ∃ r, GIF_Load data size gwfr amdf skip code0 out0 = some r ∧
      r.ret = some 0 ∧ r.frames = [] ∧ r.metas = [] := by
  cases data with
  | none => exact ⟨_, rfl, rfl, rfl, rfl⟩
  | some m =>
    have h' : size ≤ 13 ∨ ¬ sigOk m ∨ skip < 0 ∨ gwfr = false := by
      rcases h with h | h | ⟨m', hm, h⟩ | h | h
      · cases h
      · exact Or.inl h
      · cases hm; exact Or.inr (Or.inl h)
      · exact Or.inr (Or.inr (Or.inl h))
      · exact Or.inr (Or.inr (Or.inr h))
    unfold GIF_Load
    simp only []
    split_ifs with h1 h2 h3 h4 h5 h6 h7 h8 h9
    all_goals first
      | exact ⟨_, rfl, rfl, rfl, rfl⟩
      | (exfalso
         rcases h' with h | h | h | h
         · exact h1 h
         · apply h; unfold sigOk
           refine ⟨not_not.mp h2, not_not.mp h3, not_not.mp h4, not_not.mp h5, ?_, not_not.mp h8⟩
           by_contra hc; push_neg at hc; exact h7 hc
         · exact h6 h
         · exact h9 h)

/-- C5 at a concrete input: a 20-byte buffer that starts with `GIF88a`. -/
theorem GIF_Load_rejects_witness :
    ∃ r, GIF_Load (some (memOfList [71, 73, 70, 56, 56, 97, 1, 0, 1, 0, 0, 0, 0, 0x3B])) 20 true true 0
        (fun _ => 0) (fun _ => 0) = some r ∧ r.ret = some 0 ∧ r.frames = [] ∧ r.metas = [] :=
  GIF_Load_rejects _ 20 true true 0 _ _
    (Or.inr (Or.inr (Or.inl ⟨_, rfl, by decide⟩)))

/-- C6 (code defect): on the 14 bytes `GIF89a`, a 1x1 screen descriptor without
palette and the frame mark 0x2C, with `size = 14`, the counting pass reads
`fhdr->flgs` at offset 22 before `_GIF_LoadFrameHdr` checks the size: the read
watermark is 23 although the call returns 0. -/
theorem GIF_Load_reads_past_size :
    (GIF_Load (some (memOfList [71, 73, 70, 56, 57, 97, 1, 0, 1, 0, 0, 0, 0, 0x2C])) 14 true false 0
      (fun _ => 0) (fun _ => 0)).map LoadRes.view = some (some 0, [], 0, 23) := by
  decide

/-- C7 fails on malformed codes: for `ctsz = 2` the codes 4, 0, 7, 0, 7 (the
sub-block C4 71), decoded with a scratch buffer that holds zeros, make table
record 7 its own predecessor with chain length 1 (the code 7 above the table
top 6 is taken for the top, and the next insert reads record 7 before it is
written).  The walk for the last code starts at offset 5 of the pixel area
and makes 16361 stores, all but six of them into the code table in front of
the pixel area, until its own store into record 7 clears the chain length:
`_GIF_LoadFrame` returns 0 with the output position 16353 bytes in front of
the pixel area and with record 7 overwritten. -/
theorem GIF_LoadFrame_walk_overruns :
    ∃ c s, _GIF_LoadFrame (memOfList [2, 2, 0xC4, 0x71, 0]) ⟨0, 5, 0⟩ (fun _ => 0) (fun _ => 0)
        = some (FrameOut.ret 0 c s) ∧
      s.bptr = -16353 ∧ s.code 7 = 7 ∧ s.top = 6 := by
  unfold _GIF_LoadFrame
  simp only []
  rw [if_neg (by decide), if_neg (by decide), if_neg (by decide), if_neg (by decide)]
  -- the state with which the first sub-block is entered, and after its two bytes are loaded
  generalize hS1 : (
    { code := fun i => if i < 1 <<< rd8 (memOfList [2, 2, 0xC4, 0x71, 0]) 0
        then i <<< 24 else 0,
      out := fun _ => 0, bptr := 0,
      ctbl := 1 <<< rd8 (memOfList [2, 2, 0xC4, 0x71, 0]) 0,
      curr := (1 <<< (rd8 (memOfList [2, 2, 0xC4, 0x71, 0]) 0 + 1) - 1) % 65536 &&&
        rd16 (memOfList [2, 2, 0xC4, 0x71, 0]) (0 + 2),
      prev := 0, mask := (1 <<< (rd8 (memOfList [2, 2, 0xC4, 0x71, 0]) 0 + 1) - 1) % 65536,
      load := 0, ccsz := ((rd8 (memOfList [2, 2, 0xC4, 0x71, 0]) 0 : Nat) : Int) + 1,
      bszc := -(((rd8 (memOfList [2, 2, 0xC4, 0x71, 0]) 0 : Nat) : Int) + 1), top := 0 } : Lzw)
    = S1
  generalize hSW : loadWord S1 ((rd16 (memOfList [2, 2, 0xC4, 0x71, 0]) 2 &&& 0xFFFFFFFF) % 65536) 2
    = SW
  -- the first four codes: CLEAR, 0, 7, 0
  have h4 : ∀ j, j < 4 → (codeSteps 2 j SW).bszc ≥ 0 ∧
      (codeStep 2 (codeSteps 2 j SW)).isNext = true := by
    subst hSW hS1
    decide!
  have e4 := codeLoop_steps 2 4 11 SW h4
  have f7 : (codeSteps 2 4 SW).code 7 = 0x1007 := by subst hSW hS1; decide!
  have fb : (codeSteps 2 4 SW).bptr = 4 := by subst hSW hS1; decide!
  have fc : (codeSteps 2 4 SW).ctbl = 7 := by subst hSW hS1; decide!
  have fm : (codeSteps 2 4 SW).mask = 15 := by subst hSW hS1; decide!
  have fu : (codeSteps 2 4 SW).curr &&& (codeSteps 2 4 SW).mask = 7 := by subst hSW hS1; decide!
  have fz : (codeSteps 2 4 SW).bszc = 0 := by subst hSW hS1; decide!
  have fw : (codeSteps 2 4 SW).ccsz = 4 := by subst hSW hS1; decide!
  have ft : (codeSteps 2 4 SW).top = 4 := by subst hSW hS1; decide!
  -- the fifth code: 7, whose record is its own predecessor
  obtain ⟨s5, hp, hb5, h75, ht5, hz5⟩ := pixStep_self (codeSteps 2 4 SW) f7 fb fc fm
  have hstep : codeStep 2 (codeSteps 2 4 SW) = Flow.next s5 := by
    unfold codeStep
    simp only [fu]
    rw [if_neg (by decide)]
    exact hp
  have hcl : codeLoop 2 (4 + 11) SW = some (Flow.next s5) := by
    rw [e4]
    have e : (11 : Nat) = 9 + 1 + 1 := rfl
    rw [e, codeLoop, if_pos (by rw [fz]), hstep]
    simp only
    rw [codeLoop_stop 2 9 s5 (by rw [hz5, fz, fw]; decide)]
  have hfuel : SW.bszc.toNat + 2 = 4 + 11 := by subst hSW hS1; decide
  have hw := wordLoop_two (memOfList [2, 2, 0xC4, 0x71, 0]) 2 1
    ⟨2, 5 - 1 - (2 + 1), max (max 0 (0 + 2)) (0 + 2 + 2)⟩ S1 s5
    (by
      simp only
      rw [hSW, hfuel]
      exact hcl)
  have hbl := blockLoop_done (memOfList [2, 2, 0xC4, 0x71, 0]) 2 3 2
    ⟨0 + 2, 5 - 1, max (max 0 (0 + 2)) (0 + 2 + 2)⟩ _ S1 s5 _ (by decide) hw (by decide)
  refine ⟨_, s5, hbl, hb5, h75, ?_⟩
  rw [ht5, ft]
  decide
/-- C8 fails: a 1x1 frame whose (valid) code stream CLEAR, 1, 1, END holds two
pixels.  `_GIF_LoadFrame` is not told the size of the frame: on this stream
it returns 1 and has stored at the offsets 0 and 1 (`top = 2`).  In the file
the frame is the only one, so the pixel area that `GIF_Load` has allocated
has `frxd * fryd = 1` byte and the store at offset 1 lies behind it: the call
ends at that store (`ret = none`), no frame having been delivered. -/
theorem GIF_Load_writes_past_area :
    (_GIF_LoadFrame (memOfList [2, 2, 0x4C, 0x0A, 0]) ⟨0, 5, 0⟩ (fun _ => 0) (fun _ => 77)).map
        (fun o => (o.status, o.top)) = some (some 1, some 2) ∧
    (GIF_Load (some (memOfList (hdr2 ++ img1 [0x4C, 0x0A] ++ [0x3B]))) 35 true false 0
        (fun _ => 0) (fun _ => 77)).map (fun r => (r.ret, r.frames.length)) = some (none, 0) := by
  refine ⟨?_, ?_⟩ <;> decide!
/-- C10 fails for `skip` equal to the number of frames: the complete one-frame
GIF gives 0 with `skip = 1`, no frame being delivered, where the claim wants
0 + 1 and the doc comment of `GIF_Load` the total number of frames, 1. -/
theorem GIF_Load_skip_all :
    (GIF_Load (some (memOfList (hdr2 ++ img1 [0x4C, 0x01] ++ [0x3B]))) 35 true false 1
      (fun _ => 0) (fun _ => 77)).map (fun r => (r.ret, r.frames.length)) = some (some 0, 0) := by
  decide!

/-- C11: a pass through lines 298-317 that calls the frame writer passes
`(time, tran, mode) = gceFields` of the pending graphics-control extension
(`time = d`, or `-d - 1` if bit 1 of the flags is set; `tran = t` if bit 0 is
set, else -1; `mode = (f >> 2) & 3` if bit 4 is clear, else 0; 0, -1, 0
without extension); by `gceFields`, `mode` is in {0,1,2,3}, `time < 0` exactly
when the user-input flag is set, and then `d = |time| - 1`; every descriptor
that `GIF_Load` delivers has its fields from `gceFields` (`GIF_Load` has a
result on every input). -/
theorem GIF_Load_gce_fields :
    (∀ (m : Mem) (skip fhdr : Int) (e : Ext),
      ∃ o, extFrame m skip fhdr e = some o ∧
        optAll (fun e2 : Ext => ∀ d, e2.frames = e.frames ++ [d] →
          (d.hdr.time, d.hdr.tran, d.hdr.mode) = gceFields (pendingGce m e.egch)) o) ∧
    (∀ g : Option (Nat × Nat × Nat),
      0 ≤ (gceFields g).2.2 ∧ (gceFields g).2.2 ≤ 3 ∧
      ((gceFields g).1 < 0 ↔ ∃ f d t, g = some (f, d, t) ∧ f.testBit 1 = true) ∧
      (∀ f d t, g = some (f, d, t) → f.testBit 1 = true → (d : Int) = |(gceFields g).1| - 1)) ∧
    (∀ (m : Mem) (size : Int) (gwfr amdf : Bool) (skip : Int) (code0 : Nat → Nat) (out0 : Int → Nat),
      ∃ r, GIF_Load (some m) size gwfr amdf skip code0 out0 = some r ∧
        ∀ d ∈ r.frames, ∃ g, (d.hdr.time, d.hdr.tran, d.hdr.mode) = gceFields g) := by
  have key : ∀ (m : Mem) (skip fhdr : Int) (e e2 : Ext), extFrame m skip fhdr e = some (some e2) →
      ∀ d, e2.frames = e.frames ++ [d] →
        (d.hdr.time, d.hdr.tran, d.hdr.mode) = gceFields (pendingGce m e.egch) := by
    intro m skip fhdr e e2 hx d hd
    rcases extFrame_frames m skip fhdr e e2 hx with hf | ⟨-, -, d', hf, -, -, -, -, -, hg⟩
    · rw [hf] at hd
      have := congrArg List.length hd
      simp at this
    · rw [hf] at hd
      have := List.append_cancel_left hd
      simp only [List.cons.injEq, and_true] at this
      rw [← this]; exact hg
  refine ⟨?_, ?_, ?_⟩
  · intro m skip fhdr e
    obtain ⟨o, hx⟩ := extFrame_some m skip fhdr e
    refine ⟨o, hx, ?_⟩
    cases o with
    | none => simp only [optAll]
    | some e2 => simp only [optAll]; exact key m skip fhdr e e2 hx
  · intro g
    cases g with
    | none => simp [gceFields]
    | some x =>
      obtain ⟨f, d, t⟩ := x
      simp only [gceFields]
      have hm : (f >>> 2) &&& 3 ≤ 3 := Nat.and_le_right
      refine ⟨?_, ?_, ?_, ?_⟩
      · split_ifs <;> omega
      · split_ifs <;> omega
      · constructor
        · intro h
          by_cases hb : f.testBit 1 = true
          · exact ⟨f, d, t, rfl, hb⟩
          · rw [if_neg hb] at h; omega
        · rintro ⟨f', d', t', he, hb⟩
          simp only [Option.some.injEq, Prod.mk.injEq] at he
          rw [he.1, if_pos hb]; omega
      · intro f' d' t' he hb
        simp only [Option.some.injEq, Prod.mk.injEq] at he
        rw [he.1, if_pos hb, ← he.2.1]
        rw [abs_of_neg (by omega)]
        ring
  · intro m size gwfr amdf skip code0 out0
    obtain ⟨r, hx⟩ := load_total (some m) size gwfr amdf skip code0 out0
    exact ⟨r, hx, load_frames_inv m size gwfr amdf skip code0 out0 _
      (fun e e2 fhdr c rp fflg _ _ h d hd => ⟨_, key m skip fhdr e e2 h d hd⟩) r hx⟩

/-- C11 at a concrete file: in `gif2` the first frame follows a graphics
control extension with flags 0x09, delay 10 and transparent index 1, the
second frame has no pending extension. -/
theorem GIF_Load_gce_fields_witness :
    (∃ r, GIF_Load (some (memOfList gif2.bytes)) 58 true false 0 (fun _ => 0) (fun _ => 0)
        = some r ∧
      ∀ d ∈ r.frames, ∃ g, (d.hdr.time, d.hdr.tran, d.hdr.mode) = gceFields g) ∧
    (GIF_Load (some (memOfList gif2.bytes)) 58 true false 0 (fun _ => 0) (fun _ => 0)).map
      (fun r => r.frames.map (fun d => (d.hdr.time, d.hdr.tran, d.hdr.mode)))
      = some [(10, 1, 2), (0, -1, 0)] ∧
    gceFields (some (0x09, 10, 1)) = (10, 1, 2) ∧ gceFields none = (0, -1, 0) :=
  ⟨GIF_Load_gce_fields.2.2 (memOfList gif2.bytes) 58 true false 0 (fun _ => 0) (fun _ => 0),
    by decide!, by decide, by decide⟩

/-- C12: `_GIF_LoadFrameHdr` for a 9-byte image descriptor with enough bytes
remaining: with bit 7 of the frame flags set it returns
`2^((fflg & 7) + 1)`, sets the palette reference to the byte behind the
descriptor and advances the cursor by 9 + 3 * that count; else with bit 7 of
the global flags set it returns `2^((gflg & 7) + 1)`, leaves the palette
reference and advances by 9; else it returns 0.  A pass through lines 298-317
with `clrs <= 0` does not call the frame writer, and `clrs` is a power of two
in [2, 256] in every descriptor that `GIF_Load` delivers (`GIF_Load` has a
result on every input). -/
theorem GIF_LoadFrameHdr_palette :
    (∀ (gflg fflg : Nat) (c : Cur) (rp : Int), gflg < 256 → fflg < 256 → 0 < c.size - 9 →
      (fflg.testBit 7 = true → 0 < c.size - 9 - 3 * 2 ^ ((fflg &&& 7) + 1) →
        _GIF_LoadFrameHdr gflg c rp fflg 9 =
          ⟨2 ^ ((fflg &&& 7) + 1),
           ⟨c.buff + 9 + 3 * 2 ^ ((fflg &&& 7) + 1), c.size - 9 - 3 * 2 ^ ((fflg &&& 7) + 1), c.hi⟩,
           c.buff + 9⟩) ∧
      (fflg.testBit 7 = false → gflg.testBit 7 = true →
        _GIF_LoadFrameHdr gflg c rp fflg 9 =
          ⟨2 ^ ((gflg &&& 7) + 1), ⟨c.buff + 9, c.size - 9, c.hi⟩, rp⟩) ∧
      (fflg.testBit 7 = false → gflg.testBit 7 = false →
        _GIF_LoadFrameHdr gflg c rp fflg 9 = ⟨0, ⟨c.buff + 9, c.size - 9, c.hi⟩, rp⟩)) ∧
    (∀ (m : Mem) (skip fhdr : Int) (e : Ext), e.w.clrs ≤ 0 →
      ∃ o, extFrame m skip fhdr e = some o ∧ optAll (fun e2 : Ext => e2.frames = e.frames) o) ∧
    (∀ (m : Mem) (size : Int) (gwfr amdf : Bool) (skip : Int) (code0 : Nat → Nat) (out0 : Int → Nat),
      ∃ r, GIF_Load (some m) size gwfr amdf skip code0 out0 = some r ∧
        ∀ d ∈ r.frames, ∃ k, 1 ≤ k ∧ k ≤ 8 ∧ d.hdr.clrs = 2 ^ k) := by
  refine ⟨?_, ?_, ?_⟩
  · intro gflg fflg c rp hg hf hsz
    obtain ⟨g7, -, -, -, -, -, gp, -⟩ := byte_bits gflg hg
    obtain ⟨f7, -, -, -, -, -, fp, -⟩ := byte_bits fflg hf
    have h9 : (9 : Int) ≠ 0 := by decide
    refine ⟨?_, ?_, ?_⟩
    · intro hb hs2
      have hl := f7.2 hb
      unfold _GIF_LoadFrameHdr
      simp only [h9, ne_eq, not_false_eq_true, if_true, true_and]
      rw [if_neg (by omega), if_pos hl, fp]
      rw [if_neg (by push_cast; omega)]
      simp only [HdrRes.mk.injEq, Cur.mk.injEq]
      push_cast
      refine ⟨rfl, ⟨by ring, by ring, trivial⟩, trivial⟩
    · intro hb hgb
      have hb' : ¬ (fflg &&& 0x80 ≠ 0) := fun hx => by rw [f7.1 hx] at hb; cases hb
      unfold _GIF_LoadFrameHdr
      simp only [h9, ne_eq, not_false_eq_true, if_true, true_and]
      rw [if_neg (by omega), if_neg hb', if_pos (g7.2 hgb), gp]
      push_cast
      rfl
    · intro hb hgb
      have hb' : ¬ (fflg &&& 0x80 ≠ 0) := fun hx => by rw [f7.1 hx] at hb; cases hb
      have hg' : ¬ (gflg &&& 0x80 ≠ 0) := fun hx => by rw [g7.1 hx] at hgb; cases hgb
      unfold _GIF_LoadFrameHdr
      simp only [h9, ne_eq, not_false_eq_true, if_true, true_and]
      rw [if_neg (by omega), if_neg hb', if_neg hg']
  · intro m skip fhdr e hc
    obtain ⟨o, hx⟩ := extFrame_some m skip fhdr e
    refine ⟨o, hx, ?_⟩
    cases o with
    | none => simp only [optAll]
    | some e2 =>
      simp only [optAll]
      rcases extFrame_frames m skip fhdr e e2 hx with hf | ⟨hpos, -⟩
      · exact hf
      · omega
  · intro m size gwfr amdf skip code0 out0
    obtain ⟨r, hx⟩ := load_total (some m) size gwfr amdf skip code0 out0
    refine ⟨r, hx, load_frames_inv m size gwfr amdf skip code0 out0 _ ?_ r hx⟩
    intro e e2 fhdr c rp fflg hf hcl h d hd
    rcases extFrame_frames m skip fhdr e e2 h with hf' | ⟨hpos, -, d', hf', hdc, -⟩
    · rw [hf'] at hd
      have := congrArg List.length hd
      simp at this
    · rw [hf'] at hd
      have := List.append_cancel_left hd
      simp only [List.cons.injEq, and_true] at this
      rw [← this, hdc, hcl]
      rw [hcl] at hpos
      exact hdr_ret_pow (rd8 m 10) (rd8_lt m 10) c rp fflg hf 9 hpos

/-- C12 at concrete headers: a local palette of two colours, the global
palette of two colours, and no palette, each with 20 bytes remaining. -/
theorem GIF_LoadFrameHdr_palette_witness :
    _GIF_LoadFrameHdr 0x80 ⟨0, 20, 0⟩ 13 0x80 9 = ⟨2, ⟨15, 5, 0⟩, 9⟩ ∧
    _GIF_LoadFrameHdr 0x80 ⟨0, 20, 0⟩ 13 0 9 = ⟨2, ⟨9, 11, 0⟩, 13⟩ ∧
    _GIF_LoadFrameHdr 0 ⟨0, 20, 0⟩ 13 0 9 = ⟨0, ⟨9, 11, 0⟩, 13⟩ :=
  ⟨(GIF_LoadFrameHdr_palette.1 0x80 0x80 ⟨0, 20, 0⟩ 13 (by decide) (by decide) (by decide)).1
      (by decide) (by decide),
    (GIF_LoadFrameHdr_palette.1 0x80 0 ⟨0, 20, 0⟩ 13 (by decide) (by decide) (by decide)).2.1
      (by decide) (by decide),
    (GIF_LoadFrameHdr_palette.1 0 0 ⟨0, 20, 0⟩ 13 (by decide) (by decide) (by decide)).2.2
      (by decide) (by decide)⟩

/-- C13 (code defect): for `ctsz = 8` the payload bytes 00 0B 04 04 (the codes
CLEAR, 5, END) decode with status 1 and pixel 5 when they come in one
sub-block, but give status -2 when the first sub-block holds one byte only:
the first code is tested on a 16-bit word read across the sub-block
boundary, so its bit 8 comes from the next length byte. -/
theorem GIF_LoadFrame_chunking_differs :
    ([0x00, 0x0B, 0x04, 0x04] : List Nat) = [0x00] ++ [0x0B, 0x04] ++ [0x04] ∧
    (_GIF_LoadFrame (memOfList (frameData 8 [[0x00, 0x0B, 0x04, 0x04]] ++ [0, 0, 0])) ⟨0, 10, 0⟩
      (fun _ => 0) (fun _ => 0)).map (fun o => (o.status, o.view.map (fun v => v.2.2)))
      = some (some 1, some 1) ∧
    (_GIF_LoadFrame (memOfList (frameData 8 [[0x00], [0x0B, 0x04], [0x04]] ++ [0, 0, 0])) ⟨0, 12, 0⟩
      (fun _ => 0) (fun _ => 0)).map (fun o => (o.status, o.view.map (fun v => v.2.2)))
      = some (some (-2), some 0) := by
  decide!

/-- C14: for every input and every `skip >= 0` with which `GIF_Load` reaches
its two loops (the size test of line 262 has passed), both loops end, and
each call of `_GIF_LoadFrame` that the extraction loop has made is for a
frame that the counting loop has counted: its index is below `|nfrm|` (`nfrm`
as line 288 sets it from the count `wa.ifrm` and the last mark `desc`) and
its width times its height is at most `frxd * fryd` of the counting loop, the
size of the pixel area. -/
theorem GIF_Load_loads_counted (m : Mem) (size : Int) (amdf : Bool) (skip : Int) (hs0 : 0 ≤ skip)
    (hsz : 0 < size - (13 + (_GIF_LoadFrameHdr (rd8 m 10) ⟨0, 0, 0⟩ 0 0 0).ret * 3))
    (code0 : Nat → Nat) (out0 : Int → Nat) :
    ∃ desc ca wa b e,
      loadLoops m size amdf skip code0 out0 = some ((desc, ca, wa), some (b, e)) ∧
      ∀ l ∈ e.loads,
        l.1 < |if desc ≠ 0x3B then -wa.ifrm else wa.ifrm| ∧ l.2.1 * l.2.2 ≤ wa.frxd * wa.fryd := by
  obtain ⟨desc, ca, wa, b, e, hl⟩ := loadLoops_total m size amdf skip hs0 hsz code0 out0
  refine ⟨desc, ca, wa, b, e, hl, ?_⟩
  unfold loadLoops at hl
  simp only at hl
  cases hc : countLoop m (rd8 m 10) _ _ _ with
  | none => rw [hc] at hl; cases hl
  | some x =>
    obtain ⟨desc', ca', wa'⟩ := x
    rw [hc] at hl
    simp only [Option.some.injEq, Prod.mk.injEq] at hl
    obtain ⟨⟨rfl, rfl, rfl⟩, he⟩ := hl
    have hmono := countLoop_mono m (rd8 m 10) _ _ _ _ _ _ hc
    simp only at hmono
    intro l hl
    have h := lockstep m (rd8 m 10) amdf skip hs0 _ _ _ _ _ _ hc _ _ b e rfl rfl
      (by simp only; omega) (by simp only; split_ifs <;> omega) he l hl
    simp only [List.not_mem_nil, false_or] at h
    obtain ⟨h1, h2, h3, h4, h5⟩ := h
    refine ⟨?_, ?_⟩
    · split_ifs
      · rw [abs_neg, abs_of_nonneg (by omega)]; exact h1
      · rw [abs_of_nonneg (by omega)]; exact h1
    · exact mul_le_mul h2 h3 h5 (by omega)

/-- C14 at a concrete file: `gif2` with `skip = 0`, where two frames are
counted and both are handed to `_GIF_LoadFrame`. -/
theorem GIF_Load_loads_counted_witness :
    (∃ desc ca wa b e,
      loadLoops (memOfList gif2.bytes) 58 false 0 (fun _ => 0) (fun _ => 0)
        = some ((desc, ca, wa), some (b, e)) ∧
      ∀ l ∈ e.loads,
        l.1 < |if desc ≠ 0x3B then -wa.ifrm else wa.ifrm| ∧ l.2.1 * l.2.2 ≤ wa.frxd * wa.fryd) ∧
    (loadLoops (memOfList gif2.bytes) 58 false 0 (fun _ => 0) (fun _ => 0)).map
      (fun p : (Nat × Cur × GIF_WHDR) × Option (Bool × Ext) =>
        (p.1.2.2.ifrm, p.1.2.2.frxd, p.1.2.2.fryd)) = some (2, 1, 1) ∧
    (loadLoops (memOfList gif2.bytes) 58 false 0 (fun _ => 0) (fun _ => 0)).map
      (fun p : (Nat × Cur × GIF_WHDR) × Option (Bool × Ext) =>
        p.2.map (fun be : Bool × Ext => be.2.loads)) = some (some [(0, 1, 1), (1, 1, 1)]) :=
  ⟨GIF_Load_loads_counted (memOfList gif2.bytes) 58 false 0 (by decide) (by decide)
      (fun _ => 0) (fun _ => 0),
    by decide!, by decide!⟩

/-- C15: whenever `_GIF_LoadFrame` returns 0 or 1, the cursor stands behind
the terminator of the chain of non-empty sub-blocks that follows the code size
byte, `_GIF_SkipChunk` started at the same cursor ends with the same cursor
and size, and the size has decreased by what the cursor advanced. -/
theorem GIF_LoadFrame_cursor (m : Mem) (c : Cur) (code0 : Nat → Nat) (out0 : Int → Nat)
    (r : Int) (c' : Cur) (b : Int)
    (h : (_GIF_LoadFrame m c code0 out0).map FrameOut.view = some (some (r, c', b)))
    (hr : r = 0 ∨ r = 1) :
    (∃ subs, subsOK subs ∧ holds (rd8 m) (c.buff + 1) (chain subs) ∧
      c'.buff = c.buff + 1 + ((chain subs).length : Nat)) ∧
    (∃ rs cs, _GIF_SkipChunk m c = some (rs, cs) ∧ cs.buff = c'.buff ∧ cs.size = c'.size) ∧
    c.size - c'.size = c'.buff - c.buff := by
  obtain ⟨s', h⟩ := view_ret h
  obtain ⟨subs, hso, hm, hb, hs, hnn⟩ := loadFrame_walked m c code0 out0 r c' s' h hr
  obtain ⟨rs, hi', hk, -⟩ := skipChunk_chain_le m subs c hso hm (by omega)
  refine ⟨⟨subs, hso, hm, hb⟩, ⟨rs, _, hk, ?_, ?_⟩, ?_⟩
  · rw [hb]
  · rw [hs]; ring
  · rw [hb, hs]; ring

/-- C15 at a concrete stream: the frame data 02 02 8C 5D 00 with 5 bytes
remaining. -/
theorem GIF_LoadFrame_cursor_witness :
    (∃ subs, subsOK subs ∧
      holds (rd8 (memOfList [2, 2, 0x8C, 0x5D, 0])) ((⟨0, 5, 0⟩ : Cur).buff + 1) (chain subs) ∧
      (⟨5, 0, 5⟩ : Cur).buff = (⟨0, 5, 0⟩ : Cur).buff + 1 + ((chain subs).length : Nat)) ∧
    (∃ rs cs, _GIF_SkipChunk (memOfList [2, 2, 0x8C, 0x5D, 0]) ⟨0, 5, 0⟩ = some (rs, cs) ∧
      cs.buff = (⟨5, 0, 5⟩ : Cur).buff ∧ cs.size = (⟨5, 0, 5⟩ : Cur).size) ∧
    (⟨0, 5, 0⟩ : Cur).size - (⟨5, 0, 5⟩ : Cur).size
      = (⟨5, 0, 5⟩ : Cur).buff - (⟨0, 5, 0⟩ : Cur).buff :=
  GIF_LoadFrame_cursor (memOfList [2, 2, 0x8C, 0x5D, 0]) ⟨0, 5, 0⟩ (fun _ => 0) (fun _ => 0)
    1 ⟨5, 0, 5⟩ 5 (by decide!) (Or.inr rfl)

/-- C16 fails at the boundary: the leading byte and the zero-length
terminator are the two bytes that remain, so the whole chain lies within the
remaining bytes, yet `_GIF_SkipChunk` reports failure; with a third byte
remaining it reports success. -/
theorem GIF_SkipChunk_needs_one_more :
    holds (memOfList [0x21, 0]) 1 (chain []) ∧ 1 + ((chain []).length : Int) ≤ 2 ∧
    _GIF_SkipChunk (memOfList [0x21, 0]) ⟨0, 2, 0⟩ = some (0, ⟨2, 0, 2⟩) ∧
    _GIF_SkipChunk (memOfList [0x21, 0]) ⟨0, 3, 0⟩ = some (1, ⟨2, 1, 2⟩) := by
  decide

/-- C16, amended: `_GIF_SkipChunk` returns 0 or 1; it returns 1 exactly when
the leading byte and a chain of non-empty sub-blocks with its terminator lie
within the remaining bytes with at least one byte left behind the
terminator, and then the cursor has advanced, and the size has decreased, by
1 + the length of the chain (each sub-block with its length byte, and the
terminator). -/
theorem GIF_SkipChunk_spec (m : Mem) (c : Cur) :
    ∃ r c', _GIF_SkipChunk m c = some (r, c') ∧ (r = 0 ∨ r = 1) ∧
      (r = 1 → ∃ subs, subsOK subs ∧ holds (rd8 m) (c.buff + 1) (chain subs) ∧
        1 + ((chain subs).length : Int) < c.size ∧
        c'.buff = c.buff + (1 + ((chain subs).length : Nat)) ∧
        c'.size = c.size - (1 + ((chain subs).length : Nat))) ∧
      ((∃ subs, subsOK subs ∧ holds (rd8 m) (c.buff + 1) (chain subs) ∧
        1 + ((chain subs).length : Int) < c.size) → r = 1) := by
  obtain ⟨r, c', h, hr⟩ := skipChunk_total m c
  refine ⟨r, c', h, hr, ?_, ?_⟩
  · intro h1
    subst h1
    unfold _GIF_SkipChunk at h
    simp only at h
    by_cases hs : c.size - 1 ≤ 0
    · rw [if_pos hs] at h; simp at h
    · rw [if_neg hs] at h
      obtain ⟨subs, hso, hm, hlt, hb, hsz⟩ := skipLoop_walked m _ _ _ h
      simp only at hm hlt hb hsz
      exact ⟨subs, hso, hm, by omega, by rw [hb]; ring, by rw [hsz]; ring⟩
  · rintro ⟨subs, hso, hm, hlt⟩
    obtain ⟨hi', hk⟩ := skipChunk_chain (rd8 m) subs c hso hm hlt
    rw [skipChunk_rd8, h] at hk
    simp only [Option.some.injEq, Prod.mk.injEq] at hk
    exact hk.1

/-- C17 fails: in this complete one-frame GIF the sub-block with the END code
is followed by one more sub-block, so `_GIF_LoadFrame` (called at offset 29
with 8 bytes left) reports -1 with the pixel decoded; `GIF_Load` returns 0 and
has not called the frame writer. -/
theorem GIF_Load_minus_one_not_delivered :
    (_GIF_LoadFrame
        (memOfList (hdr2 ++ [0x2C, 0, 0, 0, 0, 1, 0, 1, 0, 0, 2, 2, 0x4C, 0x01, 1, 0, 0] ++ [0x3B]))
        ⟨29, 8, 29⟩ (fun _ => 0) (fun _ => 0)).map FrameOut.view = some (some (-1, ⟨34, 3, 34⟩, 1)) ∧
    (GIF_Load
        (some (memOfList (hdr2 ++ [0x2C, 0, 0, 0, 0, 1, 0, 1, 0, 0, 2, 2, 0x4C, 0x01, 1, 0, 0] ++ [0x3B])))
        37 true false 0 (fun _ => 0) (fun _ => 0)).map (fun r => (r.ret, r.frames.length))
      = some (some 0, 0) := by
  decide!

/-- C17, amended: when `_GIF_LoadFrame` reports -1 for a frame that is due
(`skip <= ifrm`, a palette is in force), the pass through the extraction loop
does not call the frame writer, takes the frame index back and leaves the
loop.  This is so whenever the stores of that call of `_GIF_LoadFrame` lie in
the pixel area (`t`, the end of the highest store, is at most `e.area`);
otherwise the pass ends at the store behind the pixel area (the flag of the
result is `false`), also without a call of the frame writer. -/
theorem extLoop_minus_one (m : Mem) (gflg : Nat) (amdf : Bool) (skip : Int) (n : Nat) (e : Ext)
    (hs0 : 0 ≤ skip) (hguard : skip < (if e.w.nfrm < 0 then -e.w.nfrm else e.w.nfrm))
    (hdesc : rd8 m e.c.buff = 0x2C) (hidx : skip ≤ e.w.ifrm + 1)
    (hclrs : 0 < (_GIF_LoadFrameHdr gflg
      ⟨e.c.buff + 1, e.c.size - 1, max (max e.c.hi (e.c.buff + 1)) (e.c.buff + 1 + 9)⟩ 13
      (rd8 m (e.c.buff + 1 + 8)) 9).ret)
    (hlf : (_GIF_LoadFrame m (_GIF_LoadFrameHdr gflg
      ⟨e.c.buff + 1, e.c.size - 1, max (max e.c.hi (e.c.buff + 1)) (e.c.buff + 1 + 9)⟩ 13
      (rd8 m (e.c.buff + 1 + 8)) 9).cur e.code e.out).map FrameOut.status = some (some (-1))) :
    ∃ t b e', (_GIF_LoadFrame m (_GIF_LoadFrameHdr gflg
        ⟨e.c.buff + 1, e.c.size - 1, max (max e.c.hi (e.c.buff + 1)) (e.c.buff + 1 + 9)⟩ 13
        (rd8 m (e.c.buff + 1 + 8)) 9).cur e.code e.out).map FrameOut.top = some (some t) ∧
      extLoop m gflg amdf skip (n + 1) e = some (b, e') ∧ e'.frames = e.frames ∧
      (t ≤ e.area → b = true ∧ e'.w.ifrm = e.w.ifrm) ∧ (e.area < t → b = false) := by
  obtain ⟨c2, s, hlf⟩ : ∃ c2 s, _GIF_LoadFrame m (_GIF_LoadFrameHdr gflg
      ⟨e.c.buff + 1, e.c.size - 1, max (max e.c.hi (e.c.buff + 1)) (e.c.buff + 1 + 9)⟩ 13
      (rd8 m (e.c.buff + 1 + 8)) 9).cur e.code e.out = some (FrameOut.ret (-1) c2 s) := by
    cases hx : _GIF_LoadFrame m (_GIF_LoadFrameHdr gflg
      ⟨e.c.buff + 1, e.c.size - 1, max (max e.c.hi (e.c.buff + 1)) (e.c.buff + 1 + 9)⟩ 13
      (rd8 m (e.c.buff + 1 + 8)) 9).cur e.code e.out with
    | none => rw [hx] at hlf; simp at hlf
    | some o =>
      rw [hx] at hlf
      cases o with
      | fault => simp [FrameOut.status] at hlf
      | ret r c2 s =>
        simp only [Option.map_some', FrameOut.status, Option.some.injEq] at hlf
        subst hlf
        exact ⟨c2, s, rfl⟩
  refine ⟨s.top, ?_⟩
  rw [extLoop, if_pos hguard]
  simp only [hdesc, if_true]
  unfold extFrame
  simp only
  rw [if_pos (by omega), if_neg (by omega), hlf]
  simp only [Option.map_some', FrameOut.top]
  by_cases ht : s.top > e.area
  · rw [if_pos ht]
    exact ⟨false, _, trivial, rfl, rfl, fun h => absurd ht (by omega), fun _ => rfl⟩
  · rw [if_neg ht, if_pos (by decide)]
    simp only
    rw [if_neg (by omega)]
    unfold extTail
    rw [if_neg (by decide), skipChunk_empty _ _ (by simp only; omega)]
    simp only [if_true]
    exact ⟨true, _, trivial, rfl, rfl, fun _ => ⟨rfl, by simp⟩, fun h => absurd h (by omega)⟩

/-- C17, amended, at the frame of the file above: the loop state is the one
in which `GIF_Load` enters the extraction loop, with a pixel area of one
byte. -/
theorem extLoop_minus_one_witness :
    ∃ t b e', (_GIF_LoadFrame
        (memOfList (hdr2 ++ [0x2C, 0, 0, 0, 0, 1, 0, 1, 0, 0, 2, 2, 0x4C, 0x01, 1, 0, 0] ++ [0x3B]))
        (_GIF_LoadFrameHdr 0x80 ⟨19 + 1, 18 - 1, max (max 37 (19 + 1)) (19 + 1 + 9)⟩ 13
          (rd8 (memOfList (hdr2 ++ [0x2C, 0, 0, 0, 0, 1, 0, 1, 0, 0, 2, 2, 0x4C, 0x01, 1, 0, 0]
            ++ [0x3B])) (19 + 1 + 8)) 9).cur
        (fun _ => 0) (fun _ => 0)).map FrameOut.top = some (some t) ∧
      extLoop
        (memOfList (hdr2 ++ [0x2C, 0, 0, 0, 0, 1, 0, 1, 0, 0, 2, 2, 0x4C, 0x01, 1, 0, 0] ++ [0x3B]))
        0x80 false 0 (0 + 1)
        ⟨⟨19, 18, 37⟩, ⟨1, 1, 0, 0, 0, 0, 0, 1, 1, 1, 1, 0, -1, 1, 0, 0⟩, none,
          fun _ => 0, fun _ => 0, [], [], [], 1⟩ = some (b, e') ∧
      e'.frames = [] ∧ (t ≤ 1 → b = true ∧ e'.w.ifrm = -1) ∧ (1 < t → b = false) :=
  extLoop_minus_one
    (memOfList (hdr2 ++ [0x2C, 0, 0, 0, 0, 1, 0, 1, 0, 0, 2, 2, 0x4C, 0x01, 1, 0, 0] ++ [0x3B]))
    0x80 false 0 0
    ⟨⟨19, 18, 37⟩, ⟨1, 1, 0, 0, 0, 0, 0, 1, 1, 1, 1, 0, -1, 1, 0, 0⟩, none,
      fun _ => 0, fun _ => 0, [], [], [], 1⟩
    (by decide) (by decide) (by decide) (by decide) (by decide) (by decide!)

/-- C18: for a code size `ctsz` in [2,8] the code-width invariant `WidthInv`
(`mask = 2^ccsz - 1`, `ctsz + 1 <= ccsz <= 12`, `ctbl < 4095` implies
`ctbl < mask`) holds when the decode loop is entered after the initial checks
of `_GIF_LoadFrame`, is kept by loading a word and by every processed code,
and so holds whenever the loop over the sub-blocks returns; a CLEAR code
resets `ccsz` to `ctsz + 1`, every other code moves `ctbl` on by one and
increases `ccsz`, by one, exactly when the new `ctbl` equals `mask` and is
below 4095. -/
theorem GIF_LoadFrame_width_invariant (ctsz : Nat) (h2 : 2 ≤ ctsz) (h8 : ctsz ≤ 8) :
    (∀ (m : Mem) (c : Cur) (code0 : Nat → Nat) (out0 : Int → Nat),
      rd8 m c.buff = ctsz → 2 < c.size - 1 → rd8 m (c.buff + 1) ≠ 0 →
      (((1 <<< (ctsz + 1)) - 1) % 65536) &&& rd16 m (c.buff + 2) = 1 <<< ctsz →
      ∃ n c3 s1, _GIF_LoadFrame m c code0 out0 = blockLoop m ctsz n (rd8 m (c.buff + 1)) c3 s1 ∧
        WidthInv ctsz s1) ∧
    (∀ (s : Lzw) (load : Nat) (k : Int), WidthInv ctsz s → WidthInv ctsz (loadWord s load k)) ∧
    (∀ s : Lzw, WidthInv ctsz s →
      (codeStep ctsz s).all (WidthInv ctsz) ∧
      ∀ s', codeStep ctsz s = Flow.next s' →
        if s.curr &&& s.mask = 2 ^ ctsz then s'.ccsz = (ctsz : Int) + 1 ∧ s'.ctbl = 2 ^ ctsz
        else s'.ctbl = s.ctbl + 1 ∧
          s'.ccsz = (if s.ctbl + 1 = s.mask ∧ s.ctbl + 1 < 4095 then s.ccsz + 1 else s.ccsz)) ∧
    (∀ (m : Mem) (n : Nat) (bseq : Int) (c : Cur) (s : Lzw), WidthInv ctsz s →
      optAll (FrameOut.all (WidthInv ctsz)) (blockLoop m ctsz n bseq c s)) := by
  refine ⟨?_, fun s load k hs => hs, fun s hs => codeStep_width ctsz h2 h8 s hs,
    fun m n bseq c s hs => blockLoop_width m ctsz h2 h8 n bseq c s hs⟩
  intro m c code0 out0 hct hsz hb hfirst
  unfold _GIF_LoadFrame
  simp only [hct]
  rw [if_neg (by omega), if_neg hb, if_neg (by omega), if_neg (by rw [hfirst]; simp)]
  exact ⟨_, _, _, rfl, WidthInv.clear ctsz h2 h8 _ rfl rfl rfl⟩

/-- C18 at a concrete stream: the decode loop is entered with the invariant
for the frame data 02 02 8C 5D 00. -/
theorem GIF_LoadFrame_width_invariant_witness :
    ∃ n c3 s1, _GIF_LoadFrame (memOfList [2, 2, 0x8C, 0x5D, 0]) ⟨0, 5, 0⟩ (fun _ => 0) (fun _ => 0)
        = blockLoop (memOfList [2, 2, 0x8C, 0x5D, 0]) 2 n
            (rd8 (memOfList [2, 2, 0x8C, 0x5D, 0]) ((⟨0, 5, 0⟩ : Cur).buff + 1)) c3 s1 ∧
      WidthInv 2 s1 :=
  (GIF_LoadFrame_width_invariant 2 (by decide) (by decide)).1
    (memOfList [2, 2, 0x8C, 0x5D, 0]) ⟨0, 5, 0⟩ (fun _ => 0) (fun _ => 0)
    (by decide) (by decide) (by decide) (by decide)

/-- C19: for a code size `ctsz` in [2,8], the decode loop of `_GIF_LoadFrame`
is entered, after the initial checks, with a well-formed code table
(`TableOK`: literal entries have chain length 0 and their own pixel, every
entry `i` with `2^ctsz + 1 < i <= min(ctbl, 4095)` has a predecessor below `i`
other than CLEAR and END and a chain length one more than its predecessor's),
as part of the loop invariant `TableInv` (which also says that the output
position is not in front of the pixel area); loading a word keeps the
invariant; and one pass through the loop body on a valid code (CLEAR, END, a
literal, or at most the table top after the increment, a literal after a
CLEAR) never stores outside the pixel area below it (each walk ends at a
record of chain length zero before it gets there), keeps the invariant, and
for a data code writes exactly
the chain length of the walked entry plus one pixels (one more when the code
is the table top after the increment, the KwKwK case) from the output
position on, none below it, and moves the output position on by that
number. -/
theorem GIF_LoadFrame_table_invariant (ctsz : Nat) (h2 : 2 ≤ ctsz) (h8 : ctsz ≤ 8) :
    (∀ (m : Mem) (c : Cur) (code0 : Nat → Nat) (out0 : Int → Nat),
      rd8 m c.buff = ctsz → 2 < c.size - 1 → rd8 m (c.buff + 1) ≠ 0 →
      (((1 <<< (ctsz + 1)) - 1) % 65536) &&& rd16 m (c.buff + 2) = 1 <<< ctsz →
      ∃ n c3 s1, _GIF_LoadFrame m c code0 out0 = blockLoop m ctsz n (rd8 m (c.buff + 1)) c3 s1 ∧
        TableOK ctsz s1 ∧ TableInv ctsz s1) ∧
    (∀ (s : Lzw) (load : Nat) (k : Int), TableInv ctsz s → TableInv ctsz (loadWord s load k)) ∧
    (∀ s : Lzw, TableInv ctsz s → ValidCode ctsz s (s.curr &&& s.mask) →
      (codeStep ctsz s).all (fun s' => TableOK ctsz s' ∧ TableInv ctsz s') ∧
      codeStep ctsz s ≠ Flow.fault ∧
      (s.curr &&& s.mask ≠ 2 ^ ctsz → s.curr &&& s.mask ≠ 2 ^ ctsz + 1 →
        ∃ s' str, codeStep ctsz s = Flow.next s' ∧ s'.out = writeAt s.out s.bptr str ∧
          str.length = recLen (s.code (if s.curr &&& s.mask = s.ctbl + 1 then s.prev
            else s.curr &&& s.mask)) + 1 + (if s.curr &&& s.mask = s.ctbl + 1 then 1 else 0) ∧
          s'.bptr = s.bptr + (str.length : Nat) ∧ ∀ j, j < s.bptr → s'.out j = s.out j)) := by
  refine ⟨?_, fun s load k hs => hs, fun s hs hv => ?_⟩
  · intro m c code0 out0 hct hsz hb hfirst
    unfold _GIF_LoadFrame
    simp only [hct]
    rw [if_neg (by omega), if_neg hb, if_neg (by omega), if_neg (by rw [hfirst]; simp)]
    have hi := TableInv.init ctsz h2 h8
      { code := fun i => if i < 1 <<< ctsz then i <<< 24 else code0 i, out := out0, bptr := 0,
        ctbl := 1 <<< ctsz, curr := ((1 <<< (ctsz + 1)) - 1) % 65536 &&& rd16 m (c.buff + 1 + 1),
        prev := 0, mask := ((1 <<< (ctsz + 1)) - 1) % 65536, load := 0,
        ccsz := (ctsz : Int) + 1, bszc := -((ctsz : Int) + 1), top := 0 }
      (fun i hi => by simp only [hi, if_true]) rfl rfl rfl (le_refl _)
    exact ⟨_, _, _, rfl, hi.1, hi⟩
  · obtain ⟨a1, a2, a3⟩ := codeStep_table h2 h8 hs hv
    refine ⟨?_, a2, a3⟩
    cases hcs : codeStep ctsz s with
    | next s' => rw [hcs] at a1; exact ⟨a1.1, a1⟩
    | ed s' => rw [hcs] at a1; exact ⟨a1.1, a1⟩
    | fault => trivial

/-- C19 at a concrete stream: the decode loop is entered with a well-formed
table for the frame data 02 02 4C 01 00. -/
theorem GIF_LoadFrame_table_invariant_witness :
    ∃ n c3 s1, _GIF_LoadFrame (memOfList [2, 2, 0x4C, 0x01, 0]) ⟨0, 5, 0⟩ (fun _ => 0) (fun _ => 0)
        = blockLoop (memOfList [2, 2, 0x4C, 0x01, 0]) 2 n
            (rd8 (memOfList [2, 2, 0x4C, 0x01, 0]) ((⟨0, 5, 0⟩ : Cur).buff + 1)) c3 s1 ∧
      TableOK 2 s1 ∧ TableInv 2 s1 :=
  (GIF_LoadFrame_table_invariant 2 (by decide) (by decide)).1
    (memOfList [2, 2, 0x4C, 0x01, 0]) ⟨0, 5, 0⟩ (fun _ => 0) (fun _ => 0)
    (by decide) (by decide) (by decide) (by decide)

end GifLoad
